import Mathlib

/-!
# neo2go: binary encodings, Merkle tree, block checks, consensus payloads, stack items,
Fixed8, multi-signature scripts, block queue, interop handlers, notification events,
RPC client, wallet, addresses, hash nodes, parameter contexts

A shallow embedding of parts of `pkg/vm/serialization.go`,
`pkg/core/block/block.go`, `pkg/crypto/hash/merkle_tree.go`,
`pkg/consensus/payload.go`, `pkg/util/fixed8.go`,
`pkg/smartcontract/contract.go`, `pkg/network/blockqueue.go`,
`pkg/core/interop_neo.go`, `pkg/core/state/notification_event.go`,
`pkg/rpc/client/rpc.go`, `pkg/wallet/wallet.go`,
`pkg/core/transaction/output.go`, `pkg/encoding/address/address.go`,
`pkg/core/mpt/hash.go`, `pkg/smartcontract/context/context.go` and
`pkg/smartcontract/context/item.go`.

Conventions.  A Go `byte` is a `Nat` (a well-formed byte is below 256), a
`[]byte` is a `List Nat`, fixed-width unsigned integers are `Nat` with the
width made explicit where the code truncates.  A Go `panic` is the value
`none` of an `Option`.  The writer and reader of package `io` carry their
sticky error field explicitly.
-/

namespace Neo

/-! ## Errors -/

/-- The error values the embedded code assigns or returns. -/
inductive Err
  /-- Value `io.EOF`: nothing left to read. -/
  | eof
  /-- Value `io.ErrUnexpectedEOF`: the input ended inside a fixed-size read. -/
  | unexpectedEOF
  /-- Error "recursive structures cannot be serialized" of `serializeItemTo`. -/
  | recursive
  /-- Error "interop item cannot be serialized" of `serializeItemTo`. -/
  | interopItem
  /-- Error "unknown type" of `DecodeBinaryStackItem`. -/
  | unknownType
  /-- Error "invalid format" of `Payload.DecodeBinary`. -/
  | invalidFormat
  /-- Error "invalid type: 0x.." of `message.DecodeBinary`. -/
  | invalidType (t : Nat)
  /-- Error "length of the hashes cannot be zero". -/
  | noHashes
  /-- Error "no transactions" of `Block.Verify`. -/
  | noTransactions
  /-- Error "the first transaction is ..." of `Block.Verify`. -/
  | firstNotMiner (t : Nat)
  /-- Error "miner transaction ... is not the first one" of `Block.Verify`. -/
  | minerNotFirst (h : List Nat)
  /-- Error "MerkleRoot mismatch" of `Block.Verify`. -/
  | merkleRootMismatch
  /-- Value `errInvalidString` of package `util`: "fixed8 must satisfy following
  regex ...". -/
  | errInvalidString
  /-- Error "param m cannot be smaller or equal to 1 got ..." of
  `CreateMultiSigRedeemScript`. -/
  | paramTooSmall (m : Int)
  /-- Error "length of the signatures (...) is higher then the number of public
  keys" of `CreateMultiSigRedeemScript`. -/
  | moreSignaturesThanKeys (m : Int)
  /-- Error "public key count ... exceeds maximum of length 1024" of
  `CreateMultiSigRedeemScript`. -/
  | keyCountExceeds (n : Nat)
  /-- Value `queue.ErrDisposed` of the priority queue. -/
  | errDisposed
  /-- Error "value is not a transaction" of the interop handlers. -/
  | notTransaction
  /-- Error "type mismatch: ... is not a Transaction" of `txGetReferences`. -/
  | typeMismatch
  /-- Error "too many attributes" of `txGetAttributes`. -/
  | tooManyAttributes
  /-- Error "too many inputs" of `txGetInputs`. -/
  | tooManyInputs
  /-- Error "too many outputs" of `txGetOutputs` and of `txGetWitnesses`. -/
  | tooManyOutputs
  /-- Error "too many references" of `txGetReferences`. -/
  | tooManyReferences
  /-- Error "too many validators" of `bcGetValidators`. -/
  | tooManyValidators
  /-- Error "too many votes" of `accountGetVotes`. -/
  | tooManyVotes
  /-- Error "no unspent coin state found" of `txGetUnspentCoins`. -/
  | noUnspentCoinState
  /-- Value `storage.ErrKeyNotFound`. -/
  | errKeyNotFound
  /-- Error "... is not an account state" of `accountGetVotes`. -/
  | notAccountState
  /-- Error "... is not an asset state" of `assetRenew`. -/
  | notAssetState
  /-- Error of `assetRenew` when the trigger is not `Application`. -/
  | assetNotApplication
  /-- Error of `assetRenew` for an asset that the DAO does not hold. -/
  | nonExistentAsset
  /-- Error "failed to Store asset" of `assetRenew`, around the error of the DAO. -/
  | failedToStoreAsset
  /-- Error of `createContractStateFromVM` when the trigger is not `Application`. -/
  | contractNotApplication
  /-- Error "the script is too big" of `createContractStateFromVM`. -/
  | scriptTooBig
  /-- Error "too many parameters for a script" of `createContractStateFromVM`. -/
  | tooManyParameters
  /-- Error "too big name" of `createContractStateFromVM`. -/
  | tooBigName
  /-- Error "too big version" of `createContractStateFromVM`. -/
  | tooBigVersion
  /-- Error "too big author" of `createContractStateFromVM`. -/
  | tooBigAuthor
  /-- Error "too big email" of `createContractStateFromVM`. -/
  | tooBigEmail
  /-- Error "too big description" of `createContractStateFromVM`. -/
  | tooBigDescription
  /-- Error "bad parameters" of the RPC client. -/
  | badParameters
  /-- Error "account was not found" of `Wallet.RemoveAccount`. -/
  | accountNotFound
  /-- Error of `assetCreate` when the trigger is not `Application`. -/
  | createNotApplication
  /-- Error "wrong asset type: ..." of `assetCreate`. -/
  | wrongAssetType (t : Nat)
  /-- Error "asset amount can't be zero" of `assetCreate`. -/
  | amountZero
  /-- Error "asset amount can't be negative ..." of `assetCreate`. -/
  | amountNegative
  /-- Error "invoice assets can only have -Satoshi amount" of `assetCreate`. -/
  | invoiceAmount
  /-- Error "can't have asset precision of more than 8" of `assetCreate`. -/
  | precisionTooBig
  /-- Error "share assets can only have zero precision" of `assetCreate`. -/
  | sharePrecision
  /-- Error "given asset amount has fractional component" of `assetCreate`. -/
  | amountFractional
  /-- Error "failed to get owner key" of `assetCreate`, around the error of the
  decoder. -/
  | failedOwnerKey
  /-- Error "can't have infinity as an owner key" of `assetCreate`. -/
  | infinityOwner
  /-- Error "witness check didn't succeed" of `assetCreate`. -/
  | witnessCheckFailed
  /-- Error "failed to get admin" of `assetCreate`. -/
  | failedAdmin
  /-- Error "failed to get issuer" of `assetCreate`. -/
  | failedIssuer
  /-- Error of `util.Uint160DecodeBytesBE` for a slice that is not 20 bytes long. -/
  | uint160Length (n : Nat)
  /-- Error "wrong address prefix" of `StringToUint160`. -/
  | wrongAddressPrefix
  /-- Error "invalid hash node size: ..." of `HashNode.DecodeBinary`. -/
  | invalidHashNodeSize (sz : Nat)
  /-- Error "signature is already added" of `ParameterContext.AddSignature`. -/
  | signatureAlreadyAdded
  /-- Error "public key is not present in script" of
  `ParameterContext.AddSignature`. -/
  | keyNotInScript
  /-- Error "multiple signature parameters in non-multisig contract" of
  `ParameterContext.AddSignature`. -/
  | multipleSignatureParameters
  /-- Error "missing signature parameter" of `ParameterContext.AddSignature`. -/
  | missingSignatureParameter
  /-- Any error of a function that is a parameter here, told apart by a number. -/
  | other (code : Nat)
  /-- The error `*json.UnmarshalTypeError` of `json.Unmarshal`: the JSON value
  does not fit the Go value. -/
  | jsonUnmarshalType
  deriving Repr

/-- A code for an error value: the number of its constructor and its field. -/
def Err.toCode : Err → Nat × Nat × Int × List Nat
  | .eof => (0, 0, 0, [])
  | .unexpectedEOF => (1, 0, 0, [])
  | .recursive => (2, 0, 0, [])
  | .interopItem => (3, 0, 0, [])
  | .unknownType => (4, 0, 0, [])
  | .invalidFormat => (5, 0, 0, [])
  | .invalidType n => (6, n, 0, [])
  | .noHashes => (7, 0, 0, [])
  | .noTransactions => (8, 0, 0, [])
  | .firstNotMiner n => (9, n, 0, [])
  | .minerNotFirst h => (10, 0, 0, h)
  | .merkleRootMismatch => (11, 0, 0, [])
  | .errInvalidString => (12, 0, 0, [])
  | .paramTooSmall m => (13, 0, m, [])
  | .moreSignaturesThanKeys m => (14, 0, m, [])
  | .keyCountExceeds n => (15, n, 0, [])
  | .errDisposed => (16, 0, 0, [])
  | .notTransaction => (17, 0, 0, [])
  | .typeMismatch => (18, 0, 0, [])
  | .tooManyAttributes => (19, 0, 0, [])
  | .tooManyInputs => (20, 0, 0, [])
  | .tooManyOutputs => (21, 0, 0, [])
  | .tooManyReferences => (22, 0, 0, [])
  | .tooManyValidators => (23, 0, 0, [])
  | .tooManyVotes => (24, 0, 0, [])
  | .noUnspentCoinState => (25, 0, 0, [])
  | .errKeyNotFound => (26, 0, 0, [])
  | .notAccountState => (27, 0, 0, [])
  | .notAssetState => (28, 0, 0, [])
  | .assetNotApplication => (29, 0, 0, [])
  | .nonExistentAsset => (30, 0, 0, [])
  | .failedToStoreAsset => (31, 0, 0, [])
  | .contractNotApplication => (32, 0, 0, [])
  | .scriptTooBig => (33, 0, 0, [])
  | .tooManyParameters => (34, 0, 0, [])
  | .tooBigName => (35, 0, 0, [])
  | .tooBigVersion => (36, 0, 0, [])
  | .tooBigAuthor => (37, 0, 0, [])
  | .tooBigEmail => (38, 0, 0, [])
  | .tooBigDescription => (39, 0, 0, [])
  | .badParameters => (40, 0, 0, [])
  | .accountNotFound => (41, 0, 0, [])
  | .createNotApplication => (42, 0, 0, [])
  | .wrongAssetType n => (43, n, 0, [])
  | .amountZero => (44, 0, 0, [])
  | .amountNegative => (45, 0, 0, [])
  | .invoiceAmount => (46, 0, 0, [])
  | .precisionTooBig => (47, 0, 0, [])
  | .sharePrecision => (48, 0, 0, [])
  | .amountFractional => (49, 0, 0, [])
  | .failedOwnerKey => (50, 0, 0, [])
  | .infinityOwner => (51, 0, 0, [])
  | .witnessCheckFailed => (52, 0, 0, [])
  | .failedAdmin => (53, 0, 0, [])
  | .failedIssuer => (54, 0, 0, [])
  | .uint160Length n => (55, n, 0, [])
  | .wrongAddressPrefix => (56, 0, 0, [])
  | .invalidHashNodeSize n => (57, n, 0, [])
  | .signatureAlreadyAdded => (58, 0, 0, [])
  | .keyNotInScript => (59, 0, 0, [])
  | .multipleSignatureParameters => (60, 0, 0, [])
  | .missingSignatureParameter => (61, 0, 0, [])
  | .other n => (62, n, 0, [])
  | .jsonUnmarshalType => (63, 0, 0, [])

/-- The error values in the order of their numbers, each as a function of the
fields of a code. -/
def Err.table : List (Nat → Int → List Nat → Err) :=
  [
    (fun _ _ _ => .eof), (fun _ _ _ => .unexpectedEOF), (fun _ _ _ => .recursive),
    (fun _ _ _ => .interopItem), (fun _ _ _ => .unknownType), (fun _ _ _ => .invalidFormat),
    (fun n _ _ => .invalidType n), (fun _ _ _ => .noHashes), (fun _ _ _ => .noTransactions),
    (fun n _ _ => .firstNotMiner n), (fun _ _ h => .minerNotFirst h),
    (fun _ _ _ => .merkleRootMismatch), (fun _ _ _ => .errInvalidString),
    (fun _ m _ => .paramTooSmall m), (fun _ m _ => .moreSignaturesThanKeys m),
    (fun n _ _ => .keyCountExceeds n), (fun _ _ _ => .errDisposed),
    (fun _ _ _ => .notTransaction), (fun _ _ _ => .typeMismatch),
    (fun _ _ _ => .tooManyAttributes), (fun _ _ _ => .tooManyInputs),
    (fun _ _ _ => .tooManyOutputs), (fun _ _ _ => .tooManyReferences),
    (fun _ _ _ => .tooManyValidators), (fun _ _ _ => .tooManyVotes),
    (fun _ _ _ => .noUnspentCoinState), (fun _ _ _ => .errKeyNotFound),
    (fun _ _ _ => .notAccountState), (fun _ _ _ => .notAssetState),
    (fun _ _ _ => .assetNotApplication), (fun _ _ _ => .nonExistentAsset),
    (fun _ _ _ => .failedToStoreAsset), (fun _ _ _ => .contractNotApplication),
    (fun _ _ _ => .scriptTooBig), (fun _ _ _ => .tooManyParameters), (fun _ _ _ => .tooBigName),
    (fun _ _ _ => .tooBigVersion), (fun _ _ _ => .tooBigAuthor), (fun _ _ _ => .tooBigEmail),
    (fun _ _ _ => .tooBigDescription), (fun _ _ _ => .badParameters),
    (fun _ _ _ => .accountNotFound), (fun _ _ _ => .createNotApplication),
    (fun n _ _ => .wrongAssetType n), (fun _ _ _ => .amountZero), (fun _ _ _ => .amountNegative),
    (fun _ _ _ => .invoiceAmount), (fun _ _ _ => .precisionTooBig),
    (fun _ _ _ => .sharePrecision), (fun _ _ _ => .amountFractional),
    (fun _ _ _ => .failedOwnerKey), (fun _ _ _ => .infinityOwner),
    (fun _ _ _ => .witnessCheckFailed), (fun _ _ _ => .failedAdmin), (fun _ _ _ => .failedIssuer),
    (fun n _ _ => .uint160Length n), (fun _ _ _ => .wrongAddressPrefix),
    (fun n _ _ => .invalidHashNodeSize n), (fun _ _ _ => .signatureAlreadyAdded),
    (fun _ _ _ => .keyNotInScript), (fun _ _ _ => .multipleSignatureParameters),
    (fun _ _ _ => .missingSignatureParameter), (fun n _ _ => .other n)]

/-- The error values whose numbers follow those of `Err.table`. -/
def Err.tableTail : List (Nat → Int → List Nat → Err) :=
  [(fun _ _ _ => .jsonUnmarshalType)]

/-- The error value of a code. -/
def Err.ofCode (c : Nat × Nat × Int × List Nat) : Option Err :=
  ((Err.table ++ Err.tableTail).get? c.1).map fun f => f c.2.1 c.2.2.1 c.2.2.2

/-- Equality of error values is decided on their codes. -/
instance : DecidableEq Err := fun a b =>
  have hd : ∀ x : Err, Err.ofCode x.toCode = some x := fun x => by cases x <;> rfl
  decidable_of_iff (a.toCode = b.toCode)
    ⟨fun h => Option.some.inj (by rw [← hd a, ← hd b, h]), fun h => by rw [h]⟩

/-! ## Package io: writer -/

/-- Little-endian bytes of a 16-bit value. -/
def u16le (x : Nat) : List Nat := [x % 256, x / 256 % 256]

/-- Little-endian bytes of a 32-bit value. -/
def u32le (x : Nat) : List Nat :=
  [x % 256, x / 256 % 256, x / 65536 % 256, x / 16777216 % 256]

/-- Little-endian bytes of a 64-bit value. -/
def u64le (x : Nat) : List Nat :=
  u32le (x % 4294967296) ++ u32le (x / 4294967296 % 4294967296)

/-- Value of a list of bytes read as a little-endian number. -/
def leValue : List Nat → Nat
  | [] => 0
  | b :: bs => b + 256 * leValue bs

/-- Modelled from the spec: package `io` is missing from src.  `BinWriter` is
the buffer written so far and the sticky error `Err`; once the error is set
every write is a no-op. -/
structure BinWriter where
  buf : List Nat
  err : Option Err
  deriving DecidableEq, Repr

/-- Modelled from the spec: `io.NewBufBinWriter`, an empty buffer with no error. -/
def NewBufBinWriter : BinWriter := ⟨[], none⟩

/-- Modelled from the spec: `BinWriter.WriteBytes`, appends the bytes unless
the error is already set. -/
def BinWriter.WriteBytes (w : BinWriter) (b : List Nat) : BinWriter :=
  match w.err with
  | some _ => w
  | none => { w with buf := w.buf ++ b }

/-- Modelled from the spec: `BinWriter.WriteB`, one byte. -/
def BinWriter.WriteB (w : BinWriter) (u8 : Nat) : BinWriter := w.WriteBytes [u8]

/-- Modelled from the spec: `BinWriter.WriteBool`, the byte 1 or 0. -/
def BinWriter.WriteBool (w : BinWriter) (b : Bool) : BinWriter :=
  w.WriteB (if b then 1 else 0)

/-- Modelled from the spec: `BinWriter.WriteU16LE` ("all integers little-endian"). -/
def BinWriter.WriteU16LE (w : BinWriter) (x : Nat) : BinWriter := w.WriteBytes (u16le x)

/-- Modelled from the spec: `BinWriter.WriteU32LE`. -/
def BinWriter.WriteU32LE (w : BinWriter) (x : Nat) : BinWriter := w.WriteBytes (u32le x)

/-- Modelled from the spec: `BinWriter.WriteU64LE`. -/
def BinWriter.WriteU64LE (w : BinWriter) (x : Nat) : BinWriter := w.WriteBytes (u64le x)

/-- Modelled from the spec: the `VarUint` form of a `uint64`: "<0xFD → one
byte; 0xFD → two bytes; 0xFE → four bytes; 0xFF → eight bytes", the shortest
form that holds the value. -/
def varUintBytes (val : Nat) : List Nat :=
  if val < 0xfd then [val]
  else if val ≤ 0xffff then 0xfd :: u16le val
  else if val ≤ 0xffffffff then 0xfe :: u32le val
  else 0xff :: u64le val

/-- Modelled from the spec: `BinWriter.WriteVarUint`. -/
def BinWriter.WriteVarUint (w : BinWriter) (val : Nat) : BinWriter :=
  w.WriteBytes (varUintBytes val)

/-- Modelled from the spec: `BinWriter.WriteVarBytes`, "`VarBytes` = `VarUint`
length + bytes". -/
def BinWriter.WriteVarBytes (w : BinWriter) (b : List Nat) : BinWriter :=
  (w.WriteVarUint b.length).WriteBytes b

/-- Modelled from the spec: `BufBinWriter.Bytes`, the bytes written, nothing
when the writer holds an error. -/
def BinWriter.Bytes (w : BinWriter) : List Nat :=
  match w.err with
  | some _ => []
  | none => w.buf

/-! ## Package io: reader -/

/-- Modelled from the spec: `io.BinReader` over a byte slice: the unread bytes
and the sticky error; once the error is set every read is a no-op that
returns the zero value. -/
structure BinReader where
  data : List Nat
  err : Option Err
  deriving DecidableEq, Repr

/-- Modelled from the spec: `io.NewBinReaderFromBuf`. -/
def NewBinReaderFromBuf (b : List Nat) : BinReader := ⟨b, none⟩

/-- Modelled from the spec: `BinReader.ReadBytes(buf)`, which fills `buf`
(`io.ReadFull`): with enough input it returns the next `len(buf)` bytes; with
too little it copies what is left over the front of `buf` and sets the error
(`EOF` when nothing was left, `ErrUnexpectedEOF` otherwise). -/
def BinReader.ReadBytes (r : BinReader) (buf : List Nat) : List Nat × BinReader :=
  match r.err with
  | some _ => (buf, r)
  | none =>
    if buf.length ≤ r.data.length then
      (r.data.take buf.length, { r with data := r.data.drop buf.length })
    else
      (r.data ++ buf.drop r.data.length,
        { data := [], err := some (if r.data.length = 0 then Err.eof else Err.unexpectedEOF) })

/-- Modelled from the spec: `BinReader.ReadB`, one byte, 0 on error. -/
def BinReader.ReadB (r : BinReader) : Nat × BinReader :=
  let (b, r1) := r.ReadBytes [0]
  match r1.err with
  | some _ => (0, r1)
  | none => (b.headD 0, r1)

/-- Modelled from the spec: `BinReader.ReadBool`. -/
def BinReader.ReadBool (r : BinReader) : Bool × BinReader :=
  let (b, r1) := r.ReadB
  (b != 0, r1)

/-- Reads `n` bytes as a little-endian number, 0 on error. -/
def BinReader.readLE (r : BinReader) (n : Nat) : Nat × BinReader :=
  let (b, r1) := r.ReadBytes (List.replicate n 0)
  match r1.err with
  | some _ => (0, r1)
  | none => (leValue b, r1)

/-- Modelled from the spec: `BinReader.ReadU16LE`. -/
def BinReader.ReadU16LE (r : BinReader) : Nat × BinReader := r.readLE 2

/-- Modelled from the spec: `BinReader.ReadU32LE`. -/
def BinReader.ReadU32LE (r : BinReader) : Nat × BinReader := r.readLE 4

/-- Modelled from the spec: `BinReader.ReadU64LE`. -/
def BinReader.ReadU64LE (r : BinReader) : Nat × BinReader := r.readLE 8

/-- Modelled from the spec: `BinReader.ReadVarUint`: the first byte gives the
width, "0xFD → two bytes; 0xFE → four bytes; 0xFF → eight bytes", any other
byte is the value. -/
def BinReader.ReadVarUint (r : BinReader) : Nat × BinReader :=
  let (b, r1) := r.ReadB
  if b = 0xfd then r1.ReadU16LE
  else if b = 0xfe then r1.ReadU32LE
  else if b = 0xff then r1.ReadU64LE
  else (b, r1)

/-- Modelled from the spec: `BinReader.ReadVarBytes`: a `VarUint` length, then
that many bytes read into a fresh zeroed slice. -/
def BinReader.ReadVarBytes (r : BinReader) : List Nat × BinReader :=
  let (n, r1) := r.ReadVarUint
  r1.ReadBytes (List.replicate n 0)

/-! ## SHA-256 (Go standard library `crypto/sha256`, FIPS 180-4) -/

/-- Round constants of SHA-256. -/
def sha256K : List Nat := [
  0x428a2f98, 0x71374491, 0xb5c0fbcf, 0xe9b5dba5, 0x3956c25b, 0x59f111f1, 0x923f82a4, 0xab1c5ed5,
  0xd807aa98, 0x12835b01, 0x243185be, 0x550c7dc3, 0x72be5d74, 0x80deb1fe, 0x9bdc06a7, 0xc19bf174,
  0xe49b69c1, 0xefbe4786, 0x0fc19dc6, 0x240ca1cc, 0x2de92c6f, 0x4a7484aa, 0x5cb0a9dc, 0x76f988da,
  0x983e5152, 0xa831c66d, 0xb00327c8, 0xbf597fc7, 0xc6e00bf3, 0xd5a79147, 0x06ca6351, 0x14292967,
  0x27b70a85, 0x2e1b2138, 0x4d2c6dfc, 0x53380d13, 0x650a7354, 0x766a0abb, 0x81c2c92e, 0x92722c85,
  0xa2bfe8a1, 0xa81a664b, 0xc24b8b70, 0xc76c51a3, 0xd192e819, 0xd6990624, 0xf40e3585, 0x106aa070,
  0x19a4c116, 0x1e376c08, 0x2748774c, 0x34b0bcb5, 0x391c0cb3, 0x4ed8aa4a, 0x5b9cca4f, 0x682e6ff3,
  0x748f82ee, 0x78a5636f, 0x84c87814, 0x8cc70208, 0x90befffa, 0xa4506ceb, 0xbef9a3f7, 0xc67178f2]

/-- Rotation to the right of a 32-bit word. -/
def rotr32 (x n : Nat) : Nat := ((x >>> n) ||| (x <<< (32 - n))) % 2 ^ 32

/-- Padding of SHA-256: the byte 0x80, zero bytes up to 56 modulo 64, and the
bit length as a 64-bit big-endian number. -/
def sha256Pad (msg : List Nat) : List Nat :=
  let l := msg.length
  msg ++ [0x80] ++ List.replicate ((119 - l % 64) % 64) 0 ++
    (List.range 8).map (fun i => (l * 8) >>> (8 * (7 - i)) % 256)

/-- Big-endian value of a list of bytes. -/
def beValue (b : List Nat) : Nat := b.foldl (fun acc x => acc * 256 + x) 0

/-- Splits a list into `n` consecutive pieces of `k` elements. -/
def chunks : Nat → Nat → List α → List (List α)
  | 0, _, _ => []
  | n + 1, k, l => l.take k :: chunks n k (l.drop k)

/-- Extends the message schedule by `n` words; the list is kept newest first. -/
def sha256Extend : Nat → List Nat → List Nat
  | 0, w => w
  | n + 1, w =>
    let w2 := w.getD 1 0
    let w7 := w.getD 6 0
    let w15 := w.getD 14 0
    let w16 := w.getD 15 0
    let s0 := (rotr32 w15 7) ^^^ (rotr32 w15 18) ^^^ (w15 >>> 3)
    let s1 := (rotr32 w2 17) ^^^ (rotr32 w2 19) ^^^ (w2 >>> 10)
    sha256Extend n (((w16 + s0 + w7 + s1) % 2 ^ 32) :: w)

/-- The 64 words of the message schedule of one 64-byte block. -/
def sha256Schedule (blk : List Nat) : List Nat :=
  (sha256Extend 48 (((chunks 16 4 blk).map beValue).reverse)).reverse

/-- The eight working variables of SHA-256. -/
structure Sha256State where
  a : Nat
  b : Nat
  c : Nat
  d : Nat
  e : Nat
  f : Nat
  g : Nat
  h : Nat
  deriving DecidableEq, Repr

/-- One round of the compression function, with the round constant and the
schedule word. -/
def sha256Round (s : Sha256State) (kw : Nat × Nat) : Sha256State :=
  let S1 := (rotr32 s.e 6) ^^^ (rotr32 s.e 11) ^^^ (rotr32 s.e 25)
  let ch := (s.e &&& s.f) ^^^ ((s.e ^^^ 0xffffffff) &&& s.g)
  let t1 := (s.h + S1 + ch + kw.1 + kw.2) % 2 ^ 32
  let S0 := (rotr32 s.a 2) ^^^ (rotr32 s.a 13) ^^^ (rotr32 s.a 22)
  let maj := (s.a &&& s.b) ^^^ (s.a &&& s.c) ^^^ (s.b &&& s.c)
  let t2 := (S0 + maj) % 2 ^ 32
  ⟨(t1 + t2) % 2 ^ 32, s.a, s.b, s.c, (s.d + t1) % 2 ^ 32, s.e, s.f, s.g⟩

/-- Compression of one 64-byte block into the running state. -/
def sha256Compress (s : Sha256State) (blk : List Nat) : Sha256State :=
  let r := (sha256K.zip (sha256Schedule blk)).foldl sha256Round s
  ⟨(s.a + r.a) % 2 ^ 32, (s.b + r.b) % 2 ^ 32, (s.c + r.c) % 2 ^ 32, (s.d + r.d) % 2 ^ 32,
   (s.e + r.e) % 2 ^ 32, (s.f + r.f) % 2 ^ 32, (s.g + r.g) % 2 ^ 32, (s.h + r.h) % 2 ^ 32⟩

/-- Big-endian bytes of a 32-bit word. -/
def be32 (x : Nat) : List Nat := [x >>> 24 % 256, x >>> 16 % 256, x >>> 8 % 256, x % 256]

/-- The function `sha256.Sum256`: the 32-byte SHA-256 digest of the input. -/
def Sum256 (msg : List Nat) : List Nat :=
  let p := sha256Pad msg
  let s := (chunks (p.length / 64) 64 p).foldl sha256Compress
    ⟨0x6a09e667, 0xbb67ae85, 0x3c6ef372, 0xa54ff53a, 0x510e527f, 0x9b05688c, 0x1f83d9ab, 0x5be0cd19⟩
  be32 s.a ++ be32 s.b ++ be32 s.c ++ be32 s.d ++ be32 s.e ++ be32 s.f ++ be32 s.g ++ be32 s.h

/-! ## Package util and package hash -/

/-- Modelled from the spec: `util.Uint256` is missing from src; "`U256` (32
bytes, tx/block hash)", held as its array of bytes. -/
abbrev Uint256 := List Nat

/-- Modelled from the spec: `util.Uint160` is missing from src; "`U160` (20
bytes, script hash)". -/
abbrev Uint160 := List Nat

/-- The zero value of `util.Uint256`. -/
def Uint256.zero : Uint256 := List.replicate 32 0

/-- Modelled from the spec: `Uint256.BytesBE`, the bytes of the array in order
("hashes display big-endian"). -/
def Uint256.BytesBE (u : Uint256) : List Nat := u

/-- Modelled from the spec: `Uint256.Equals`, equality of the arrays. -/
def Uint256.Equals (u v : Uint256) : Bool := decide (u = v)

/-- Modelled from the spec: `hash.DoubleSha256`, "double-SHA-256": SHA-256 of
the SHA-256 digest. -/
def DoubleSha256 (data : List Nat) : Uint256 := Sum256 (Sum256 data)

/-! ## pkg/crypto/hash/merkle_tree.go -/

/-- The struct `MerkleTreeNode`: a hash and, for an inner node, the two
children.  The `parent` back pointer, which nothing reads, is left out. -/
inductive MerkleTreeNode
  | leaf (hash : Uint256)
  | node (hash : Uint256) (leftChild rightChild : MerkleTreeNode)
  deriving DecidableEq, Repr

/-- The field `hash` of a node. -/
def MerkleTreeNode.hash : MerkleTreeNode → Uint256
  | .leaf h => h
  | .node h _ _ => h

/-- The body of the loop of `buildMerkleTree` for index `i`: the parent of
`leaves[i*2]` and `leaves[i*2+1]`, or of `leaves[i*2]` taken twice when it is
the last leaf. -/
def merkleParent (leaves : List MerkleTreeNode) (i : Nat) : MerkleTreeNode :=
  let leftChild := leaves.getD (i * 2) (.leaf Uint256.zero)
  let rightChild :=
    if i * 2 + 1 = leaves.length then leftChild
    else leaves.getD (i * 2 + 1) (.leaf Uint256.zero)
  let b1 := leftChild.hash.BytesBE
  let b2 := rightChild.hash.BytesBE
  .node (DoubleSha256 (b1 ++ b2)) leftChild rightChild

/-- The slice `parents` that one call of `buildMerkleTree` builds. -/
def merkleParents (leaves : List MerkleTreeNode) : List MerkleTreeNode :=
  (List.range ((leaves.length + 1) / 2)).map (merkleParent leaves)

/-- The function `buildMerkleTree`; `none` is its panic on an empty slice. -/
def buildMerkleTree (leaves : List MerkleTreeNode) : Option MerkleTreeNode :=
  if leaves.length = 0 then none
  else if leaves.length = 1 then leaves.head?
  else buildMerkleTree (merkleParents leaves)
termination_by leaves.length
decreasing_by
  simp only [merkleParents, List.length_map, List.length_range]
  omega

/-- The struct `MerkleTree`. -/
structure MerkleTree where
  root : MerkleTreeNode
  depth : Nat
  deriving DecidableEq, Repr

/-- Outcome of a call that can return a value, return an error, or panic. -/
inductive Result (α : Type)
  | ok (v : α)
  | error (e : Err)
  | panic
  deriving DecidableEq, Repr

/-- The function `NewMerkleTree`. -/
def NewMerkleTree (hashes : List Uint256) : Result MerkleTree :=
  if hashes.length = 0 then .error .noHashes
  else
    let nodes := hashes.map MerkleTreeNode.leaf
    match buildMerkleTree nodes with
    | none => .panic
    | some root => .ok { root := root, depth := 1 }

/-- The method `MerkleTree.Root`. -/
def MerkleTree.Root (t : MerkleTree) : Uint256 := t.root.hash

/-! ## pkg/core/transaction and pkg/core/block -/

/-- The struct `transaction.Witness`. -/
structure Witness where
  InvocationScript : List Nat
  VerificationScript : List Nat
  deriving DecidableEq, Repr

/-- The method `Witness.EncodeBinary`. -/
def Witness.EncodeBinary (w : Witness) (bw : BinWriter) : BinWriter :=
  (bw.WriteVarBytes w.InvocationScript).WriteVarBytes w.VerificationScript

/-- The method `Witness.DecodeBinary`. -/
def Witness.DecodeBinary (br : BinReader) : Witness × BinReader :=
  let inv := br.ReadVarBytes
  let ver := inv.2.ReadVarBytes
  ({ InvocationScript := inv.1, VerificationScript := ver.1 }, ver.2)

/-- Modelled from the spec: `transaction.MinerType` is missing from src; the
tag of the transaction type `Miner`. -/
def MinerType : Nat := 0x00

/-- Modelled from the spec: `transaction.Transaction` is missing from src.  The
model keeps the type tag (field `Type`), the hash that `Hash()` returns
("double-SHA-256 over the unsigned part") and the flag `Trimmed`. -/
structure Transaction where
  txType : Nat
  hash : Uint256
  Trimmed : Bool
  deriving DecidableEq, Repr

/-- Modelled from the spec: `Transaction.Hash`. -/
def Transaction.Hash (t : Transaction) : Uint256 := t.hash

/-- Modelled from the spec: `transaction.NewTrimmedTX`, a transaction with only
its hash, and `Trimmed` set ("transactions replaced by their hashes"). -/
def NewTrimmedTX (hash : Uint256) : Transaction :=
  { txType := 0, hash := hash, Trimmed := true }

/-- Modelled from the spec: `block.Base` is missing from src: "base fields
{version u32, prev_hash 32 B, merkle_root 32 B, timestamp u32, index u32,
consensus_data u64, next_consensus 20 B} · witness". -/
structure Base where
  Version : Nat
  PrevHash : Uint256
  MerkleRoot : Uint256
  Timestamp : Nat
  Index : Nat
  ConsensusData : Nat
  NextConsensus : Uint160
  Script : Witness
  deriving DecidableEq, Repr

/-- The struct `Block`. -/
structure Block extends Base where
  Transactions : List Transaction
  Trimmed : Bool
  deriving DecidableEq, Repr

/-- The function `merkleTreeFromTransactions`. -/
def merkleTreeFromTransactions (txes : List Transaction) : Result MerkleTree :=
  let hashes := txes.map Transaction.Hash
  NewMerkleTree hashes

/-- The method `Block.RebuildMerkleRoot`: the block after the call and the
error returned (`ok` stands for `nil`). -/
def Block.RebuildMerkleRoot (b : Block) : Block × Result Unit :=
  match merkleTreeFromTransactions b.Transactions with
  | .error e => (b, .error e)
  | .panic => (b, .panic)
  | .ok merkle => ({ b with MerkleRoot := merkle.Root }, .ok ())

/-- The method `Block.Verify` (`ok` stands for the `nil` error). -/
def Block.Verify (b : Block) : Result Unit :=
  match b.Transactions with
  | [] => .error .noTransactions
  | tx0 :: rest =>
    if tx0.txType ≠ MinerType then .error (.firstNotMiner tx0.txType)
    else
      match rest.find? (fun tx => tx.txType == MinerType) with
      | some tx => .error (.minerNotFirst tx.Hash)
      | none =>
        match merkleTreeFromTransactions b.Transactions with
        | .error e => .error e
        | .panic => .panic
        | .ok merkle =>
          if !(b.MerkleRoot.Equals merkle.Root) then .error .merkleRootMismatch
          else .ok ()

/-- Modelled from the spec: `Base.encodeHashableFields` is missing from src:
"version u32, prev_hash 32 B, merkle_root 32 B, timestamp u32, index u32,
consensus_data u64, next_consensus 20 B". -/
def Base.encodeHashableFields (b : Base) (bw : BinWriter) : BinWriter :=
  ((((((bw.WriteU32LE b.Version).WriteBytes b.PrevHash).WriteBytes b.MerkleRoot).WriteU32LE
    b.Timestamp).WriteU32LE b.Index).WriteU64LE b.ConsensusData).WriteBytes b.NextConsensus

/-- Modelled from the spec: `Base.decodeHashableFields` is missing from src; it
reads the fields in the order `encodeHashableFields` writes them, the hashes
into the arrays the receiver already holds. -/
def Base.decodeHashableFields (b : Base) (br : BinReader) : Base × BinReader :=
  let version := br.ReadU32LE
  let prevHash := version.2.ReadBytes b.PrevHash
  let merkleRoot := prevHash.2.ReadBytes b.MerkleRoot
  let timestamp := merkleRoot.2.ReadU32LE
  let index := timestamp.2.ReadU32LE
  let consensusData := index.2.ReadU64LE
  let nextConsensus := consensusData.2.ReadBytes b.NextConsensus
  ({ b with Version := version.1, PrevHash := prevHash.1, MerkleRoot := merkleRoot.1,
            Timestamp := timestamp.1, Index := index.1, ConsensusData := consensusData.1,
            NextConsensus := nextConsensus.1 }, nextConsensus.2)

/-- The zero value of `block.Base`. -/
def Base.zero : Base :=
  { Version := 0, PrevHash := Uint256.zero, MerkleRoot := Uint256.zero, Timestamp := 0,
    Index := 0, ConsensusData := 0, NextConsensus := List.replicate 20 0,
    Script := { InvocationScript := [], VerificationScript := [] } }

/-- The loop of `NewBlockFromTrimmedBytes`: `n` times, a hash is decoded into a
zero `util.Uint256` (32 bytes) and wrapped by `NewTrimmedTX`. -/
def readTrimmedTransactions : Nat → BinReader → List Transaction × BinReader
  | 0, br => ([], br)
  | n + 1, br =>
    let hash := br.ReadBytes Uint256.zero
    let txs := readTrimmedTransactions n hash.2
    (NewTrimmedTX hash.1 :: txs.1, txs.2)

/-- The function `NewBlockFromTrimmedBytes`: the block and the error it
returns; `none` is the panic of `make` on a length that does not fit `int`. -/
def NewBlockFromTrimmedBytes (b : List Nat) : Option (Block × Option Err) :=
  let br := NewBinReaderFromBuf b
  let base := Base.zero.decodeHashableFields br
  let pad := base.2.ReadB
  let script := Witness.DecodeBinary pad.2
  let lenTX := script.2.ReadVarUint
  if 2 ^ 63 ≤ lenTX.1 then none
  else
    let txs := readTrimmedTransactions lenTX.1 lenTX.2
    some ({ toBase := { base.1 with Script := script.1 }, Transactions := txs.1,
            Trimmed := true }, txs.2.err)

/-- The method `Block.Trim`. -/
def Block.Trim (b : Block) : Except Err (List Nat) :=
  let buf := NewBufBinWriter
  let buf := b.toBase.encodeHashableFields buf
  let buf := buf.WriteB 1
  let buf := b.Script.EncodeBinary buf
  let buf := buf.WriteVarUint b.Transactions.length
  let buf := b.Transactions.foldl (fun w tx => w.WriteBytes tx.Hash) buf
  match buf.err with
  | some e => .error e
  | none => .ok buf.Bytes

/-! ## pkg/consensus/payload.go -/

/-- The constant `changeViewType`. -/
def changeViewType : Nat := 0x00
/-- The constant `prepareRequestType`. -/
def prepareRequestType : Nat := 0x20
/-- The constant `prepareResponseType`. -/
def prepareResponseType : Nat := 0x21
/-- The constant `commitType`. -/
def commitType : Nat := 0x30
/-- The constant `recoveryRequestType`. -/
def recoveryRequestType : Nat := 0x40
/-- The constant `recoveryMessageType`. -/
def recoveryMessageType : Nat := 0x41

/-- The values `message.DecodeBinary` stores in `m.payload`.  Each variant
carries the fields that `message.DecodeBinary` itself sets (`newViewNumber`,
`stateRootEnabled`) and, as `body : β`, the fields that the variant's own
`DecodeBinary` reads from the wire; the declarations of `changeView`, `commit`,
`recoveryRequest` and `recoveryMessage` are missing from src. -/
inductive consensusPayload (β : Type)
  | changeView (newViewNumber : Nat) (body : β)
  | prepareRequest (stateRootEnabled : Bool) (body : β)
  | prepareResponse (stateRootEnabled : Bool) (body : β)
  | commit (body : β)
  | recoveryRequest (body : β)
  | recoveryMessage (stateRootEnabled : Bool) (body : β)
  deriving DecidableEq, Repr

/-- Replaces the marshaled fields of a payload value. -/
def consensusPayload.setBody : consensusPayload β → β → consensusPayload β
  | .changeView n _, b => .changeView n b
  | .prepareRequest s _, b => .prepareRequest s b
  | .prepareResponse s _, b => .prepareResponse s b
  | .commit _, b => .commit b
  | .recoveryRequest _, b => .recoveryRequest b
  | .recoveryMessage s _, b => .recoveryMessage s b

/-- The `io.Serializable` methods of the payload types, reached through the
interface value `m.payload`: `EncodeBinary` writes a payload value,
`DecodeBinary` reads the marshaled fields of the receiver (which
`message.DecodeBinary` has just created, with the zero fields `zero`). -/
structure PayloadCodec (β : Type) where
  zero : β
  EncodeBinary : consensusPayload β → BinWriter → BinWriter
  DecodeBinary : consensusPayload β → BinReader → β × BinReader

/-- The struct `message`; `payload = none` is the nil interface value. -/
structure message (β : Type) where
  msgType : Nat
  ViewNumber : Nat
  stateRootEnabled : Bool
  payload : Option (consensusPayload β)

/-- The struct `Payload`; `message = none` is the nil pointer. -/
structure Payload (β : Type) where
  message : Option (message β)
  data : List Nat
  version : Nat
  validatorIndex : Nat
  prevHash : Uint256
  height : Nat
  timestamp : Nat
  Witness : Witness

/-- The method `message.EncodeBinary`; `none` is the panic of the method call
on a nil `m.payload`. -/
def message.EncodeBinary (c : PayloadCodec β) (m : message β) (w : BinWriter) :
    Option BinWriter :=
  let w1 := w.WriteBytes [m.msgType]
  let w2 := w1.WriteB m.ViewNumber
  match m.payload with
  | none => none
  | some pl => some (c.EncodeBinary pl w2)

/-- The method `message.DecodeBinary`: the receiver after the call and the
reader.  `m.ViewNumber + 1` is an addition of bytes. -/
def message.DecodeBinary (c : PayloadCodec β) (m : message β) (r : BinReader) :
    message β × BinReader :=
  let t := r.ReadB
  let v := t.2.ReadB
  let m1 : message β := { m with msgType := t.1, ViewNumber := v.1 }
  let fill (pl : consensusPayload β) : message β × BinReader :=
    let b := c.DecodeBinary pl v.2
    ({ m1 with payload := some (pl.setBody b.1) }, b.2)
  if t.1 = changeViewType then fill (.changeView ((v.1 + 1) % 256) c.zero)
  else if t.1 = prepareRequestType then fill (.prepareRequest m1.stateRootEnabled c.zero)
  else if t.1 = prepareResponseType then fill (.prepareResponse m1.stateRootEnabled c.zero)
  else if t.1 = commitType then fill (.commit c.zero)
  else if t.1 = recoveryRequestType then fill (.recoveryRequest c.zero)
  else if t.1 = recoveryMessageType then fill (.recoveryMessage m1.stateRootEnabled c.zero)
  else (m1, { v.2 with err := some (.invalidType t.1) })

/-- The method `Payload.EncodeBinaryUnsigned`: the payload after the call
(`p.data` is overwritten when a message is set) and the writer. -/
def Payload.EncodeBinaryUnsigned (c : PayloadCodec β) (p : Payload β) (w : BinWriter) :
    Option (Payload β × BinWriter) :=
  let w1 := w.WriteU32LE p.version
  let w2 := w1.WriteBytes p.prevHash
  let w3 := w2.WriteU32LE p.height
  let w4 := w3.WriteU16LE p.validatorIndex
  let w5 := w4.WriteU32LE p.timestamp
  match p.message with
  | some m =>
    (m.EncodeBinary c NewBufBinWriter).map fun ww =>
      ({ p with data := ww.Bytes }, w5.WriteVarBytes ww.Bytes)
  | none => some (p, w5.WriteVarBytes p.data)

/-- The method `Payload.EncodeBinary`. -/
def Payload.EncodeBinary (c : PayloadCodec β) (p : Payload β) (w : BinWriter) :
    Option (Payload β × BinWriter) :=
  (p.EncodeBinaryUnsigned c w).map fun u =>
    let w2 := u.2.WriteB 1
    (u.1, u.1.Witness.EncodeBinary w2)

/-- The method `Payload.MarshalUnsigned` (value receiver: the caller's payload
is not changed). -/
def Payload.MarshalUnsigned (c : PayloadCodec β) (p : Payload β) : Option (List Nat) :=
  (p.EncodeBinaryUnsigned c NewBufBinWriter).map fun u => u.2.Bytes

/-- The method `Payload.Hash`: the payload after the call and the hash; `none`
is a panic. -/
def Payload.Hash (c : PayloadCodec β) (p : Payload β) : Option (Payload β × Uint256) :=
  (p.EncodeBinaryUnsigned c NewBufBinWriter).bind fun u =>
    if u.2.err ≠ none then none
    else some (u.1, DoubleSha256 u.2.Bytes)

/-- The method `Payload.DecodeBinaryUnsigned`. -/
def Payload.DecodeBinaryUnsigned (p : Payload β) (r : BinReader) : Payload β × BinReader :=
  let version := r.ReadU32LE
  let prevHash := version.2.ReadBytes p.prevHash
  let height := prevHash.2.ReadU32LE
  let validatorIndex := height.2.ReadU16LE
  let timestamp := validatorIndex.2.ReadU32LE
  let data := timestamp.2.ReadVarBytes
  ({ p with version := version.1, prevHash := prevHash.1, height := height.1,
            validatorIndex := validatorIndex.1, timestamp := timestamp.1, data := data.1 },
    data.2)

/-- The method `Payload.DecodeBinary`. -/
def Payload.DecodeBinary (p : Payload β) (r : BinReader) : Payload β × BinReader :=
  let u := p.DecodeBinaryUnsigned r
  if u.2.err ≠ none then u
  else
    let b := u.2.ReadB
    if b.1 ≠ 1 then (u.1, { b.2 with err := some .invalidFormat })
    else
      let wit := Witness.DecodeBinary b.2
      ({ u.1 with Witness := wit.1 }, wit.2)

/-- The zero value of `Payload`, the receiver of a decode into a fresh payload. -/
def Payload.zero : Payload β :=
  { message := none, data := [], version := 0, validatorIndex := 0, prevHash := Uint256.zero,
    height := 0, timestamp := 0, Witness := { InvocationScript := [], VerificationScript := [] } }

/-- The method `Payload.decodeData`: the payload after the call and the error
returned. -/
def Payload.decodeData (c : PayloadCodec β) (p : Payload β) (stateRootEnabled : Bool) :
    Payload β × Option Err :=
  let m : Neo.message β :=
    { msgType := 0, ViewNumber := 0, stateRootEnabled := stateRootEnabled, payload := none }
  let br := NewBinReaderFromBuf p.data
  let d := m.DecodeBinary c br
  if d.2.err ≠ none then (p, d.2.err)
  else ({ p with message := some d.1 }, none)

/-- Modelled from the spec: package `vm` is missing from src.  Of the machine
that `Payload.Verify` sets up, the model keeps the checked hash and the loaded
scripts, last loaded first. -/
structure VM where
  checkhash : List Nat
  istack : List (List Nat)
  deriving DecidableEq, Repr

/-- Modelled from the spec: `vm.New`. -/
def VM.New : VM := { checkhash := [], istack := [] }

/-- Modelled from the spec: `VM.SetCheckedHash`, the hash that signature checks
verify against. -/
def VM.SetCheckedHash (v : VM) (h : List Nat) : VM := { v with checkhash := h }

/-- Modelled from the spec: `VM.LoadScript`, a new context on top of the
invocation stack. -/
def VM.LoadScript (v : VM) (script : List Nat) : VM := { v with istack := script :: v.istack }

/-- The machine that `Payload.Verify` has built when it calls `v.Run()`;
`none` is a panic. -/
def Payload.verifyVM (c : PayloadCodec β) (p : Payload β) (verification : List Nat) :
    Option VM :=
  (p.MarshalUnsigned c).map fun unsigned =>
    let v := VM.New
    let h := Sum256 unsigned
    let v := v.SetCheckedHash h
    let v := v.LoadScript verification
    let v := v.LoadScript p.Witness.InvocationScript
    v

/-- The method `Payload.Verify`.  `ScriptFromWitness` is `core.ScriptFromWitness`
(`none` is its error) and `run` is the outcome of the run of the machine: no
error, not failed, one item on the stack, and that item true; both are missing
from src. -/
def Payload.Verify (ScriptFromWitness : Uint160 → Neo.Witness → Option (List Nat))
    (run : VM → Bool) (c : PayloadCodec β) (p : Payload β) (scriptHash : Uint160) :
    Option Bool :=
  match ScriptFromWitness scriptHash p.Witness with
  | none => some false
  | some verification => (p.verifyVM c verification).map run

/-! ## pkg/vm/serialization.go -/

/-- The constant `byteArrayT`. -/
def byteArrayT : Nat := 0x00
/-- The constant `booleanT`. -/
def booleanT : Nat := 0x01
/-- The constant `integerT`. -/
def integerT : Nat := 0x02
/-- The constant `arrayT`. -/
def arrayT : Nat := 0x80
/-- The constant `structT`. -/
def structT : Nat := 0x81
/-- The constant `mapT`. -/
def mapT : Nat := 0x82

/-- The functions `emit.IntToBytes` and `emit.BytesToInt`, which are missing
from src and which the spec does not describe; they are a parameter of the
serializer. -/
structure Emit where
  IntToBytes : Int → List Nat
  BytesToInt : List Nat → Int

/-- A value of the interface type `StackItem`.  The container items are
pointers to mutable objects that may be shared or cyclic: they are addresses
into a `Heap`.  Two interface values are the same map key of `seen` exactly
when they have the same dynamic type and the same address.  The items without
elements carry their value; they are never entered into `seen`. -/
inductive StackItem
  | ByteArrayItem (value : List Nat)
  | BoolItem (value : Bool)
  | BigIntegerItem (value : Int)
  | InteropItem
  | ArrayItem (addr : Nat)
  | StructItem (addr : Nat)
  | MapItem (addr : Nat)
  deriving DecidableEq, Repr

/-- The struct `MapElement`, one entry of a `MapItem`. -/
structure MapElement where
  Key : StackItem
  Value : StackItem
  deriving DecidableEq, Repr

/-- The objects that container items point to: the slice of an `ArrayItem`, of
a `StructItem`, and the entries of a `MapItem`, by address. -/
structure Heap where
  arrays : List (List StackItem)
  structs : List (List StackItem)
  maps : List (List MapElement)
  deriving DecidableEq, Repr

/-- The number of container objects of a heap. -/
def Heap.size (h : Heap) : Nat := h.arrays.length + h.structs.length + h.maps.length

/-- The state that `serializeItemTo` threads through its calls: the writer and
the map `seen`. -/
abbrev SerState := BinWriter × List StackItem

/-- The loop `for i := range arr { serializeItemTo(arr[i], w, seen) }`, over the
recursive call `f`. -/
def serializeItems (f : StackItem → BinWriter → List StackItem → Option SerState) :
    List StackItem → BinWriter → List StackItem → Option SerState
  | [], w, seen => some (w, seen)
  | x :: xs, w, seen =>
    (f x w seen).bind fun s => serializeItems f xs s.1 s.2

/-- The loop over the entries of a map: the key, then the value. -/
def serializeEntries (f : StackItem → BinWriter → List StackItem → Option SerState) :
    List MapElement → BinWriter → List StackItem → Option SerState
  | [], w, seen => some (w, seen)
  | e :: es, w, seen =>
    (f e.Key w seen).bind fun s1 =>
      (f e.Value s1.1 s1.2).bind fun s2 => serializeEntries f es s2.1 s2.2

/-- The function `serializeItemTo`.  The first number bounds the depth of the
recursion; `none` says that the bound was too small. -/
def serializeItemTo (E : Emit) (h : Heap) :
    Nat → StackItem → BinWriter → List StackItem → Option SerState
  | 0, _, _, _ => none
  | fuel + 1, item, w, seen =>
    if item ∈ seen then some ({ w with err := some .recursive }, seen)
    else
      match item with
      | .ByteArrayItem value => some ((w.WriteBytes [byteArrayT]).WriteVarBytes value, seen)
      | .BoolItem value => some ((w.WriteBytes [booleanT]).WriteBool value, seen)
      | .BigIntegerItem value =>
        some ((w.WriteBytes [integerT]).WriteVarBytes (E.IntToBytes value), seen)
      | .InteropItem => some ({ w with err := some .interopItem }, seen)
      | .ArrayItem a =>
        let arr := h.arrays.getD a []
        serializeItems (serializeItemTo E h fuel) arr
          ((w.WriteBytes [arrayT]).WriteVarUint arr.length) (item :: seen)
      | .StructItem a =>
        let arr := h.structs.getD a []
        serializeItems (serializeItemTo E h fuel) arr
          ((w.WriteBytes [structT]).WriteVarUint arr.length) (item :: seen)
      | .MapItem a =>
        let value := h.maps.getD a []
        serializeEntries (serializeItemTo E h fuel) value
          ((w.WriteBytes [mapT]).WriteVarUint value.length) (item :: seen)

/-- The function `EncodeBinaryStackItem`: a fresh `seen`; the depth bound is
the number of container objects plus one. -/
def EncodeBinaryStackItem (E : Emit) (h : Heap) (item : StackItem) (w : BinWriter) :
    Option BinWriter :=
  (serializeItemTo E h (h.size + 1) item w []).map fun s => s.1

/-- The function `SerializeItem`; `none` says that the depth bound was too
small. -/
def SerializeItem (E : Emit) (h : Heap) (item : StackItem) : Option (Except Err (List Nat)) :=
  match EncodeBinaryStackItem E h item NewBufBinWriter with
  | none => none
  | some w =>
    match w.err with
    | some e => some (.error e)
    | none => some (.ok w.Bytes)

/-- The items that `DecodeBinaryStackItem` builds.  They are fresh objects, none
of them shared, so an item is the tree of its elements; `null` is the nil
interface value that is returned with an error. -/
inductive ItemValue
  | null
  | ByteArray (value : List Nat)
  | Boolean (value : Bool)
  | BigInteger (value : Int)
  | Array (value : List ItemValue)
  | Struct (value : List ItemValue)
  | Map (value : List (ItemValue × ItemValue))
  deriving Repr

/-- Modelled from the spec: the keys a map admits, "any non-container
primitive". -/
def isValidMapKey : ItemValue → Bool
  | .ByteArray _ => true
  | .Boolean _ => true
  | .BigInteger _ => true
  | _ => false

/-- Modelled from the spec: equality of two map keys, "by value for
primitives". -/
def keyEquals : ItemValue → ItemValue → Bool
  | .ByteArray a, .ByteArray b => a == b
  | .Boolean a, .Boolean b => a == b
  | .BigInteger a, .BigInteger b => a == b
  | _, _ => false

/-- Modelled from the spec: `MapItem.Add` is missing from src; the map is
"insertion-ordered key→value": the value of a key already present is replaced,
a new key is appended.  There is no result for a key that is not a primitive. -/
def MapItemAdd (m : List (ItemValue × ItemValue)) (key value : ItemValue) :
    Option (List (ItemValue × ItemValue)) :=
  if !isValidMapKey key then none
  else if m.any (fun e => keyEquals e.1 key) then
    some (m.map (fun e => if keyEquals e.1 key then (e.1, value) else e))
  else some (m ++ [(key, value)])

/-- Outcome of a run under a depth bound: a result, a Go panic, or the bound
was too small. -/
inductive Exec (α : Type)
  | done (v : α)
  | panic
  | outOfFuel

/-- Sequencing: a panic or an exhausted bound ends the run. -/
def Exec.bind (x : Exec α) (f : α → Exec β) : Exec β :=
  match x with
  | .done v => f v
  | .panic => .panic
  | .outOfFuel => .outOfFuel

/-- The loop `for i := 0; i < size; i++ { arr[i] = DecodeBinaryStackItem(r) }`,
over the recursive call `f`. -/
def decodeItems (f : BinReader → Exec (ItemValue × BinReader)) :
    Nat → BinReader → Exec (List ItemValue × BinReader)
  | 0, r => .done ([], r)
  | n + 1, r =>
    (f r).bind fun x =>
      (decodeItems f n x.2).bind fun xs => .done (x.1 :: xs.1, xs.2)

/-- The loop that fills the map, with its `break` on a reader error. -/
def decodeEntries (f : BinReader → Exec (ItemValue × BinReader)) :
    Nat → List (ItemValue × ItemValue) → BinReader →
    Exec (List (ItemValue × ItemValue) × BinReader)
  | 0, m, r => .done (m, r)
  | n + 1, m, r =>
    (f r).bind fun key =>
      (f key.2).bind fun value =>
        if value.2.err ≠ none then .done (m, value.2)
        else
          match MapItemAdd m key.1 value.1 with
          | none => .panic
          | some m1 => decodeEntries f n m1 value.2

/-- The function `DecodeBinaryStackItem`, under a bound on the depth of the
recursion.  `size := int(r.ReadVarUint())` is negative from 2^63 on: `make`
panics then, and the loop of the map does not run. -/
def DecodeBinaryStackItem (E : Emit) : Nat → BinReader → Exec (ItemValue × BinReader)
  | 0, _ => .outOfFuel
  | fuel + 1, r =>
    let t := r.ReadB
    if t.2.err ≠ none then .done (.null, t.2)
    else if t.1 = byteArrayT then
      let data := t.2.ReadVarBytes
      .done (.ByteArray data.1, data.2)
    else if t.1 = booleanT then
      let b := t.2.ReadBool
      .done (.Boolean b.1, b.2)
    else if t.1 = integerT then
      let data := t.2.ReadVarBytes
      .done (.BigInteger (E.BytesToInt data.1), data.2)
    else if t.1 = arrayT ∨ t.1 = structT then
      let size := t.2.ReadVarUint
      if 2 ^ 63 ≤ size.1 then .panic
      else
        (decodeItems (DecodeBinaryStackItem E fuel) size.1 size.2).bind fun arr =>
          .done (if t.1 = arrayT then .Array arr.1 else .Struct arr.1, arr.2)
    else if t.1 = mapT then
      let size := t.2.ReadVarUint
      (decodeEntries (DecodeBinaryStackItem E fuel)
          (if 2 ^ 63 ≤ size.1 then 0 else size.1) [] size.2).bind fun m =>
        .done (.Map m.1, m.2)
    else .done (.null, { t.2 with err := some .unknownType })

/-- The function `DeserializeItem`; the depth bound is the length of the input
plus one. -/
def DeserializeItem (E : Emit) (data : List Nat) : Exec (Except Err ItemValue) :=
  let r := NewBinReaderFromBuf data
  (DecodeBinaryStackItem E (data.length + 1) r).bind fun d =>
    match d.2.err with
    | some e => .done (.error e)
    | none => .done (.ok d.1)

/-! ## Items as graphs and as trees -/

/-- The items that a container item holds: the elements of an array or a
struct, the keys and values of a map. -/
def Heap.children (h : Heap) : StackItem → List StackItem
  | .ArrayItem a => h.arrays.getD a []
  | .StructItem a => h.structs.getD a []
  | .MapItem a => (h.maps.getD a []).foldr (fun e acc => e.Key :: e.Value :: acc) []
  | _ => []

/-- Item `a` holds item `b` directly. -/
def Heap.Holds (h : Heap) (a b : StackItem) : Prop := b ∈ h.children a

/-- Item `a` contains item `b`, directly or through nested containers. -/
def Heap.Contains (h : Heap) (a b : StackItem) : Prop := Relation.TransGen h.Holds a b

/-- The values of a list of items and the container objects met, over the
function `f` for one item. -/
def itemTrees (f : StackItem → Option (ItemValue × List StackItem)) :
    List StackItem → Option (List ItemValue × List StackItem)
  | [] => some ([], [])
  | x :: xs =>
    match f x with
    | none => none
    | some (v, r1) =>
      match itemTrees f xs with
      | none => none
      | some (vs, r2) => some (v :: vs, r1 ++ r2)

/-- The values of the entries of a map and the container objects met. -/
def entryTrees (f : StackItem → Option (ItemValue × List StackItem)) :
    List MapElement → Option (List (ItemValue × ItemValue) × List StackItem)
  | [] => some ([], [])
  | e :: es =>
    match f e.Key with
    | none => none
    | some (k, r1) =>
      match f e.Value with
      | none => none
      | some (v, r2) =>
        match entryTrees f es with
        | none => none
        | some (m, r3) => some ((k, v) :: m, r1 ++ r2 ++ r3)

/-- The structure of an item that is built only from byte arrays, booleans,
integers, arrays, structs and maps, read off the heap down to depth `n`: its
value as a tree, and the list of the container objects met on the way, one
entry for each position at which an object is met.  There is no result for an
item that holds an interop item or that is deeper than `n` (as every cyclic
item is). -/
def itemTree (h : Heap) : Nat → StackItem → Option (ItemValue × List StackItem)
  | 0, _ => none
  | _ + 1, .ByteArrayItem value => some (.ByteArray value, [])
  | _ + 1, .BoolItem value => some (.Boolean value, [])
  | _ + 1, .BigIntegerItem value => some (.BigInteger value, [])
  | _ + 1, .InteropItem => none
  | n + 1, .ArrayItem a =>
    match itemTrees (itemTree h n) (h.arrays.getD a []) with
    | none => none
    | some (vs, refs) => some (.Array vs, .ArrayItem a :: refs)
  | n + 1, .StructItem a =>
    match itemTrees (itemTree h n) (h.structs.getD a []) with
    | none => none
    | some (vs, refs) => some (.Struct vs, .StructItem a :: refs)
  | n + 1, .MapItem a =>
    match entryTrees (itemTree h n) (h.maps.getD a []) with
    | none => none
    | some (m, refs) => some (.Map m, .MapItem a :: refs)

mutual
/-- The ranges that the Go types give to an item: every slice is shorter than
2^63 (its length is an `int`), the keys of a map are primitives, no two of them
equal (what `MapItem.Add` keeps), and the encoding of an integer is read back
by `emit.BytesToInt` as the same integer. -/
def ItemValue.WellFormed (E : Emit) : ItemValue → Prop
  | .null => False
  | .ByteArray value => value.length < 2 ^ 63
  | .Boolean _ => True
  | .BigInteger value =>
    (E.IntToBytes value).length < 2 ^ 63 ∧ E.BytesToInt (E.IntToBytes value) = value
  | .Array value => value.length < 2 ^ 63 ∧ WellFormedList E value
  | .Struct value => value.length < 2 ^ 63 ∧ WellFormedList E value
  | .Map value =>
    value.length < 2 ^ 63 ∧ WellFormedEntries E value ∧
      (value.map Prod.fst).Pairwise (fun a b => keyEquals a b = false)
/-- Every item of the list is well formed. -/
def WellFormedList (E : Emit) : List ItemValue → Prop
  | [] => True
  | x :: xs => x.WellFormed E ∧ WellFormedList E xs
/-- Every key is a well-formed primitive and every value is well formed. -/
def WellFormedEntries (E : Emit) : List (ItemValue × ItemValue) → Prop
  | [] => True
  | (k, v) :: es =>
    isValidMapKey k = true ∧ k.WellFormed E ∧ v.WellFormed E ∧ WellFormedEntries E es
end

/-- Bytes of a non-negative integer in two-complement little-endian form, the
last byte below 128; the first number bounds the number of bytes. -/
def natToBytesLE : Nat → Nat → List Nat
  | 0, _ => []
  | fuel + 1, m => if m < 128 then [m] else (m % 256) :: natToBytesLE fuel (m / 256)

/-- A concrete pair of functions for `Emit`: the shortest two-complement
little-endian form of an integer, and its inverse. -/
def emitLE : Emit where
  IntToBytes := fun n =>
    if 0 ≤ n then natToBytesLE (n.toNat + 1) n.toNat
    else (natToBytesLE ((-n - 1).toNat + 1) (-n - 1).toNat).map (fun b => 255 - b)
  BytesToInt := fun b =>
    if 128 ≤ b.getLastD 0 then (leValue b : Int) - (256 : Int) ^ b.length else (leValue b : Int)

/-- The ranges that the Go types give to the fields of a witness: the length
of a slice is an `int`. -/
def Witness.InRange (w : Witness) : Prop :=
  w.InvocationScript.length < 2 ^ 63 ∧ w.VerificationScript.length < 2 ^ 63

/-- The ranges that the Go types give to the fields of `block.Base`: `uint32`,
`uint64`, 32-byte and 20-byte arrays. -/
def Base.InRange (b : Base) : Prop :=
  b.Version < 2 ^ 32 ∧ b.PrevHash.length = 32 ∧ b.MerkleRoot.length = 32 ∧
    b.Timestamp < 2 ^ 32 ∧ b.Index < 2 ^ 32 ∧ b.ConsensusData < 2 ^ 64 ∧
    b.NextConsensus.length = 20 ∧ b.Script.InRange

/-- The ranges that the Go types give to a block: the base, the length of the
slice of transactions, and 32-byte transaction hashes. -/
def Block.InRange (b : Block) : Prop :=
  b.toBase.InRange ∧ b.Transactions.length < 2 ^ 63 ∧
    ∀ tx ∈ b.Transactions, tx.Hash.length = 32

/-- The bytes of the hashes of a list of transactions, one after the other. -/
def hashBytes : List Transaction → List Nat
  | [] => []
  | tx :: txs => tx.Hash ++ hashBytes txs

/-! ## Example values -/

/-- A block with two transactions, the first of type Miner, and a witness. -/
def exampleBlock : Block :=
  { Version := 0, PrevHash := List.replicate 32 1, MerkleRoot := List.replicate 32 0,
    Timestamp := 1000, Index := 7, ConsensusData := 99, NextConsensus := List.replicate 20 3,
    Script := { InvocationScript := [0x40, 1, 2], VerificationScript := [0x21, 0xac] },
    Transactions := [{ txType := MinerType, hash := List.replicate 32 5, Trimmed := false },
                     { txType := 0x80, hash := List.replicate 32 6, Trimmed := false }],
    Trimmed := false }


/-- The marshaled fields of a payload value. -/
def consensusPayload.body : consensusPayload β → β
  | .changeView _ b => b
  | .prepareRequest _ b => b
  | .prepareResponse _ b => b
  | .commit b => b
  | .recoveryRequest b => b
  | .recoveryMessage _ b => b

/-- A codec for the examples: the marshaled fields are one byte string, written
as `VarBytes`. -/
def exampleCodec : PayloadCodec (List Nat) where
  zero := []
  EncodeBinary := fun pl w => w.WriteVarBytes pl.body
  DecodeBinary := fun _ r => r.ReadVarBytes

/-- A payload without a message. -/
def examplePayload : Payload (List Nat) :=
  { message := none, data := [0x00, 0x05, 1, 2, 3, 4], version := 0,
    validatorIndex := 2, prevHash := List.replicate 32 7, height := 100, timestamp := 1600000000,
    Witness := { InvocationScript := [0x40, 9, 9], VerificationScript := [0x21, 0xac] } }

/-- A payload with a ChangeView message. -/
def examplePayloadCV : Payload (List Nat) :=
  { examplePayload with
    message := some { msgType := changeViewType, ViewNumber := 3, stateRootEnabled := false,
                      payload := some (.changeView 4 [1, 2, 3, 4]) } }

/-- The ranges that the Go types give to the fields of a payload. -/
def Payload.InRange (p : Payload β) : Prop :=
  p.version < 2 ^ 32 ∧ p.prevHash.length = 32 ∧ p.height < 2 ^ 32 ∧
    p.validatorIndex < 2 ^ 16 ∧ p.timestamp < 2 ^ 32 ∧ p.Witness.InRange

/-- The bytes written for the unsigned part of a payload whose data is `data`. -/
def Payload.unsignedBytes (p : Payload β) (data : List Nat) : List Nat :=
  u32le p.version ++ p.prevHash ++ u32le p.height ++ u16le p.validatorIndex ++
    u32le p.timestamp ++ (varUintBytes data.length ++ data)

/-- The data that `EncodeBinaryUnsigned` writes: the encoded message when one is
set, else the field `data`. -/
def Payload.IsWrittenData (c : PayloadCodec β) (p : Payload β) (data : List Nat) : Prop :=
  match p.message with
  | none => data = p.data
  | some m => ∃ ww, m.EncodeBinary c NewBufBinWriter = some ww ∧ data = ww.Bytes

/-- A fresh message, the receiver of `message.DecodeBinary` in `decodeData`. -/
def exampleMessage : message (List Nat) :=
  { msgType := 0, ViewNumber := 0, stateRootEnabled := false, payload := none }

/-- An item that points to a container object. -/
def StackItem.isContainer : StackItem → Bool
  | .ArrayItem _ => true
  | .StructItem _ => true
  | .MapItem _ => true
  | _ => false

/-- The bytes that `serializeItemTo` writes for a container before it visits
the elements: the type byte and the number of elements or entries. -/
def Heap.header (h : Heap) : StackItem → List Nat
  | .ArrayItem a => arrayT :: varUintBytes (h.arrays.getD a []).length
  | .StructItem a => structT :: varUintBytes (h.structs.getD a []).length
  | .MapItem a => mapT :: varUintBytes (h.maps.getD a []).length
  | _ => []

/-- The container items that have an object in the heap. -/
def Heap.refs (h : Heap) : List StackItem :=
  (List.range h.arrays.length).map StackItem.ArrayItem ++
    ((List.range h.structs.length).map StackItem.StructItem ++
      (List.range h.maps.length).map StackItem.MapItem)

/-- The number of container objects of the heap that are not in `seen`. -/
def Heap.unseen (h : Heap) (seen : List StackItem) : Nat :=
  (h.refs.filter (fun x => decide (x ∉ seen))).length

/-- An array that holds itself. -/
def exampleCyclicHeap : Heap :=
  { arrays := [[.BoolItem true, .ArrayItem 1], [.ArrayItem 0]], structs := [], maps := [] }

/-- The call `f` of the serializer, started without error on a `seen` that holds
only containers and none of `refs`, writes exactly `bytes` and adds exactly
`refs` to `seen`. -/
def EncodesTo (f : BinWriter → List StackItem → Option SerState) (refs : List StackItem)
    (bytes : List Nat) : Prop :=
  ∀ w seen, w.err = none → refs.Nodup → (∀ r ∈ refs, r ∉ seen) →
    (∀ y ∈ seen, y.isContainer = true) →
    ∃ seen1, f w seen = some (⟨w.buf ++ bytes, none⟩, seen1) ∧
      (∀ y, y ∈ seen1 ↔ y ∈ refs ∨ y ∈ seen) ∧ (∀ y ∈ seen1, y.isContainer = true)

/-- The decoder reads `bytes` back as the item `v`, whatever follows them, when
the depth bound exceeds the length of the input. -/
def DecodesTo (E : Emit) (bytes : List Nat) (v : ItemValue) : Prop :=
  ∀ rest fuel, (bytes ++ rest).length < fuel →
    DecodeBinaryStackItem E fuel ⟨bytes ++ rest, none⟩ = .done (v, ⟨rest, none⟩)

/-- The round trip of every item whose tree is read off the heap to depth `n`. -/
def RoundTrip (E : Emit) (h : Heap) (n : Nat) : Prop :=
  ∀ x v refs, itemTree h n x = some (v, refs) → v.WellFormed E →
    ∃ bytes, EncodesTo (serializeItemTo E h n x) refs bytes ∧ DecodesTo E bytes v

/-- A heap without objects. -/
def exampleEmptyHeap : Heap := { arrays := [], structs := [], maps := [] }

/-- An array that holds a byte array, a map and a struct, none of them shared. -/
def exampleTreeHeap : Heap :=
  { arrays := [[.ByteArrayItem [1, 2], .MapItem 0, .StructItem 0]],
    structs := [[.BoolItem true, .BigIntegerItem (-5)]],
    maps := [[⟨.BigIntegerItem 300, .ByteArrayItem []⟩, ⟨.ByteArrayItem [7], .BoolItem false⟩]] }

/-- The value of the array of `exampleTreeHeap`. -/
def exampleTreeValue : ItemValue :=
  .Array [.ByteArray [1, 2],
    .Map [(.BigInteger 300, .ByteArray []), (.ByteArray [7], .Boolean false)],
    .Struct [.Boolean true, .BigInteger (-5)]]

/-- The recursive call never forgets a seen object and never clears the error. -/
def SerMono (f : StackItem → BinWriter → List StackItem → Option SerState) : Prop :=
  ∀ x w seen r, f x w seen = some r →
    (∀ y ∈ seen, y ∈ r.2) ∧ (w.err ≠ none → r.1.err ≠ none)

/-! ## Package util: Fixed8 -/

/-- The constant `precision`. -/
def precision : Nat := 8

/-- The constant `decimals`. -/
def decimals : Int := 100000000

/-- The type `Fixed8`, an `int64`: the raw value. -/
structure Fixed8 where
  val : Int
  deriving DecidableEq, Repr

/-- The range of the Go type `int64`. -/
def Fixed8.InRange (f : Fixed8) : Prop := -2 ^ 63 ≤ f.val ∧ f.val < 2 ^ 63

/-- Conversion to `int64`, and the result of `int64` arithmetic: the value
modulo 2^64 that lies in [-2^63, 2^63). -/
def toInt64 (x : Int) : Int := (x + 2 ^ 63) % 2 ^ 64 - 2 ^ 63

/-- Conversion to `int32`: the value modulo 2^32 that lies in [-2^31, 2^31). -/
def toInt32 (x : Int) : Int := (x + 2 ^ 31) % 2 ^ 32 - 2 ^ 31

/-- Conversion to `uint64`: the value modulo 2^64. -/
def toUint64 (x : Int) : Nat := (x % 2 ^ 64).toNat

/-- The method `Fixed8.IntegralValue`: the division of Go truncates towards
zero. -/
def Fixed8.IntegralValue (f : Fixed8) : Int := Int.tdiv f.val decimals

/-- The method `Fixed8.FractionalValue`: the remainder of Go has the sign of
the dividend; the result is converted to `int32`. -/
def Fixed8.FractionalValue (f : Fixed8) : Int := toInt32 (Int.tmod f.val decimals)

/-- The method `Fixed8.DecodeBinary`: the value read and the reader after it. -/
def Fixed8.DecodeBinary (r : BinReader) : Fixed8 × BinReader :=
  let u := r.ReadU64LE
  (⟨toInt64 u.1⟩, u.2)

/-- The method `Fixed8.EncodeBinary`. -/
def Fixed8.EncodeBinary (f : Fixed8) (w : BinWriter) : BinWriter :=
  w.WriteU64LE (toUint64 f.val)

/-- The method `Fixed8.CompareTo`: the difference is taken in `int64`; `int`
has 64 bits. -/
def Fixed8.CompareTo (f g : Fixed8) : Int := toInt64 (f.val - g.val)

/-- A Go `string` whose bytes are ASCII: one `Char` for each byte.  The
functions below fail on any other byte, so lengths in bytes and in characters
agree wherever they are used. -/
abbrev GoString := List Char

/-- The call `strings.SplitN(s, ".", 2)` of the Go standard library: the part
before the first point, and the part after it when there is a point. -/
def splitPoint : GoString → GoString × Option GoString
  | [] => ([], none)
  | c :: cs =>
    if c = '.' then ([], some cs)
    else ((c :: (splitPoint cs).1), (splitPoint cs).2)

/-- A decimal digit `0`..`9`. -/
def isDecimalDigit (c : Char) : Bool := decide (48 ≤ c.toNat ∧ c.toNat ≤ 57)

/-- The digits of `strconv.ParseUint` in base 10, most significant first,
added to `acc`; nothing when a character is not a digit. -/
def parseDigits (acc : Nat) : GoString → Option Nat
  | [] => some acc
  | c :: cs => if isDecimalDigit c then parseDigits (acc * 10 + (c.toNat - 48)) cs else none

/-- The function `strconv.ParseUint(s, 10, 64)` of the Go standard library;
`none` stands for any error: the empty string, a character that is not a
digit, a value that does not fit `uint64`. -/
def ParseUint (s : GoString) : Option Nat :=
  if s = [] then none
  else (parseDigits 0 s).bind fun n => if n < 2 ^ 64 then some n else none

/-- The function `strconv.ParseInt(s, 10, 64)` of the Go standard library: an
optional sign `+` or `-`, then `ParseUint`; `none` stands for any error, also a
value that does not fit `int64`. -/
def ParseInt (s : GoString) : Option Int :=
  match s with
  | [] => none
  | c :: cs =>
    let neg := decide (c = '-')
    let s1 := if c = '+' ∨ c = '-' then cs else s
    (ParseUint s1).bind fun un =>
      if !neg && decide (2 ^ 63 ≤ un) then none
      else if neg && decide (2 ^ 63 < un) then none
      else some (if neg then -(un : Int) else (un : Int))

/-- The loop `for i := len; i < precision; i++ { fp *= 10 }`. -/
def scaleUp (fp : Int) : Nat → Int
  | 0 => fp
  | n + 1 => scaleUp (toInt64 (fp * 10)) n

/-- The function `FixedNFromString`; `d` is `int64(math.Pow10(precision))`,
which is 10^precision for a precision of at most 18. -/
def FixedNFromString (s : GoString) (precision : Nat) : Except Err Int :=
  let parts := splitPoint s
  let d : Int := 10 ^ precision
  match ParseInt parts.1 with
  | none => .error .errInvalidString
  | some ip =>
    match parts.2 with
    | none => .ok (toInt64 (ip * d))
    | some frac =>
      match ParseInt frac with
      | none => .error .errInvalidString
      | some fp =>
        if d ≤ fp then .error .errInvalidString
        else
          let fp1 := scaleUp fp (precision - frac.length)
          if ip < 0 then .ok (toInt64 (toInt64 (ip * d) - fp1))
          else .ok (toInt64 (toInt64 (ip * d) + fp1))

/-- The function `Fixed8FromString`. -/
def Fixed8FromString (s : GoString) : Except Err Fixed8 :=
  match FixedNFromString s 8 with
  | .error e => .error e
  | .ok num => .ok ⟨num⟩

/-- The strings that match `\d{lo,hi}` in full. -/
def matchesDigits (lo hi : Nat) (s : GoString) : Bool :=
  decide (lo ≤ s.length) && decide (s.length ≤ hi) && s.all isDecimalDigit

/-- The strings that match the regular expression of `errInvalidString`,
`\d+(\.\d{1,8})?`, in full: one or more decimal digits, optionally followed by
a point and 1 to 8 decimal digits. -/
def matchesFixed8Regex (s : GoString) : Bool :=
  let ip := s.takeWhile isDecimalDigit
  let rest := s.dropWhile isDecimalDigit
  decide (1 ≤ ip.length) &&
    match rest with
    | [] => true
    | c :: fp => decide (c = '.') && matchesDigits 1 8 fp

/-- The strings of the form `[+-]?\d+`: an optional sign, then one or more
decimal digits. -/
def isSignedDigits (s : GoString) : Bool :=
  match s with
  | [] => false
  | c :: cs =>
    if c = '+' ∨ c = '-' then matchesDigits 1 cs.length cs else s.all isDecimalDigit

/-- The strings of the form `[+-]?\d+(\.[+-]?\d+)?`. -/
def matchesSignedRegex (s : GoString) : Bool :=
  isSignedDigits (splitPoint s).1 &&
    match (splitPoint s).2 with
    | none => true
    | some frac => isSignedDigits frac

/-- The strings with more than 8 decimal digits, and nothing else, after the
first point, the first of these digits not being `0`. -/
def hasLongFraction (s : GoString) : Bool :=
  match (splitPoint s).2 with
  | none => false
  | some frac =>
    frac.all isDecimalDigit && decide (8 < frac.length) && decide (frac.head? ≠ some '0')

/-! ## Package smartcontract: CreateMultiSigRedeemScript -/

/-- The functions `emit.Int`, `emit.Bytes` and `emit.Opcode` and the constants
`opcode.PUSHBYTES33` and `opcode.CHECKMULTISIG`, all missing from src.  Each
function is given by the bytes that it appends to a writer that holds no
error. -/
structure ScriptEmit where
  EmitInt : Int → List Nat
  EmitBytes : List Nat → List Nat
  EmitOpcode : Nat → List Nat
  PUSHBYTES33 : Nat
  CHECKMULTISIG : Nat

/-- Modelled from the spec: "`PUSHBYTES33 <33 bytes>`" is the push of a string
of 33 bytes, and an opcode is "a single byte". -/
def ScriptEmit.Standard (E : ScriptEmit) : Prop :=
  (∀ b : List Nat, b.length = 33 → E.EmitBytes b = E.PUSHBYTES33 :: b) ∧
    (∀ op : Nat, E.EmitOpcode op = [op])

/-- The methods of `keys.PublicKey` and `keys.PublicKeys` that the code calls,
missing from src: the encoding `Bytes()` and the order `Less` that `sort.Sort`
uses. -/
structure KeyOps (κ : Type) where
  Bytes : κ → List Nat
  Less : κ → κ → Bool

/-- The order `Less` is a strict total order of the keys. -/
def KeyOps.StrictTotal (K : KeyOps κ) : Prop :=
  (∀ a, K.Less a a = false) ∧
    (∀ a b c, K.Less a b = true → K.Less b c = true → K.Less a c = true) ∧
    (∀ a b, K.Less a b = true ∨ a = b ∨ K.Less b a = true)

/-- The call `sort.Sort(publicKeys)` of the Go standard library: the keys in
ascending order by `Less`.  The library does not say which ascending
arrangement it produces when `Less` leaves two different keys unordered; an
insertion sort stands for it, and what is proved about the order of the keys
assumes a strict total order, under which the arrangement is unique. -/
def sortKeys (K : KeyOps κ) (publicKeys : List κ) : List κ :=
  publicKeys.insertionSort (fun a b => K.Less b a = false)

/-- The loop `for _, pubKey := range publicKeys { emit.Bytes(buf, pubKey.Bytes()) }`. -/
def emitKeys (E : ScriptEmit) (K : KeyOps κ) : List κ → BinWriter → BinWriter
  | [], w => w
  | pubKey :: rest, w => emitKeys E K rest (w.WriteBytes (E.EmitBytes (K.Bytes pubKey)))

/-- The function `CreateMultiSigRedeemScript`; `m` is an `int`.  The call
`sort.Sort` rearranges `publicKeys` in place: `sorted` is the slice after the
call, of the same length. -/
def CreateMultiSigRedeemScript (E : ScriptEmit) (K : KeyOps κ) (m : Int) (publicKeys : List κ) :
    Except Err (List Nat) :=
  if m < 1 then .error (.paramTooSmall m)
  else if m > publicKeys.length then .error (.moreSignaturesThanKeys m)
  else if m > 1024 then .error (.keyCountExceeds publicKeys.length)
  else
    let buf := NewBufBinWriter
    let buf := buf.WriteBytes (E.EmitInt m)
    let sorted := sortKeys K publicKeys
    let buf := emitKeys E K sorted buf
    let buf := buf.WriteBytes (E.EmitInt publicKeys.length)
    let buf := buf.WriteBytes (E.EmitOpcode E.CHECKMULTISIG)
    .ok buf.Bytes

/-- The bytes that `emit.Bytes` writes for the encodings of a list of keys, one
key after the other. -/
def keyEmits (E : ScriptEmit) (K : KeyOps κ) : List κ → List Nat
  | [] => []
  | k :: ks => E.EmitBytes (K.Bytes k) ++ keyEmits E K ks

/-- The bytes `(PUSHBYTES33 <33 bytes>)^n` for a list of keys. -/
def keyPushes (E : ScriptEmit) (K : KeyOps κ) : List κ → List Nat
  | [] => []
  | k :: ks => E.PUSHBYTES33 :: K.Bytes k ++ keyPushes E K ks

/-- An emitter for the examples: `PUSH1`..`PUSH16` are the bytes 0x51..0x60,
`PUSHBYTES33` is 0x21 and `CHECKMULTISIG` is 0xae; any other integer is pushed
as its 8 little-endian bytes. -/
def exampleEmit : ScriptEmit where
  EmitInt := fun i => if 1 ≤ i ∧ i ≤ 16 then [0x50 + i.toNat] else 8 :: u64le (i % 2 ^ 64).toNat
  EmitBytes := fun b => b.length :: b
  EmitOpcode := fun op => [op]
  PUSHBYTES33 := 0x21
  CHECKMULTISIG := 0xae

/-- Lexicographic order of byte strings. -/
def bytesLess : List Nat → List Nat → Bool
  | [], [] => false
  | [], _ :: _ => true
  | _ :: _, [] => false
  | a :: as, b :: bs => if a < b then true else if b < a then false else bytesLess as bs

/-- Keys for the examples: a key is its encoding, and the keys are ordered "by
encoded bytes". -/
def exampleKeys : KeyOps (List Nat) where
  Bytes := fun k => k
  Less := bytesLess

/-- Three keys of 33 bytes each. -/
def exampleKeyList : List (List Nat) :=
  [3 :: List.replicate 32 7, 2 :: List.replicate 32 9, 3 :: List.replicate 32 1]

/-! ## Package network: the block queue -/

/-- The method `Block.Compare` of block.go, the order of the items of the
priority queue: 1, 0 or -1 as the index of `b` is greater than, equal to or
less than the index of `other`. -/
def Block.Compare (b other : Block) : Int :=
  if b.Index > other.Index then 1
  else if b.Index = other.Index then 0
  else -1

/-- A value of type `*block.Block`: the address, which makes two pointers the
same item of the queue, and the block that it points to. -/
structure BlockPtr where
  addr : Nat
  block : Block
  deriving DecidableEq, Repr

/-- The item of a list that `Compare` ranks lowest, the first of them when
several rank equal. -/
def minItem : List BlockPtr → Option BlockPtr
  | [] => none
  | x :: xs =>
    match minItem xs with
    | none => some x
    | some y => if y.block.Compare x.block < 0 then some y else some x

/-- The type `queue.PriorityQueue` of the library
github.com/Workiva/go-datastructures, which is not part of the repository; it
is described by what the library documents, for a queue made by
`NewPriorityQueue(capacity, false)`: the items held, until `Dispose` is
called.  The library keeps the items in a heap ordered by `Compare`; which of
several items of equal rank comes first is not specified, the one put first
stands for it. -/
inductive PriorityQueue
  | live (items : List BlockPtr)
  | disposed
  deriving DecidableEq, Repr

/-- The items of the queue; a disposed queue has none. -/
def PriorityQueue.items : PriorityQueue → List BlockPtr
  | .live items => items
  | .disposed => []

/-- The method `PriorityQueue.Len`. -/
def PriorityQueue.Len (pq : PriorityQueue) : Nat := pq.items.length

/-- The method `PriorityQueue.Peek`: the item that ranks lowest, `none` (nil)
when there is no item. -/
def PriorityQueue.Peek (pq : PriorityQueue) : Option BlockPtr := minItem pq.items

/-- The method `PriorityQueue.Put` for one item: the error `ErrDisposed` on a
disposed queue; without duplicates allowed, an item that the queue holds is not
added again. -/
def PriorityQueue.Put (pq : PriorityQueue) (item : BlockPtr) : PriorityQueue × Option Err :=
  match pq with
  | .disposed => (.disposed, some .errDisposed)
  | .live items => if item ∈ items then (.live items, none) else (.live (items ++ [item]), none)

/-- The call `PriorityQueue.Get(1)`: the item that ranks lowest is removed and
returned; the error `ErrDisposed` on a disposed queue.  On a queue without
items the call of the library waits for one; the code calls `Get` only after
`Peek` has returned an item, and nothing is returned here. -/
def PriorityQueue.Get1 (pq : PriorityQueue) : Option BlockPtr × PriorityQueue × Option Err :=
  match pq with
  | .disposed => (none, .disposed, some .errDisposed)
  | .live items =>
    match minItem items with
    | none => (none, .live items, none)
    | some m => (some m, .live (items.erase m), none)

/-- The method `PriorityQueue.Dispose`. -/
def PriorityQueue.Dispose (_ : PriorityQueue) : PriorityQueue := .disposed

/-- The channel `checkBlocks`, made by `make(chan struct{}, 1)`: the number of
values in its buffer, at most 1, and whether it has been closed. -/
structure Chan where
  buffered : Nat
  closed : Bool
  deriving DecidableEq, Repr

/-- The methods of the interface `core.Blockchainer` that the block queue
calls; the interface is missing from src and the chain is a parameter.
`BlockHeight` is a `uint32`; `AddBlock` gives the chain after the call and the
error returned; `GetBlockFails` says whether `GetBlock(minblock.Hash())`
returns an error. -/
structure Blockchainer (χ : Type) where
  BlockHeight : χ → Nat
  AddBlock : χ → BlockPtr → χ × Option Err
  GetBlockFails : χ → BlockPtr → Bool

/-- The struct `blockQueue`, without its logger; `relayF` says whether the
function `relayF` is not nil. -/
structure blockQueue (χ : Type) where
  queue : PriorityQueue
  checkBlocks : Chan
  chain : χ
  relayF : Bool

/-- The method `blockQueue.length`. -/
def blockQueue.length (bq : blockQueue χ) : Nat := bq.queue.Len

/-- The method `blockQueue.putBlock`: the block queue after the call and the
error returned; `none` is the panic of a send on a closed channel.  The
`select` with a `default` puts a value into the buffer of `checkBlocks` when
there is room and goes on when there is none. -/
def blockQueue.putBlock (B : Blockchainer χ) (bq : blockQueue χ) (block : BlockPtr) :
    Option (blockQueue χ × Option Err) :=
  if B.BlockHeight bq.chain ≥ block.block.Index then some (bq, none)
  else
    let r := bq.queue.Put block
    let bq1 := { bq with queue := r.1 }
    if bq1.checkBlocks.closed then none
    else if bq1.checkBlocks.buffered < 1 then
      some ({ bq1 with checkBlocks := { bq1.checkBlocks with buffered := 1 } }, r.2)
    else some (bq1, r.2)

/-- The method `blockQueue.discard`; `none` is the panic of closing a closed
channel. -/
def blockQueue.discard (bq : blockQueue χ) : Option (blockQueue χ) :=
  if bq.checkBlocks.closed then none
  else some { bq with checkBlocks := { bq.checkBlocks with closed := true },
                      queue := bq.queue.Dispose }

/-- What the worker does in a pass, in the order in which it does it:
`removed c b`, the call `bq.queue.Get(1)` took `b` out of the queue while the
chain was `c`;
`addBlock c b`, the call `bq.chain.AddBlock(b)` was made on the chain `c`;
`relayed b`, the call `bq.relayF(b)`; `warned b`, the warning of the log. -/
inductive WorkerEvent (χ : Type)
  | removed (c : χ) (b : BlockPtr)
  | addBlock (c : χ) (b : BlockPtr)
  | relayed (b : BlockPtr)
  | warned (b : BlockPtr)

/-- One iteration of the inner loop of `blockQueue.run` in which no other
goroutine acts on the queue or on the chain between the calls of the worker:
`none` when the loop breaks, else the block queue after the iteration and what
the worker did.  The sum `bq.chain.BlockHeight()+1` is a `uint32`.  The worker
among other goroutines is `blockQueue.step` and `blockQueue.run` below. -/
def blockQueue.drainStep (B : Blockchainer χ) (bq : blockQueue χ) :
    Option (blockQueue χ × List (WorkerEvent χ)) :=
  match bq.queue.Peek with
  | none => none
  | some minblock =>
    if minblock.block.Index ≤ (B.BlockHeight bq.chain + 1) % 2 ^ 32 then
      let got := bq.queue.Get1
      let bq1 := { bq with queue := got.2.1 }
      let ev1 := got.1.toList.map (WorkerEvent.removed bq.chain)
      if minblock.block.Index = (B.BlockHeight bq1.chain + 1) % 2 ^ 32 then
        let r := B.AddBlock bq1.chain minblock
        let bq2 := { bq1 with chain := r.1 }
        let ev2 :=
          match r.2 with
          | some _ => if B.GetBlockFails bq2.chain minblock then [WorkerEvent.warned minblock] else []
          | none => if bq2.relayF then [WorkerEvent.relayed minblock] else []
        some (bq2, ev1 ++ [WorkerEvent.addBlock bq1.chain minblock] ++ ev2)
      else some (bq1, ev1)
    else none

/-- The inner loop of `blockQueue.run`, one pass over the queue in which no
other goroutine acts in between: the block queue when the loop breaks and what
the worker did.  The first number bounds the number of iterations; `none` says
that the bound was too small. -/
def blockQueue.drain (B : Blockchainer χ) :
    Nat → blockQueue χ → Option (blockQueue χ × List (WorkerEvent χ))
  | 0, _ => none
  | fuel + 1, bq =>
    match bq.drainStep B with
    | none => some (bq, [])
    | some s => (blockQueue.drain B fuel s.1).map fun r => (r.1, s.2 ++ r.2)

/-- The function `newBlockQueue`, for a logger that is not nil: an empty
queue and an open channel without a value. -/
def newBlockQueue (bc : χ) (relayer : Bool) : blockQueue χ :=
  { queue := .live [], checkBlocks := { buffered := 0, closed := false },
    chain := bc, relayF := relayer }

/-- Where the worker stands in `blockQueue.run`, with its local variables:
`receive`, at the receive from `checkBlocks` of the outer loop; `peek`, at the
call `bq.queue.Peek()`; `compare minblock`, at the test
`minblock.Index <= bq.chain.BlockHeight()+1`; `get minblock`, at the call
`bq.queue.Get(1)`; `test minblock`, at the test
`minblock.Index == bq.chain.BlockHeight()+1`; `add minblock seen`, at the call
`bq.chain.AddBlock(minblock)`, where `seen` is the chain that the test has
read; `failed minblock err`, at the call `bq.chain.GetBlock(minblock.Hash())`
after the error `err` of `AddBlock`; `done`, after the break of the outer
loop. -/
inductive Worker (χ : Type)
  | receive
  | peek
  | compare (minblock : BlockPtr)
  | get (minblock : BlockPtr)
  | test (minblock : BlockPtr)
  | add (minblock : BlockPtr) (seen : χ)
  | failed (minblock : BlockPtr) (err : Err)
  | done

/-- What the worker does in a run, in the order in which it does it:
`removed c b`, the call `bq.queue.Get(1)` took `b` out of the queue while the
chain was `c`; `addBlock seen c b`, the call `bq.chain.AddBlock(b)` was made on
the chain `c`, after the test `minblock.Index == bq.chain.BlockHeight()+1` had
read the chain `seen`; `relayed b`, the call `bq.relayF(b)`; `warned b`, the
warning of the log. -/
inductive RunEvent (χ : Type)
  | removed (c : χ) (b : BlockPtr)
  | addBlock (seen c : χ) (b : BlockPtr)
  | relayed (b : BlockPtr)
  | warned (b : BlockPtr)

/-- One step of the worker in `blockQueue.run`, from one call on the channel,
the queue or the chain to the next: the block queue and the place of the worker
after the step, and what the worker did.  Each of these calls is one step: the
queue and the chain are shared with other goroutines, which can act between
any two steps.  A receive without a value waits on an open channel and breaks
the outer loop on a closed one.  The sum `bq.chain.BlockHeight()+1` is a
`uint32`. -/
def blockQueue.step (B : Blockchainer χ) (bq : blockQueue χ) :
    Worker χ → blockQueue χ × Worker χ × List (RunEvent χ)
  | .receive =>
    if 0 < bq.checkBlocks.buffered then
      ({ bq with
          checkBlocks := { bq.checkBlocks with buffered := bq.checkBlocks.buffered - 1 } },
        .peek, [])
    else if bq.checkBlocks.closed then (bq, .done, [])
    else (bq, .receive, [])
  | .peek =>
    match bq.queue.Peek with
    | none => (bq, .receive, [])
    | some minblock => (bq, .compare minblock, [])
  | .compare minblock =>
    if minblock.block.Index ≤ (B.BlockHeight bq.chain + 1) % 2 ^ 32 then (bq, .get minblock, [])
    else (bq, .receive, [])
  | .get minblock =>
    let got := bq.queue.Get1
    ({ bq with queue := got.2.1 }, .test minblock,
      got.1.toList.map (RunEvent.removed bq.chain))
  | .test minblock =>
    if minblock.block.Index = (B.BlockHeight bq.chain + 1) % 2 ^ 32 then
      (bq, .add minblock bq.chain, [])
    else (bq, .peek, [])
  | .add minblock seen =>
    let r := B.AddBlock bq.chain minblock
    match r.2 with
    | some err =>
      ({ bq with chain := r.1 }, .failed minblock err, [RunEvent.addBlock seen bq.chain minblock])
    | none =>
      ({ bq with chain := r.1 }, .peek,
        RunEvent.addBlock seen bq.chain minblock ::
          (if bq.relayF then [RunEvent.relayed minblock] else []))
  | .failed minblock _ =>
    (bq, .peek, if B.GetBlockFails bq.chain minblock then [RunEvent.warned minblock] else [])
  | .done => (bq, .done, [])

/-- What happens to a block queue, one step after the other: a goroutine calls
`putBlock` or `discard`, the chain changes (blocks also reach it from the
consensus, "bypassing the block queue"), or the worker takes one step of
`run`. -/
inductive Action (χ : Type)
  | putBlock (block : BlockPtr)
  | setChain (c : χ)
  | discard
  | work

/-- The method `blockQueue.run`, the worker, together with the goroutines that
act on the block queue while it runs, in any order of their steps: the block
queue and the place of the worker after the actions, and what the worker did.
A panic (of `putBlock` or `discard` on a closed channel) ends the program. -/
def blockQueue.run (B : Blockchainer χ) :
    List (Action χ) → blockQueue χ → Worker χ → blockQueue χ × Worker χ × List (RunEvent χ)
  | [], bq, w => (bq, w, [])
  | .putBlock block :: as, bq, w =>
    match bq.putBlock B block with
    | none => (bq, w, [])
    | some r => blockQueue.run B as r.1 w
  | .setChain c :: as, bq, w => blockQueue.run B as { bq with chain := c } w
  | .discard :: as, bq, w =>
    match bq.discard with
    | none => (bq, w, [])
    | some bq1 => blockQueue.run B as bq1 w
  | .work :: as, bq, w =>
    let s := bq.step B w
    let t := blockQueue.run B as s.1 s.2.1
    (t.1, t.2.1, s.2.2 ++ t.2.2)

/-- The block that the worker holds has an index of at least 1, and at the call
of `AddBlock` its index is the height of the chain that the test has read, plus
one as a `uint32`. -/
def Worker.Inv (B : Blockchainer χ) : Worker χ → Prop
  | .compare m => 1 ≤ m.block.Index
  | .get m => 1 ≤ m.block.Index
  | .test m => 1 ≤ m.block.Index
  | .add m seen => 1 ≤ m.block.Index ∧ m.block.Index = (B.BlockHeight seen + 1) % 2 ^ 32
  | _ => True


/-- An event of a pass over the queue as an event of a run: in a pass the chain
at the call of `AddBlock` is the chain that the test has read. -/
def WorkerEvent.toRunEvent : WorkerEvent χ → RunEvent χ
  | .removed c b => .removed c b
  | .addBlock c b => .addBlock c c b
  | .relayed b => .relayed b
  | .warned b => .warned b

/-- Every block of the queue has an index of at least 1. -/
def blockQueue.Inv (bq : blockQueue χ) : Prop :=
  ∀ x ∈ bq.queue.items, 1 ≤ x.block.Index

/-- A block of the given index, for the examples. -/
def exampleBlockAt (index : Nat) : BlockPtr :=
  { addr := index, block := { exampleBlock with Index := index } }

/-- A chain for the examples: the chain is the number of blocks added to the
genesis block, its height is this number as a `uint32`; `AddBlock` takes the
block whose index is the height plus one and fails on any other. -/
def exampleChain : Blockchainer Nat where
  BlockHeight := fun c => c % 2 ^ 32
  AddBlock := fun c b =>
    if b.block.Index = c % 2 ^ 32 + 1 then (c + 1, none) else (c, some .invalidFormat)
  GetBlockFails := fun c b => decide (c % 2 ^ 32 < b.block.Index)

/-- A block queue for the examples, at the given height, with the given items. -/
def exampleQueue (height : Nat) (items : List BlockPtr) : blockQueue Nat :=
  { queue := .live items, checkBlocks := { buffered := 0, closed := false },
    chain := height, relayF := true }

/-! ## pkg/core/interop_neo.go -/

/-- The constant `BlocksPerYear`. -/
def BlocksPerYear : Nat := 2000000

/-- The constant `math.MaxUint32`. -/
def MaxUint32 : Nat := 4294967295

/-- Modelled from the spec: the constant `vm.MaxArraySize`, "array/map size ≤
1024". -/
def MaxArraySize : Nat := 1024

/-- The constant `MaxContractDescriptionLen`. -/
def MaxContractDescriptionLen : Nat := 65536

/-- The constant `MaxContractScriptSize`. -/
def MaxContractScriptSize : Nat := 1024 * 1024

/-- The constant `MaxContractParametersNum`. -/
def MaxContractParametersNum : Nat := 252

/-- The constant `MaxContractStringLen`. -/
def MaxContractStringLen : Nat := 252

/-- The struct `transaction.Attribute`, missing from src: the fields that the
handlers read. -/
structure Attribute where
  Usage : Nat
  Data : List Nat
  deriving DecidableEq, Repr

/-- The struct `transaction.Input`, missing from src: "`inputs[i] =
(prev_tx_hash, prev_index)`". -/
structure Input where
  PrevHash : Uint256
  PrevIndex : Nat
  deriving DecidableEq, Repr

/-- The struct `transaction.Output` of output.go. -/
structure Output where
  AssetID : Uint256
  Amount : Fixed8
  ScriptHash : Uint160
  Position : Int
  deriving DecidableEq, Repr

/-- The struct `transaction.InOut`, missing from src: an input and the output
that it spends. -/
structure InOut where
  In : Input
  Out : Output
  deriving DecidableEq, Repr

/-- The struct `state.OutputState`, as the test of `state.UnspentCoin` builds
it. -/
structure OutputState where
  Output : Neo.Output
  SpendHeight : Nat
  State : Nat
  deriving DecidableEq, Repr

/-- The struct `state.UnspentCoin`. -/
structure UnspentCoin where
  Height : Nat
  States : List OutputState
  deriving DecidableEq, Repr

/-- The fields of `transaction.Transaction` that the handlers read, next to
those of `Transaction`. -/
structure FullTransaction extends Transaction where
  Attributes : List Attribute
  Inputs : List Input
  Outputs : List Output
  Scripts : List Witness
  deriving DecidableEq, Repr

/-- The struct `state.Asset`, missing from src: the identifier and the
expiration, a `uint32`; `rest` stands for the other fields, which `assetRenew`
does not touch. -/
structure Asset where
  ID : Uint256
  Expiration : Nat
  rest : List Nat
  deriving DecidableEq, Repr

/-- The struct `state.Contract`, with the fields that
`createContractStateFromVM` sets. -/
structure Contract where
  Script : List Nat
  ParamList : List Nat
  ReturnType : Int
  Properties : Int
  Name : List Nat
  CodeVersion : List Nat
  Author : List Nat
  Email : List Nat
  Description : List Nat
  deriving DecidableEq, Repr

/-- The struct `state.Account`, missing from src: the script hash and the
votes, each public key given by its encoding `Bytes()`. -/
structure Account where
  ScriptHash : Uint160
  Votes : List (List Nat)
  deriving DecidableEq, Repr

/-- The struct `state.Validator`, missing from src: the public key, given by
its encoding `Bytes()`. -/
structure Validator where
  PublicKey : List Nat
  deriving DecidableEq, Repr

/-- The Go values that the handlers wrap into an interop item and find in
one. -/
inductive InteropValue
  | Transaction (tx : FullTransaction)
  | Attribute (a : Neo.Attribute)
  | Input (i : Neo.Input)
  | Output (o : Neo.Output)
  | InOut (io : Neo.InOut)
  | Witness (w : Neo.Witness)
  | Asset (a : Neo.Asset)
  | Contract (c : Neo.Contract)
  | Account (a : Neo.Account)
  deriving DecidableEq, Repr

/-- An element of the evaluation stack, the item that it holds given as a
tree: what `PushVal` makes of a Go value, and what `Pop` returns. -/
inductive Element
  | Interop (v : InteropValue)
  | Integer (v : Int)
  | Bytes (b : List Nat)
  | Bool (b : Bool)
  | Array (a : List Element)
  deriving Repr

/-- The struct `interopContext`: the chain, the trigger and the DAO. -/
structure interopContext (δ χ : Type) where
  bc : χ
  trigger : Nat
  dao : δ

/-- What the handlers call and what is missing from src: the methods of the
chain and of the DAO, the conversions of a stack element (`none` is a panic),
the hash of a script, and constants.  `BlockHeight` is a `uint32`;
`Int64` stands for `BigInt().Int64()`; a `Put` method gives the DAO after the
call and the error returned. -/
structure Interops (δ χ : Type) where
  BlockHeight : χ → Nat
  References : χ → FullTransaction → Except Err (List InOut)
  GetAssetState : δ → Uint256 → Except Err Asset
  PutAssetState : δ → Asset → δ × Option Err
  GetContractState : δ → Uint160 → Except Err Contract
  PutContractState : δ → Contract → δ × Option Err
  GetUnspentCoinState : δ → Uint256 → Except Err UnspentCoin
  GetValidators : δ → List Validator
  Hash160 : List Nat → Uint160
  Int64 : Element → Option Int
  Bytes : Element → Option (List Nat)
  Application : Nat
  CoinSpent : Nat

/-- Outcome of a handler: `none` is a panic (the `Pop` of an empty stack, a
conversion that fails), else the context and the evaluation stack after the
call, the top first, and the error returned. -/
abbrev HandlerResult (δ χ : Type) := Option (interopContext δ χ × List Element × Option Err)

/-- The method `interopContext.assetRenew`. -/
def assetRenew (I : Interops δ χ) (ic : interopContext δ χ) (estack : List Element) :
    HandlerResult δ χ :=
  if ic.trigger ≠ I.Application then some (ic, estack, some .assetNotApplication)
  else
    match estack with
    | [] => none
    | .Interop (.Asset _) :: [] => none
    | .Interop (.Asset as) :: y :: st =>
      match I.Int64 y with
      | none => none
      | some y64 =>
        let years := (y64 % 256).toNat
        match I.GetAssetState ic.dao as.ID with
        | .error _ => some (ic, st, some .nonExistentAsset)
        | .ok asset =>
          let asset1 : Asset :=
            if asset.Expiration < (I.BlockHeight ic.bc + 1) % 2 ^ 32 then
              { asset with Expiration := (I.BlockHeight ic.bc + 1) % 2 ^ 32 }
            else asset
          let expiration := (asset1.Expiration + years * BlocksPerYear) % 2 ^ 64
          let expiration1 := if expiration > MaxUint32 then MaxUint32 else expiration
          let asset2 : Asset := { asset1 with Expiration := expiration1 % 2 ^ 32 }
          let p := I.PutAssetState ic.dao asset2
          match p.2 with
          | some _ => some ({ ic with dao := p.1 }, st, some .failedToStoreAsset)
          | none => some ({ ic with dao := p.1 }, .Integer expiration1 :: st, none)
    | _ :: st => some (ic, st, some .notAssetState)

/-- The call `v.Estack().Pop().Bytes()`: the bytes of the top element and the
rest of the stack; `none` is a panic. -/
def popBytes (I : Interops δ χ) : List Element → Option (List Nat × List Element)
  | [] => none
  | x :: st => (I.Bytes x).map fun b => (b, st)

/-- The call `v.Estack().Pop().BigInt().Int64()`. -/
def popInt64 (I : Interops δ χ) : List Element → Option (Int × List Element)
  | [] => none
  | x :: st => (I.Int64 x).map fun n => (n, st)

/-- The method `interopContext.createContractStateFromVM`: the evaluation stack
after the call and the contract or the error returned; `none` is a panic.  The
types `smartcontract.ParamType` and `smartcontract.PropertyState` are missing
from src; the values converted to them are kept as they were popped. -/
def createContractStateFromVM (I : Interops δ χ) (ic : interopContext δ χ)
    (estack : List Element) : Option (List Element × Except Err Contract) :=
  if ic.trigger ≠ I.Application then some (estack, .error .contractNotApplication)
  else
    (popBytes I estack).bind fun script =>
    if script.1.length > MaxContractScriptSize then some (script.2, .error .scriptTooBig)
    else
    (popBytes I script.2).bind fun paramBytes =>
    if paramBytes.1.length > MaxContractParametersNum then
      some (paramBytes.2, .error .tooManyParameters)
    else
    (popInt64 I paramBytes.2).bind fun retType =>
    (popInt64 I retType.2).bind fun properties =>
    (popBytes I properties.2).bind fun name =>
    if name.1.length > MaxContractStringLen then some (name.2, .error .tooBigName)
    else
    (popBytes I name.2).bind fun version =>
    if version.1.length > MaxContractStringLen then some (version.2, .error .tooBigVersion)
    else
    (popBytes I version.2).bind fun author =>
    if author.1.length > MaxContractStringLen then some (author.2, .error .tooBigAuthor)
    else
    (popBytes I author.2).bind fun email =>
    if email.1.length > MaxContractStringLen then some (email.2, .error .tooBigEmail)
    else
    (popBytes I email.2).bind fun desc =>
    if desc.1.length > MaxContractDescriptionLen then some (desc.2, .error .tooBigDescription)
    else
      some (desc.2, .ok
        { Script := script.1, ParamList := paramBytes.1, ReturnType := retType.1,
          Properties := properties.1, Name := name.1, CodeVersion := version.1,
          Author := author.1, Email := email.1, Description := desc.1 })

/-- The method `state.Contract.ScriptHash`, missing from src:
"`script_hash(script)`", the hash of the script. -/
def Contract.ScriptHash (I : Interops δ χ) (c : Contract) : Uint160 := I.Hash160 c.Script

/-- The method `interopContext.contractCreate`. -/
def contractCreate (I : Interops δ χ) (ic : interopContext δ χ) (estack : List Element) :
    HandlerResult δ χ :=
  match createContractStateFromVM I ic estack with
  | none => none
  | some (st, .error err) => some (ic, st, some err)
  | some (st, .ok newcontract) =>
    match I.GetContractState ic.dao (newcontract.ScriptHash I) with
    | .ok contract => some (ic, .Interop (.Contract contract) :: st, none)
    | .error _ =>
      match I.PutContractState ic.dao newcontract with
      | (dao1, some err) => some ({ ic with dao := dao1 }, st, some err)
      | (dao1, none) => some ({ ic with dao := dao1 }, .Interop (.Contract newcontract) :: st, none)

/-- The method `interopContext.txGetAttributes`. -/
def txGetAttributes (ic : interopContext δ χ) (estack : List Element) : HandlerResult δ χ :=
  match estack with
  | [] => none
  | .Interop (.Transaction tx) :: st =>
    if tx.Attributes.length > MaxArraySize then some (ic, st, some .tooManyAttributes)
    else some (ic, .Array (tx.Attributes.map fun a => .Interop (.Attribute a)) :: st, none)
  | _ :: st => some (ic, st, some .notTransaction)

/-- The method `interopContext.txGetInputs`. -/
def txGetInputs (ic : interopContext δ χ) (estack : List Element) : HandlerResult δ χ :=
  match estack with
  | [] => none
  | .Interop (.Transaction tx) :: st =>
    if tx.Inputs.length > MaxArraySize then some (ic, st, some .tooManyInputs)
    else some (ic, .Array (tx.Inputs.map fun i => .Interop (.Input i)) :: st, none)
  | _ :: st => some (ic, st, some .notTransaction)

/-- The method `interopContext.txGetOutputs`. -/
def txGetOutputs (ic : interopContext δ χ) (estack : List Element) : HandlerResult δ χ :=
  match estack with
  | [] => none
  | .Interop (.Transaction tx) :: st =>
    if tx.Outputs.length > MaxArraySize then some (ic, st, some .tooManyOutputs)
    else some (ic, .Array (tx.Outputs.map fun o => .Interop (.Output o)) :: st, none)
  | _ :: st => some (ic, st, some .notTransaction)

/-- The method `interopContext.txGetReferences`: for each input, the first
reference whose input it is. -/
def txGetReferences (I : Interops δ χ) (ic : interopContext δ χ) (estack : List Element) :
    HandlerResult δ χ :=
  match estack with
  | [] => none
  | .Interop (.Transaction tx) :: st =>
    match I.References ic.bc tx with
    | .error err => some (ic, st, some err)
    | .ok refs =>
      if refs.length > MaxArraySize then some (ic, st, some .tooManyReferences)
      else
        let stackrefs := tx.Inputs.filterMap fun i =>
          (refs.find? fun r => decide (r.In = i)).map fun r => Element.Interop (.InOut r)
        some (ic, .Array stackrefs :: st, none)
  | _ :: st => some (ic, st, some .typeMismatch)

/-- The method `interopContext.txGetUnspentCoins`. -/
def txGetUnspentCoins (I : Interops δ χ) (ic : interopContext δ χ) (estack : List Element) :
    HandlerResult δ χ :=
  match estack with
  | [] => none
  | .Interop (.Transaction tx) :: st =>
    match I.GetUnspentCoinState ic.dao tx.Hash with
    | .error err =>
      if err = .errKeyNotFound then some (ic, .Array [] :: st, none)
      else some (ic, st, some .noUnspentCoinState)
    | .ok ucs =>
      let items := (ucs.States.filter fun s => s.State &&& I.CoinSpent = 0).map fun s =>
        Element.Interop (.Output s.Output)
      some (ic, .Array items :: st, none)
  | _ :: st => some (ic, st, some .notTransaction)

/-- The method `interopContext.txGetWitnesses`. -/
def txGetWitnesses (ic : interopContext δ χ) (estack : List Element) : HandlerResult δ χ :=
  match estack with
  | [] => none
  | .Interop (.Transaction tx) :: st =>
    if tx.Scripts.length > MaxArraySize then some (ic, st, some .tooManyOutputs)
    else some (ic, .Array (tx.Scripts.map fun w => .Interop (.Witness w)) :: st, none)
  | _ :: st => some (ic, st, some .notTransaction)

/-- The method `interopContext.bcGetValidators`. -/
def bcGetValidators (I : Interops δ χ) (ic : interopContext δ χ) (estack : List Element) :
    HandlerResult δ χ :=
  let valStates := I.GetValidators ic.dao
  if valStates.length > MaxArraySize then some (ic, estack, some .tooManyValidators)
  else some (ic, .Array (valStates.map fun val => .Bytes val.PublicKey) :: estack, none)

/-- The method `interopContext.accountGetVotes`. -/
def accountGetVotes (ic : interopContext δ χ) (estack : List Element) : HandlerResult δ χ :=
  match estack with
  | [] => none
  | .Interop (.Account acc) :: st =>
    if acc.Votes.length > MaxArraySize then some (ic, st, some .tooManyVotes)
    else some (ic, .Array (acc.Votes.map fun key => .Bytes key) :: st, none)
  | _ :: st => some (ic, st, some .notAccountState)

/-- A handler "either pushes an array of at most 1024 elements or returns an
error without pushing": with no error the top of the stack is an array of at
most `MaxArraySize` elements; with an error the stack is what is left of
`estack` after the element popped. -/
def PushesBoundedArray (estack : List Element) (r : HandlerResult δ χ) : Prop :=
  match r with
  | none => True
  | some (_, st, none) => ∃ a rest, st = .Array a :: rest ∧ a.length ≤ MaxArraySize
  | some (_, st, some _) => st = estack ∨ st = estack.tail

/-- What a DAO does: a contract that `PutContractState` has taken is what
`GetContractState` returns for its script hash. -/
def Interops.PutGetContract (I : Interops δ χ) : Prop :=
  ∀ d c d1, I.PutContractState d c = (d1, none) →
    I.GetContractState d1 (c.ScriptHash I) = .ok c

/-- The expiration that the claim names: `min(max(e, h + 1) + years * 2000000,
2^32 - 1)`. -/
def renewedExpiration (e h years : Nat) : Nat :=
  min (max e (h + 1) + years * 2000000) (2 ^ 32 - 1)

/-- A DAO for the examples: the assets and the contracts that it holds, the
latest first, and the unspent coins by transaction hash. -/
structure ExampleDAO where
  assets : List Asset
  contracts : List (Uint160 × Contract)
  unspent : List (Uint256 × UnspentCoin)
  validators : List Validator
  deriving DecidableEq, Repr

/-- An interop environment for the examples over `ExampleDAO`; the chain is its
height.  An element converts to an integer or to bytes only when it holds
one; the hash of a script is made of its first 20 bytes. -/
def exampleInterops : Interops ExampleDAO Nat where
  BlockHeight := fun c => c % 2 ^ 32
  References := fun _ tx => .ok (tx.Inputs.map fun i =>
    { In := i, Out := { AssetID := i.PrevHash, Amount := ⟨0⟩, ScriptHash := [], Position := 0 } })
  GetAssetState := fun d id =>
    match d.assets.find? (fun a => decide (a.ID = id)) with
    | some a => .ok a
    | none => .error .errKeyNotFound
  PutAssetState := fun d a => ({ d with assets := a :: d.assets }, none)
  GetContractState := fun d h =>
    match d.contracts.find? (fun c => decide (c.1 = h)) with
    | some c => .ok c.2
    | none => .error .errKeyNotFound
  PutContractState := fun d c =>
    ({ d with contracts := ((c.Script ++ List.replicate 20 0).take 20, c) :: d.contracts }, none)
  GetUnspentCoinState := fun d h =>
    match d.unspent.find? (fun u => decide (u.1 = h)) with
    | some u => .ok u.2
    | none => .error .errKeyNotFound
  GetValidators := fun d => d.validators
  Hash160 := fun s => (s ++ List.replicate 20 0).take 20
  Int64 := fun e => match e with
    | .Integer v => some v
    | _ => none
  Bytes := fun e => match e with
    | .Bytes b => some b
    | _ => none
  Application := 0x10
  CoinSpent := 2

/-- An asset for the examples, with the expiration 4000000. -/
def exampleAsset : Asset := { ID := List.replicate 32 7, Expiration := 4000000, rest := [] }

/-- A context for the examples at the height 5000000, triggered by an
application, whose DAO holds `exampleAsset`. -/
def exampleContext : interopContext ExampleDAO Nat :=
  { bc := 5000000, trigger := 0x10,
    dao := { assets := [exampleAsset], contracts := [], unspent := [], validators := [] } }

/-- The nine elements that `contractCreate` pops, the script first: the
script `[PUSH1 RET]`, no parameter, and metadata. -/
def exampleContractArgs : List Element :=
  [.Bytes [0x51, 0x66], .Bytes [], .Integer 1, .Integer 0, .Bytes [110], .Bytes [49],
    .Bytes [97], .Bytes [101], .Bytes [100]]

/-- The contract that `exampleContractArgs` describes. -/
def exampleContract : Contract :=
  { Script := [0x51, 0x66], ParamList := [], ReturnType := 1, Properties := 0, Name := [110],
    CodeVersion := [49], Author := [97], Email := [101], Description := [100] }

/-- The context of the examples after `contractCreate` has stored
`exampleContract`. -/
def exampleContextStored : interopContext ExampleDAO Nat :=
  { exampleContext with
    dao := { exampleContext.dao with
      contracts := [((exampleContract.Script ++ List.replicate 20 0).take 20, exampleContract)] } }

/-- An output state that is not spent. -/
def exampleOutputState : OutputState :=
  { Output := { AssetID := List.replicate 32 1, Amount := ⟨1⟩, ScriptHash := List.replicate 20 2,
                Position := 0 },
    SpendHeight := 0, State := 0 }

/-- A transaction without attributes, inputs, outputs and scripts listed. -/
def exampleTransaction : FullTransaction :=
  { txType := 0x80, hash := List.replicate 32 9, Trimmed := false,
    Attributes := [], Inputs := [], Outputs := [], Scripts := [] }

/-- A context whose DAO holds, for `exampleTransaction`, 1025 output states
that are not spent. -/
def exampleContextUnspent : interopContext ExampleDAO Nat :=
  { exampleContext with
    dao := { exampleContext.dao with
      unspent := [(exampleTransaction.hash,
        { Height := 1, States := List.replicate 1025 exampleOutputState })] } }

/-! ## pkg/core/state/notification_event.go -/

/-- The struct `NotificationEvent`; the item is an item of the heap before it
is encoded and a tree after it is decoded. -/
structure NotificationEvent (ι : Type) where
  ScriptHash : Uint160
  Item : ι

/-- The method `NotificationEvent.EncodeBinary`; `none` says that the depth
bound of the serializer was too small. -/
def NotificationEvent.EncodeBinary (E : Emit) (h : Heap) (ne : NotificationEvent StackItem)
    (w : BinWriter) : Option BinWriter :=
  EncodeBinaryStackItem E h ne.Item (w.WriteBytes ne.ScriptHash)

/-- The method `NotificationEvent.DecodeBinary`: the receiver after the call
and the reader; the depth bound of the decoder is the length of the input
plus one. -/
def NotificationEvent.DecodeBinary (E : Emit) (ne : NotificationEvent ItemValue)
    (r : BinReader) : Exec (NotificationEvent ItemValue × BinReader) :=
  let s := r.ReadBytes ne.ScriptHash
  (DecodeBinaryStackItem E (r.data.length + 1) s.2).bind fun d =>
    .done ({ ScriptHash := s.1, Item := d.1 }, d.2)

/-- Success of the serializer `f` on an item, without error, gives the tree of
the item by `t`: no object of the tree is met twice or was seen before, and the
objects seen after the call are those of the tree and those seen before. -/
def SerTree (f : StackItem → BinWriter → List StackItem → Option SerState)
    (t : StackItem → Option (ItemValue × List StackItem)) : Prop :=
  ∀ x w seen r, f x w seen = some r → r.1.err = none →
    ∃ v refs, t x = some (v, refs) ∧ refs.Nodup ∧ (∀ y ∈ refs, y ∉ seen) ∧
      (∀ y, y ∈ r.2 ↔ y ∈ refs ∨ y ∈ seen)

/-- An event whose item is the array of `exampleTreeHeap`. -/
def exampleEvent : NotificationEvent StackItem :=
  { ScriptHash := List.replicate 20 3, Item := .ArrayItem 0 }

/-- The writer after `exampleEvent.EncodeBinary` on a fresh buffer. -/
def exampleEventWriter : BinWriter :=
  ⟨List.replicate 20 3 ++ [128, 3, 0, 2, 1, 2, 130, 2, 2, 2, 44, 1, 0, 0, 0, 1, 7, 1, 0,
    129, 2, 1, 1, 2, 1, 251], none⟩

/-! ## pkg/rpc/client/rpc.go -/

/-- A positional parameter of a JSON-RPC call, an `interface{}` in the program:
the values that the two transfer wrappers append are a `string`, a `uint32` or
an `int`. -/
inductive RawValue
  | string (s : String)
  | uint32 (n : Nat)
  | int (n : Int)
  deriving DecidableEq, Repr

/-- Modelled from the spec: the struct `request.RawParams`, missing from src;
`performRequest` sends its field `Values` as the parameters of the call. -/
structure RawParams where
  Values : List RawValue
  deriving DecidableEq, Repr

/-- Modelled from the spec: the function `request.NewRawParams`, missing from
src, makes the parameters that hold the values given. -/
def NewRawParams (vals : List RawValue) : RawParams := ⟨vals⟩

/-- The struct `Client`, as far as the wrappers use it: `performRequest` sends
the request with a method name and parameters and gives the decoded result or
an error. -/
structure Client (ρ : Type) where
  performRequest : String → RawParams → Except Err ρ

/-- The requests that a call has sent, oldest first, and what it returns. -/
abbrev Sent (ρ : Type) := List (String × RawParams) × Except Err ρ

/-- The method `Client.GetNEP5Transfers`; a nil pointer is `none`. -/
def Client.GetNEP5Transfers (c : Client ρ) (address : String) (start stop : Option Nat)
    (limit page : Option Int) : Sent ρ :=
  let params := NewRawParams [.string address]
  let built : Except Err RawParams :=
    match start with
    | some start =>
      let params : RawParams := ⟨params.Values ++ [.uint32 start]⟩
      match stop with
      | some stop =>
        let params : RawParams := ⟨params.Values ++ [.uint32 stop]⟩
        match limit with
        | some limit =>
          let params : RawParams := ⟨params.Values ++ [.int limit]⟩
          match page with
          | some page => .ok ⟨params.Values ++ [.int page]⟩
          | none => .ok params
        | none => if page ≠ none then .error .badParameters else .ok params
      | none => if limit ≠ none ∨ page ≠ none then .error .badParameters else .ok params
    | none =>
      if stop ≠ none ∨ limit ≠ none ∨ page ≠ none then .error .badParameters else .ok params
  match built with
  | .error e => ([], .error e)
  | .ok params =>
    ([("getnep5transfers", params)], c.performRequest "getnep5transfers" params)

/-- The method `Client.GetUTXOTransfers`; a nil pointer is `none`. -/
def Client.GetUTXOTransfers (c : Client ρ) (address : String) (start stop : Option Nat)
    (limit page : Option Int) : Sent ρ :=
  let params := NewRawParams [.string address]
  let built : Except Err RawParams :=
    match start with
    | some start =>
      let params : RawParams := ⟨params.Values ++ [.uint32 start]⟩
      match stop with
      | some stop =>
        let params : RawParams := ⟨params.Values ++ [.uint32 stop]⟩
        match limit with
        | some limit =>
          let params : RawParams := ⟨params.Values ++ [.int limit]⟩
          match page with
          | some page => .ok ⟨params.Values ++ [.int page]⟩
          | none => .ok params
        | none => if page ≠ none then .error .badParameters else .ok params
      | none => if limit ≠ none ∨ page ≠ none then .error .badParameters else .ok params
    | none =>
      if stop ≠ none ∨ limit ≠ none ∨ page ≠ none then .error .badParameters else .ok params
  match built with
  | .error e => ([], .error e)
  | .ok params =>
    ([("getutxotransfers", params)], c.performRequest "getutxotransfers" params)

/-- The optional arguments supplied are the first `k` of (start, stop, limit,
page), for some `k` from 0 to 4. -/
def suppliedLeading (start stop : Option Nat) (limit page : Option Int) : Bool :=
  (List.range 5).any fun k =>
    [start.isSome, stop.isSome, limit.isSome, page.isSome] =
      List.replicate k true ++ List.replicate (4 - k) false

/-- The values supplied, in the order start, stop, limit, page. -/
def suppliedValues (start stop : Option Nat) (limit page : Option Int) : List RawValue :=
  (start.map RawValue.uint32).toList ++ (stop.map RawValue.uint32).toList ++
    (limit.map RawValue.int).toList ++ (page.map RawValue.int).toList

/-- A client whose server answers every request with the number of its
parameters. -/
def exampleClient : Client Nat :=
  { performRequest := fun _ p => .ok p.Values.length }

/-! ## pkg/wallet/wallet.go -/

namespace wallet

/-- Modelled from the spec: the struct `Contract` of the wallet, missing from
src; `GetChangeAddress` reads its field `Script`. -/
structure Contract where
  Script : List Nat
  deriving DecidableEq, Repr

/-- Modelled from the spec: the struct `Account`, missing from src, with the
exported fields that wallet.go and its test use; a nil `Contract` is `none`. -/
structure Account where
  Address : String
  Label : String
  Contract : Option Contract
  Default : Bool
  deriving DecidableEq, Repr

/-- The functions `vm.IsSignatureContract` and `Contract.ScriptHash`, both
missing from src. -/
structure ContractOps where
  IsSignatureContract : List Nat → Bool
  ScriptHash : Contract → Uint160

/-- The struct `Wallet`: the version and the accounts. -/
structure Wallet where
  Version : String
  Accounts : List Account
  deriving DecidableEq, Repr

/-- The method `Wallet.AddAccount`. -/
def Wallet.AddAccount (w : Wallet) (acc : Account) : Wallet :=
  { w with Accounts := w.Accounts ++ [acc] }

/-- The builtin `copy(dst, src)` of Go: the first `min(len(dst), len(src))`
elements of `dst` are overwritten with those of `src`. -/
def copy (dst src : List α) : List α :=
  src.take dst.length ++ dst.drop src.length

/-- The loop of `Wallet.RemoveAccount` from index `i`, where `rest` holds the
accounts from `i` on: the wallet after the call and the error returned. -/
def Wallet.RemoveAccount.loop (w : Wallet) (addr : String) :
    Nat → List Account → Wallet × Option Err
  | _, [] => (w, some .accountNotFound)
  | i, acc :: rest =>
    if acc.Address = addr then
      let copied := w.Accounts.take i ++ copy (w.Accounts.drop i) (w.Accounts.drop (i + 1))
      ({ w with Accounts := copied.take (w.Accounts.length - 1) }, none)
    else Wallet.RemoveAccount.loop w addr (i + 1) rest

/-- The method `Wallet.RemoveAccount`: the wallet after the call and the error
returned. -/
def Wallet.RemoveAccount (w : Wallet) (addr : String) : Wallet × Option Err :=
  Wallet.RemoveAccount.loop w addr 0 w.Accounts

/-- The test `w.Accounts[i].Contract != nil &&
vm.IsSignatureContract(w.Accounts[i].Contract.Script)` of `GetChangeAddress`. -/
def hasSignatureContract (V : ContractOps) (a : Account) : Bool :=
  match a.Contract with
  | none => false
  | some c => V.IsSignatureContract c.Script

/-- The loop of `Wallet.GetChangeAddress`: the value of `acc` when the loop
ends, from its value before the accounts still to be visited. -/
def Wallet.GetChangeAddress.loop (V : ContractOps) : Option Account → List Account →
    Option Account
  | acc, [] => acc
  | acc, a :: rest =>
    if acc.isNone || a.Default then
      if hasSignatureContract V a then
        if a.Default then some a
        else Wallet.GetChangeAddress.loop V (some a) rest
      else Wallet.GetChangeAddress.loop V acc rest
    else Wallet.GetChangeAddress.loop V acc rest

/-- The method `Wallet.GetChangeAddress`; `none` is the panic of
`acc.Contract.ScriptHash()` on a nil contract. -/
def Wallet.GetChangeAddress (V : ContractOps) (w : Wallet) : Option Uint160 :=
  match Wallet.GetChangeAddress.loop V none w.Accounts with
  | none => some (List.replicate 20 0)
  | some acc =>
    match acc.Contract with
    | none => none
    | some c => some (V.ScriptHash c)

/-- The script hash of the contract of an account, the zero value when it has
none. -/
def accountScriptHash (V : ContractOps) (a : Account) : Uint160 :=
  match a.Contract with
  | none => List.replicate 20 0
  | some c => V.ScriptHash c

/-- Contract operations for examples: a script is a signature contract when its
first byte is 33, and its hash is the script filled up to 20 bytes. -/
def exampleContractOps : ContractOps :=
  { IsSignatureContract := fun s => s.head? == some 33,
    ScriptHash := fun c => (c.Script ++ List.replicate 20 0).take 20 }

/-- A wallet with four accounts, two of them with the address "b". -/
def exampleWallet : Wallet :=
  { Version := "1.0",
    Accounts :=
      [⟨"a", "first", some ⟨[33, 1]⟩, false⟩, ⟨"b", "second", none, true⟩,
        ⟨"c", "third", some ⟨[33, 3]⟩, true⟩, ⟨"b", "fourth", some ⟨[33, 4]⟩, true⟩] }

end wallet

/-- An array that holds the same empty array twice. -/
def exampleSharedHeap : Heap :=
  { arrays := [[.ArrayItem 1, .ArrayItem 1], []], structs := [], maps := [] }

/-- The function `strconv.FormatInt(v, 10)` of the Go standard library: the
decimal digits of the absolute value, after a `-` when `v` is negative. -/
def FormatInt (v : Int) : GoString :=
  if v < 0 then '-' :: Nat.toDigits 10 v.natAbs else Nat.toDigits 10 v.natAbs

/-- The call `strings.TrimRight(str, "0")` of the Go standard library: `str`
without its trailing characters `0`. -/
def TrimRightZeros (str : GoString) : GoString :=
  (str.reverse.dropWhile (fun c => c = '0')).reverse

/-- The method `Fixed8.String`: the negation, the division and the remainder are
those of `int64`. -/
def Fixed8.String (f : Fixed8) : GoString :=
  let sign : GoString := if f.val < 0 then ['-'] else []
  let val : Int := if f.val < 0 then toInt64 (-f.val) else f.val
  let str := FormatInt (Int.tdiv val decimals)
  let val1 := Int.tmod val decimals
  if val1 > 0 then
    let str1 := FormatInt val1
    sign ++ str ++ ['.'] ++ List.replicate (8 - str1.length) '0' ++ TrimRightZeros str1
  else sign ++ str

/-- The function `Fixed8FromInt64`: the product is taken in `int64`. -/
def Fixed8FromInt64 (val : Int) : Fixed8 := ⟨toInt64 (decimals * val)⟩

/-- The method `Fixed8.Div`: the quotient of the raw values, truncated towards
zero and taken in `int64`; `none` is the panic of an integer division by
zero. -/
def Fixed8.Div (f : Fixed8) (i : Int) : Option Fixed8 :=
  if (Fixed8FromInt64 i).val = 0 then none
  else some ⟨toInt64 (Int.tdiv f.val (Fixed8FromInt64 i).val)⟩

/-- The constant `MaxAssetNameLen`. -/
def MaxAssetNameLen : Nat := 1024

/-- The constant `MaxAssetPrecision`. -/
def MaxAssetPrecision : Nat := 8

/-- The constant `DefaultAssetLifetime`. -/
def DefaultAssetLifetime : Nat := 1 + BlocksPerYear

/-- Modelled from the spec: `util.Uint160DecodeBytesBE`, missing from src:
"`U160` (20 bytes, script hash)"; a slice of any other length is an error. -/
def Uint160DecodeBytesBE (b : List Nat) : Except Err Uint160 :=
  if b.length ≠ 20 then .error (.uint160Length b.length) else .ok b

/-- What `assetCreate` calls and what is missing from src: the conversion to
`transaction.AssetType` and its four constants, the hash of the transaction
`ic.tx`, the methods `DecodeBytes` and `IsInfinity` of `keys.PublicKey`, the
method `checkKeyedWitness`, and how the fields of `state.Asset` other than the
identifier and the expiration (type, name, amount, precision, owner, admin,
issuer) are kept in `Asset.rest`. -/
structure AssetOps (δ χ κ : Type) where
  toAssetType : Int → Nat
  Currency : Nat
  Share : Nat
  Invoice : Nat
  Token : Nat
  TxHash : interopContext δ χ → Uint256
  DecodeBytes : List Nat → Except Err κ
  IsInfinity : κ → Bool
  checkKeyedWitness : interopContext δ χ → κ → Except Err Bool
  AssetRest : Nat → List Nat → Fixed8 → Nat → κ → Uint160 → Uint160 → List Nat

/-- The method `interopContext.assetCreate`.  `precision` is the argument
converted to `byte`; `util.Satoshi()` is `Fixed8(1)`. -/
def assetCreate (I : Interops δ χ) (A : AssetOps δ χ κ) (ic : interopContext δ χ)
    (estack : List Element) : HandlerResult δ χ :=
  if ic.trigger ≠ I.Application then some (ic, estack, some .createNotApplication)
  else
    (popInt64 I estack).bind fun t =>
    let atype := A.toAssetType t.1
    if ¬ (atype = A.Currency ∨ atype = A.Share ∨ atype = A.Invoice ∨ atype = A.Token) then
      some (ic, t.2, some (.wrongAssetType atype))
    else
    (popBytes I t.2).bind fun name =>
    if name.1.length > MaxAssetNameLen then some (ic, name.2, some .tooBigName)
    else
    (popInt64 I name.2).bind fun am =>
    let amount : Fixed8 := ⟨am.1⟩
    if amount.val = 0 then some (ic, am.2, some .amountZero)
    else if amount.val < -1 then some (ic, am.2, some .amountNegative)
    else if atype = A.Invoice ∧ amount.val ≠ -1 then some (ic, am.2, some .invoiceAmount)
    else
    (popInt64 I am.2).bind fun pr =>
    let precision := (pr.1 % 256).toNat
    if precision > MaxAssetPrecision then some (ic, pr.2, some .precisionTooBig)
    else if atype = A.Share ∧ precision ≠ 0 then some (ic, pr.2, some .sharePrecision)
    else if amount.val ≠ -1 ∧
        Int.tmod amount.val (10 ^ (MaxAssetPrecision - precision)) ≠ 0 then
      some (ic, pr.2, some .amountFractional)
    else
    (popBytes I pr.2).bind fun ob =>
    match A.DecodeBytes ob.1 with
    | .error _ => some (ic, ob.2, some .failedOwnerKey)
    | .ok owner =>
      if A.IsInfinity owner then some (ic, ob.2, some .infinityOwner)
      else
        match A.checkKeyedWitness ic owner with
        | .error err => some (ic, ob.2, some err)
        | .ok witnessOk =>
          if !witnessOk then some (ic, ob.2, some .witnessCheckFailed)
          else
            (popBytes I ob.2).bind fun ab =>
            match Uint160DecodeBytesBE ab.1 with
            | .error _ => some (ic, ab.2, some .failedAdmin)
            | .ok admin =>
              (popBytes I ab.2).bind fun ib =>
              match Uint160DecodeBytesBE ib.1 with
              | .error _ => some (ic, ib.2, some .failedIssuer)
              | .ok issuer =>
                let asset : Asset :=
                  { ID := A.TxHash ic,
                    Expiration := (I.BlockHeight ic.bc + DefaultAssetLifetime) % 2 ^ 32,
                    rest := A.AssetRest atype name.1 amount precision owner admin issuer }
                let p := I.PutAssetState ic.dao asset
                match p.2 with
                | some _ => some ({ ic with dao := p.1 }, ib.2, some .failedToStoreAsset)
                | none => some ({ ic with dao := p.1 }, .Interop (.Asset asset) :: ib.2, none)

/-- Asset operations for the examples: the asset types of NEO, a key is its
encoding, every witness check succeeds, and `rest` holds the type, the
precision and the amount. -/
def exampleAssetOps : AssetOps ExampleDAO Nat (List Nat) where
  toAssetType := fun x => (x % 256).toNat
  Currency := 0x08
  Share := 0x90
  Invoice := 0x98
  Token := 0x60
  TxHash := fun _ => List.replicate 32 9
  DecodeBytes := fun b => .ok b
  IsInfinity := fun b => b == [0]
  checkKeyedWitness := fun _ _ => .ok true
  AssetRest := fun t _ a p _ _ _ => [t, p, a.val.toNat]

/-- A context whose DAO holds nothing, at height 5000000. -/
def exampleContextEmpty : interopContext ExampleDAO Nat :=
  { bc := 5000000, trigger := 0x10,
    dao := { assets := [], contracts := [], unspent := [], validators := [] } }

/-- The seven elements that `assetCreate` pops, the type first, for a Share
asset with the name "s", the amount 1.0 and the precision argument `p`. -/
def exampleAssetArgs (p : Int) : List Element :=
  [.Integer 0x90, .Bytes [115], .Integer 100000000, .Integer p, .Bytes [2, 1],
    .Bytes (List.replicate 20 1), .Bytes (List.replicate 20 2)]

/-- One level of the Merkle tree on hashes: adjacent hashes are paired left to
right, each parent is `DoubleSha256` of the left hash followed by the right
hash, and an unpaired last hash is paired with itself. -/
def merkleLevel : List Uint256 → List Uint256
  | [] => []
  | [a] => [DoubleSha256 (a.BytesBE ++ a.BytesBE)]
  | a :: b :: rest => DoubleSha256 (a.BytesBE ++ b.BytesBE) :: merkleLevel rest

/-- The hash that remains when `merkleLevel` is repeated until a single hash is
left, in at most `fuel` levels; nothing for the empty list or when the levels
run out. -/
def merkleLevels : Nat → List Uint256 → Option Uint256
  | _, [] => none
  | _, [h] => some h
  | 0, _ :: _ :: _ => none
  | fuel + 1, a :: b :: rest => merkleLevels fuel (merkleLevel (a :: b :: rest))

/-! ## pkg/core/mpt/hash.go -/

/-- Modelled from the spec: the constant `util.Uint256Size`, missing from src:
"`U256` (32 bytes, tx/block hash)". -/
def Uint256Size : Nat := 32

/-- The struct `HashNode`: the fields `hash` and `hashValid` of its `BaseNode`,
which `NewHashNode` sets. -/
structure HashNode where
  hash : Uint256
  hashValid : Bool
  deriving DecidableEq, Repr

/-- The function `NewHashNode`. -/
def NewHashNode (h : Uint256) : HashNode := { hash := h, hashValid := true }

/-- The method `HashNode.Hash`; `none` is its panic on an empty node. -/
def HashNode.Hash (h : HashNode) : Option Uint256 :=
  if !h.hashValid then none else some h.hash

/-- The method `HashNode.IsEmpty`. -/
def HashNode.IsEmpty (h : HashNode) : Bool := !h.hashValid

/-- The method `HashNode.DecodeBinary`: the receiver after the call and the
reader. -/
def HashNode.DecodeBinary (h : HashNode) (r : BinReader) : HashNode × BinReader :=
  let sz := r.ReadVarUint
  if sz.1 = 0 then ({ h with hashValid := false }, sz.2)
  else if sz.1 = Uint256Size then
    let b := sz.2.ReadBytes h.hash
    ({ hash := b.1, hashValid := true }, b.2)
  else (h, { sz.2 with err := some (.invalidHashNodeSize sz.1) })

/-- The method `HashNode.EncodeBinary`. -/
def HashNode.EncodeBinary (h : HashNode) (w : BinWriter) : BinWriter :=
  if !h.hashValid then w.WriteVarUint 0
  else w.WriteVarBytes h.hash

/-! ## pkg/encoding/address/address.go -/

/-- A Go slice of bytes: its elements, and the bytes of its backing array
between its length and its capacity, which a slice expression can reach. -/
structure ByteSlice where
  elems : List Nat
  spare : List Nat
  deriving DecidableEq, Repr

/-- The functions `base58.CheckEncode` and `base58.CheckDecode`, missing from
src. -/
structure Base58 where
  CheckEncode : List Nat → GoString
  CheckDecode : GoString → Except Err ByteSlice

/-- The function `Uint160ToString`; `Prefix` is the global variable of the
package. -/
def Uint160ToString (B : Base58) (Prefix : Nat) (u : Uint160) : GoString :=
  let b := [Prefix] ++ u
  B.CheckEncode b

/-- The function `StringToUint160`.  The index `b[0]` panics on an empty slice;
the slice expression `b[1:21]` panics when the capacity of `b` is below 21, and
takes bytes beyond the length of `b` when the length is below 21. -/
def StringToUint160 (B : Base58) (Prefix : Nat) (s : GoString) : Result Uint160 :=
  match B.CheckDecode s with
  | .error err => .error err
  | .ok b =>
    match b.elems with
    | [] => .panic
    | b0 :: _ =>
      if b0 ≠ Prefix then .error .wrongAddressPrefix
      else if b.elems.length + b.spare.length < 21 then .panic
      else
        match Uint160DecodeBytesBE (((b.elems ++ b.spare).take 21).drop 1) with
        | .error err => .error err
        | .ok u => .ok u

/-- A JSON value, as far as the code below tells values apart: a string with
its content, `null`, a number, or any other value (a boolean, an array, an
object).  Of a number only the `Fixed8` is kept that the conversion
`Fixed8(decimals * fl)` of `unmarshalHelper` makes of it; the arithmetic of
`float64` is not modelled. -/
inductive JSONValue
  | string (s : GoString)
  | null
  | number (scaled : Fixed8)
  | other
  deriving DecidableEq, Repr

/-- The method `Fixed8.MarshalJSON`: the JSON string with the content
`f.String()`, in which no character needs an escape. -/
def Fixed8.MarshalJSON (f : Fixed8) : JSONValue := .string f.String

/-- The method `Fixed8.unmarshalHelper` for the function `unmarshal` of
`Fixed8.UnmarshalJSON`, which is `json.Unmarshal` of the JSON value `data`: the
receiver after the call and the error returned.  `json.Unmarshal` into a
`string` takes the content of a JSON string, leaves the empty string as it is
for `null`, and fails on any other value; into a `float64` it takes a number
and fails on any other value. -/
def Fixed8.unmarshalHelper (f : Fixed8) (data : JSONValue) : Fixed8 × Option Err :=
  let s : Option GoString :=
    match data with
    | .string str => some str
    | .null => some []
    | _ => none
  match s with
  | some str =>
    match Fixed8FromString str with
    | .error err => (f, some err)
    | .ok p => (p, none)
  | none =>
    match data with
    | .number scaled => (scaled, none)
    | _ => (f, some .jsonUnmarshalType)

/-- The method `Fixed8.UnmarshalJSON`. -/
def Fixed8.UnmarshalJSON (f : Fixed8) (data : JSONValue) : Fixed8 × Option Err :=
  f.unmarshalHelper data

/-- The methods `MarshalJSON` and `UnmarshalJSON` of `util.Uint256`, missing
from src. -/
structure Uint256JSON where
  MarshalJSON : Uint256 → Except Err JSONValue
  UnmarshalJSON : JSONValue → Except Err Uint256

/-- The JSON object that `Output.MarshalJSON` writes, with its four members in
the order of their keys, in which `json.Marshal` writes a map and
`json.Unmarshal` reads the text: `address` is a JSON string, given by its
content, and `n` a JSON number, given by the `int` that it writes; `asset` and
`value` are what the methods `MarshalJSON` of `util.Uint256` and of `Fixed8`
write. -/
structure outputJSON where
  address : GoString
  asset : JSONValue
  n : Int
  value : JSONValue
  deriving DecidableEq, Repr

/-- The method `Output.MarshalJSON`: `json.Marshal` of the map calls the method
`MarshalJSON` of each value that has one and returns its error. -/
def Output.MarshalJSON (B : Base58) (Prefix : Nat) (J : Uint256JSON) (out : Output) :
    Except Err outputJSON :=
  match J.MarshalJSON out.AssetID with
  | .error err => .error err
  | .ok asset =>
    .ok { address := Uint160ToString B Prefix out.ScriptHash, asset := asset,
          n := out.Position, value := out.Amount.MarshalJSON }

/-- The struct `outputAux` of output.go, which `json.Unmarshal` fills: the
address is a string. -/
structure outputAux where
  AssetID : Uint256
  Amount : Fixed8
  ScriptHash : GoString
  Position : Int
  deriving DecidableEq, Repr

/-- The call `json.Unmarshal(data, &outAux)` of `Output.UnmarshalJSON`, for an
object with the four members of `outputJSON`: the members are read in the
order of the text, each of `asset` and `value` by the method `UnmarshalJSON` of
its field, on the zero value of `outAux`; the first error of such a method
ends the call and is returned. -/
def outputAux.Unmarshal (J : Uint256JSON) (data : outputJSON) : Except Err outputAux :=
  match J.UnmarshalJSON data.asset with
  | .error err => .error err
  | .ok asset =>
    match (Fixed8.mk 0).UnmarshalJSON data.value with
    | (_, some err) => .error err
    | (amount, none) =>
      .ok { AssetID := asset, Amount := amount, ScriptHash := data.address, Position := data.n }

/-- The method `Output.UnmarshalJSON`: the output after the call and the error
returned; `none` is a panic.  An error of `json.Unmarshal` is returned before
anything of the output is set.  The assignment
`out.ScriptHash, err = address.StringToUint160(...)` sets the script hash also
when there is an error, to the zero value that `StringToUint160` returns
then. -/
def Output.UnmarshalJSONS (B : Base58) (Prefix : Nat) (J : Uint256JSON) (out : Output)
    (data : outputJSON) : Option (Output × Option Err) :=
  match outputAux.Unmarshal J data with
  | .error err => some (out, some err)
  | .ok outAux =>
    match StringToUint160 B Prefix outAux.ScriptHash with
    | .panic => none
    | .error err => some ({ out with ScriptHash := List.replicate 20 0 }, some err)
    | .ok sh =>
      some ({ ScriptHash := sh, Amount := outAux.Amount, AssetID := outAux.AssetID,
              Position := outAux.Position }, none)

/-- An encoding for the examples, not Base58: a byte is written as the
character with its number, and read back; the decoded slice has no spare
capacity. -/
def exampleBase58 : Base58 where
  CheckEncode := fun b => b.map Char.ofNat
  CheckDecode := fun s => .ok ⟨s.map Char.toNat, []⟩

/-- A way to write a Uint256 for the examples, not that of `util.Uint256`: a
byte is written as the character with its number, and read back. -/
def exampleUint256JSON : Uint256JSON where
  MarshalJSON := fun u => .ok (.string (u.map Char.ofNat))
  UnmarshalJSON := fun v =>
    match v with
    | .string s => .ok (s.map Char.toNat)
    | _ => .error (.other 0)

/-- An output with the amount `math.MinInt64`. -/
def exampleOutputMin : Output :=
  { AssetID := List.replicate 32 1, Amount := ⟨-2 ^ 63⟩, ScriptHash := List.range' 1 20,
    Position := 0 }

/-- A payload of 22 bytes that begins with the prefix 0x17. -/
def examplePayload22 : List Nat :=
  [0x17, 1, 2, 3, 4, 5, 6, 7, 8, 9, 10, 11, 12, 13, 14, 15, 16, 17, 18, 19, 20, 21]

/-! ## pkg/smartcontract/context -/

namespace context

/-- Modelled from the spec: the struct `smartcontract.Parameter`, missing from
src: the type (field `Type`) and the value, an `interface{}` that is nil
(`none`) or holds a `[]byte`; a `[]byte` is `none` when it is the nil slice. -/
structure Parameter where
  Typ : Nat
  Value : Option (Option (List Nat))
  deriving DecidableEq, Repr

/-- Modelled from the spec: the struct `wallet.ContractParam`, missing from
src: the type of a parameter (field `Type`). -/
structure ContractParam where
  Typ : Nat
  deriving DecidableEq, Repr

/-- Modelled from the spec: the struct `wallet.Contract`, missing from src,
with the fields `Script` and `Parameters` that package `context` reads. -/
structure Contract where
  Script : List Nat
  Parameters : List ContractParam
  deriving DecidableEq, Repr

/-- The struct `Item`.  The map `Signatures` is the list of its entries, no
key twice, a new key at the end. -/
structure Item where
  Script : Uint160
  Parameters : List Parameter
  Signatures : List (String × Option (List Nat))
  deriving DecidableEq, Repr

/-- The struct `sigWithIndex`. -/
structure sigWithIndex where
  index : Nat
  sig : Option (List Nat)
  deriving DecidableEq, Repr

/-- What the code calls and what is missing from src: `PublicKey.Bytes`,
`hex.EncodeToString` of the Go standard library, `vm.ParseMultiSigContract`
(the public keys of the script, or `none` when the script is not a multisig
contract), `Contract.ScriptHash` and the constant
`smartcontract.SignatureType`. -/
structure SigOps (κ : Type) where
  Bytes : κ → List Nat
  EncodeToString : List Nat → String
  ParseMultiSigContract : List Nat → Option (List (List Nat))
  ScriptHash : Contract → Uint160
  SignatureType : Nat

/-- The value `m[k]` of a Go map of byte slices: nil for a key that the map
does not hold. -/
def mapGet (m : List (String × Option (List Nat))) (k : String) : Option (List Nat) :=
  match m.find? (fun e => e.1 = k) with
  | some e => e.2
  | none => none

/-- The assignment `m[k] = v` of a Go map. -/
def mapSet (m : List (String × Option (List Nat))) (k : String) (v : Option (List Nat)) :
    List (String × Option (List Nat)) :=
  if m.any (fun e => e.1 = k) then m.map (fun e => if e.1 = k then (k, v) else e)
  else m ++ [(k, v)]

/-- The method `Item.GetSignature`. -/
def Item.GetSignature (V : SigOps κ) (it : Item) (pub : κ) : Option (List Nat) :=
  mapGet it.Signatures (V.EncodeToString (V.Bytes pub))

/-- The method `Item.AddSignature`. -/
def Item.AddSignature (V : SigOps κ) (it : Item) (pub : κ) (sig : Option (List Nat)) : Item :=
  let pubHex := V.EncodeToString (V.Bytes pub)
  { it with Signatures := mapSet it.Signatures pubHex sig }

/-- The struct `ParameterContext`: the type (field `Type`) and the map `Items`
from script hashes to items; the field `Verifiable`, which `AddSignature` does not read, is
left out. -/
structure ParameterContext where
  Typ : String
  Items : Uint160 → Option Item

/-- The function `NewParameterContext`. -/
def NewParameterContext (typ : String) : ParameterContext :=
  { Typ := typ, Items := fun _ => none }

/-- The assignment `c.Items[h] = item`; it also stands for the writes through
the pointer `item` that the map holds. -/
def ParameterContext.setItem (c : ParameterContext) (h : Uint160) (item : Item) :
    ParameterContext :=
  { c with Items := fun k => if k = h then some item else c.Items k }

/-- The method `ParameterContext.getItemForContract`: the context after the
call and the item. -/
def ParameterContext.getItemForContract (V : SigOps κ) (c : ParameterContext) (ctr : Contract) :
    ParameterContext × Item :=
  let h := V.ScriptHash ctr
  match c.Items h with
  | some item => (c, item)
  | none =>
    let params : List Parameter := ctr.Parameters.map fun p => { Typ := p.Typ, Value := none }
    let item : Item := { Script := h, Parameters := params, Signatures := [] }
    (c.setItem h item, item)

/-- The loop `for i := range pubs { indexMap[hex.EncodeToString(pubs[i])] = i }`
from index `i` on: a later index replaces an earlier one of the same key; a key
that the map does not hold has the value 0. -/
def indexMapFrom (V : SigOps κ) : Nat → List (List Nat) → (String → Nat) → String → Nat
  | _, [], m => m
  | i, p :: ps, m => indexMapFrom V (i + 1) ps (fun k => if k = V.EncodeToString p then i else m k)

/-- The call of `sort.Slice` with `sigs[i].index < sigs[j].index`: the entries
in ascending order of their index.  The library does not say how entries of
equal index are arranged, and Go visits the entries of a map in no fixed order;
an insertion sort of the entries in the order of the list stands for both, and
what is proved about the result assumes indexes that are all different, under
which the arrangement is unique. -/
def sortSigs (sigs : List sigWithIndex) : List sigWithIndex :=
  sigs.insertionSort (fun a b => a.index ≤ b.index)

/-- The loop `for i := range sigs { item.Parameters[i] = ... }`; `none` is the
panic of an index out of range. -/
def setParameters (params vals : List Parameter) : Option (List Parameter) :=
  if vals.length ≤ params.length then some (vals ++ params.drop vals.length) else none

/-- The loop of `AddSignature` over `ctr.Parameters` for a contract that is not
a multisig contract, from index `i` on: the index of the only signature
parameter (`none` is -1), or the error for a second one. -/
def signatureIndex (V : SigOps κ) : Nat → List ContractParam → Option Nat → Except Err (Option Nat)
  | _, [], index => .ok index
  | i, p :: ps, index =>
    if p.Typ = V.SignatureType then
      if index.isSome then .error .multipleSignatureParameters
      else signatureIndex V (i + 1) ps (some i)
    else signatureIndex V (i + 1) ps index

/-- The method `ParameterContext.AddSignature`: the context after the call and
the error returned; `none` is a panic. -/
def ParameterContext.AddSignature (V : SigOps κ) (c : ParameterContext) (ctr : Contract)
    (pub : κ) (sig : Option (List Nat)) : Option (ParameterContext × Option Err) :=
  let g := c.getItemForContract V ctr
  let item := g.2
  match V.ParseMultiSigContract ctr.Script with
  | some pubs =>
    if item.GetSignature V pub ≠ none then some (g.1, some .signatureAlreadyAdded)
    else
      let pubBytes := V.Bytes pub
      let contained := pubs.any fun p => decide (pubBytes = p)
      if !contained then some (g.1, some .keyNotInScript)
      else
        let item1 := item.AddSignature V pub sig
        if item1.Signatures.length = ctr.Parameters.length then
          let indexMap := indexMapFrom V 0 pubs (fun _ => 0)
          let sigs : List sigWithIndex :=
            item1.Signatures.map fun e => { index := indexMap e.1, sig := e.2 }
          let sorted := sortSigs sigs
          match setParameters item1.Parameters
              (sorted.map fun s => { Typ := V.SignatureType, Value := some s.sig }) with
          | none => none
          | some params =>
            some (g.1.setItem (V.ScriptHash ctr) { item1 with Parameters := params }, none)
        else some (g.1.setItem (V.ScriptHash ctr) item1, none)
  | none =>
    match signatureIndex V 0 ctr.Parameters none with
    | .error err => some (g.1, some err)
    | .ok none => some (g.1, some .missingSignatureParameter)
    | .ok (some index) =>
      if index < item.Parameters.length then
        let params := item.Parameters.modify (fun p => { p with Value := some sig }) index
        some (g.1.setItem (V.ScriptHash ctr) { item with Parameters := params }, none)
      else none

/-- The calls of `AddSignature` for one contract, one after the other: the
context after the last call and the errors returned, the first call first;
`none` when a call panics. -/
def AddSignatures (V : SigOps κ) (ctr : Contract) :
    ParameterContext → List (κ × Option (List Nat)) → Option (ParameterContext × List (Option Err))
  | c, [] => some (c, [])
  | c, a :: as =>
    match c.AddSignature V ctr a.1 a.2 with
    | none => none
    | some (c1, e) =>
      match AddSignatures V ctr c1 as with
      | none => none
      | some (c2, es) => some (c2, e :: es)

/-- A string for a list of numbers, in place of the hexadecimal one: each
number `n` is written as `n` characters `a` and one `b`. -/
def unaryString : List Nat → List Char
  | [] => []
  | n :: ns => List.replicate n 'a' ++ 'b' :: unaryString ns

/-- Operations for the examples: a key is its encoding, the string of a list
of bytes is `unaryString`, a script is a multisig contract when it begins with
0xae and then holds keys of one byte, and its hash is the script filled up to
20 bytes. -/
def exampleSigOps : SigOps (List Nat) where
  Bytes := fun k => k
  EncodeToString := fun b => String.mk (unaryString b)
  ParseMultiSigContract := fun s =>
    match s with
    | 0xae :: ks => some (ks.map fun k => [k])
    | _ => none
  ScriptHash := fun c => (c.Script ++ List.replicate 20 0).take 20
  SignatureType := 0

/-- A multisig contract with the keys 1, 2, 3, 4 and two signature
parameters. -/
def exampleMultisig : Contract :=
  { Script := [0xae, 1, 2, 3, 4], Parameters := [⟨0⟩, ⟨0⟩] }

/-- The calls whose key is listed in `pubs` and was not given in an earlier
call (`earlier` holds the keys of the earlier calls): the encoding of the key
and the signature, in the order of the calls. -/
def accepted (V : SigOps κ) (pubs : List (List Nat)) :
    List (List Nat) → List (κ × Option (List Nat)) → List (List Nat × Option (List Nat))
  | _, [] => []
  | earlier, a :: as =>
    if V.Bytes a.1 ∈ pubs ∧ V.Bytes a.1 ∉ earlier then
      (V.Bytes a.1, a.2) :: accepted V pubs (V.Bytes a.1 :: earlier) as
    else accepted V pubs (V.Bytes a.1 :: earlier) as

/-- What the calls return according to the claim: a key that is not listed in
`pubs` is rejected, a listed key that was given in an earlier call is rejected,
and any other call returns nil. -/
def rejections (V : SigOps κ) (pubs : List (List Nat)) :
    List (List Nat) → List (κ × Option (List Nat)) → List (Option Err)
  | _, [] => []
  | earlier, a :: as =>
    (if V.Bytes a.1 ∈ pubs then
      (if V.Bytes a.1 ∈ earlier then some Err.signatureAlreadyAdded else none)
    else some Err.keyNotInScript) :: rejections V pubs (V.Bytes a.1 :: earlier) as

/-- The position of the key `k` in the list of the keys of the script, counted
from 0: that of its first occurrence; the length of the list for a key that is
not listed. -/
def position : List (List Nat) → List Nat → Nat
  | [], _ => 0
  | p :: ps, k => if k = p then 0 else position ps k + 1

/-- The entries of `Signatures` after the accepted calls `acc`. -/
def sigsOf (V : SigOps κ) (acc : List (List Nat × Option (List Nat))) :
    List (String × Option (List Nat)) :=
  acc.map fun e => (V.EncodeToString e.1, e.2)

/-- The index that `AddSignature` gives to an accepted call. -/
def indexOfEntry (V : SigOps κ) (pubs : List (List Nat)) (e : List Nat × Option (List Nat)) :
    Nat :=
  indexMapFrom V 0 pubs (fun _ => 0) (V.EncodeToString e.1)

/-- The field `Parameters` after the accepted calls `acc`: as
`getItemForContract` made it while there are fewer calls than parameters, then
as the call that made their numbers equal set it. -/
def paramsOf (V : SigOps κ) (ctr : Contract) (pubs : List (List Nat))
    (acc : List (List Nat × Option (List Nat))) : List Parameter :=
  if acc.length < ctr.Parameters.length then
    ctr.Parameters.map fun p => { Typ := p.Typ, Value := none }
  else
    (sortSigs ((acc.take ctr.Parameters.length).map fun e =>
      { index := indexOfEntry V pubs e, sig := e.2 })).map
      fun s => { Typ := V.SignatureType, Value := some s.sig }

/-- The item of the contract after the accepted calls `acc`. -/
def itemOf (V : SigOps κ) (ctr : Contract) (pubs : List (List Nat))
    (acc : List (List Nat × Option (List Nat))) : Item :=
  { Script := V.ScriptHash ctr, Parameters := paramsOf V ctr pubs acc,
    Signatures := sigsOf V acc }

end context

/-! ## Writer and reader -/

theorem BinWriter_WriteBytes_ok (buf b : List Nat) :
    (BinWriter.mk buf none).WriteBytes b = ⟨buf ++ b, none⟩ := rfl

theorem BinWriter_WriteBytes_err (w : BinWriter) (b : List Nat) (e : Err)
    (h : w.err = some e) : w.WriteBytes b = w := by
  simp [BinWriter.WriteBytes, h]

theorem BinWriter_WriteB_ok (buf : List Nat) (b : Nat) :
    (BinWriter.mk buf none).WriteB b = ⟨buf ++ [b], none⟩ := rfl

theorem BinWriter_WriteU16LE_ok (buf : List Nat) (x : Nat) :
    (BinWriter.mk buf none).WriteU16LE x = ⟨buf ++ u16le x, none⟩ := rfl

theorem BinWriter_WriteU32LE_ok (buf : List Nat) (x : Nat) :
    (BinWriter.mk buf none).WriteU32LE x = ⟨buf ++ u32le x, none⟩ := rfl

theorem BinWriter_WriteU64LE_ok (buf : List Nat) (x : Nat) :
    (BinWriter.mk buf none).WriteU64LE x = ⟨buf ++ u64le x, none⟩ := rfl

theorem BinWriter_WriteVarUint_ok (buf : List Nat) (x : Nat) :
    (BinWriter.mk buf none).WriteVarUint x = ⟨buf ++ varUintBytes x, none⟩ := rfl

theorem BinWriter_WriteVarBytes_ok (buf b : List Nat) :
    (BinWriter.mk buf none).WriteVarBytes b = ⟨buf ++ (varUintBytes b.length ++ b), none⟩ := by
  simp [BinWriter.WriteVarBytes, BinWriter.WriteVarUint, BinWriter.WriteBytes]

theorem BinWriter_WriteBool_ok (buf : List Nat) (b : Bool) :
    (BinWriter.mk buf none).WriteBool b = ⟨buf ++ [if b then 1 else 0], none⟩ := rfl

theorem BinReader_ReadBytes_ok (bs rest buf : List Nat) (h : bs.length = buf.length) :
    (BinReader.mk (bs ++ rest) none).ReadBytes buf = (bs, ⟨rest, none⟩) := by
  simp [BinReader.ReadBytes, ← h]

theorem BinReader_ReadB_ok (b : Nat) (rest : List Nat) :
    (BinReader.mk (b :: rest) none).ReadB = (b, ⟨rest, none⟩) := by
  simp [BinReader.ReadB, BinReader.ReadBytes]

theorem BinReader_readLE_ok (bs rest : List Nat) (n : Nat) (h : bs.length = n) :
    (BinReader.mk (bs ++ rest) none).readLE n = (leValue bs, ⟨rest, none⟩) := by
  simp [BinReader.readLE, BinReader_ReadBytes_ok bs rest (List.replicate n 0) (by simpa using h)]

theorem leValue_u16le (x : Nat) (h : x < 2 ^ 16) : leValue (u16le x) = x := by
  simp only [u16le, leValue]
  omega

theorem leValue_u32le (x : Nat) (h : x < 2 ^ 32) : leValue (u32le x) = x := by
  simp only [u32le, leValue]
  omega

theorem leValue_append (a b : List Nat) :
    leValue (a ++ b) = leValue a + 256 ^ a.length * leValue b := by
  induction a with
  | nil => simp [leValue]
  | cons x xs ih =>
    show x + 256 * leValue (xs ++ b) = x + 256 * leValue xs + 256 ^ (xs.length + 1) * leValue b
    rw [ih, pow_succ]
    ring

theorem leValue_u64le (x : Nat) (h : x < 2 ^ 64) : leValue (u64le x) = x := by
  have h1 : leValue (u32le (x % 4294967296)) = x % 4294967296 :=
    leValue_u32le _ (by omega)
  have h2 : leValue (u32le (x / 4294967296 % 4294967296)) = x / 4294967296 % 4294967296 :=
    leValue_u32le _ (by omega)
  rw [u64le, leValue_append, h1, h2]
  simp only [u32le, List.length_cons, List.length_nil]
  omega

theorem BinReader_ReadU16LE_ok (x : Nat) (rest : List Nat) (h : x < 2 ^ 16) :
    (BinReader.mk (u16le x ++ rest) none).ReadU16LE = (x, ⟨rest, none⟩) := by
  rw [BinReader.ReadU16LE, BinReader_readLE_ok _ _ _ (by simp [u16le]), leValue_u16le x h]

theorem BinReader_ReadU32LE_ok (x : Nat) (rest : List Nat) (h : x < 2 ^ 32) :
    (BinReader.mk (u32le x ++ rest) none).ReadU32LE = (x, ⟨rest, none⟩) := by
  rw [BinReader.ReadU32LE, BinReader_readLE_ok _ _ _ (by simp [u32le]), leValue_u32le x h]

theorem BinReader_ReadU64LE_ok (x : Nat) (rest : List Nat) (h : x < 2 ^ 64) :
    (BinReader.mk (u64le x ++ rest) none).ReadU64LE = (x, ⟨rest, none⟩) := by
  rw [BinReader.ReadU64LE, BinReader_readLE_ok _ _ _ (by simp [u64le, u32le]), leValue_u64le x h]

theorem BinReader_ReadVarUint_ok (x : Nat) (rest : List Nat) (h : x < 2 ^ 64) :
    (BinReader.mk (varUintBytes x ++ rest) none).ReadVarUint = (x, ⟨rest, none⟩) := by
  unfold varUintBytes
  by_cases h1 : x < 0xfd
  · have a1 : x ≠ 0xfd := by omega
    have a2 : x ≠ 0xfe := by omega
    have a3 : x ≠ 0xff := by omega
    simp [h1, BinReader.ReadVarUint, BinReader_ReadB_ok, a1, a2, a3]
  · by_cases h2 : x ≤ 0xffff
    · simp only [h1, h2, if_true, if_false, List.cons_append, BinReader.ReadVarUint,
        BinReader_ReadB_ok]
      exact BinReader_ReadU16LE_ok x rest (by omega)
    · by_cases h3 : x ≤ 0xffffffff
      · simp only [h1, h2, h3, if_true, if_false, List.cons_append, BinReader.ReadVarUint,
          BinReader_ReadB_ok]
        simp only [show (0xfe : Nat) ≠ 0xfd by decide, if_false, if_true]
        exact BinReader_ReadU32LE_ok x rest (by omega)
      · simp only [h1, h2, h3, if_false, List.cons_append, BinReader.ReadVarUint,
          BinReader_ReadB_ok]
        simp only [show (0xff : Nat) ≠ 0xfd by decide, show (0xff : Nat) ≠ 0xfe by decide,
          if_false, if_true]
        exact BinReader_ReadU64LE_ok x rest h

theorem BinReader_ReadVarBytes_ok (b rest : List Nat) (h : b.length < 2 ^ 64) :
    (BinReader.mk (varUintBytes b.length ++ (b ++ rest)) none).ReadVarBytes =
      (b, ⟨rest, none⟩) := by
  simp only [BinReader.ReadVarBytes, BinReader_ReadVarUint_ok _ _ h]
  exact BinReader_ReadBytes_ok b rest _ (by simp)

theorem Witness_EncodeBinary_ok (w : Witness) (buf : List Nat) :
    w.EncodeBinary ⟨buf, none⟩ =
      ⟨buf ++ (varUintBytes w.InvocationScript.length ++ w.InvocationScript ++
        (varUintBytes w.VerificationScript.length ++ w.VerificationScript)), none⟩ := by
  simp [Witness.EncodeBinary, BinWriter_WriteVarBytes_ok]

theorem Witness_DecodeBinary_ok (w : Witness) (rest : List Nat)
    (h1 : w.InvocationScript.length < 2 ^ 64) (h2 : w.VerificationScript.length < 2 ^ 64) :
    Witness.DecodeBinary ⟨varUintBytes w.InvocationScript.length ++ w.InvocationScript ++
        (varUintBytes w.VerificationScript.length ++ w.VerificationScript) ++ rest, none⟩ =
      (w, ⟨rest, none⟩) := by
  simp only [Witness.DecodeBinary, List.append_assoc, BinReader_ReadVarBytes_ok _ _ h1,
    BinReader_ReadVarBytes_ok _ _ h2]

/-! ## Merkle tree and block checks -/

theorem merkleParents_length (leaves : List MerkleTreeNode) :
    (merkleParents leaves).length = (leaves.length + 1) / 2 := by
  simp [merkleParents]

theorem buildMerkleTree_single (x : MerkleTreeNode) : buildMerkleTree [x] = some x := by
  rw [buildMerkleTree]
  simp

theorem buildMerkleTree_some (n : Nat) :
    ∀ leaves : List MerkleTreeNode, leaves.length = n → leaves ≠ [] →
      ∃ root, buildMerkleTree leaves = some root := by
  induction n using Nat.strong_induction_on with
  | _ n ih =>
    intro leaves hlen hne
    have hpos : 0 < leaves.length := List.length_pos.mpr hne
    rw [buildMerkleTree]
    by_cases h1 : leaves.length = 1
    · cases leaves with
      | nil => exact absurd rfl hne
      | cons x xs => simp [h1]
    · have h0 : leaves.length ≠ 0 := by omega
      simp only [h0, h1, if_false]
      have hl := merkleParents_length leaves
      apply ih (merkleParents leaves).length (by omega) _ rfl
      intro hnil
      rw [hnil] at hl
      simp at hl
      omega

theorem NewMerkleTree_ok (hashes : List Uint256) (hne : hashes ≠ []) :
    ∃ t, NewMerkleTree hashes = .ok t := by
  have hlen : hashes.length ≠ 0 := by
    intro h
    exact hne (List.length_eq_zero.mp h)
  obtain ⟨root, hroot⟩ := buildMerkleTree_some _ (hashes.map MerkleTreeNode.leaf) rfl
    (by simpa using hne)
  exact ⟨{ root := root, depth := 1 }, by simp [NewMerkleTree, hlen, hroot]⟩

theorem Uint256_Equals_iff (u v : Uint256) : u.Equals v = true ↔ u = v := by
  simp [Uint256.Equals]

/-- C4: `NewMerkleTree` returns an error for the empty hash list, and for every
one-element list `[h]` it succeeds with `Root()` equal to `h`. -/
theorem NewMerkleTree_empty_and_single :
    NewMerkleTree [] = .error .noHashes ∧
      ∀ h : Uint256, ∃ t, NewMerkleTree [h] = .ok t ∧ t.Root = h := by
  refine ⟨by simp [NewMerkleTree], ?_⟩
  intro h
  refine ⟨{ root := .leaf h, depth := 1 }, ?_, rfl⟩
  simp [NewMerkleTree, buildMerkleTree_single]

theorem Block_Verify_spec (b : Block) :
    (b.Verify = .ok () ↔
      ∃ tx0 rest, b.Transactions = tx0 :: rest ∧ tx0.txType = MinerType ∧
        (∀ tx ∈ rest, tx.txType ≠ MinerType) ∧
        ∃ t, NewMerkleTree (b.Transactions.map Transaction.Hash) = .ok t ∧
          b.MerkleRoot = t.Root) ∧
    (b.Verify ≠ .ok () → ∃ e, b.Verify = .error e) := by
  unfold Block.Verify
  cases htx : b.Transactions with
  | nil => simp
  | cons tx0 rest =>
    obtain ⟨t, ht⟩ := NewMerkleTree_ok ((tx0 :: rest).map Transaction.Hash) (by simp)
    by_cases hm : tx0.txType = MinerType
    · cases hf : rest.find? (fun tx => tx.txType == MinerType) with
      | some tx =>
        have hmem := List.mem_of_find?_eq_some hf
        have hty := List.find?_some hf
        have hty2 : tx.txType = MinerType := by simpa using hty
        simp only [hm, hf, ne_eq, not_true_eq_false, if_false]
        refine ⟨⟨fun h => by simp at h, ?_⟩, fun _ => ⟨_, rfl⟩⟩
        rintro ⟨a, l, hal, -, hall, -⟩
        simp only [List.cons.injEq] at hal
        obtain ⟨-, rfl⟩ := hal
        exact absurd hty2 (hall tx hmem)
      | none =>
        have hall : ∀ tx ∈ rest, tx.txType ≠ MinerType := by
          intro tx hmem
          have := List.find?_eq_none.mp hf tx hmem
          simpa using this
        simp only [hm, hf, ne_eq, not_true_eq_false, if_false, merkleTreeFromTransactions, ht]
        by_cases heq : b.MerkleRoot.Equals t.Root = true
        · have heq2 := (Uint256_Equals_iff _ _).mp heq
          simp only [heq, Bool.not_true, Bool.false_eq_true, if_false]
          exact ⟨⟨fun _ => ⟨tx0, rest, rfl, hm, hall, t, rfl, heq2⟩, fun _ => trivial⟩,
            fun h => absurd trivial h⟩
        · have hne : b.MerkleRoot ≠ t.Root := fun h => heq ((Uint256_Equals_iff _ _).mpr h)
          simp only [Bool.not_eq_true] at heq
          simp only [heq, Bool.not_false, if_true]
          refine ⟨⟨fun h => by simp at h, ?_⟩, fun _ => ⟨_, rfl⟩⟩
          rintro ⟨a, l, -, -, -, t2, ht2, hr⟩
          simp only [Result.ok.injEq] at ht2
          subst ht2
          exact absurd hr hne
    · simp only [ne_eq, hm, not_false_eq_true, if_true]
      refine ⟨⟨fun h => by simp at h, ?_⟩, fun _ => ⟨_, rfl⟩⟩
      rintro ⟨a, l, hal, ha, -⟩
      simp only [List.cons.injEq] at hal
      obtain ⟨rfl, -⟩ := hal
      exact absurd ha hm

/-- C3: `Block.Verify` returns no error exactly when the block has at least one
transaction, the first transaction is of type Miner, no later transaction is
of type Miner, and `MerkleRoot` equals the Merkle root of the transaction
hashes taken in order; in every other case it returns an error (it does not
panic). -/
theorem Block_Verify_ok_iff (b : Block) :
    (b.Verify = .ok () ↔
      ∃ tx0 rest, b.Transactions = tx0 :: rest ∧ tx0.txType = MinerType ∧
        (∀ tx ∈ rest, tx.txType ≠ MinerType) ∧
        ∃ t, NewMerkleTree (b.Transactions.map Transaction.Hash) = .ok t ∧
          b.MerkleRoot = t.Root) ∧
    (b.Verify ≠ .ok () → ∃ e, b.Verify = .error e) :=
  Block_Verify_spec b

/-- C5: for every block with at least one transaction, `RebuildMerkleRoot`
succeeds and stores in `MerkleRoot` the Merkle root recomputed from the
transactions; a following `Verify` does not fail its Merkle-root check, and
returns no error when the first transaction is the only Miner transaction. -/
theorem RebuildMerkleRoot_then_Verify (b : Block) (hne : b.Transactions ≠ []) :
    ∃ t, NewMerkleTree (b.Transactions.map Transaction.Hash) = .ok t ∧
      b.RebuildMerkleRoot = ({ b with MerkleRoot := t.Root }, .ok ()) ∧
      b.RebuildMerkleRoot.1.Verify ≠ .error .merkleRootMismatch ∧
      ((∃ tx0 rest, b.Transactions = tx0 :: rest ∧ tx0.txType = MinerType ∧
          ∀ tx ∈ rest, tx.txType ≠ MinerType) → b.RebuildMerkleRoot.1.Verify = .ok ()) := by
  obtain ⟨t, ht⟩ := NewMerkleTree_ok (b.Transactions.map Transaction.Hash) (by simpa using hne)
  have hr : b.RebuildMerkleRoot = ({ b with MerkleRoot := t.Root }, .ok ()) := by
    simp [Block.RebuildMerkleRoot, merkleTreeFromTransactions, ht]
  refine ⟨t, ht, hr, ?_, ?_⟩
  · rw [hr]
    simp only [Block.Verify]
    split
    · simp
    · split
      · simp
      · split
        · simp
        · simp only [merkleTreeFromTransactions, ht]
          simp [Uint256.Equals]
  · rintro ⟨tx0, rest, htx, hm, hall⟩
    rw [hr]
    apply (Block_Verify_spec _).1.2
    exact ⟨tx0, rest, htx, hm, hall, t, ht, rfl⟩


/-- Witness for C5: a block with one Miner transaction. -/
theorem RebuildMerkleRoot_then_Verify_witness :
    exampleBlock.Transactions ≠ [] ∧
    ∃ t, NewMerkleTree (exampleBlock.Transactions.map Transaction.Hash) = .ok t ∧
      exampleBlock.RebuildMerkleRoot = ({ exampleBlock with MerkleRoot := t.Root }, .ok ()) ∧
      exampleBlock.RebuildMerkleRoot.1.Verify ≠ .error .merkleRootMismatch ∧
      ((∃ tx0 rest, exampleBlock.Transactions = tx0 :: rest ∧ tx0.txType = MinerType ∧
          ∀ tx ∈ rest, tx.txType ≠ MinerType) →
        exampleBlock.RebuildMerkleRoot.1.Verify = .ok ()) :=
  ⟨by decide, RebuildMerkleRoot_then_Verify exampleBlock (by decide)⟩

theorem exampleBlock_InRange : exampleBlock.InRange := by
  simp [Block.InRange, Base.InRange, Witness.InRange, exampleBlock, Transaction.Hash]

theorem writeHashes_ok (txs : List Transaction) (buf : List Nat) :
    txs.foldl (fun w tx => w.WriteBytes tx.Hash) (BinWriter.mk buf none) =
      ⟨buf ++ hashBytes txs, none⟩ := by
  induction txs generalizing buf with
  | nil => simp [hashBytes]
  | cons tx txs ih =>
    simp only [List.foldl_cons, BinWriter_WriteBytes_ok, ih, hashBytes, List.append_assoc]

theorem readTrimmedTransactions_ok (txs : List Transaction) (rest : List Nat)
    (h : ∀ tx ∈ txs, tx.Hash.length = 32) :
    readTrimmedTransactions txs.length ⟨hashBytes txs ++ rest, none⟩ =
      (txs.map (fun tx => NewTrimmedTX tx.Hash), ⟨rest, none⟩) := by
  induction txs with
  | nil => simp [readTrimmedTransactions, hashBytes]
  | cons tx txs ih =>
    have h1 : tx.Hash.length = 32 := h tx (List.mem_cons_self _ _)
    have h2 : ∀ t ∈ txs, t.Hash.length = 32 := fun t ht => h t (List.mem_cons_of_mem _ ht)
    simp only [List.length_cons, readTrimmedTransactions, hashBytes, List.append_assoc,
      BinReader_ReadBytes_ok tx.Hash _ Uint256.zero (by simpa [Uint256.zero] using h1), ih h2,
      List.map_cons]

theorem Base_encodeHashableFields_ok (b : Base) (buf : List Nat) :
    b.encodeHashableFields ⟨buf, none⟩ =
      ⟨buf ++ (u32le b.Version ++ b.PrevHash ++ b.MerkleRoot ++ u32le b.Timestamp ++
        u32le b.Index ++ u64le b.ConsensusData ++ b.NextConsensus), none⟩ := by
  simp [Base.encodeHashableFields, BinWriter_WriteU32LE_ok, BinWriter_WriteBytes_ok,
    BinWriter_WriteU64LE_ok]

theorem Base_decodeHashableFields_ok (b : Base) (rest : List Nat) (hb : b.InRange) :
    Base.zero.decodeHashableFields ⟨u32le b.Version ++ b.PrevHash ++ b.MerkleRoot ++
        u32le b.Timestamp ++ u32le b.Index ++ u64le b.ConsensusData ++ b.NextConsensus ++ rest,
        none⟩ =
      ({ b with Script := Base.zero.Script }, ⟨rest, none⟩) := by
  obtain ⟨h1, h2, h3, h4, h5, h6, h7, -⟩ := hb
  simp only [Base.decodeHashableFields, List.append_assoc,
    BinReader_ReadU32LE_ok _ _ h1, BinReader_ReadU32LE_ok _ _ h4, BinReader_ReadU32LE_ok _ _ h5,
    BinReader_ReadU64LE_ok _ _ h6,
    BinReader_ReadBytes_ok b.PrevHash _ Base.zero.PrevHash (by simpa [Base.zero, Uint256.zero] using h2),
    BinReader_ReadBytes_ok b.MerkleRoot _ Base.zero.MerkleRoot (by simpa [Base.zero, Uint256.zero] using h3),
    BinReader_ReadBytes_ok b.NextConsensus _ Base.zero.NextConsensus (by simpa [Base.zero] using h7)]

theorem NewBlockFromTrimmedBytes_of (bytes : List Nat) (base : Base) (r1 r2 r3 r4 r5 : BinReader)
    (x n : Nat) (script : Witness) (txs : List Transaction)
    (h1 : Base.zero.decodeHashableFields ⟨bytes, none⟩ = (base, r1))
    (h2 : r1.ReadB = (x, r2))
    (h3 : Witness.DecodeBinary r2 = (script, r3))
    (h4 : r3.ReadVarUint = (n, r4)) (hn : n < 2 ^ 63)
    (h5 : readTrimmedTransactions n r4 = (txs, r5)) :
    NewBlockFromTrimmedBytes bytes =
      some ({ toBase := { base with Script := script }, Transactions := txs, Trimmed := true },
        r5.err) := by
  have hl : ¬ (2 ^ 63 ≤ n) := by omega
  unfold NewBlockFromTrimmedBytes NewBinReaderFromBuf
  simp -iota -proj only []
  rw [h1, h2, h3, h4, if_neg hl, h5]

/-- C6: for every block (with fields in the ranges of their Go types),
`NewBlockFromTrimmedBytes` applied to the bytes returned by `Trim` succeeds
and yields a block with `Trimmed = true`, the same base fields and witness
script, and a transaction list of the same length whose i-th entry is the
trimmed transaction carrying the hash of the i-th transaction; the trimmed
bytes hold the byte 1 between the base fields and the witness. -/
theorem Trim_then_NewBlockFromTrimmedBytes (b : Block) (hb : b.InRange) :
    ∃ bytes, b.Trim = .ok bytes ∧
      bytes = (u32le b.Version ++ b.PrevHash ++ b.MerkleRoot ++ u32le b.Timestamp ++
          u32le b.Index ++ u64le b.ConsensusData ++ b.NextConsensus) ++ [1] ++
        (varUintBytes b.Script.InvocationScript.length ++ b.Script.InvocationScript ++
          (varUintBytes b.Script.VerificationScript.length ++ b.Script.VerificationScript)) ++
        varUintBytes b.Transactions.length ++ hashBytes b.Transactions ∧
      NewBlockFromTrimmedBytes bytes =
        some ({ toBase := b.toBase,
                Transactions := b.Transactions.map (fun tx => NewTrimmedTX tx.Hash),
                Trimmed := true }, none) := by
  obtain ⟨hbase, hlen, hhash⟩ := hb
  have hscript := hbase.2.2.2.2.2.2.2
  refine ⟨_, ?_, rfl, ?_⟩
  · simp only [Block.Trim, NewBufBinWriter, Base_encodeHashableFields_ok, BinWriter_WriteB_ok,
      Witness_EncodeBinary_ok, BinWriter_WriteVarUint_ok, writeHashes_ok, BinWriter.Bytes,
      List.nil_append, List.append_assoc]
  · have e1 := Base_decodeHashableFields_ok b.toBase
    have e2 := Witness_DecodeBinary_ok b.Script
    have e3 := readTrimmedTransactions_ok b.Transactions [] hhash
    simp only [List.append_assoc, List.append_nil] at e1 e2 e3
    have key := NewBlockFromTrimmedBytes_of _ _ _ _ _ _ _ _ _ _ _
      (e1 _ hbase) (BinReader_ReadB_ok 1 _)
      (e2 _ (by have := hscript.1; omega) (by have := hscript.2; omega))
      (BinReader_ReadVarUint_ok _ _ (show b.Transactions.length < 2 ^ 64 by omega)) hlen e3
    have hbytes : (u32le b.Version ++ b.PrevHash ++ b.MerkleRoot ++ u32le b.Timestamp ++
          u32le b.Index ++ u64le b.ConsensusData ++ b.NextConsensus) ++ [1] ++
        (varUintBytes b.Script.InvocationScript.length ++ b.Script.InvocationScript ++
          (varUintBytes b.Script.VerificationScript.length ++ b.Script.VerificationScript)) ++
        varUintBytes b.Transactions.length ++ hashBytes b.Transactions =
        u32le b.Version ++ (b.PrevHash ++ (b.MerkleRoot ++ (u32le b.Timestamp ++
          (u32le b.Index ++ (u64le b.ConsensusData ++ (b.NextConsensus ++ (1 ::
        (varUintBytes b.Script.InvocationScript.length ++ (b.Script.InvocationScript ++
          (varUintBytes b.Script.VerificationScript.length ++ (b.Script.VerificationScript ++
        (varUintBytes b.Transactions.length ++ hashBytes b.Transactions)))))))))))) := by
      simp only [List.append_assoc, List.singleton_append, List.cons_append, List.nil_append]
    rw [hbytes, key]

/-- Witness for C6: the example block. -/
theorem Trim_then_NewBlockFromTrimmedBytes_witness :
    exampleBlock.InRange ∧
    ∃ bytes, exampleBlock.Trim = .ok bytes ∧
      bytes = (u32le exampleBlock.Version ++ exampleBlock.PrevHash ++ exampleBlock.MerkleRoot ++
          u32le exampleBlock.Timestamp ++ u32le exampleBlock.Index ++
          u64le exampleBlock.ConsensusData ++ exampleBlock.NextConsensus) ++ [1] ++
        (varUintBytes exampleBlock.Script.InvocationScript.length ++
            exampleBlock.Script.InvocationScript ++
          (varUintBytes exampleBlock.Script.VerificationScript.length ++
            exampleBlock.Script.VerificationScript)) ++
        varUintBytes exampleBlock.Transactions.length ++ hashBytes exampleBlock.Transactions ∧
      NewBlockFromTrimmedBytes bytes =
        some ({ toBase := exampleBlock.toBase,
                Transactions := exampleBlock.Transactions.map (fun tx => NewTrimmedTX tx.Hash),
                Trimmed := true }, none) :=
  ⟨exampleBlock_InRange, Trim_then_NewBlockFromTrimmedBytes exampleBlock exampleBlock_InRange⟩


theorem Payload_EncodeBinaryUnsigned_ok (c : PayloadCodec β) (p : Payload β) (buf : List Nat)
    (hm : ∀ m, p.message = some m → m.payload ≠ none) :
    ∃ data, p.IsWrittenData c data ∧
      p.EncodeBinaryUnsigned c ⟨buf, none⟩ =
        some ({ p with data := data }, ⟨buf ++ p.unsignedBytes data, none⟩) := by
  obtain ⟨msg, data0, version, validatorIndex, prevHash, height, timestamp, wit⟩ := p
  cases msg with
  | none =>
    refine ⟨data0, by simp [Payload.IsWrittenData], ?_⟩
    simp [Payload.EncodeBinaryUnsigned, BinWriter_WriteU32LE_ok, BinWriter_WriteBytes_ok,
      BinWriter_WriteU16LE_ok, BinWriter_WriteVarBytes_ok, Payload.unsignedBytes]
  | some m =>
    have hmsg : (Payload.mk (some m) data0 version validatorIndex prevHash height timestamp
      wit).message = some m := rfl
    cases hpl : m.payload with
    | none => exact absurd hpl (hm m rfl)
    | some pl =>
      have hww : m.EncodeBinary c NewBufBinWriter =
          some (c.EncodeBinary pl ((NewBufBinWriter.WriteBytes [m.msgType]).WriteB m.ViewNumber)) := by
        simp [message.EncodeBinary, hpl]
      refine ⟨_, by simp only [Payload.IsWrittenData, hmsg]; exact ⟨_, hww, rfl⟩, ?_⟩
      simp [Payload.EncodeBinaryUnsigned, hmsg, hww, BinWriter_WriteU32LE_ok,
        BinWriter_WriteBytes_ok, BinWriter_WriteU16LE_ok, BinWriter_WriteVarBytes_ok,
        Payload.unsignedBytes]

theorem Payload_EncodeBinary_ok (c : PayloadCodec β) (p : Payload β) (buf : List Nat)
    (hm : ∀ m, p.message = some m → m.payload ≠ none) :
    ∃ data, p.IsWrittenData c data ∧
      p.EncodeBinaryUnsigned c ⟨buf, none⟩ =
        some ({ p with data := data }, ⟨buf ++ p.unsignedBytes data, none⟩) ∧
      p.EncodeBinary c ⟨buf, none⟩ =
        some ({ p with data := data },
          ⟨buf ++ p.unsignedBytes data ++ [1] ++
            (varUintBytes p.Witness.InvocationScript.length ++ p.Witness.InvocationScript ++
              (varUintBytes p.Witness.VerificationScript.length ++
                p.Witness.VerificationScript)), none⟩) := by
  obtain ⟨data, hd, he⟩ := Payload_EncodeBinaryUnsigned_ok c p buf hm
  refine ⟨data, hd, he, ?_⟩
  simp [Payload.EncodeBinary, he, BinWriter_WriteB_ok, Witness_EncodeBinary_ok]

/-- C7: for every consensus payload, `EncodeBinaryUnsigned` writes version (u32
little-endian), prevHash, height (u32 little-endian), validatorIndex (u16
little-endian), timestamp (u32 little-endian) and then the payload data (the
encoded message when one is set) as VarBytes, and `EncodeBinary` writes exactly
those bytes followed by the single byte 0x01 and the encoded witness. -/
theorem Payload_EncodeBinary_layout (c : PayloadCodec β) (p : Payload β) (buf : List Nat)
    (hm : ∀ m, p.message = some m → m.payload ≠ none) :
    ∃ data, p.IsWrittenData c data ∧
      p.EncodeBinaryUnsigned c ⟨buf, none⟩ =
        some ({ p with data := data },
          ⟨buf ++ (u32le p.version ++ p.prevHash ++ u32le p.height ++ u16le p.validatorIndex ++
            u32le p.timestamp ++ (varUintBytes data.length ++ data)), none⟩) ∧
      p.EncodeBinary c ⟨buf, none⟩ =
        some ({ p with data := data },
          ⟨buf ++ (u32le p.version ++ p.prevHash ++ u32le p.height ++ u16le p.validatorIndex ++
            u32le p.timestamp ++ (varUintBytes data.length ++ data)) ++ [1] ++
            (varUintBytes p.Witness.InvocationScript.length ++ p.Witness.InvocationScript ++
              (varUintBytes p.Witness.VerificationScript.length ++
                p.Witness.VerificationScript)), none⟩) :=
  Payload_EncodeBinary_ok c p buf hm

theorem examplePayloadCV_payload :
    ∀ m, examplePayloadCV.message = some m → m.payload ≠ none := by
  intro m hm
  simp only [examplePayloadCV, Option.some.injEq] at hm
  subst hm
  simp

/-- Witness for C7: a payload with a ChangeView message. -/
theorem Payload_EncodeBinary_layout_witness :
    (∀ m, examplePayloadCV.message = some m → m.payload ≠ none) ∧
    ∃ data, examplePayloadCV.IsWrittenData exampleCodec data ∧
      examplePayloadCV.EncodeBinaryUnsigned exampleCodec ⟨[], none⟩ =
        some ({ examplePayloadCV with data := data },
          ⟨[] ++ (u32le examplePayloadCV.version ++ examplePayloadCV.prevHash ++
            u32le examplePayloadCV.height ++ u16le examplePayloadCV.validatorIndex ++
            u32le examplePayloadCV.timestamp ++ (varUintBytes data.length ++ data)), none⟩) ∧
      examplePayloadCV.EncodeBinary exampleCodec ⟨[], none⟩ =
        some ({ examplePayloadCV with data := data },
          ⟨[] ++ (u32le examplePayloadCV.version ++ examplePayloadCV.prevHash ++
            u32le examplePayloadCV.height ++ u16le examplePayloadCV.validatorIndex ++
            u32le examplePayloadCV.timestamp ++ (varUintBytes data.length ++ data)) ++ [1] ++
            (varUintBytes examplePayloadCV.Witness.InvocationScript.length ++
                examplePayloadCV.Witness.InvocationScript ++
              (varUintBytes examplePayloadCV.Witness.VerificationScript.length ++
                examplePayloadCV.Witness.VerificationScript)), none⟩) :=
  ⟨examplePayloadCV_payload,
    Payload_EncodeBinary_layout exampleCodec examplePayloadCV [] examplePayloadCV_payload⟩

theorem Payload_DecodeBinaryUnsigned_of (p : Payload β) (r r1 r2 r3 r4 r5 r6 : BinReader)
    (version height validatorIndex timestamp : Nat) (prevHash data : List Nat)
    (h1 : r.ReadU32LE = (version, r1))
    (h2 : r1.ReadBytes p.prevHash = (prevHash, r2))
    (h3 : r2.ReadU32LE = (height, r3))
    (h4 : r3.ReadU16LE = (validatorIndex, r4))
    (h5 : r4.ReadU32LE = (timestamp, r5))
    (h6 : r5.ReadVarBytes = (data, r6)) :
    p.DecodeBinaryUnsigned r =
      ({ p with version := version, prevHash := prevHash, height := height,
                validatorIndex := validatorIndex, timestamp := timestamp, data := data },
        r6) := by
  unfold Payload.DecodeBinaryUnsigned
  simp -iota -proj only []
  rw [h1, h2, h3, h4, h5, h6]

theorem Payload_DecodeBinary_of (p p1 : Payload β) (r r3 : BinReader) (rest : List Nat)
    (wit : Neo.Witness)
    (h1 : p.DecodeBinaryUnsigned r = (p1, ⟨1 :: rest, none⟩))
    (h3 : Witness.DecodeBinary ⟨rest, none⟩ = (wit, r3)) :
    p.DecodeBinary r = ({ p1 with Witness := wit }, r3) := by
  unfold Payload.DecodeBinary
  simp -iota -proj only []
  rw [h1]
  simp only [BinReader_ReadB_ok, ne_eq, not_true_eq_false, if_false, h3]

theorem Payload_DecodeBinary_invalid (p p1 : Payload β) (r : BinReader) (data : List Nat)
    (h1 : p.DecodeBinaryUnsigned r = (p1, ⟨data, none⟩)) (h2 : data.head? ≠ some 1) :
    (p.DecodeBinary r).2.err = some .invalidFormat := by
  unfold Payload.DecodeBinary
  simp -iota -proj only []
  rw [h1]
  cases data with
  | nil => simp [BinReader.ReadB, BinReader.ReadBytes]
  | cons b rest =>
    have hb : b ≠ 1 := by simpa using h2
    simp [BinReader_ReadB_ok, hb]

theorem Payload_DecodeBinaryUnsigned_ok (p : Payload β) (data rest : List Nat)
    (hr : p.InRange) (hlen : data.length < 2 ^ 64) :
    (Payload.zero : Payload β).DecodeBinaryUnsigned
        ⟨u32le p.version ++ (p.prevHash ++ (u32le p.height ++ (u16le p.validatorIndex ++
          (u32le p.timestamp ++ (varUintBytes data.length ++ (data ++ rest)))))), none⟩ =
      ({ (Payload.zero : Payload β) with
          version := p.version, prevHash := p.prevHash, height := p.height,
          validatorIndex := p.validatorIndex, timestamp := p.timestamp, data := data },
        ⟨rest, none⟩) := by
  obtain ⟨h1, h2, h3, h4, h5, -⟩ := hr
  have e6 := BinReader_ReadVarBytes_ok data rest hlen
  have e5 := BinReader_ReadU32LE_ok p.timestamp (varUintBytes data.length ++ (data ++ rest)) h5
  have e4 := BinReader_ReadU16LE_ok p.validatorIndex
    (u32le p.timestamp ++ (varUintBytes data.length ++ (data ++ rest))) h4
  have e3 := BinReader_ReadU32LE_ok p.height (u16le p.validatorIndex ++
    (u32le p.timestamp ++ (varUintBytes data.length ++ (data ++ rest)))) h3
  have e2 := BinReader_ReadBytes_ok p.prevHash (u32le p.height ++ (u16le p.validatorIndex ++
    (u32le p.timestamp ++ (varUintBytes data.length ++ (data ++ rest)))))
    (Payload.zero : Payload β).prevHash (by simpa [Payload.zero, Uint256.zero] using h2)
  have e1 := BinReader_ReadU32LE_ok p.version (p.prevHash ++ (u32le p.height ++
    (u16le p.validatorIndex ++ (u32le p.timestamp ++
      (varUintBytes data.length ++ (data ++ rest)))))) h1
  exact Payload_DecodeBinaryUnsigned_of _ _ _ _ _ _ _ _ _ _ _ _ _ _ e1 e2 e3 e4 e5 e6

theorem Payload_roundtrip_aux (c : PayloadCodec β) (p : Payload β)
    (hm : ∀ m, p.message = some m → m.payload ≠ none) (hr : p.InRange)
    (hd : ∀ data, p.IsWrittenData c data → data.length < 2 ^ 63) :
    ∃ p1 w, p.EncodeBinary c NewBufBinWriter = some (p1, w) ∧ w.err = none ∧
      p.IsWrittenData c p1.data ∧
      Payload.zero.DecodeBinary (NewBinReaderFromBuf w.Bytes) =
        ({ (Payload.zero : Payload β) with
            version := p.version, prevHash := p.prevHash, height := p.height,
            validatorIndex := p.validatorIndex, timestamp := p.timestamp, data := p1.data,
            Witness := p.Witness }, ⟨[], none⟩) := by
  obtain ⟨data, hdata, -, henc⟩ := Payload_EncodeBinary_ok c p [] hm
  have h6 := hr.2.2.2.2.2
  have hlen := hd data hdata
  refine ⟨_, _, henc, rfl, hdata, ?_⟩
  have hbytes : (BinWriter.mk ([] ++ p.unsignedBytes data ++ [1] ++
            (varUintBytes p.Witness.InvocationScript.length ++ p.Witness.InvocationScript ++
              (varUintBytes p.Witness.VerificationScript.length ++
                p.Witness.VerificationScript))) none).Bytes =
      u32le p.version ++ (p.prevHash ++ (u32le p.height ++ (u16le p.validatorIndex ++
        (u32le p.timestamp ++ (varUintBytes data.length ++ (data ++ (1 ::
          (varUintBytes p.Witness.InvocationScript.length ++ p.Witness.InvocationScript ++
            (varUintBytes p.Witness.VerificationScript.length ++
              p.Witness.VerificationScript) ++ [])))))))) := by
    simp only [BinWriter.Bytes, Payload.unsignedBytes, List.append_assoc, List.nil_append,
      List.singleton_append, List.cons_append, List.append_nil]
  rw [hbytes]
  have hu := Payload_DecodeBinaryUnsigned_ok p data (1 ::
          (varUintBytes p.Witness.InvocationScript.length ++ p.Witness.InvocationScript ++
            (varUintBytes p.Witness.VerificationScript.length ++
              p.Witness.VerificationScript) ++ [])) hr (by omega)
  have hw := Witness_DecodeBinary_ok p.Witness []
    (by have := h6.1; omega) (by have := h6.2; omega)
  rw [NewBinReaderFromBuf, Payload_DecodeBinary_of _ _ _ _ _ _ hu hw]

/-- C8: for every consensus payload (fields in the ranges of their Go types),
decoding the bytes written by `EncodeBinary` into a fresh `Payload` with
`DecodeBinary` succeeds and yields the same version, prevHash, height,
validatorIndex, timestamp, data bytes and witness scripts; and `DecodeBinary`
fails with the "invalid format" error whenever the unsigned part was read
without error and the byte that follows it is not 1 (or is missing). -/
theorem Payload_EncodeBinary_DecodeBinary (c : PayloadCodec β) (p : Payload β)
    (hm : ∀ m, p.message = some m → m.payload ≠ none) (hr : p.InRange)
    (hd : ∀ data, p.IsWrittenData c data → data.length < 2 ^ 63) :
    (∃ (p1 : Payload β) (w : BinWriter) (q : Payload β),
      p.EncodeBinary c NewBufBinWriter = some (p1, w) ∧ w.err = none ∧
      (Payload.zero : Payload β).DecodeBinary (NewBinReaderFromBuf w.Bytes) = (q, ⟨[], none⟩) ∧
      q.version = p.version ∧ q.prevHash = p.prevHash ∧ q.height = p.height ∧
      q.validatorIndex = p.validatorIndex ∧ q.timestamp = p.timestamp ∧
      q.data = p1.data ∧ p.IsWrittenData c q.data ∧
      q.Witness.InvocationScript = p.Witness.InvocationScript ∧
      q.Witness.VerificationScript = p.Witness.VerificationScript) ∧
    (∀ (q q1 : Payload β) (r : BinReader) (rest : List Nat),
      q.DecodeBinaryUnsigned r = (q1, ⟨rest, none⟩) → rest.head? ≠ some 1 →
      (q.DecodeBinary r).2.err = some .invalidFormat) := by
  refine ⟨?_, fun q q1 r rest h1 h2 => Payload_DecodeBinary_invalid q q1 r rest h1 h2⟩
  obtain ⟨p1, w, he, hw, hdata, hdec⟩ := Payload_roundtrip_aux c p hm hr hd
  exact ⟨p1, w, _, he, hw, hdec, rfl, rfl, rfl, rfl, rfl, rfl, hdata, rfl, rfl⟩

theorem examplePayloadCV_InRange : examplePayloadCV.InRange := by
  simp [Payload.InRange, Witness.InRange, examplePayloadCV, examplePayload]

theorem examplePayloadCV_data :
    ∀ data, examplePayloadCV.IsWrittenData exampleCodec data → data.length < 2 ^ 63 := by
  intro data h
  simp only [Payload.IsWrittenData, examplePayloadCV] at h
  obtain ⟨ww, hww, rfl⟩ := h
  simp only [message.EncodeBinary, Option.some.injEq] at hww
  subst hww
  decide

/-- Witness for C8: a payload with a ChangeView message. -/
theorem Payload_EncodeBinary_DecodeBinary_witness :
    (∀ m, examplePayloadCV.message = some m → m.payload ≠ none) ∧ examplePayloadCV.InRange ∧
    (∀ data, examplePayloadCV.IsWrittenData exampleCodec data → data.length < 2 ^ 63) ∧
    ((∃ (p1 : Payload (List Nat)) (w : BinWriter) (q : Payload (List Nat)),
      examplePayloadCV.EncodeBinary exampleCodec NewBufBinWriter = some (p1, w) ∧
      w.err = none ∧
      (Payload.zero : Payload (List Nat)).DecodeBinary (NewBinReaderFromBuf w.Bytes) = (q, ⟨[], none⟩) ∧
      q.version = examplePayloadCV.version ∧ q.prevHash = examplePayloadCV.prevHash ∧
      q.height = examplePayloadCV.height ∧
      q.validatorIndex = examplePayloadCV.validatorIndex ∧
      q.timestamp = examplePayloadCV.timestamp ∧
      q.data = p1.data ∧ examplePayloadCV.IsWrittenData exampleCodec q.data ∧
      q.Witness.InvocationScript = examplePayloadCV.Witness.InvocationScript ∧
      q.Witness.VerificationScript = examplePayloadCV.Witness.VerificationScript) ∧
    (∀ (q q1 : Payload (List Nat)) (r : BinReader) (rest : List Nat),
      q.DecodeBinaryUnsigned r = (q1, ⟨rest, none⟩) → rest.head? ≠ some 1 →
      (q.DecodeBinary r).2.err = some .invalidFormat)) :=
  ⟨examplePayloadCV_payload, examplePayloadCV_InRange, examplePayloadCV_data,
    Payload_EncodeBinary_DecodeBinary exampleCodec examplePayloadCV examplePayloadCV_payload
      examplePayloadCV_InRange examplePayloadCV_data⟩

theorem message_DecodeBinary_changeView (c : PayloadCodec β) (m : message β) (r : BinReader)
    (h : (m.DecodeBinary c r).1.msgType = changeViewType) :
    (m.DecodeBinary c r).1.payload =
      some (.changeView (((m.DecodeBinary c r).1.ViewNumber + 1) % 256)
        (c.DecodeBinary (.changeView (((m.DecodeBinary c r).1.ViewNumber + 1) % 256) c.zero)
          (r.ReadB.2.ReadB.2)).1) := by
  have ht : r.ReadB.1 = changeViewType := by
    unfold message.DecodeBinary at h
    simp -iota -proj only [] at h
    split_ifs at h <;> assumption
  unfold message.DecodeBinary
  simp -iota -proj only []
  rw [if_pos ht]
  rfl

/-- C9 (amended): for every ChangeView message decoded by `message.DecodeBinary`
with view number `v`, the new view number of the decoded ChangeView is
`(v + 1) mod 256` (an addition of bytes): `v + 1` when `v < 255`. -/
theorem message_DecodeBinary_newViewNumber (c : PayloadCodec β) (m : message β)
    (r : BinReader) (h : (m.DecodeBinary c r).1.msgType = changeViewType) :
    ∃ body, (m.DecodeBinary c r).1.payload =
        some (.changeView (((m.DecodeBinary c r).1.ViewNumber + 1) % 256) body) ∧
      ((m.DecodeBinary c r).1.ViewNumber < 255 →
        (m.DecodeBinary c r).1.payload =
          some (.changeView ((m.DecodeBinary c r).1.ViewNumber + 1) body)) := by
  refine ⟨_, message_DecodeBinary_changeView c m r h, ?_⟩
  intro hv
  rw [message_DecodeBinary_changeView c m r h, Nat.mod_eq_of_lt (by omega)]

/-- Witness for C9: a ChangeView message with view number 3. -/
theorem message_DecodeBinary_newViewNumber_witness :
    (exampleMessage.DecodeBinary exampleCodec ⟨[0x00, 3, 4, 1, 2, 3, 4], none⟩).1.msgType =
      changeViewType ∧
    ∃ body, (exampleMessage.DecodeBinary exampleCodec
        ⟨[0x00, 3, 4, 1, 2, 3, 4], none⟩).1.payload =
        some (.changeView (((exampleMessage.DecodeBinary exampleCodec
          ⟨[0x00, 3, 4, 1, 2, 3, 4], none⟩).1.ViewNumber + 1) % 256) body) ∧
      ((exampleMessage.DecodeBinary exampleCodec
          ⟨[0x00, 3, 4, 1, 2, 3, 4], none⟩).1.ViewNumber < 255 →
        (exampleMessage.DecodeBinary exampleCodec ⟨[0x00, 3, 4, 1, 2, 3, 4], none⟩).1.payload =
          some (.changeView ((exampleMessage.DecodeBinary exampleCodec
            ⟨[0x00, 3, 4, 1, 2, 3, 4], none⟩).1.ViewNumber + 1) body)) :=
  ⟨by decide, message_DecodeBinary_newViewNumber exampleCodec exampleMessage
    ⟨[0x00, 3, 4, 1, 2, 3, 4], none⟩ (by decide)⟩

/-- Counterexample for C9: the message bytes `00 ff 00` decode without error to a
ChangeView with view number 255 whose new view number is 0, not 256. -/
theorem message_DecodeBinary_newViewNumber_wraps :
    (exampleMessage.DecodeBinary exampleCodec ⟨[0x00, 255, 0], none⟩).2.err = none ∧
    (exampleMessage.DecodeBinary exampleCodec ⟨[0x00, 255, 0], none⟩).1.msgType =
      changeViewType ∧
    (exampleMessage.DecodeBinary exampleCodec ⟨[0x00, 255, 0], none⟩).1.ViewNumber = 255 ∧
    (exampleMessage.DecodeBinary exampleCodec ⟨[0x00, 255, 0], none⟩).1.payload =
      some (.changeView 0 []) ∧
    (exampleMessage.DecodeBinary exampleCodec ⟨[0x00, 255, 0], none⟩).1.payload ≠
      some (.changeView (255 + 1) []) := by
  decide

theorem Payload_MarshalUnsigned_ok (c : PayloadCodec β) (p : Payload β)
    (hm : ∀ m, p.message = some m → m.payload ≠ none) :
    ∃ data, p.IsWrittenData c data ∧
      p.MarshalUnsigned c = some (p.unsignedBytes data) ∧
      p.Hash c = some ({ p with data := data }, DoubleSha256 (p.unsignedBytes data)) := by
  obtain ⟨data, hd, he⟩ := Payload_EncodeBinaryUnsigned_ok c p [] hm
  refine ⟨data, hd, ?_, ?_⟩
  · simp [Payload.MarshalUnsigned, NewBufBinWriter, he, BinWriter.Bytes]
  · simp [Payload.Hash, NewBufBinWriter, he, BinWriter.Bytes]

/-- C10 (amended): for every consensus payload, the digest that `Payload.Verify`
hands to the VM as the checked hash is the single SHA-256 of the unsigned
encoding of the payload; `Payload.Hash` is the SHA-256 of that digest, the
double SHA-256 of the unsigned encoding. -/
theorem Payload_Verify_checked_hash (ScriptFromWitness : Uint160 → Witness → Option (List Nat))
    (run : VM → Bool) (c : PayloadCodec β) (p : Payload β) (scriptHash : Uint160)
    (verification : List Nat)
    (hm : ∀ m, p.message = some m → m.payload ≠ none)
    (hs : ScriptFromWitness scriptHash p.Witness = some verification) :
    ∃ unsigned v p1,
      p.MarshalUnsigned c = some unsigned ∧
      p.verifyVM c verification = some v ∧
      v.checkhash = Sum256 unsigned ∧
      p.Verify ScriptFromWitness run c scriptHash = some (run v) ∧
      p.Hash c = some (p1, DoubleSha256 unsigned) ∧
      DoubleSha256 unsigned = Sum256 v.checkhash := by
  obtain ⟨data, -, hmu, hh⟩ := Payload_MarshalUnsigned_ok c p hm
  have hv : p.verifyVM c verification =
      some ((((VM.New.SetCheckedHash (Sum256 (p.unsignedBytes data))).LoadScript
        verification).LoadScript p.Witness.InvocationScript)) := by
    simp [Payload.verifyVM, hmu]
  refine ⟨_, _, _, hmu, hv, rfl, ?_, hh, rfl⟩
  simp [Payload.Verify, hs, hv]

theorem examplePayload_payload :
    ∀ m, examplePayload.message = some m → m.payload ≠ none := by
  intro m hm
  simp [examplePayload] at hm

/-- Witness for C10: a payload without a message. -/
theorem Payload_Verify_checked_hash_witness :
    (∀ m, examplePayload.message = some m → m.payload ≠ none) ∧
    (fun (_ : Uint160) (w : Witness) => some w.VerificationScript) [] examplePayload.Witness =
      some [0x21, 0xac] ∧
    ∃ unsigned v p1,
      examplePayload.MarshalUnsigned exampleCodec = some unsigned ∧
      examplePayload.verifyVM exampleCodec [0x21, 0xac] = some v ∧
      v.checkhash = Sum256 unsigned ∧
      examplePayload.Verify (fun _ w => some w.VerificationScript) (fun _ => true) exampleCodec []
        = some ((fun _ => true) v) ∧
      examplePayload.Hash exampleCodec = some (p1, DoubleSha256 unsigned) ∧
      DoubleSha256 unsigned = Sum256 v.checkhash :=
  ⟨examplePayload_payload, rfl,
    Payload_Verify_checked_hash (fun _ w => some w.VerificationScript) (fun _ => true)
      exampleCodec examplePayload [] [0x21, 0xac] examplePayload_payload rfl⟩

set_option maxRecDepth 100000 in
/-- Counterexample for C10: for the example payload the checked hash that
`Verify` sets is the SHA-256 digest `316afc39..`, while the double SHA-256 of
the unsigned encoding, which is also what `Hash` returns, is `a2b4633f..`. -/
theorem Payload_Verify_checked_hash_is_single_sha256 :
    (examplePayload.verifyVM exampleCodec [0x21, 0xac]).map VM.checkhash =
      some [49, 106, 252, 57, 245, 55, 138, 101, 20, 239, 176, 84, 35, 172, 235, 1, 249, 55, 231,
        251, 45, 47, 168, 81, 164, 224, 29, 147, 20, 64, 20, 41] ∧
    (examplePayload.MarshalUnsigned exampleCodec).map DoubleSha256 =
      some [162, 180, 99, 63, 140, 12, 187, 169, 139, 156, 223, 221, 112, 4, 50, 236, 208, 218,
        66, 253, 214, 5, 173, 54, 163, 22, 76, 238, 75, 58, 22, 215] ∧
    (examplePayload.Hash exampleCodec).map Prod.snd =
      some [162, 180, 99, 63, 140, 12, 187, 169, 139, 156, 223, 221, 112, 4, 50, 236, 208, 218,
        66, 253, 214, 5, 173, 54, 163, 22, 76, 238, 75, 58, 22, 215] ∧
    (examplePayload.verifyVM exampleCodec [0x21, 0xac]).map VM.checkhash ≠
      (examplePayload.Hash exampleCodec).map Prod.snd := by
  decide

/-! ## The serializer: termination and fuel -/

theorem WriteBytes_WriteBytes (w : BinWriter) (a b : List Nat) :
    (w.WriteBytes a).WriteBytes b = w.WriteBytes (a ++ b) := by
  obtain ⟨buf, err⟩ := w
  cases err <;> simp [BinWriter.WriteBytes]

theorem WriteBytes_err_ne (w : BinWriter) (b : List Nat) (h : w.err ≠ none) :
    (w.WriteBytes b).err ≠ none := by
  obtain ⟨buf, err⟩ := w
  cases err with
  | none => exact absurd rfl h
  | some e => simp [BinWriter.WriteBytes]

theorem serializeEntries_eq_serializeItems
    (f : StackItem → BinWriter → List StackItem → Option SerState) (es : List MapElement)
    (w : BinWriter) (seen : List StackItem) :
    serializeEntries f es w seen =
      serializeItems f (es.foldr (fun e acc => e.Key :: e.Value :: acc) []) w seen := by
  induction es generalizing w seen with
  | nil => rfl
  | cons e es ih =>
    simp only [serializeEntries, List.foldr_cons, serializeItems]
    cases h1 : f e.Key w seen with
    | none => rfl
    | some s1 =>
      simp only [Option.some_bind]
      cases h2 : f e.Value s1.1 s1.2 with
      | none => rfl
      | some s2 => simp only [Option.some_bind, ih]

theorem serializeItemTo_seen (E : Emit) (h : Heap) (fuel : Nat) (item : StackItem)
    (w : BinWriter) (seen : List StackItem) (hs : item ∈ seen) :
    serializeItemTo E h (fuel + 1) item w seen = some ({ w with err := some .recursive }, seen) := by
  simp [serializeItemTo, hs]

theorem serializeItemTo_container (E : Emit) (h : Heap) (fuel : Nat) (item : StackItem)
    (w : BinWriter) (seen : List StackItem) (hs : item ∉ seen)
    (hc : item.isContainer = true) :
    serializeItemTo E h (fuel + 1) item w seen =
      serializeItems (serializeItemTo E h fuel) (h.children item)
        (w.WriteBytes (h.header item)) (item :: seen) := by
  cases item with
  | ArrayItem a =>
    simp only [serializeItemTo, hs, if_false, Heap.children, Heap.header, BinWriter.WriteVarUint,
      WriteBytes_WriteBytes, List.singleton_append]
  | StructItem a =>
    simp only [serializeItemTo, hs, if_false, Heap.children, Heap.header, BinWriter.WriteVarUint,
      WriteBytes_WriteBytes, List.singleton_append]
  | MapItem a =>
    simp only [serializeItemTo, hs, if_false, Heap.children, Heap.header, BinWriter.WriteVarUint,
      WriteBytes_WriteBytes, List.singleton_append, serializeEntries_eq_serializeItems]
  | ByteArrayItem v => simp [StackItem.isContainer] at hc
  | BoolItem v => simp [StackItem.isContainer] at hc
  | BigIntegerItem v => simp [StackItem.isContainer] at hc
  | InteropItem => simp [StackItem.isContainer] at hc

theorem serializeItemTo_leaf (E : Emit) (h : Heap) (fuel : Nat) (item : StackItem)
    (w : BinWriter) (seen : List StackItem) (hc : item.isContainer = false) :
    ∃ w1, serializeItemTo E h (fuel + 1) item w seen = some (w1, seen) ∧
      (w.err ≠ none → w1.err ≠ none) := by
  by_cases hs : item ∈ seen
  · exact ⟨_, serializeItemTo_seen E h fuel item w seen hs, by simp⟩
  · cases item with
    | ByteArrayItem v =>
      refine ⟨(w.WriteBytes [byteArrayT]).WriteVarBytes v, by simp [serializeItemTo, hs], ?_⟩
      intro he
      exact WriteBytes_err_ne _ _ (WriteBytes_err_ne _ _ (WriteBytes_err_ne _ _ he))
    | BoolItem v =>
      refine ⟨(w.WriteBytes [booleanT]).WriteBool v, by simp [serializeItemTo, hs], ?_⟩
      intro he
      exact WriteBytes_err_ne _ _ (WriteBytes_err_ne _ _ he)
    | BigIntegerItem v =>
      refine ⟨(w.WriteBytes [integerT]).WriteVarBytes (E.IntToBytes v),
        by simp [serializeItemTo, hs], ?_⟩
      intro he
      exact WriteBytes_err_ne _ _ (WriteBytes_err_ne _ _ (WriteBytes_err_ne _ _ he))
    | InteropItem =>
      exact ⟨{ w with err := some .interopItem }, by simp [serializeItemTo, hs], by simp⟩
    | ArrayItem a => simp [StackItem.isContainer] at hc
    | StructItem a => simp [StackItem.isContainer] at hc
    | MapItem a => simp [StackItem.isContainer] at hc

theorem serializeItems_mono (f : StackItem → BinWriter → List StackItem → Option SerState)
    (hf : SerMono f) (xs : List StackItem) :
    ∀ w seen r, serializeItems f xs w seen = some r →
      (∀ y ∈ seen, y ∈ r.2) ∧ (w.err ≠ none → r.1.err ≠ none) := by
  induction xs with
  | nil =>
    intro w seen r hr
    simp only [serializeItems, Option.some.injEq] at hr
    subst hr
    exact ⟨fun y hy => hy, fun he => he⟩
  | cons x xs ih =>
    intro w seen r hr
    simp only [serializeItems] at hr
    cases h1 : f x w seen with
    | none => simp [h1] at hr
    | some s =>
      rw [h1, Option.some_bind] at hr
      obtain ⟨a1, a2⟩ := hf x w seen s h1
      obtain ⟨b1, b2⟩ := ih s.1 s.2 r hr
      exact ⟨fun y hy => b1 y (a1 y hy), fun he => b2 (a2 he)⟩

theorem serializeItemTo_mono (E : Emit) (h : Heap) (fuel : Nat) :
    SerMono (serializeItemTo E h fuel) := by
  induction fuel with
  | zero =>
    intro x w seen r hr
    simp [serializeItemTo] at hr
  | succ fuel ih =>
    intro x w seen r hr
    by_cases hs : x ∈ seen
    · rw [serializeItemTo_seen E h fuel x w seen hs, Option.some.injEq] at hr
      subst hr
      exact ⟨fun y hy => hy, fun _ => by simp⟩
    · cases hc : x.isContainer with
      | false =>
        obtain ⟨w1, hw1, he⟩ := serializeItemTo_leaf E h fuel x w seen hc
        rw [hw1, Option.some.injEq] at hr
        subst hr
        exact ⟨fun y hy => hy, he⟩
      | true =>
        rw [serializeItemTo_container E h fuel x w seen hs hc] at hr
        obtain ⟨a1, a2⟩ := serializeItems_mono _ ih _ _ _ _ hr
        exact ⟨fun y hy => a1 y (List.mem_cons_of_mem _ hy),
          fun he => a2 (WriteBytes_err_ne _ _ he)⟩


theorem filter_length_lt_of_mem {α : Type} (p q : α → Bool) (l : List α) (x : α)
    (hx : x ∈ l) (hp : p x = true) (hq : q x = false) (hqp : ∀ a, q a = true → p a = true) :
    (l.filter q).length < (l.filter p).length := by
  induction l with
  | nil => simp at hx
  | cons a l ih =>
    have hle : (l.filter q).length ≤ (l.filter p).length :=
      (List.monotone_filter_right l hqp).length_le
    rcases List.mem_cons.mp hx with rfl | hx'
    · simp only [List.filter_cons, hp, hq, if_true, List.length_cons]
      simp only [Bool.false_eq_true, if_false]
      omega
    · have := ih hx'
      by_cases ha : q a = true
      · simp only [List.filter_cons, ha, hqp a ha, if_true, List.length_cons]
        omega
      · simp only [Bool.not_eq_true] at ha
        by_cases hpa : p a = true
        · simp only [List.filter_cons, ha, hpa, if_true, List.length_cons]
          simp only [Bool.false_eq_true, if_false]
          omega
        · simp only [Bool.not_eq_true] at hpa
          simp only [List.filter_cons, ha, hpa]
          simpa using this

theorem Heap_unseen_mono (h : Heap) (seen seen1 : List StackItem)
    (hs : ∀ y ∈ seen, y ∈ seen1) : h.unseen seen1 ≤ h.unseen seen := by
  apply List.Sublist.length_le
  apply List.monotone_filter_right
  intro a ha
  simp only [decide_eq_true_eq] at ha ⊢
  exact fun hmem => ha (hs a hmem)

theorem Heap_unseen_cons_lt (h : Heap) (seen : List StackItem) (x : StackItem)
    (hx : x ∈ h.refs) (hs : x ∉ seen) : h.unseen (x :: seen) < h.unseen seen := by
  apply filter_length_lt_of_mem _ _ _ x hx
  · simpa using hs
  · simp
  · intro a ha
    simp only [decide_eq_true_eq, List.mem_cons, not_or] at ha ⊢
    exact ha.2

theorem Heap_children_of_not_mem_refs (h : Heap) (x : StackItem) (hx : x ∉ h.refs) :
    h.children x = [] := by
  simp only [Heap.refs, List.mem_append, List.mem_map, List.mem_range, not_or, not_exists,
    not_and] at hx
  obtain ⟨h1, h2, h3⟩ := hx
  cases x with
  | ArrayItem a =>
    have : ¬ a < h.arrays.length := fun hlt => h1 a hlt rfl
    simp [Heap.children, List.getD, List.getElem?_eq_none (Nat.le_of_not_lt this)]
  | StructItem a =>
    have : ¬ a < h.structs.length := fun hlt => h2 a hlt rfl
    simp [Heap.children, List.getD, List.getElem?_eq_none (Nat.le_of_not_lt this)]
  | MapItem a =>
    have : ¬ a < h.maps.length := fun hlt => h3 a hlt rfl
    simp [Heap.children, List.getD, List.getElem?_eq_none (Nat.le_of_not_lt this)]
  | ByteArrayItem v => rfl
  | BoolItem v => rfl
  | BigIntegerItem v => rfl
  | InteropItem => rfl

theorem serializeItems_total (h : Heap)
    (f : StackItem → BinWriter → List StackItem → Option SerState) (k : Nat)
    (hf : ∀ x w seen, h.unseen seen < k → ∃ r, f x w seen = some r) (hm : SerMono f)
    (xs : List StackItem) :
    ∀ w seen, h.unseen seen < k → ∃ r, serializeItems f xs w seen = some r := by
  induction xs with
  | nil => exact fun w seen _ => ⟨_, rfl⟩
  | cons x xs ih =>
    intro w seen hk
    obtain ⟨s, hs⟩ := hf x w seen hk
    have hle := Heap_unseen_mono h seen s.2 (hm x w seen s hs).1
    obtain ⟨r, hr⟩ := ih s.1 s.2 (by omega)
    exact ⟨r, by simp only [serializeItems, hs, Option.some_bind, hr]⟩

theorem serializeItemTo_total (E : Emit) (h : Heap) :
    ∀ fuel x w seen, h.unseen seen < fuel → ∃ r, serializeItemTo E h fuel x w seen = some r := by
  intro fuel
  induction fuel with
  | zero => intro x w seen hk; omega
  | succ fuel ih =>
    intro x w seen hk
    by_cases hs : x ∈ seen
    · exact ⟨_, serializeItemTo_seen E h fuel x w seen hs⟩
    · cases hc : x.isContainer with
      | false =>
        obtain ⟨w1, hw1, -⟩ := serializeItemTo_leaf E h fuel x w seen hc
        exact ⟨_, hw1⟩
      | true =>
        rw [serializeItemTo_container E h fuel x w seen hs hc]
        by_cases hx : x ∈ h.refs
        · have := Heap_unseen_cons_lt h seen x hx hs
          exact serializeItems_total h _ fuel ih (serializeItemTo_mono E h fuel) _ _ _ (by omega)
        · rw [Heap_children_of_not_mem_refs h x hx]
          exact ⟨_, rfl⟩

theorem Heap_unseen_nil (h : Heap) : h.unseen [] = h.size := by
  simp [Heap.unseen, Heap.refs, Heap.size]
  omega

theorem serializeItems_fuel (f g : StackItem → BinWriter → List StackItem → Option SerState)
    (hfg : ∀ x w seen r, f x w seen = some r → g x w seen = some r) (xs : List StackItem) :
    ∀ w seen r, serializeItems f xs w seen = some r → serializeItems g xs w seen = some r := by
  induction xs with
  | nil => exact fun w seen r hr => hr
  | cons x xs ih =>
    intro w seen r hr
    simp only [serializeItems] at hr ⊢
    cases h1 : f x w seen with
    | none => simp [h1] at hr
    | some s =>
      rw [h1, Option.some_bind] at hr
      rw [hfg x w seen s h1, Option.some_bind]
      exact ih _ _ _ hr

theorem serializeItemTo_fuel (E : Emit) (h : Heap) :
    ∀ n m x w seen r, n ≤ m → serializeItemTo E h n x w seen = some r →
      serializeItemTo E h m x w seen = some r := by
  intro n
  induction n with
  | zero =>
    intro m x w seen r _ hr
    simp [serializeItemTo] at hr
  | succ n ih =>
    intro m x w seen r hnm hr
    obtain ⟨m, rfl⟩ : ∃ m1, m = m1 + 1 := ⟨m - 1, by omega⟩
    by_cases hs : x ∈ seen
    · rw [serializeItemTo_seen E h _ x w seen hs] at hr ⊢
      exact hr
    · cases hc : x.isContainer with
      | false =>
        cases x with
        | ByteArrayItem v => simpa [serializeItemTo, hs] using hr
        | BoolItem v => simpa [serializeItemTo, hs] using hr
        | BigIntegerItem v => simpa [serializeItemTo, hs] using hr
        | InteropItem => simpa [serializeItemTo, hs] using hr
        | ArrayItem a => simp [StackItem.isContainer] at hc
        | StructItem a => simp [StackItem.isContainer] at hc
        | MapItem a => simp [StackItem.isContainer] at hc
      | true =>
        rw [serializeItemTo_container E h _ x w seen hs hc] at hr ⊢
        exact serializeItems_fuel _ _ (fun x w seen r hr => ih m x w seen r (by omega) hr)
          _ _ _ _ hr


/-! ## The serializer on cyclic items -/

theorem Heap_Holds_isContainer (h : Heap) (x c : StackItem) (hh : h.Holds x c) :
    x.isContainer = true := by
  cases x <;> simp [Heap.Holds, Heap.children, StackItem.isContainer] at hh ⊢

theorem serializeItems_err (f : StackItem → BinWriter → List StackItem → Option SerState)
    (hm : SerMono f) (P : List StackItem → Prop)
    (hP : ∀ seen seen1, P seen → (∀ y ∈ seen, y ∈ seen1) → P seen1) (c : StackItem)
    (hc : ∀ w seen r, P seen → f c w seen = some r → r.1.err ≠ none) (xs : List StackItem)
    (hmem : c ∈ xs) :
    ∀ w seen r, P seen → serializeItems f xs w seen = some r → r.1.err ≠ none := by
  induction xs with
  | nil => simp at hmem
  | cons x xs ih =>
    intro w seen r hp hr
    simp only [serializeItems] at hr
    cases h1 : f x w seen with
    | none => simp [h1] at hr
    | some s =>
      rw [h1, Option.some_bind] at hr
      obtain ⟨a1, -⟩ := hm x w seen s h1
      rcases List.mem_cons.mp hmem with rfl | hmem'
      · exact (serializeItems_mono f hm xs _ _ _ hr).2 (hc w seen s hp h1)
      · exact ih hmem' _ _ _ (hP _ _ hp a1) hr

theorem serializeItemTo_reaches_seen (E : Emit) (h : Heap) (y z : StackItem)
    (hp : Relation.ReflTransGen h.Holds y z) :
    ∀ fuel w seen r, z ∈ seen → serializeItemTo E h fuel y w seen = some r →
      r.1.err ≠ none := by
  induction hp using Relation.ReflTransGen.head_induction_on with
  | refl =>
    intro fuel w seen r hz hr
    cases fuel with
    | zero => simp [serializeItemTo] at hr
    | succ fuel =>
      rw [serializeItemTo_seen E h fuel z w seen hz, Option.some.injEq] at hr
      subst hr
      simp
  | @head y c hyc _ ih =>
    intro fuel w seen r hz hr
    cases fuel with
    | zero => simp [serializeItemTo] at hr
    | succ fuel =>
      by_cases hs : y ∈ seen
      · rw [serializeItemTo_seen E h fuel y w seen hs, Option.some.injEq] at hr
        subst hr
        simp
      · rw [serializeItemTo_container E h fuel y w seen hs
          (Heap_Holds_isContainer h y c hyc)] at hr
        exact serializeItems_err _ (serializeItemTo_mono E h fuel) (fun s => z ∈ s)
          (fun _ _ hz1 hsub => hsub z hz1) c (fun w1 s1 r1 hz1 hr1 => ih fuel w1 s1 r1 hz1 hr1)
          _ hyc _ _ _ (List.mem_cons_of_mem _ hz) hr

theorem serializeItemTo_cyclic (E : Emit) (h : Heap) (y c : StackItem)
    (hp : Relation.ReflTransGen h.Holds y c) (hcyc : h.Contains c c) :
    ∀ fuel w seen r, serializeItemTo E h fuel y w seen = some r → r.1.err ≠ none := by
  induction hp using Relation.ReflTransGen.head_induction_on with
  | refl =>
    intro fuel w seen r hr
    obtain ⟨d, hcd, hdc⟩ := Relation.TransGen.head'_iff.mp hcyc
    cases fuel with
    | zero => simp [serializeItemTo] at hr
    | succ fuel =>
      by_cases hs : c ∈ seen
      · rw [serializeItemTo_seen E h fuel c w seen hs, Option.some.injEq] at hr
        subst hr
        simp
      · rw [serializeItemTo_container E h fuel c w seen hs
          (Heap_Holds_isContainer h c d hcd)] at hr
        exact serializeItems_err _ (serializeItemTo_mono E h fuel) (fun s => c ∈ s)
          (fun _ _ hz1 hsub => hsub c hz1) d
          (fun w1 s1 r1 hz1 hr1 => serializeItemTo_reaches_seen E h d c hdc fuel w1 s1 r1 hz1 hr1)
          _ hcd _ _ _ (List.mem_cons_self _ _) hr
  | @head y d hyc _ ih =>
    intro fuel w seen r hr
    cases fuel with
    | zero => simp [serializeItemTo] at hr
    | succ fuel =>
      by_cases hs : y ∈ seen
      · rw [serializeItemTo_seen E h fuel y w seen hs, Option.some.injEq] at hr
        subst hr
        simp
      · rw [serializeItemTo_container E h fuel y w seen hs
          (Heap_Holds_isContainer h y d hyc)] at hr
        exact serializeItems_err _ (serializeItemTo_mono E h fuel) (fun _ => True)
          (fun _ _ _ _ => trivial) d (fun w1 s1 r1 _ hr1 => ih fuel w1 s1 r1 hr1)
          _ hyc _ _ _ trivial hr

theorem SerializeItem_some (E : Emit) (h : Heap) (x : StackItem) :
    ∃ r, serializeItemTo E h (h.size + 1) x NewBufBinWriter [] = some r ∧
      SerializeItem E h x =
        some (match r.1.err with
          | some e => .error e
          | none => .ok r.1.Bytes) := by
  obtain ⟨r, hr⟩ := serializeItemTo_total E h (h.size + 1) x NewBufBinWriter []
    (by rw [Heap_unseen_nil]; omega)
  refine ⟨r, hr, ?_⟩
  simp only [SerializeItem, EncodeBinaryStackItem, hr, Option.map_some']
  cases r.1.err <;> rfl

/-- C2: for every stack item in which an Array, Struct or Map contains itself,
directly or through nested containers (the item is that container or contains
it), `SerializeItem` terminates and returns an error. -/
theorem SerializeItem_cyclic_error (E : Emit) (h : Heap) (x c : StackItem)
    (hxc : x = c ∨ h.Contains x c) (hcyc : h.Contains c c) :
    ∃ e, SerializeItem E h x = some (.error e) := by
  have hp : Relation.ReflTransGen h.Holds x c := by
    rcases hxc with rfl | hxc
    · exact Relation.ReflTransGen.refl
    · exact hxc.to_reflTransGen
  obtain ⟨r, hr, hS⟩ := SerializeItem_some E h x
  have herr := serializeItemTo_cyclic E h x c hp hcyc _ _ _ _ hr
  rw [hS]
  cases he : r.1.err with
  | none => exact absurd he herr
  | some e => exact ⟨e, rfl⟩

theorem exampleCyclicHeap_cycle :
    exampleCyclicHeap.Contains (.ArrayItem 1) (.ArrayItem 1) := by
  refine Relation.TransGen.head (b := .ArrayItem 0) ?_ (Relation.TransGen.single ?_)
  · simp [Heap.Holds, Heap.children, exampleCyclicHeap]
  · simp [Heap.Holds, Heap.children, exampleCyclicHeap]

/-- Witness for C2: an array that holds an array that holds itself. -/
theorem SerializeItem_cyclic_error_witness :
    (StackItem.ArrayItem 0 = .ArrayItem 1 ∨
      exampleCyclicHeap.Contains (.ArrayItem 0) (.ArrayItem 1)) ∧
    exampleCyclicHeap.Contains (.ArrayItem 1) (.ArrayItem 1) ∧
    ∃ e, SerializeItem emitLE exampleCyclicHeap (.ArrayItem 0) = some (.error e) :=
  ⟨Or.inr (Relation.TransGen.single (by simp [Heap.Holds, Heap.children, exampleCyclicHeap])),
    exampleCyclicHeap_cycle,
    SerializeItem_cyclic_error emitLE exampleCyclicHeap (.ArrayItem 0) (.ArrayItem 1)
      (Or.inr (Relation.TransGen.single
        (by simp [Heap.Holds, Heap.children, exampleCyclicHeap])))
      exampleCyclicHeap_cycle⟩

/-! ## The decoder on encoded items -/

theorem Exec_bind_done {α β : Type} (v : α) (f : α → Exec β) : (Exec.done v).bind f = f v := rfl

theorem DecodeBinaryStackItem_of (E : Emit) (fuel : Nat) (t : Nat) (data : List Nat) :
    DecodeBinaryStackItem E (fuel + 1) ⟨t :: data, none⟩ =
      if t = byteArrayT then
        .done (.ByteArray (BinReader.mk data none).ReadVarBytes.1,
          (BinReader.mk data none).ReadVarBytes.2)
      else if t = booleanT then
        .done (.Boolean (BinReader.mk data none).ReadBool.1, (BinReader.mk data none).ReadBool.2)
      else if t = integerT then
        .done (.BigInteger (E.BytesToInt (BinReader.mk data none).ReadVarBytes.1),
          (BinReader.mk data none).ReadVarBytes.2)
      else if t = arrayT ∨ t = structT then
        if 2 ^ 63 ≤ (BinReader.mk data none).ReadVarUint.1 then .panic
        else
          (decodeItems (DecodeBinaryStackItem E fuel) (BinReader.mk data none).ReadVarUint.1
            (BinReader.mk data none).ReadVarUint.2).bind fun arr =>
            .done (if t = arrayT then .Array arr.1 else .Struct arr.1, arr.2)
      else if t = mapT then
        (decodeEntries (DecodeBinaryStackItem E fuel)
            (if 2 ^ 63 ≤ (BinReader.mk data none).ReadVarUint.1 then 0
              else (BinReader.mk data none).ReadVarUint.1) []
            (BinReader.mk data none).ReadVarUint.2).bind fun m =>
          .done (.Map m.1, m.2)
      else .done (.null, { (BinReader.mk data none) with err := some .unknownType }) := by
  rw [DecodeBinaryStackItem]
  simp -iota -proj only []
  rw [BinReader_ReadB_ok]
  simp only [ne_eq, not_true_eq_false, if_false]

theorem Decode_byteArray (E : Emit) (fuel : Nat) (d rest : List Nat) (hd : d.length < 2 ^ 64) :
    DecodeBinaryStackItem E (fuel + 1) ⟨byteArrayT :: (varUintBytes d.length ++ (d ++ rest)), none⟩
      = .done (.ByteArray d, ⟨rest, none⟩) := by
  rw [DecodeBinaryStackItem_of, if_pos rfl, BinReader_ReadVarBytes_ok d rest hd]

theorem Decode_boolean (E : Emit) (fuel : Nat) (b : Bool) (rest : List Nat) :
    DecodeBinaryStackItem E (fuel + 1) ⟨booleanT :: (if b then 1 else 0) :: rest, none⟩
      = .done (.Boolean b, ⟨rest, none⟩) := by
  rw [DecodeBinaryStackItem_of, if_neg (by decide), if_pos rfl]
  cases b <;> simp [BinReader.ReadBool, BinReader_ReadB_ok]

theorem Decode_integer (E : Emit) (fuel : Nat) (d rest : List Nat) (hd : d.length < 2 ^ 64) :
    DecodeBinaryStackItem E (fuel + 1) ⟨integerT :: (varUintBytes d.length ++ (d ++ rest)), none⟩
      = .done (.BigInteger (E.BytesToInt d), ⟨rest, none⟩) := by
  rw [DecodeBinaryStackItem_of, if_neg (by decide), if_neg (by decide), if_pos rfl,
    BinReader_ReadVarBytes_ok d rest hd]

theorem Decode_array (E : Emit) (fuel n : Nat) (data rest : List Nat) (arr : List ItemValue)
    (hn : n < 2 ^ 63)
    (h : decodeItems (DecodeBinaryStackItem E fuel) n ⟨data, none⟩ = .done (arr, ⟨rest, none⟩)) :
    DecodeBinaryStackItem E (fuel + 1) ⟨arrayT :: (varUintBytes n ++ data), none⟩
      = .done (.Array arr, ⟨rest, none⟩) := by
  rw [DecodeBinaryStackItem_of, if_neg (by decide), if_neg (by decide), if_neg (by decide),
    if_pos (Or.inl rfl), BinReader_ReadVarUint_ok n data (by omega), if_neg (by omega), h,
    Exec_bind_done, if_pos rfl]

theorem Decode_struct (E : Emit) (fuel n : Nat) (data rest : List Nat) (arr : List ItemValue)
    (hn : n < 2 ^ 63)
    (h : decodeItems (DecodeBinaryStackItem E fuel) n ⟨data, none⟩ = .done (arr, ⟨rest, none⟩)) :
    DecodeBinaryStackItem E (fuel + 1) ⟨structT :: (varUintBytes n ++ data), none⟩
      = .done (.Struct arr, ⟨rest, none⟩) := by
  rw [DecodeBinaryStackItem_of, if_neg (by decide), if_neg (by decide), if_neg (by decide),
    if_pos (Or.inr rfl), BinReader_ReadVarUint_ok n data (by omega), if_neg (by omega), h,
    Exec_bind_done, if_neg (by decide)]

theorem Decode_map (E : Emit) (fuel n : Nat) (data rest : List Nat)
    (m : List (ItemValue × ItemValue)) (hn : n < 2 ^ 63)
    (h : decodeEntries (DecodeBinaryStackItem E fuel) n [] ⟨data, none⟩
      = .done (m, ⟨rest, none⟩)) :
    DecodeBinaryStackItem E (fuel + 1) ⟨mapT :: (varUintBytes n ++ data), none⟩
      = .done (.Map m, ⟨rest, none⟩) := by
  rw [DecodeBinaryStackItem_of, if_neg (by decide), if_neg (by decide), if_neg (by decide),
    if_neg (by decide), if_pos rfl, BinReader_ReadVarUint_ok n data (by omega),
    if_neg (by omega), h, Exec_bind_done]


theorem itemTrees_cons (f : StackItem → Option (ItemValue × List StackItem)) (x : StackItem)
    (xs : List StackItem) (vs : List ItemValue) (refs : List StackItem)
    (h : itemTrees f (x :: xs) = some (vs, refs)) :
    ∃ v r1 vs1 r2, f x = some (v, r1) ∧ itemTrees f xs = some (vs1, r2) ∧
      vs = v :: vs1 ∧ refs = r1 ++ r2 := by
  simp only [itemTrees] at h
  cases h1 : f x with
  | none => simp [h1] at h
  | some p =>
    obtain ⟨v, r1⟩ := p
    cases h2 : itemTrees f xs with
    | none => simp [h1, h2] at h
    | some q =>
      obtain ⟨vs1, r2⟩ := q
      simp only [h1, h2, Option.some.injEq, Prod.mk.injEq] at h
      exact ⟨v, r1, vs1, r2, rfl, rfl, h.1.symm, h.2.symm⟩

theorem entryTrees_cons (f : StackItem → Option (ItemValue × List StackItem)) (e : MapElement)
    (es : List MapElement) (m : List (ItemValue × ItemValue)) (refs : List StackItem)
    (h : entryTrees f (e :: es) = some (m, refs)) :
    ∃ k r1 v r2 m1 r3, f e.Key = some (k, r1) ∧ f e.Value = some (v, r2) ∧
      entryTrees f es = some (m1, r3) ∧ m = (k, v) :: m1 ∧ refs = r1 ++ r2 ++ r3 := by
  simp only [entryTrees] at h
  cases h1 : f e.Key with
  | none => simp [h1] at h
  | some p =>
    obtain ⟨k, r1⟩ := p
    cases h2 : f e.Value with
    | none => simp [h1, h2] at h
    | some q =>
      obtain ⟨v, r2⟩ := q
      cases h3 : entryTrees f es with
      | none => simp [h1, h2, h3] at h
      | some t =>
        obtain ⟨m1, r3⟩ := t
        simp only [h1, h2, h3, Option.some.injEq, Prod.mk.injEq] at h
        exact ⟨k, r1, v, r2, m1, r3, rfl, rfl, rfl, h.1.symm, h.2.symm⟩

theorem EncodesTo_nil (f : BinWriter → List StackItem → Option SerState)
    (hf : ∀ w seen, f w seen = some (w, seen)) : EncodesTo f [] [] := by
  intro w seen hw _ _ hc
  obtain ⟨buf, err⟩ := w
  simp only at hw
  subst hw
  exact ⟨seen, by simp [hf], by simp, hc⟩

theorem EncodesTo_seq (f g fg : BinWriter → List StackItem → Option SerState)
    (r1 r2 : List StackItem) (b1 b2 : List Nat)
    (hfg : ∀ w seen, fg w seen = (f w seen).bind fun s => g s.1 s.2)
    (h1 : EncodesTo f r1 b1) (h2 : EncodesTo g r2 b2) :
    EncodesTo fg (r1 ++ r2) (b1 ++ b2) := by
  intro w seen hw hnd hdis hc
  obtain ⟨n1, n2, hd⟩ := List.nodup_append.mp hnd
  obtain ⟨s1, e1, m1, c1⟩ := h1 w seen hw n1
    (fun r hr => hdis r (List.mem_append_left _ hr)) hc
  obtain ⟨s2, e2, m2, c2⟩ := h2 ⟨w.buf ++ b1, none⟩ s1 rfl n2
    (fun r hr hmem => by
      rcases (m1 r).mp hmem with h' | h'
      · exact hd h' hr
      · exact hdis r (List.mem_append_right _ hr) h') c1
  refine ⟨s2, ?_, ?_, c2⟩
  · rw [hfg, e1, Option.some_bind, e2, List.append_assoc]
  · intro y
    rw [m2, m1, List.mem_append]
    tauto


theorem RoundTrip_items (E : Emit) (h : Heap) (n : Nat) (ih : RoundTrip E h n) :
    ∀ xs vs refs, itemTrees (itemTree h n) xs = some (vs, refs) → WellFormedList E vs →
      vs.length = xs.length ∧
      ∃ bytes, EncodesTo (serializeItems (serializeItemTo E h n) xs) refs bytes ∧
        ∀ rest fuel, (bytes ++ rest).length < fuel →
          decodeItems (DecodeBinaryStackItem E fuel) vs.length ⟨bytes ++ rest, none⟩ =
            .done (vs, ⟨rest, none⟩) := by
  intro xs
  induction xs with
  | nil =>
    intro vs refs ht _
    simp only [itemTrees, Option.some.injEq, Prod.mk.injEq] at ht
    obtain ⟨rfl, rfl⟩ := ht
    exact ⟨rfl, [], EncodesTo_nil _ (fun _ _ => rfl), fun rest fuel _ => rfl⟩
  | cons x xs ihx =>
    intro vs refs ht hwf
    obtain ⟨v, r1, vs1, r2, h1, h2, rfl, rfl⟩ := itemTrees_cons _ _ _ _ _ ht
    obtain ⟨hwv, hwvs⟩ := hwf
    obtain ⟨b1, he1, hd1⟩ := ih x v r1 h1 hwv
    obtain ⟨hlen, b2, he2, hd2⟩ := ihx vs1 r2 h2 hwvs
    refine ⟨by simp [hlen], b1 ++ b2, ?_, ?_⟩
    · exact EncodesTo_seq _ _ _ r1 r2 b1 b2 (fun _ _ => rfl) he1 he2
    · intro rest fuel hf
      have hl : (b1 ++ (b2 ++ rest)).length < fuel := by simpa [List.append_assoc] using hf
      have hl2 : (b2 ++ rest).length < fuel := by
        simp only [List.length_append] at hl ⊢
        omega
      simp only [List.length_cons, decodeItems, List.append_assoc]
      rw [hd1 (b2 ++ rest) fuel hl, Exec_bind_done]
      simp only []
      rw [hd2 rest fuel hl2, Exec_bind_done]

theorem MapItemAdd_append (m : List (ItemValue × ItemValue)) (k v : ItemValue)
    (hk : isValidMapKey k = true) (hm : ∀ e ∈ m, keyEquals e.1 k = false) :
    MapItemAdd m k v = some (m ++ [(k, v)]) := by
  have hany : m.any (fun e => keyEquals e.1 k) = false := by
    rw [List.any_eq_false]
    intro e he
    simp [hm e he]
  simp [MapItemAdd, hk, hany]

theorem RoundTrip_entries (E : Emit) (h : Heap) (n : Nat) (ih : RoundTrip E h n) :
    ∀ es m refs, entryTrees (itemTree h n) es = some (m, refs) → WellFormedEntries E m →
      (m.map Prod.fst).Pairwise (fun a b => keyEquals a b = false) →
      m.length = es.length ∧
      ∃ bytes, EncodesTo (serializeEntries (serializeItemTo E h n) es) refs bytes ∧
        ∀ acc rest fuel, (bytes ++ rest).length < fuel →
          (∀ e ∈ acc, ∀ e1 ∈ m, keyEquals e.1 e1.1 = false) →
          decodeEntries (DecodeBinaryStackItem E fuel) m.length acc ⟨bytes ++ rest, none⟩ =
            .done (acc ++ m, ⟨rest, none⟩) := by
  intro es
  induction es with
  | nil =>
    intro m refs ht _ _
    simp only [entryTrees, Option.some.injEq, Prod.mk.injEq] at ht
    obtain ⟨rfl, rfl⟩ := ht
    exact ⟨rfl, [], EncodesTo_nil _ (fun _ _ => rfl), fun acc rest fuel _ _ => by
      simp [decodeEntries]⟩
  | cons e es ihe =>
    intro m refs ht hwf hpw
    obtain ⟨k, r1, v, r2, m1, r3, h1, h2, h3, rfl, rfl⟩ := entryTrees_cons _ _ _ _ _ ht
    obtain ⟨hvk, hwk, hwv, hwm⟩ := hwf
    simp only [List.map_cons, List.pairwise_cons] at hpw
    obtain ⟨hk1, hpw1⟩ := hpw
    obtain ⟨bk, hek, hdk⟩ := ih e.Key k r1 h1 hwk
    obtain ⟨bv, hev, hdv⟩ := ih e.Value v r2 h2 hwv
    obtain ⟨hlen, bm, hem, hdm⟩ := ihe m1 r3 h3 hwm hpw1
    refine ⟨by simp [hlen], bk ++ bv ++ bm, ?_, ?_⟩
    · refine EncodesTo_seq _ _ _ (r1 ++ r2) r3 (bk ++ bv) bm ?_
        (EncodesTo_seq _ _ _ r1 r2 bk bv (fun _ _ => rfl) hek hev) hem
      intro w seen
      simp only [serializeEntries]
      cases f1 : serializeItemTo E h n e.Key w seen with
      | none => rfl
      | some s1 =>
        simp only [Option.some_bind]
    · intro acc rest fuel hf hacc
      have hl : (bk ++ (bv ++ (bm ++ rest))).length < fuel := by
        simpa [List.append_assoc] using hf
      have hl2 : (bv ++ (bm ++ rest)).length < fuel := by
        simp only [List.length_append] at hl ⊢
        omega
      have hl3 : (bm ++ rest).length < fuel := by
        simp only [List.length_append] at hl ⊢
        omega
      have hadd : MapItemAdd acc k v = some (acc ++ [(k, v)]) :=
        MapItemAdd_append acc k v hvk (fun e1 he1 => hacc e1 he1 (k, v) (List.mem_cons_self _ _))
      simp only [List.length_cons, decodeEntries, List.append_assoc]
      rw [hdk (bv ++ (bm ++ rest)) fuel hl, Exec_bind_done]
      simp only []
      rw [hdv (bm ++ rest) fuel hl2, Exec_bind_done]
      simp only [ne_eq, not_true_eq_false, if_false, hadd]
      rw [hdm (acc ++ [(k, v)]) rest fuel hl3]
      · simp only [List.append_assoc, List.singleton_append]
      · intro e1 he1 e2 he2
        rcases List.mem_append.mp he1 with h' | h'
        · exact hacc e1 h' e2 (List.mem_cons_of_mem _ he2)
        · simp only [List.mem_singleton] at h'
          subst h'
          exact hk1 e2.1 (List.mem_map_of_mem _ he2)


theorem EncodesTo_leaf (E : Emit) (h : Heap) (n : Nat) (x : StackItem) (bytes : List Nat)
    (hc : x.isContainer = false)
    (hx : ∀ buf seen, x ∉ seen →
      serializeItemTo E h (n + 1) x ⟨buf, none⟩ seen = some (⟨buf ++ bytes, none⟩, seen)) :
    EncodesTo (serializeItemTo E h (n + 1) x) [] bytes := by
  intro w seen hw _ _ hcs
  obtain ⟨buf, err⟩ := w
  simp only at hw
  subst hw
  have hns : x ∉ seen := fun hmem => by
    have := hcs x hmem
    rw [hc] at this
    exact Bool.false_ne_true this
  exact ⟨seen, hx buf seen hns, by simp, hcs⟩

theorem EncodesTo_container (E : Emit) (h : Heap) (n : Nat) (x : StackItem)
    (refs : List StackItem) (bytes : List Nat) (hc : x.isContainer = true)
    (hch : EncodesTo (serializeItems (serializeItemTo E h n) (h.children x)) refs bytes) :
    EncodesTo (serializeItemTo E h (n + 1) x) (x :: refs) (h.header x ++ bytes) := by
  intro w seen hw hnd hdis hcs
  obtain ⟨buf, err⟩ := w
  simp only at hw
  subst hw
  obtain ⟨hx, hnd1⟩ := List.nodup_cons.mp hnd
  have hxs : x ∉ seen := hdis x (List.mem_cons_self _ _)
  obtain ⟨s1, e1, m1, c1⟩ := hch ⟨buf ++ h.header x, none⟩ (x :: seen) rfl hnd1
    (fun r hr hmem => by
      rcases List.mem_cons.mp hmem with rfl | h'
      · exact hx hr
      · exact hdis r (List.mem_cons_of_mem _ hr) h')
    (fun y hy => by
      rcases List.mem_cons.mp hy with rfl | h'
      · exact hc
      · exact hcs y h')
  refine ⟨s1, ?_, ?_, c1⟩
  · rw [serializeItemTo_container E h n x _ seen hxs hc, BinWriter_WriteBytes_ok, e1,
      List.append_assoc]
  · intro y
    rw [m1, List.mem_cons, List.mem_cons]
    tauto

theorem RoundTrip_all (E : Emit) (h : Heap) : ∀ n, RoundTrip E h n := by
  intro n
  induction n with
  | zero =>
    intro x v refs ht
    simp [itemTree] at ht
  | succ n ih =>
    intro x v refs ht hwf
    cases x with
    | ByteArrayItem d =>
      simp only [itemTree, Option.some.injEq, Prod.mk.injEq] at ht
      obtain ⟨rfl, rfl⟩ := ht
      have hd : d.length < 2 ^ 63 := hwf
      refine ⟨byteArrayT :: (varUintBytes d.length ++ d), ?_, ?_⟩
      · refine EncodesTo_leaf E h n (.ByteArrayItem d) _ rfl ?_
        intro buf seen hns
        simp [serializeItemTo, hns, BinWriter_WriteBytes_ok, BinWriter_WriteVarBytes_ok]
      · intro rest fuel hf
        obtain ⟨k, rfl⟩ : ∃ k, fuel = k + 1 := ⟨fuel - 1, by simp at hf; omega⟩
        simp only [List.cons_append, List.append_assoc]
        exact Decode_byteArray E k d rest (by omega)
    | BoolItem b =>
      simp only [itemTree, Option.some.injEq, Prod.mk.injEq] at ht
      obtain ⟨rfl, rfl⟩ := ht
      refine ⟨[booleanT, if b then 1 else 0], ?_, ?_⟩
      · refine EncodesTo_leaf E h n (.BoolItem b) _ rfl ?_
        intro buf seen hns
        simp [serializeItemTo, hns, BinWriter_WriteBytes_ok, BinWriter_WriteBool_ok]
      · intro rest fuel hf
        obtain ⟨k, rfl⟩ : ∃ k, fuel = k + 1 := ⟨fuel - 1, by simp at hf; omega⟩
        exact Decode_boolean E k b rest
    | BigIntegerItem i =>
      simp only [itemTree, Option.some.injEq, Prod.mk.injEq] at ht
      obtain ⟨rfl, rfl⟩ := ht
      obtain ⟨hd, hrt⟩ : (E.IntToBytes i).length < 2 ^ 63 ∧ E.BytesToInt (E.IntToBytes i) = i :=
        hwf
      refine ⟨integerT :: (varUintBytes (E.IntToBytes i).length ++ E.IntToBytes i), ?_, ?_⟩
      · refine EncodesTo_leaf E h n (.BigIntegerItem i) _ rfl ?_
        intro buf seen hns
        simp [serializeItemTo, hns, BinWriter_WriteBytes_ok, BinWriter_WriteVarBytes_ok]
      · intro rest fuel hf
        obtain ⟨k, rfl⟩ : ∃ k, fuel = k + 1 := ⟨fuel - 1, by simp at hf; omega⟩
        simp only [List.cons_append, List.append_assoc]
        rw [Decode_integer E k (E.IntToBytes i) rest (by omega), hrt]
    | InteropItem => simp [itemTree] at ht
    | ArrayItem a =>
      rw [itemTree] at ht
      cases hc : itemTrees (itemTree h n) (h.arrays.getD a []) with
      | none =>
        rw [hc] at ht
        simp at ht
      | some p =>
        obtain ⟨vs, crefs⟩ := p
        rw [hc] at ht
        simp only [Option.some.injEq, Prod.mk.injEq] at ht
        obtain ⟨rfl, rfl⟩ := ht
        obtain ⟨hlen63, hwl⟩ : vs.length < 2 ^ 63 ∧ WellFormedList E vs := hwf
        obtain ⟨hlen, bytes, he, hd⟩ := RoundTrip_items E h n ih _ vs crefs hc hwl
        refine ⟨h.header (.ArrayItem a) ++ bytes, EncodesTo_container E h n _ _ _ rfl he, ?_⟩
        intro rest fuel hf
        obtain ⟨k, rfl⟩ : ∃ k, fuel = k + 1 := ⟨fuel - 1, by simp at hf; omega⟩
        have hk : (bytes ++ rest).length < k := by
          simp only [Heap.header, List.cons_append, List.length_cons, List.length_append] at hf ⊢
          omega
        simp only [Heap.header, List.cons_append, List.append_assoc, ← hlen]
        exact Decode_array E k vs.length (bytes ++ rest) rest vs hlen63 (hd rest k hk)
    | StructItem a =>
      rw [itemTree] at ht
      cases hc : itemTrees (itemTree h n) (h.structs.getD a []) with
      | none =>
        rw [hc] at ht
        simp at ht
      | some p =>
        obtain ⟨vs, crefs⟩ := p
        rw [hc] at ht
        simp only [Option.some.injEq, Prod.mk.injEq] at ht
        obtain ⟨rfl, rfl⟩ := ht
        obtain ⟨hlen63, hwl⟩ : vs.length < 2 ^ 63 ∧ WellFormedList E vs := hwf
        obtain ⟨hlen, bytes, he, hd⟩ := RoundTrip_items E h n ih _ vs crefs hc hwl
        refine ⟨h.header (.StructItem a) ++ bytes, EncodesTo_container E h n _ _ _ rfl he, ?_⟩
        intro rest fuel hf
        obtain ⟨k, rfl⟩ : ∃ k, fuel = k + 1 := ⟨fuel - 1, by simp at hf; omega⟩
        have hk : (bytes ++ rest).length < k := by
          simp only [Heap.header, List.cons_append, List.length_cons, List.length_append] at hf ⊢
          omega
        simp only [Heap.header, List.cons_append, List.append_assoc, ← hlen]
        exact Decode_struct E k vs.length (bytes ++ rest) rest vs hlen63 (hd rest k hk)
    | MapItem a =>
      rw [itemTree] at ht
      cases hc : entryTrees (itemTree h n) (h.maps.getD a []) with
      | none =>
        rw [hc] at ht
        simp at ht
      | some p =>
        obtain ⟨m, crefs⟩ := p
        rw [hc] at ht
        simp only [Option.some.injEq, Prod.mk.injEq] at ht
        obtain ⟨rfl, rfl⟩ := ht
        obtain ⟨hlen63, hwl, hpw⟩ : m.length < 2 ^ 63 ∧ WellFormedEntries E m ∧
          (m.map Prod.fst).Pairwise (fun a b => keyEquals a b = false) := hwf
        obtain ⟨hlen, bytes, he, hd⟩ := RoundTrip_entries E h n ih _ m crefs hc hwl hpw
        have he1 : EncodesTo (serializeItems (serializeItemTo E h n)
            (h.children (.MapItem a))) crefs bytes := by
          have := serializeEntries_eq_serializeItems (serializeItemTo E h n) (h.maps.getD a [])
          simp only [Heap.children]
          intro w seen
          rw [← this]
          exact he w seen
        refine ⟨h.header (.MapItem a) ++ bytes, EncodesTo_container E h n _ _ _ rfl he1, ?_⟩
        intro rest fuel hf
        obtain ⟨k, rfl⟩ : ∃ k, fuel = k + 1 := ⟨fuel - 1, by simp at hf; omega⟩
        have hk : (bytes ++ rest).length < k := by
          simp only [Heap.header, List.cons_append, List.length_cons, List.length_append] at hf ⊢
          omega
        simp only [Heap.header, List.cons_append, List.append_assoc, ← hlen]
        have := hd [] rest k hk (by simp)
        rw [List.nil_append] at this
        exact Decode_map E k m.length (bytes ++ rest) rest m hlen63 this


theorem SerializeItem_DeserializeItem_tree (E : Emit) (h : Heap) (x : StackItem) (n : Nat)
    (v : ItemValue) (refs : List StackItem) (ht : itemTree h n x = some (v, refs))
    (hnd : refs.Nodup) (hwf : v.WellFormed E) :
    ∃ bytes, SerializeItem E h x = some (.ok bytes) ∧ DeserializeItem E bytes = .done (.ok v) := by
  obtain ⟨bytes, he, hd⟩ := RoundTrip_all E h n x v refs ht hwf
  obtain ⟨s1, e1, -, -⟩ := he NewBufBinWriter [] rfl hnd (by simp) (by simp)
  obtain ⟨r, hr, hS⟩ := SerializeItem_some E h x
  have hrr : r = (⟨NewBufBinWriter.buf ++ bytes, none⟩, s1) := by
    rcases Nat.le_total n (h.size + 1) with hle | hle
    · have := serializeItemTo_fuel E h n (h.size + 1) x _ _ _ hle e1
      rw [hr] at this
      exact Option.some.inj this
    · have := serializeItemTo_fuel E h (h.size + 1) n x _ _ _ hle hr
      rw [e1] at this
      exact (Option.some.inj this).symm
  subst hrr
  refine ⟨bytes, ?_, ?_⟩
  · rw [hS]
    simp [NewBufBinWriter, BinWriter.Bytes]
  · have := hd [] (bytes.length + 1) (by simp)
    rw [List.append_nil] at this
    simp [DeserializeItem, NewBinReaderFromBuf, this, Exec_bind_done]

/-- C1 (amended): for every stack item built only from byte arrays, booleans,
integers, arrays, structs and maps, in which no container object is met at more
than one position (`refs.Nodup`), and whose fields are in the ranges of their
Go types, `SerializeItem` succeeds and `DeserializeItem` applied to the
resulting bytes returns the value of the item. -/
theorem SerializeItem_DeserializeItem_roundtrip (E : Emit) (h : Heap) (x : StackItem) (n : Nat)
    (v : ItemValue) (refs : List StackItem) (ht : itemTree h n x = some (v, refs))
    (hnd : refs.Nodup) (hwf : v.WellFormed E) :
    ∃ bytes, SerializeItem E h x = some (.ok bytes) ∧ DeserializeItem E bytes = .done (.ok v) :=
  SerializeItem_DeserializeItem_tree E h x n v refs ht hnd hwf

theorem exampleTreeValue_WellFormed : exampleTreeValue.WellFormed emitLE := by
  simp only [exampleTreeValue, ItemValue.WellFormed, WellFormedList, WellFormedEntries]
  decide

/-- Witness for C1: an array that holds a byte array, a map and a struct. -/
theorem SerializeItem_DeserializeItem_roundtrip_witness :
    itemTree exampleTreeHeap 3 (.ArrayItem 0) =
      some (exampleTreeValue, [.ArrayItem 0, .MapItem 0, .StructItem 0]) ∧
    [StackItem.ArrayItem 0, .MapItem 0, .StructItem 0].Nodup ∧
    exampleTreeValue.WellFormed emitLE ∧
    ∃ bytes, SerializeItem emitLE exampleTreeHeap (.ArrayItem 0) = some (.ok bytes) ∧
      DeserializeItem emitLE bytes = .done (.ok exampleTreeValue) :=
  ⟨rfl, by decide, exampleTreeValue_WellFormed,
    SerializeItem_DeserializeItem_roundtrip emitLE exampleTreeHeap (.ArrayItem 0) 3
      exampleTreeValue [.ArrayItem 0, .MapItem 0, .StructItem 0] rfl (by decide)
      exampleTreeValue_WellFormed⟩

/-- Counterexample for C1: an interop item has no reference cycle (the heap has
no object at all), and `SerializeItem` returns the error "interop item cannot
be serialized". -/
theorem SerializeItem_interop_fails :
    (∀ c, ¬ exampleEmptyHeap.Contains c c) ∧
    SerializeItem emitLE exampleEmptyHeap .InteropItem = some (.error .interopItem) := by
  refine ⟨?_, rfl⟩
  intro c hc
  obtain ⟨d, hcd, -⟩ := Relation.TransGen.head'_iff.mp hc
  cases c <;> simp [Heap.Holds, Heap.children, exampleEmptyHeap] at hcd

/-! ## Fixed8 -/

theorem toUint64_lt (x : Int) : toUint64 x < 2 ^ 64 := by
  unfold toUint64
  have h := Int.emod_lt_of_pos x (show (0 : Int) < 2 ^ 64 by norm_num)
  have h0 := Int.emod_nonneg x (show (2 ^ 64 : Int) ≠ 0 by norm_num)
  omega

theorem toUint64_cast (f : Int) (h1 : -2 ^ 63 ≤ f) (h2 : f < 2 ^ 63) :
    (toUint64 f : Int) = if 0 ≤ f then f else 2 ^ 64 + f := by
  unfold toUint64
  rw [Int.toNat_of_nonneg (Int.emod_nonneg f (show (2 ^ 64 : Int) ≠ 0 by norm_num))]
  norm_num at h1 h2 ⊢
  split <;> omega

theorem toInt64_toUint64 (f : Int) (h1 : -2 ^ 63 ≤ f) (h2 : f < 2 ^ 63) :
    toInt64 (toUint64 f) = f := by
  rw [toUint64_cast f h1 h2]
  unfold toInt64
  norm_num at h1 h2 ⊢
  split <;> omega

theorem toInt64_of_InRange (f : Int) (h1 : -2 ^ 63 ≤ f) (h2 : f < 2 ^ 63) : toInt64 f = f := by
  unfold toInt64
  norm_num at h1 h2 ⊢
  omega

theorem u64le_length (x : Nat) : (u64le x).length = 8 := by
  simp [u64le, u32le]

theorem u64le_lt (x b : Nat) (hb : b ∈ u64le x) : b < 256 := by
  simp only [u64le, u32le, List.cons_append, List.nil_append, List.mem_cons,
    List.mem_singleton, List.not_mem_nil, or_false] at hb
  omega

/-- C11: for every Fixed8 `f` of the `int64` range, negative values included,
`EncodeBinary` appends exactly 8 bytes to a writer without error, they are the
little-endian form of `f` in two-complement (of the number `f` itself when
`0 ≤ f`, else of `2^64 + f`), and `DecodeBinary` reads `f` back from them. -/
theorem Fixed8_EncodeBinary_DecodeBinary (f : Fixed8) (hf : f.InRange)
    (buf rest : List Nat) :
    ∃ bytes : List Nat,
      f.EncodeBinary ⟨buf, none⟩ = ⟨buf ++ bytes, none⟩ ∧
      bytes.length = 8 ∧ (∀ b ∈ bytes, b < 256) ∧
      (leValue bytes : Int) = (if 0 ≤ f.val then f.val else 2 ^ 64 + f.val) ∧
      Fixed8.DecodeBinary ⟨bytes ++ rest, none⟩ = (f, ⟨rest, none⟩) := by
  obtain ⟨v⟩ := f
  obtain ⟨h1, h2⟩ := hf
  refine ⟨u64le (toUint64 v), ?_, u64le_length _, u64le_lt _, ?_, ?_⟩
  · exact BinWriter_WriteU64LE_ok buf (toUint64 v)
  · rw [leValue_u64le _ (toUint64_lt v)]
    exact toUint64_cast v h1 h2
  · unfold Fixed8.DecodeBinary
    rw [BinReader_ReadU64LE_ok _ rest (toUint64_lt v)]
    simp only [toInt64_toUint64 v h1 h2]

/-- Witness for C11: the negative value -1.5, whose bytes are `80 1e 0f f7 ff ff
ff ff`. -/
theorem Fixed8_EncodeBinary_DecodeBinary_witness :
    (Fixed8.mk (-150000000)).InRange ∧
    ∃ bytes : List Nat,
      (Fixed8.mk (-150000000)).EncodeBinary ⟨[], none⟩ = ⟨[] ++ bytes, none⟩ ∧
      bytes.length = 8 ∧ (∀ b ∈ bytes, b < 256) ∧
      (leValue bytes : Int) =
        (if 0 ≤ (Fixed8.mk (-150000000)).val then (Fixed8.mk (-150000000)).val
          else 2 ^ 64 + (Fixed8.mk (-150000000)).val) ∧
      Fixed8.DecodeBinary ⟨bytes ++ [], none⟩ = (Fixed8.mk (-150000000), ⟨[], none⟩) :=
  ⟨by unfold Fixed8.InRange; norm_num,
    Fixed8_EncodeBinary_DecodeBinary ⟨-150000000⟩ (by unfold Fixed8.InRange; norm_num) [] []⟩

theorem toInt32_of_lt (x : Int) (h1 : -2 ^ 31 ≤ x) (h2 : x < 2 ^ 31) : toInt32 x = x := by
  unfold toInt32
  norm_num at h1 h2 ⊢
  omega

theorem Int_neg_tmod (a b : Int) : (-a).tmod b = -(a.tmod b) := by
  rw [Int.tmod_def, Int.tmod_def, Int.neg_tdiv]
  ring

theorem tmod_decimals_bounds (f : Int) :
    -100000000 < Int.tmod f 100000000 ∧ Int.tmod f 100000000 < 100000000 := by
  have h1 := Int.tmod_lt_of_pos (-f) (show (0 : Int) < 100000000 by decide)
  rw [Int_neg_tmod] at h1
  have h2 := Int.tmod_lt_of_pos f (show (0 : Int) < 100000000 by decide)
  omega

theorem Fixed8_FractionalValue_eq (f : Fixed8) :
    f.FractionalValue = Int.tmod f.val 100000000 := by
  unfold Fixed8.FractionalValue decimals
  have h := tmod_decimals_bounds f.val
  apply toInt32_of_lt
  · norm_num; omega
  · norm_num; omega

/-- C12: for every Fixed8 `f`, `FractionalValue(f)` is zero or has the sign of
`f`, the conversion to `int32` changes nothing (the result is the remainder of
`f` by 10^8), and `f = IntegralValue(f) * 10^8 + FractionalValue(f)`. -/
theorem Fixed8_Integral_Fractional (f : Fixed8) :
    (0 < f.FractionalValue → 0 < f.val) ∧
    (f.FractionalValue < 0 → f.val < 0) ∧
    f.FractionalValue = Int.tmod f.val decimals ∧
    f.val = f.IntegralValue * 10 ^ 8 + f.FractionalValue := by
  have he := Fixed8_FractionalValue_eq f
  refine ⟨?_, ?_, he, ?_⟩
  · intro h
    rw [he] at h
    by_contra hn
    have h3 := Int.tmod_nonneg 100000000 (show 0 ≤ -f.val by omega)
    rw [Int_neg_tmod] at h3
    omega
  · intro h
    rw [he] at h
    by_contra hn
    have h3 := Int.tmod_nonneg 100000000 (show 0 ≤ f.val by omega)
    omega
  · rw [he]
    unfold Fixed8.IntegralValue decimals
    have h3 := Int.tdiv_add_tmod f.val 100000000
    norm_num
    linarith

/-- Value of `CompareTo` at the largest Fixed8 and -1, for C13: the difference
leaves the range of `int64` and the result is the smallest `int64`, a negative
number, while the receiver is the greater value. -/
theorem Fixed8_CompareTo_overflow :
    (Fixed8.mk 9223372036854775807).InRange ∧ (Fixed8.mk (-1)).InRange ∧
    (Fixed8.mk 9223372036854775807).CompareTo ⟨-1⟩ = -9223372036854775808 ∧
    (Fixed8.mk 9223372036854775807).CompareTo ⟨-1⟩ < 0 ∧
    ¬ ((Fixed8.mk 9223372036854775807).val < (Fixed8.mk (-1)).val) := by
  refine ⟨?_, ?_, ?_, ?_, ?_⟩
  · unfold Fixed8.InRange; norm_num
  · unfold Fixed8.InRange; norm_num
  · decide
  · decide
  · decide




theorem parseDigits_some (s : GoString) (acc n : Nat) (h : parseDigits acc s = some n) :
    s.all isDecimalDigit = true ∧ acc * 10 ^ s.length ≤ n := by
  induction s generalizing acc with
  | nil =>
    simp only [parseDigits, Option.some.injEq] at h
    simp [h]
  | cons c cs ih =>
    rw [parseDigits] at h
    by_cases hc : isDecimalDigit c = true
    · rw [if_pos hc] at h
      obtain ⟨h1, h2⟩ := ih _ h
      refine ⟨by simp [hc, h1], ?_⟩
      have h3 : acc * 10 ^ (c :: cs).length = (acc * 10) * 10 ^ cs.length := by
        rw [List.length_cons, pow_succ]; ring
      rw [h3]
      exact le_trans (Nat.mul_le_mul_right _ (Nat.le_add_right _ _)) h2
    · rw [if_neg hc] at h
      exact absurd h (by simp)

theorem ParseUint_some (s : GoString) (n : Nat) (h : ParseUint s = some n) :
    s ≠ [] ∧ s.all isDecimalDigit = true ∧ parseDigits 0 s = some n := by
  unfold ParseUint at h
  by_cases hs : s = []
  · rw [if_pos hs] at h; exact absurd h (by simp)
  · rw [if_neg hs] at h
    cases hp : parseDigits 0 s with
    | none => rw [hp] at h; exact absurd h (by simp)
    | some m =>
      rw [hp] at h
      simp only [Option.some_bind] at h
      by_cases hm : m < 2 ^ 64
      · rw [if_pos hm] at h
        simp only [Option.some.injEq] at h
        subst h
        exact ⟨hs, (parseDigits_some s 0 m hp).1, rfl⟩
      · rw [if_neg hm] at h; exact absurd h (by simp)

theorem isDecimalDigit_not_sign (c : Char) (h : c = '+' ∨ c = '-') :
    isDecimalDigit c = false := by
  rcases h with h | h <;> subst h <;> decide

theorem ParseInt_some (s : GoString) (v : Int) (h : ParseInt s = some v) :
    isSignedDigits s = true := by
  cases s with
  | nil => simp [ParseInt] at h
  | cons c cs =>
    simp only [ParseInt] at h
    simp only [isSignedDigits]
    by_cases hc : c = '+' ∨ c = '-'
    · rw [if_pos hc] at h
      rw [if_pos hc]
      cases hu : ParseUint cs with
      | none => rw [hu] at h; simp at h
      | some un =>
        obtain ⟨h1, h2, -⟩ := ParseUint_some cs un hu
        have hl : 1 ≤ cs.length := by
          cases cs with
          | nil => exact absurd rfl h1
          | cons a as => simp
        simp [matchesDigits, hl, h2]
    · rw [if_neg hc] at h
      rw [if_neg hc]
      cases hu : ParseUint (c :: cs) with
      | none => rw [hu] at h; simp at h
      | some un => exact (ParseUint_some _ un hu).2.1

theorem Char_eq_zero_of_toNat (c : Char) (h : c.toNat = 48) : c = '0' := by
  have h1 : Char.ofNat c.toNat = c := Char.ofNat_toNat c
  rw [h] at h1
  exact h1.symm

theorem ParseInt_long (frac : GoString) (fp : Int) (h : ParseInt frac = some fp)
    (hd : frac.all isDecimalDigit = true) (hl : 8 < frac.length) (h0 : frac.head? ≠ some '0') :
    (10 : Int) ^ 8 ≤ fp := by
  cases frac with
  | nil => simp at hl
  | cons c cs =>
    have hcd : isDecimalDigit c = true := by
      simp only [List.all_cons, Bool.and_eq_true] at hd
      exact hd.1
    have hns : ¬ (c = '+' ∨ c = '-') := by
      intro hc
      rw [isDecimalDigit_not_sign c hc] at hcd
      exact absurd hcd (by simp)
    have hne : c.toNat ≠ 48 := by
      intro hc
      apply h0
      rw [Char_eq_zero_of_toNat c hc]
      rfl
    have hge : 49 ≤ c.toNat := by
      simp only [isDecimalDigit, decide_eq_true_eq] at hcd
      omega
    simp only [ParseInt] at h
    rw [if_neg hns] at h
    cases hu : ParseUint (c :: cs) with
    | none => rw [hu] at h; simp at h
    | some un =>
      rw [hu] at h
      obtain ⟨-, -, hp⟩ := ParseUint_some _ un hu
      rw [parseDigits, if_pos hcd] at hp
      have hb := (parseDigits_some cs _ un hp).2
      have hlen : 8 ≤ cs.length := by
        simp only [List.length_cons] at hl
        omega
      have hpow : 10 ^ 8 ≤ 10 ^ cs.length := Nat.pow_le_pow_right (by norm_num) hlen
      have hun : 10 ^ 8 ≤ un := by
        have h1 : 1 * 10 ^ cs.length ≤ (0 * 10 + (c.toNat - 48)) * 10 ^ cs.length :=
          Nat.mul_le_mul_right _ (by omega)
        omega
      have hneg : decide (c = '-') = false := by
        simp only [decide_eq_false_iff_not]
        intro hc
        exact hns (Or.inr hc)
      simp only [Option.some_bind, hneg, Bool.not_false, Bool.true_and, Bool.false_and,
        Bool.false_eq_true, if_false] at h
      by_cases h63 : 2 ^ 63 ≤ un
      · simp [h63] at h
        rw [← h.2]
        exact_mod_cast hun
      · simp only [h63, decide_False, Bool.false_eq_true, if_false, Option.some.injEq] at h
        rw [← h]
        exact_mod_cast hun

theorem FixedNFromString_bad_integer (s : GoString) (p : Nat)
    (h : ParseInt (splitPoint s).1 = none) :
    FixedNFromString s p = .error .errInvalidString := by
  unfold FixedNFromString
  simp only [h]

theorem FixedNFromString_bad_fraction (s frac : GoString) (p : Nat)
    (hs : (splitPoint s).2 = some frac) (h : ParseInt frac = none) :
    FixedNFromString s p = .error .errInvalidString := by
  unfold FixedNFromString
  cases hi : ParseInt (splitPoint s).1 with
  | none => simp only [hi]
  | some ip => simp only [hi, hs, h]

theorem FixedNFromString_big_fraction (s frac : GoString) (p : Nat) (fp : Int)
    (hs : (splitPoint s).2 = some frac) (h : ParseInt frac = some fp) (hfp : 10 ^ p ≤ fp) :
    FixedNFromString s p = .error .errInvalidString := by
  unfold FixedNFromString
  cases hi : ParseInt (splitPoint s).1 with
  | none => simp only [hi]
  | some ip => simp only [hi, hs, h, if_pos hfp]

theorem Fixed8FromString_of_error (s : GoString)
    (h : FixedNFromString s 8 = .error .errInvalidString) :
    Fixed8FromString s = .error .errInvalidString := by
  unfold Fixed8FromString
  rw [h]

theorem Fixed8FromString_rejects (s : GoString)
    (h : matchesSignedRegex s = false ∨ hasLongFraction s = true) :
    Fixed8FromString s = .error .errInvalidString := by
  apply Fixed8FromString_of_error
  cases hi : ParseInt (splitPoint s).1 with
  | none => exact FixedNFromString_bad_integer s 8 hi
  | some ip =>
    have h1 := ParseInt_some _ ip hi
    cases hs : (splitPoint s).2 with
    | none =>
      rcases h with h | h
      · simp [matchesSignedRegex, h1, hs] at h
      · simp [hasLongFraction, hs] at h
    | some frac =>
      cases hf : ParseInt frac with
      | none => exact FixedNFromString_bad_fraction s frac 8 hs hf
      | some fp =>
        have h2 := ParseInt_some _ fp hf
        rcases h with h | h
        · simp [matchesSignedRegex, h1, hs, h2] at h
        · simp only [hasLongFraction, hs, Bool.and_eq_true, decide_eq_true_eq] at h
          exact FixedNFromString_big_fraction s frac 8 fp hs hf
            (ParseInt_long frac fp hf h.1.1 h.1.2 h.2)


/-- C14 (amended): `Fixed8FromString` returns the error `errInvalidString` for
every string that does not have the form `[+-]?\d+(\.[+-]?\d+)?` (an optionally
signed run of decimal digits, optionally followed by a point and a second such
run), and for every string that has after the point more than 8 decimal digits
of which the first is not 0. -/
theorem Fixed8FromString_error_outside_pattern (s : GoString)
    (h : matchesSignedRegex s = false ∨ hasLongFraction s = true) :
    Fixed8FromString s = .error .errInvalidString :=
  Fixed8FromString_rejects s h

/-- Witness for C14: the string `1.123456789`, with 9 digits after the point. -/
theorem Fixed8FromString_error_outside_pattern_witness :
    (matchesSignedRegex "1.123456789".toList = false ∨
      hasLongFraction "1.123456789".toList = true) ∧
    Fixed8FromString "1.123456789".toList = .error .errInvalidString :=
  ⟨Or.inr (by decide),
    Fixed8FromString_error_outside_pattern "1.123456789".toList (Or.inr (by decide))⟩

/-- Counterexample for C14: the strings `-1` and `1.000000001` do not match
`\d+(\.\d{1,8})?`, the second has 9 digits after the point, and
`Fixed8FromString` returns a value and no error for both. -/
theorem Fixed8FromString_accepts_outside_regex :
    matchesFixed8Regex "-1".toList = false ∧
    Fixed8FromString "-1".toList = .ok ⟨-100000000⟩ ∧
    matchesFixed8Regex "1.000000001".toList = false ∧
    Fixed8FromString "1.000000001".toList = .ok ⟨100000001⟩ :=
  ⟨by decide, rfl, by decide, rfl⟩

/-! ## CreateMultiSigRedeemScript -/

theorem emitKeys_ok (E : ScriptEmit) (K : KeyOps κ) (ks : List κ) (buf : List Nat) :
    emitKeys E K ks ⟨buf, none⟩ = ⟨buf ++ keyEmits E K ks, none⟩ := by
  induction ks generalizing buf with
  | nil => simp [emitKeys, keyEmits]
  | cons k ks ih =>
    rw [emitKeys, BinWriter_WriteBytes_ok, ih, keyEmits, List.append_assoc]

theorem keyEmits_eq_keyPushes (E : ScriptEmit) (K : KeyOps κ) (hE : E.Standard) (ks : List κ)
    (hk : ∀ k ∈ ks, (K.Bytes k).length = 33) : keyEmits E K ks = keyPushes E K ks := by
  induction ks with
  | nil => rfl
  | cons k ks ih =>
    rw [keyEmits, keyPushes, hE.1 _ (hk k (List.mem_cons_self _ _)),
      ih (fun x hx => hk x (List.mem_cons_of_mem _ hx))]

theorem CreateMultiSigRedeemScript_ok (E : ScriptEmit) (K : KeyOps κ) (m : Int)
    (publicKeys : List κ) (h1 : 1 ≤ m) (h2 : m ≤ publicKeys.length) (h3 : m ≤ 1024) :
    CreateMultiSigRedeemScript E K m publicKeys =
      .ok (E.EmitInt m ++ keyEmits E K (sortKeys K publicKeys) ++ E.EmitInt publicKeys.length ++
        E.EmitOpcode E.CHECKMULTISIG) := by
  unfold CreateMultiSigRedeemScript
  rw [if_neg (by omega), if_neg (by omega), if_neg (by omega)]
  simp only [NewBufBinWriter, BinWriter_WriteBytes_ok, emitKeys_ok, BinWriter.Bytes,
    List.nil_append]

theorem sortKeys_perm (K : KeyOps κ) (publicKeys : List κ) :
    (sortKeys K publicKeys).Perm publicKeys :=
  List.perm_insertionSort _ publicKeys

theorem KeyOps_asymm (K : KeyOps κ) (hK : K.StrictTotal) (a b : κ) (h : K.Less a b = true) :
    K.Less b a = false := by
  cases hba : K.Less b a with
  | false => rfl
  | true =>
    have := hK.2.1 a b a h hba
    rw [hK.1 a] at this
    exact absurd this (by simp)

theorem sortKeys_sorted (K : KeyOps κ) (hK : K.StrictTotal) (publicKeys : List κ) :
    (sortKeys K publicKeys).Sorted (fun a b => K.Less b a = false) := by
  haveI : IsTotal κ (fun a b => K.Less b a = false) := ⟨fun a b => by
    cases hab : K.Less b a with
    | false => exact Or.inl rfl
    | true => exact Or.inr (KeyOps_asymm K hK b a hab)⟩
  haveI : IsTrans κ (fun a b => K.Less b a = false) := ⟨fun a b c hab hbc => by
    show K.Less c a = false
    cases hca : K.Less c a with
    | false => rfl
    | true =>
      rcases hK.2.2 a b with h | h | h
      · have := hK.2.1 c a b hca h
        rw [hbc] at this
        exact absurd this (by simp)
      · subst h
        rw [hbc] at hca
        exact absurd hca (by simp)
      · rw [hab] at h
        exact absurd h (by simp)⟩
  exact List.sorted_insertionSort _ publicKeys

theorem sortKeys_eq_of_perm (K : KeyOps κ) (hK : K.StrictTotal) (l1 l2 : List κ)
    (hp : l1.Perm l2) : sortKeys K l1 = sortKeys K l2 := by
  haveI : IsAntisymm κ (fun a b => K.Less b a = false) := ⟨fun a b hab hba => by
    rcases hK.2.2 a b with h | h | h
    · rw [hba] at h
      exact absurd h (by simp)
    · exact h
    · rw [hab] at h
      exact absurd h (by simp)⟩
  exact List.eq_of_perm_of_sorted
    ((sortKeys_perm K l1).trans (hp.trans (sortKeys_perm K l2).symm))
    (sortKeys_sorted K hK l1) (sortKeys_sorted K hK l2)

theorem CreateMultiSigRedeemScript_congr (E : ScriptEmit) (K : KeyOps κ) (m : Int)
    (l1 l2 : List κ) (hl : l1.length = l2.length) (hs : sortKeys K l1 = sortKeys K l2) :
    CreateMultiSigRedeemScript E K m l1 = CreateMultiSigRedeemScript E K m l2 := by
  unfold CreateMultiSigRedeemScript
  rw [hl, hs]

/-- C15: for every `m` and every list of `n` public keys with
`1 ≤ m ≤ n ≤ 1024`, each key encoded in 33 bytes, `CreateMultiSigRedeemScript`
returns exactly the bytes: the push of `m`, then for each key of the sorted
list the byte `PUSHBYTES33` followed by the 33 bytes of the key, then the push
of `n`, then the single opcode `CHECKMULTISIG`; the sorted list is a
permutation of the keys given. -/
theorem CreateMultiSigRedeemScript_layout (E : ScriptEmit) (K : KeyOps κ) (m : Int)
    (publicKeys : List κ) (hE : E.Standard)
    (hk : ∀ k ∈ publicKeys, (K.Bytes k).length = 33)
    (h1 : 1 ≤ m) (h2 : m ≤ publicKeys.length) (h3 : publicKeys.length ≤ 1024) :
    (sortKeys K publicKeys).Perm publicKeys ∧
    CreateMultiSigRedeemScript E K m publicKeys =
      .ok (E.EmitInt m ++ keyPushes E K (sortKeys K publicKeys) ++ E.EmitInt publicKeys.length ++
        [E.CHECKMULTISIG]) := by
  refine ⟨sortKeys_perm K publicKeys, ?_⟩
  rw [CreateMultiSigRedeemScript_ok E K m publicKeys h1 h2 (by omega), hE.2,
    keyEmits_eq_keyPushes E K hE _
      (fun k hk1 => hk k ((sortKeys_perm K publicKeys).subset hk1))]

theorem exampleEmit_Standard : exampleEmit.Standard := by
  refine ⟨fun b hb => ?_, fun op => rfl⟩
  show b.length :: b = 0x21 :: b
  rw [hb]

theorem exampleKeyList_length : ∀ k ∈ exampleKeyList, (exampleKeys.Bytes k).length = 33 := by
  decide

/-- Witness for C15: two signatures of three keys. -/
theorem CreateMultiSigRedeemScript_layout_witness :
    exampleEmit.Standard ∧
    (∀ k ∈ exampleKeyList, (exampleKeys.Bytes k).length = 33) ∧
    (1 : Int) ≤ 2 ∧ (2 : Int) ≤ exampleKeyList.length ∧ exampleKeyList.length ≤ 1024 ∧
    (sortKeys exampleKeys exampleKeyList).Perm exampleKeyList ∧
    CreateMultiSigRedeemScript exampleEmit exampleKeys 2 exampleKeyList =
      .ok (exampleEmit.EmitInt 2 ++ keyPushes exampleEmit exampleKeys
          (sortKeys exampleKeys exampleKeyList) ++
        exampleEmit.EmitInt exampleKeyList.length ++ [exampleEmit.CHECKMULTISIG]) :=
  ⟨exampleEmit_Standard, exampleKeyList_length, by decide, by decide, by decide,
    CreateMultiSigRedeemScript_layout exampleEmit exampleKeys 2 exampleKeyList
      exampleEmit_Standard exampleKeyList_length (by decide) (by decide) (by decide)⟩

/-- The two guards of `CreateMultiSigRedeemScript` on `m`: an error and no
script when `m < 1` or when `m` exceeds the number of keys. -/
theorem CreateMultiSigRedeemScript_error (E : ScriptEmit) (K : KeyOps κ) (m : Int)
    (publicKeys : List κ) (h : m < 1 ∨ (publicKeys.length : Int) < m) :
    ∃ e, CreateMultiSigRedeemScript E K m publicKeys = .error e := by
  unfold CreateMultiSigRedeemScript
  by_cases h1 : m < 1
  · exact ⟨_, if_pos h1⟩
  · rw [if_neg h1]
    have h2 : m > publicKeys.length := by
      rcases h with h | h
      · exact absurd h h1
      · exact h
    exact ⟨_, if_pos h2⟩

/-- Value of `CreateMultiSigRedeemScript` for C16: with `m = 1` and 1025 public
keys the three guards pass and a script is returned, not an error. -/
theorem CreateMultiSigRedeemScript_1025_keys :
    (List.replicate 1025 (2 :: List.replicate 32 9)).length = 1025 ∧
    ∃ script, CreateMultiSigRedeemScript exampleEmit exampleKeys 1
      (List.replicate 1025 (2 :: List.replicate 32 9)) = .ok script :=
  ⟨List.length_replicate _ _,
    _, CreateMultiSigRedeemScript_ok exampleEmit exampleKeys 1 _ (by decide)
      (by rw [List.length_replicate]; decide) (by decide)⟩

/-- C17: when `Less` is a strict total order of the keys, for every `m` and
every two lists of public keys that are permutations of each other,
`CreateMultiSigRedeemScript` returns the same result; a script it returns
holds the keys in ascending order: the pushes of the keys are those of the
sorted list, in which no key is followed by a smaller one. -/
theorem CreateMultiSigRedeemScript_permutation (E : ScriptEmit) (K : KeyOps κ)
    (hK : K.StrictTotal) (m : Int) (l1 l2 : List κ) (hp : l1.Perm l2) :
    CreateMultiSigRedeemScript E K m l1 = CreateMultiSigRedeemScript E K m l2 ∧
    (sortKeys K l1).Pairwise (fun a b => K.Less b a = false) ∧
    (sortKeys K l1).Perm l1 ∧
    ∀ script, CreateMultiSigRedeemScript E K m l2 = .ok script →
      script = E.EmitInt m ++ keyEmits E K (sortKeys K l1) ++ E.EmitInt l1.length ++
        E.EmitOpcode E.CHECKMULTISIG := by
  have hc := CreateMultiSigRedeemScript_congr E K m l1 l2 hp.length_eq
    (sortKeys_eq_of_perm K hK l1 l2 hp)
  refine ⟨hc, sortKeys_sorted K hK l1, sortKeys_perm K l1, ?_⟩
  intro script hs
  rw [← hc] at hs
  by_cases h1 : m < 1
  · obtain ⟨e, he⟩ := CreateMultiSigRedeemScript_error E K m l1 (Or.inl h1)
    rw [he] at hs
    exact absurd hs (by simp)
  · by_cases h2 : (l1.length : Int) < m
    · obtain ⟨e, he⟩ := CreateMultiSigRedeemScript_error E K m l1 (Or.inr h2)
      rw [he] at hs
      exact absurd hs (by simp)
    · by_cases h3 : m > 1024
      · have he : CreateMultiSigRedeemScript E K m l1 = .error (.keyCountExceeds l1.length) := by
          unfold CreateMultiSigRedeemScript
          rw [if_neg h1, if_neg (by omega), if_pos h3]
        rw [he] at hs
        exact absurd hs (by simp)
      · rw [CreateMultiSigRedeemScript_ok E K m l1 (by omega) (by omega) (by omega)] at hs
        simp only [Except.ok.injEq] at hs
        exact hs.symm

theorem bytesLess_irrefl (a : List Nat) : bytesLess a a = false := by
  induction a with
  | nil => rfl
  | cons x xs ih => simp [bytesLess, ih]

theorem bytesLess_trans (a b c : List Nat) (h1 : bytesLess a b = true)
    (h2 : bytesLess b c = true) : bytesLess a c = true := by
  induction a generalizing b c with
  | nil =>
    cases b with
    | nil => simp [bytesLess] at h1
    | cons y ys =>
      cases c with
      | nil => simp [bytesLess] at h2
      | cons z zs => rfl
  | cons x xs ih =>
    cases b with
    | nil => simp [bytesLess] at h1
    | cons y ys =>
      cases c with
      | nil => simp [bytesLess] at h2
      | cons z zs =>
        simp only [bytesLess] at h1 h2 ⊢
        by_cases hxy : x < y
        · by_cases hyz : y < z
          · rw [if_pos (by omega)]
          · rw [if_neg hyz] at h2
            by_cases hzy : z < y
            · rw [if_pos hzy] at h2; exact absurd h2 (by simp)
            · rw [if_pos (by omega)]
        · rw [if_neg hxy] at h1
          by_cases hyx : y < x
          · rw [if_pos hyx] at h1; exact absurd h1 (by simp)
          · rw [if_neg hyx] at h1
            have hxy2 : x = y := by omega
            subst hxy2
            by_cases hyz : x < z
            · rw [if_pos hyz]
            · rw [if_neg hyz] at h2 ⊢
              by_cases hzy : z < x
              · rw [if_pos hzy] at h2; exact absurd h2 (by simp)
              · rw [if_neg hzy] at h2 ⊢
                exact ih ys zs h1 h2

theorem bytesLess_total (a b : List Nat) :
    bytesLess a b = true ∨ a = b ∨ bytesLess b a = true := by
  induction a generalizing b with
  | nil =>
    cases b with
    | nil => exact Or.inr (Or.inl rfl)
    | cons y ys => exact Or.inl rfl
  | cons x xs ih =>
    cases b with
    | nil => exact Or.inr (Or.inr rfl)
    | cons y ys =>
      simp only [bytesLess]
      by_cases hxy : x < y
      · exact Or.inl (by rw [if_pos hxy])
      · by_cases hyx : y < x
        · exact Or.inr (Or.inr (by rw [if_pos hyx]))
        · have hxy2 : x = y := by omega
          subst hxy2
          simp only [if_neg hxy]
          rcases ih ys with h | h | h
          · exact Or.inl h
          · exact Or.inr (Or.inl (by rw [h]))
          · exact Or.inr (Or.inr h)

theorem exampleKeys_StrictTotal : exampleKeys.StrictTotal :=
  ⟨bytesLess_irrefl, bytesLess_trans, bytesLess_total⟩

/-- Witness for C17: three keys in two different orders. -/
theorem CreateMultiSigRedeemScript_permutation_witness :
    exampleKeys.StrictTotal ∧ exampleKeyList.Perm exampleKeyList.reverse ∧
    CreateMultiSigRedeemScript exampleEmit exampleKeys 2 exampleKeyList =
      CreateMultiSigRedeemScript exampleEmit exampleKeys 2 exampleKeyList.reverse ∧
    (sortKeys exampleKeys exampleKeyList).Pairwise (fun a b => exampleKeys.Less b a = false) ∧
    (sortKeys exampleKeys exampleKeyList).Perm exampleKeyList ∧
    ∀ script, CreateMultiSigRedeemScript exampleEmit exampleKeys 2 exampleKeyList.reverse =
        .ok script →
      script = exampleEmit.EmitInt 2 ++
        keyEmits exampleEmit exampleKeys (sortKeys exampleKeys exampleKeyList) ++
        exampleEmit.EmitInt exampleKeyList.length ++
        exampleEmit.EmitOpcode exampleEmit.CHECKMULTISIG :=
  ⟨exampleKeys_StrictTotal, (List.reverse_perm exampleKeyList).symm,
    CreateMultiSigRedeemScript_permutation exampleEmit exampleKeys exampleKeys_StrictTotal 2
      exampleKeyList exampleKeyList.reverse (List.reverse_perm exampleKeyList).symm⟩

/-! ## The block queue -/

theorem minItem_eq_none (l : List BlockPtr) (h : minItem l = none) : l = [] := by
  cases l with
  | nil => rfl
  | cons x xs =>
    rw [minItem] at h
    cases hm : minItem xs with
    | none => rw [hm] at h; exact absurd h (by simp)
    | some y =>
      rw [hm] at h
      simp only at h
      split at h <;> exact absurd h (by simp)

theorem Block_Compare_neg (a b : Block) : a.Compare b < 0 ↔ a.Index < b.Index := by
  unfold Block.Compare
  by_cases h1 : a.Index > b.Index
  · rw [if_pos h1]
    constructor
    · intro h; exact absurd h (by decide)
    · intro h; omega
  · rw [if_neg h1]
    by_cases h2 : a.Index = b.Index
    · rw [if_pos h2]
      constructor
      · intro h; exact absurd h (by decide)
      · intro h; omega
    · rw [if_neg h2]
      constructor
      · intro _; omega
      · intro _; decide

theorem minItem_spec (l : List BlockPtr) (m : BlockPtr) (h : minItem l = some m) :
    m ∈ l ∧ ∀ x ∈ l, m.block.Index ≤ x.block.Index := by
  induction l generalizing m with
  | nil => simp [minItem] at h
  | cons x xs ih =>
    rw [minItem] at h
    cases hm : minItem xs with
    | none =>
      rw [hm] at h
      simp only [Option.some.injEq] at h
      subst h
      have hxs := minItem_eq_none xs hm
      subst hxs
      simp
    | some y =>
      rw [hm] at h
      simp only at h
      obtain ⟨hy1, hy2⟩ := ih y hm
      by_cases hc : y.block.Compare x.block < 0
      · rw [if_pos hc] at h
        simp only [Option.some.injEq] at h
        subst h
        have hlt := (Block_Compare_neg _ _).1 hc
        refine ⟨List.mem_cons_of_mem _ hy1, ?_⟩
        intro z hz
        rcases List.mem_cons.1 hz with hz | hz
        · subst hz; omega
        · exact hy2 z hz
      · rw [if_neg hc] at h
        simp only [Option.some.injEq] at h
        subst h
        have hge : ¬ y.block.Index < x.block.Index := fun hlt => hc ((Block_Compare_neg _ _).2 hlt)
        refine ⟨List.mem_cons_self _ _, ?_⟩
        intro z hz
        rcases List.mem_cons.1 hz with hz | hz
        · subst hz; exact le_refl _
        · have := hy2 z hz
          omega

/-- What one iteration of the inner loop does when the loop goes on: the item
`m` that ranks lowest is at most the height plus one (as a `uint32`), it is
taken out of the queue, and it is handed to `AddBlock` exactly when its index
is the height plus one. -/
theorem drainStep_some (B : Blockchainer χ) (bq bq1 : blockQueue χ) (evs : List (WorkerEvent χ))
    (h : bq.drainStep B = some (bq1, evs)) :
    ∃ m, minItem bq.queue.items = some m ∧
      m.block.Index ≤ (B.BlockHeight bq.chain + 1) % 2 ^ 32 ∧
      bq1.queue = .live (bq.queue.items.erase m) ∧
      bq1.checkBlocks = bq.checkBlocks ∧ bq1.relayF = bq.relayF ∧
      ((m.block.Index = (B.BlockHeight bq.chain + 1) % 2 ^ 32 ∧
          bq1.chain = (B.AddBlock bq.chain m).1 ∧
          ∃ ev2, evs = [WorkerEvent.removed bq.chain m, WorkerEvent.addBlock bq.chain m] ++ ev2 ∧
            ∀ e ∈ ev2, e = WorkerEvent.warned m ∨ e = WorkerEvent.relayed m) ∨
        (m.block.Index ≠ (B.BlockHeight bq.chain + 1) % 2 ^ 32 ∧ bq1.chain = bq.chain ∧
          evs = [WorkerEvent.removed bq.chain m])) := by
  unfold blockQueue.drainStep at h
  cases hq : bq.queue with
  | disposed =>
    rw [hq] at h
    simp [PriorityQueue.Peek, PriorityQueue.items, minItem] at h
  | live items =>
    rw [hq] at h
    simp only [PriorityQueue.Peek, PriorityQueue.items] at h ⊢
    cases hm : minItem items with
    | none => rw [hm] at h; simp at h
    | some m =>
      rw [hm] at h
      simp only at h
      by_cases hle : m.block.Index ≤ (B.BlockHeight bq.chain + 1) % 2 ^ 32
      · rw [if_pos hle] at h
        simp only [PriorityQueue.Get1, hm, Option.toList, List.map_cons, List.map_nil] at h
        refine ⟨m, rfl, hle, ?_⟩
        by_cases heq : m.block.Index = (B.BlockHeight bq.chain + 1) % 2 ^ 32
        · rw [if_pos heq] at h
          simp only [Option.some.injEq, Prod.mk.injEq] at h
          obtain ⟨h1, h2⟩ := h
          subst h1
          refine ⟨rfl, rfl, rfl, Or.inl ⟨heq, rfl, _, h2.symm, ?_⟩⟩
          intro e he
          cases hr : (B.AddBlock bq.chain m).2 with
          | none =>
            rw [hr] at he
            simp only at he
            split at he
            · simp only [List.mem_singleton] at he; exact Or.inr he
            · simp at he
          | some err =>
            rw [hr] at he
            simp only at he
            split at he
            · simp only [List.mem_singleton] at he; exact Or.inl he
            · simp at he
        · rw [if_neg heq] at h
          simp only [Option.some.injEq, Prod.mk.injEq] at h
          obtain ⟨h1, h2⟩ := h
          subst h1
          exact ⟨rfl, rfl, rfl, Or.inr ⟨heq, rfl, h2.symm⟩⟩
      · rw [if_neg hle] at h
        simp at h

/-- When the inner loop breaks the queue has no item or the item that ranks
lowest, and so every item, is above the height plus one (as a `uint32`). -/
theorem drainStep_none (B : Blockchainer χ) (bq : blockQueue χ) (h : bq.drainStep B = none) :
    bq.queue.items = [] ∨
      ∀ x ∈ bq.queue.items, (B.BlockHeight bq.chain + 1) % 2 ^ 32 < x.block.Index := by
  unfold blockQueue.drainStep at h
  simp only [PriorityQueue.Peek] at h
  cases hm : minItem bq.queue.items with
  | none => exact Or.inl (minItem_eq_none _ hm)
  | some m =>
    rw [hm] at h
    simp only at h
    by_cases hle : m.block.Index ≤ (B.BlockHeight bq.chain + 1) % 2 ^ 32
    · rw [if_pos hle] at h
      split at h <;> simp at h
    · right
      intro x hx
      have := (minItem_spec _ m hm).2 x hx
      omega

/-- What a pass over the queue does, for every bound above the length of the
queue: it ends; a block is handed to `AddBlock` only when its index is the
height plus one and is taken out of the queue only when its index is at most
that (as a `uint32`); at the end no item is left at or below the height plus
one; every item that has left the queue was taken out by the worker, and no
item has come in. -/
theorem drain_spec (B : Blockchainer χ) (fuel : Nat) (bq : blockQueue χ)
    (hf : bq.queue.Len < fuel) :
    ∃ bq1 trace, bq.drain B fuel = some (bq1, trace) ∧
      (∀ c b, WorkerEvent.addBlock c b ∈ trace →
        b.block.Index = (B.BlockHeight c + 1) % 2 ^ 32) ∧
      (∀ c b, WorkerEvent.removed c b ∈ trace →
        b.block.Index ≤ (B.BlockHeight c + 1) % 2 ^ 32) ∧
      (bq1.queue.items = [] ∨
        ∀ x ∈ bq1.queue.items, (B.BlockHeight bq1.chain + 1) % 2 ^ 32 < x.block.Index) ∧
      (∀ x ∈ bq.queue.items, x ∉ bq1.queue.items → ∃ c, WorkerEvent.removed c x ∈ trace) ∧
      (∀ x ∈ bq1.queue.items, x ∈ bq.queue.items) ∧
      (∀ c b, WorkerEvent.addBlock c b ∈ trace → b ∈ bq.queue.items) ∧
      bq1.checkBlocks = bq.checkBlocks := by
  induction fuel generalizing bq with
  | zero => exact absurd hf (Nat.not_lt_zero _)
  | succ fuel ih =>
    rw [blockQueue.drain]
    cases hs : bq.drainStep B with
    | none =>
      refine ⟨bq, [], rfl, ?_, ?_, drainStep_none B bq hs, ?_, ?_, ?_, rfl⟩
      · intro c b hb; simp at hb
      · intro c b hb; simp at hb
      · intro x hx hnx; exact absurd hx hnx
      · intro x hx; exact hx
      · intro c b hb; simp at hb
    | some s =>
      obtain ⟨bq1, evs⟩ := s
      obtain ⟨m, hm, hle, hq1, hch, -, hcase⟩ := drainStep_some B bq bq1 evs hs
      have hmem := (minItem_spec _ m hm).1
      have hlen : bq1.queue.Len < fuel := by
        have h1 : bq1.queue.Len = (bq.queue.items.erase m).length := by rw [hq1]; rfl
        rw [h1, List.length_erase_of_mem hmem]
        unfold PriorityQueue.Len at hf
        have hpos : 0 < bq.queue.items.length := List.length_pos_of_mem hmem
        omega
      obtain ⟨bq2, trace, hd, ha, hr, hend, hleft, hsub, hfrom, hch2⟩ := ih bq1 hlen
      have hitems : bq1.queue.items = bq.queue.items.erase m := by rw [hq1]; rfl
      have hevA : ∀ c b, WorkerEvent.addBlock c b ∈ evs →
          b = m ∧ b.block.Index = (B.BlockHeight c + 1) % 2 ^ 32 := by
        intro c b hb
        rcases hcase with ⟨heq, -, ev2, hev, hev2⟩ | ⟨-, -, hev⟩
        · rw [hev] at hb
          simp only [List.cons_append, List.nil_append, List.mem_cons, WorkerEvent.addBlock.injEq] at hb
          rcases hb with hb | hb | hb
          · exact absurd hb (by simp)
          · obtain ⟨h1, h2⟩ := hb
            subst h1; subst h2
            exact ⟨rfl, heq⟩
          · rcases hev2 _ hb with h | h <;> exact absurd h (by simp)
        · rw [hev] at hb
          simp at hb
      have hevR : ∀ c b, WorkerEvent.removed c b ∈ evs →
          b = m ∧ b.block.Index ≤ (B.BlockHeight c + 1) % 2 ^ 32 := by
        intro c b hb
        rcases hcase with ⟨-, -, ev2, hev, hev2⟩ | ⟨-, -, hev⟩
        · rw [hev] at hb
          simp only [List.cons_append, List.nil_append, List.mem_cons, WorkerEvent.removed.injEq] at hb
          rcases hb with hb | hb | hb
          · obtain ⟨h1, h2⟩ := hb
            subst h1; subst h2
            exact ⟨rfl, hle⟩
          · exact absurd hb (by simp)
          · rcases hev2 _ hb with h | h <;> exact absurd h (by simp)
        · rw [hev] at hb
          simp only [List.mem_singleton, WorkerEvent.removed.injEq] at hb
          obtain ⟨h1, h2⟩ := hb
          subst h1; subst h2
          exact ⟨rfl, hle⟩
      have hevM : WorkerEvent.removed bq.chain m ∈ evs := by
        rcases hcase with ⟨-, -, ev2, hev, -⟩ | ⟨-, -, hev⟩ <;> rw [hev] <;> simp
      refine ⟨bq2, evs ++ trace, ?_, ?_, ?_, hend, ?_, ?_, ?_, hch2.trans hch⟩
      · simp only [hd, Option.map_some']
      · intro c b hb
        rcases List.mem_append.1 hb with hb | hb
        · exact (hevA c b hb).2
        · exact ha c b hb
      · intro c b hb
        rcases List.mem_append.1 hb with hb | hb
        · exact (hevR c b hb).2
        · exact hr c b hb
      · intro x hx hnx
        by_cases hxm : x = m
        · subst hxm
          exact ⟨bq.chain, List.mem_append_left _ hevM⟩
        · have hx1 : x ∈ bq1.queue.items := by
            rw [hitems]
            exact (List.mem_erase_of_ne hxm).2 hx
          obtain ⟨c, hc⟩ := hleft x hx1 hnx
          exact ⟨c, List.mem_append_right _ hc⟩
      · intro x hx
        have := hsub x hx
        rw [hitems] at this
        exact List.mem_of_mem_erase this
      · intro c b hb
        rcases List.mem_append.1 hb with hb | hb
        · rw [(hevA c b hb).1]
          exact hmem
        · have := hfrom c b hb
          rw [hitems] at this
          exact List.mem_of_mem_erase this

theorem putBlock_old (B : Blockchainer χ) (bq : blockQueue χ) (block : BlockPtr)
    (h : block.block.Index ≤ B.BlockHeight bq.chain) :
    bq.putBlock B block = some (bq, none) := by
  unfold blockQueue.putBlock
  rw [if_pos h]

theorem putBlock_new (B : Blockchainer χ) (bq : blockQueue χ) (block : BlockPtr)
    (items : List BlockPtr) (h : B.BlockHeight bq.chain < block.block.Index)
    (hq : bq.queue = .live items) (hc : bq.checkBlocks.closed = false) :
    bq.putBlock B block =
      some ({ bq with
          queue := .live (if block ∈ items then items else items ++ [block]),
          checkBlocks := { bq.checkBlocks with
            buffered := if bq.checkBlocks.buffered < 1 then 1 else bq.checkBlocks.buffered } },
        none) := by
  unfold blockQueue.putBlock
  rw [if_neg (by omega)]
  simp only [hq, PriorityQueue.Put, hc, Bool.false_eq_true, if_false]
  obtain ⟨q, ⟨n, cl⟩, c, rf⟩ := bq
  simp only at hq hc ⊢
  subst hc
  by_cases hin : block ∈ items <;> by_cases hn : n < 1 <;>
    simp [hin, hn]

theorem putBlock_Inv (B : Blockchainer χ) (bq bq1 : blockQueue χ) (block : BlockPtr)
    (e : Option Err) (hinv : bq.Inv) (h : bq.putBlock B block = some (bq1, e)) : bq1.Inv := by
  unfold blockQueue.putBlock at h
  by_cases hh : B.BlockHeight bq.chain ≥ block.block.Index
  · rw [if_pos hh] at h
    simp only [Option.some.injEq, Prod.mk.injEq] at h
    rw [← h.1]
    exact hinv
  · rw [if_neg hh] at h
    have hput : ∀ x ∈ (bq.queue.Put block).1.items, 1 ≤ x.block.Index := by
      intro x hx
      unfold PriorityQueue.Put at hx
      cases hq : bq.queue with
      | disposed =>
        rw [hq] at hx
        simp [PriorityQueue.items] at hx
      | live items =>
        rw [hq] at hx
        simp only at hx
        have hi : ∀ y ∈ items, 1 ≤ y.block.Index := by
          intro y hy
          apply hinv
          rw [hq]
          exact hy
        by_cases hin : block ∈ items
        · rw [if_pos hin] at hx
          exact hi x hx
        · rw [if_neg hin] at hx
          simp only [PriorityQueue.items, List.mem_append, List.mem_singleton] at hx
          rcases hx with hx | hx
          · exact hi x hx
          · subst hx
            omega
    simp only at h
    split at h
    · exact absurd h (by simp)
    · split at h
      · simp only [Option.some.injEq, Prod.mk.injEq] at h
        rw [← h.1]
        exact hput
      · simp only [Option.some.injEq, Prod.mk.injEq] at h
        rw [← h.1]
        exact hput

theorem discard_Inv (bq bq1 : blockQueue χ) (h : bq.discard = some bq1) : bq1.Inv := by
  unfold blockQueue.discard at h
  split at h
  · exact absurd h (by simp)
  · simp only [Option.some.injEq] at h
    rw [← h]
    intro x hx
    simp [PriorityQueue.Dispose, PriorityQueue.items] at hx

theorem step_spec (B : Blockchainer χ) (bq : blockQueue χ) (w : Worker χ)
    (hinv : bq.Inv) (hw : w.Inv B) :
    (bq.step B w).1.Inv ∧ (bq.step B w).2.1.Inv B ∧
      ∀ seen c b, RunEvent.addBlock seen c b ∈ (bq.step B w).2.2 →
        1 ≤ b.block.Index ∧ b.block.Index = (B.BlockHeight seen + 1) % 2 ^ 32 ∧ c = bq.chain := by
  cases w with
  | receive =>
    simp only [blockQueue.step]
    by_cases h1 : 0 < bq.checkBlocks.buffered
    · rw [if_pos h1]
      exact ⟨hinv, trivial, by simp⟩
    · rw [if_neg h1]
      by_cases h2 : bq.checkBlocks.closed = true
      · rw [if_pos h2]
        exact ⟨hinv, trivial, by simp⟩
      · rw [if_neg h2]
        exact ⟨hinv, trivial, by simp⟩
  | peek =>
    simp only [blockQueue.step]
    cases hp : bq.queue.Peek with
    | none => exact ⟨hinv, trivial, by simp⟩
    | some m =>
      refine ⟨hinv, ?_, by simp⟩
      exact hinv m (minItem_spec _ m hp).1
  | compare m =>
    simp only [blockQueue.step]
    by_cases h1 : m.block.Index ≤ (B.BlockHeight bq.chain + 1) % 2 ^ 32
    · rw [if_pos h1]
      exact ⟨hinv, hw, by simp⟩
    · rw [if_neg h1]
      exact ⟨hinv, trivial, by simp⟩
  | get m =>
    simp only [blockQueue.step]
    refine ⟨?_, hw, ?_⟩
    · intro x hx
      apply hinv
      simp only at hx
      unfold PriorityQueue.Get1 at hx
      cases hq : bq.queue with
      | disposed =>
        rw [hq] at hx
        simp [PriorityQueue.items] at hx
      | live items =>
        rw [hq] at hx
        simp only at hx
        cases hm : minItem items with
        | none =>
          rw [hm] at hx
          exact hx
        | some y =>
          rw [hm] at hx
          exact List.mem_of_mem_erase hx
    · intro seen c b hb
      simp only [List.mem_map] at hb
      obtain ⟨_, _, h⟩ := hb
      exact absurd h (by simp)
  | test m =>
    simp only [blockQueue.step]
    by_cases h1 : m.block.Index = (B.BlockHeight bq.chain + 1) % 2 ^ 32
    · rw [if_pos h1]
      exact ⟨hinv, ⟨hw, h1⟩, by simp⟩
    · rw [if_neg h1]
      exact ⟨hinv, trivial, by simp⟩
  | add m seen =>
    simp only [blockQueue.step]
    cases hr : (B.AddBlock bq.chain m).2 with
    | some err =>
      refine ⟨hinv, trivial, ?_⟩
      intro s c b hb
      simp only [List.mem_singleton, RunEvent.addBlock.injEq] at hb
      obtain ⟨h1, h2, h3⟩ := hb
      subst h1; subst h3
      exact ⟨hw.1, hw.2, h2⟩
    | none =>
      refine ⟨hinv, trivial, ?_⟩
      intro s c b hb
      simp only [List.mem_cons, RunEvent.addBlock.injEq] at hb
      rcases hb with ⟨h1, h2, h3⟩ | hb
      · subst h1; subst h3
        exact ⟨hw.1, hw.2, h2⟩
      · split at hb
        · simp at hb
        · simp at hb
  | failed m err =>
    simp only [blockQueue.step]
    refine ⟨hinv, trivial, ?_⟩
    intro s c b hb
    split at hb
    · simp at hb
    · simp at hb
  | done =>
    simp only [blockQueue.step]
    exact ⟨hinv, trivial, by simp⟩



theorem run_work_step (B : Blockchainer χ) (n : Nat) (bq bq1 bq2 : blockQueue χ)
    (w w1 w2 : Worker χ) (evs evs2 : List (RunEvent χ)) (h : bq.step B w = (bq1, w1, evs))
    (hr : bq1.run B (List.replicate n .work) w1 = (bq2, w2, evs2)) :
    bq.run B (List.replicate (n + 1) .work) w = (bq2, w2, evs ++ evs2) := by
  rw [List.replicate_succ, blockQueue.run]
  simp only [h, hr]

theorem run_nil (B : Blockchainer χ) (bq : blockQueue χ) (w : Worker χ) :
    bq.run B (List.replicate 0 .work) w = (bq, w, []) := by
  rw [List.replicate_zero, blockQueue.run]

theorem step_peek_none (B : Blockchainer χ) (bq : blockQueue χ) (h : bq.queue.Peek = none) :
    bq.step B .peek = (bq, .receive, []) := by
  simp only [blockQueue.step, h]

theorem step_peek_some (B : Blockchainer χ) (bq : blockQueue χ) (m : BlockPtr)
    (h : bq.queue.Peek = some m) : bq.step B .peek = (bq, .compare m, []) := by
  simp only [blockQueue.step, h]

theorem step_compare_pos (B : Blockchainer χ) (bq : blockQueue χ) (m : BlockPtr)
    (h : m.block.Index ≤ (B.BlockHeight bq.chain + 1) % 2 ^ 32) :
    bq.step B (.compare m) = (bq, .get m, []) := by
  rw [blockQueue.step, if_pos h]

theorem step_compare_neg (B : Blockchainer χ) (bq : blockQueue χ) (m : BlockPtr)
    (h : ¬ m.block.Index ≤ (B.BlockHeight bq.chain + 1) % 2 ^ 32) :
    bq.step B (.compare m) = (bq, .receive, []) := by
  rw [blockQueue.step, if_neg h]

theorem step_get (B : Blockchainer χ) (bq : blockQueue χ) (m : BlockPtr) :
    bq.step B (.get m) =
      ({ bq with queue := bq.queue.Get1.2.1 }, .test m,
        bq.queue.Get1.1.toList.map (RunEvent.removed bq.chain)) := by
  rw [blockQueue.step]

theorem step_test_pos (B : Blockchainer χ) (bq : blockQueue χ) (m : BlockPtr)
    (h : m.block.Index = (B.BlockHeight bq.chain + 1) % 2 ^ 32) :
    bq.step B (.test m) = (bq, .add m bq.chain, []) := by
  rw [blockQueue.step, if_pos h]

theorem step_test_neg (B : Blockchainer χ) (bq : blockQueue χ) (m : BlockPtr)
    (h : ¬ m.block.Index = (B.BlockHeight bq.chain + 1) % 2 ^ 32) :
    bq.step B (.test m) = (bq, .peek, []) := by
  rw [blockQueue.step, if_neg h]

theorem step_add_none (B : Blockchainer χ) (bq : blockQueue χ) (m : BlockPtr) (seen : χ)
    (h : (B.AddBlock bq.chain m).2 = none) :
    bq.step B (.add m seen) =
      ({ bq with chain := (B.AddBlock bq.chain m).1 }, .peek,
        RunEvent.addBlock seen bq.chain m ::
          (if bq.relayF then [RunEvent.relayed m] else [])) := by
  simp only [blockQueue.step, h]

theorem step_add_some (B : Blockchainer χ) (bq : blockQueue χ) (m : BlockPtr) (seen : χ)
    (err : Err) (h : (B.AddBlock bq.chain m).2 = some err) :
    bq.step B (.add m seen) =
      ({ bq with chain := (B.AddBlock bq.chain m).1 }, .failed m err,
        [RunEvent.addBlock seen bq.chain m]) := by
  simp only [blockQueue.step, h]

theorem step_failed (B : Blockchainer χ) (bq : blockQueue χ) (m : BlockPtr) (err : Err) :
    bq.step B (.failed m err) =
      (bq, .peek, if B.GetBlockFails bq.chain m then [RunEvent.warned m] else []) := by
  rw [blockQueue.step]

theorem toRunEvent_removed (c : χ) (l : List BlockPtr) :
    (l.map (WorkerEvent.removed c)).map WorkerEvent.toRunEvent = l.map (RunEvent.removed c) := by
  rw [List.map_map]
  rfl

/-- An iteration of the inner loop is the worker on its own: when the loop
breaks, steps of the worker without another goroutine in between lead from the
call of `Peek` to the receive of the outer loop, else back to the call of
`Peek`, with the same block queue and the same events. -/
theorem drainStep_run (B : Blockchainer χ) (bq : blockQueue χ) :
    (bq.drainStep B = none →
      ∃ n, bq.run B (List.replicate n .work) .peek = (bq, .receive, [])) ∧
    (∀ bq1 evs, bq.drainStep B = some (bq1, evs) →
      ∃ n, bq.run B (List.replicate n .work) .peek =
        (bq1, .peek, evs.map WorkerEvent.toRunEvent)) := by
  unfold blockQueue.drainStep
  cases hp : bq.queue.Peek with
  | none =>
    refine ⟨fun _ => ⟨1, ?_⟩, fun _ _ h => absurd h (by simp)⟩
    exact run_work_step B 0 bq _ _ _ _ _ _ _ (step_peek_none B bq hp) (run_nil B _ _)
  | some m =>
    simp only []
    by_cases hle : m.block.Index ≤ (B.BlockHeight bq.chain + 1) % 2 ^ 32
    · rw [if_pos hle]
      by_cases heq : m.block.Index = (B.BlockHeight bq.chain + 1) % 2 ^ 32
      · rw [if_pos heq]
        refine ⟨fun h => absurd h (by simp), ?_⟩
        intro bq1 evs h
        simp only [Option.some.injEq, Prod.mk.injEq] at h
        obtain ⟨h1, h2⟩ := h
        subst h1; subst h2
        cases hr : (B.AddBlock bq.chain m).2 with
        | none =>
          refine ⟨5, ?_⟩
          rw [run_work_step B 4 bq _ _ _ _ _ _ _ (step_peek_some B bq m hp)
            (run_work_step B 3 bq _ _ _ _ _ _ _ (step_compare_pos B bq m hle)
              (run_work_step B 2 bq _ _ _ _ _ _ _ (step_get B bq m)
                (run_work_step B 1 _ _ _ _ _ _ _ _ (step_test_pos B _ m heq)
                  (run_work_step B 0 _ _ _ _ _ _ _ _ (step_add_none B _ m _ hr)
                    (run_nil B _ _)))))]
          simp only [List.nil_append, List.append_nil, List.map_append, toRunEvent_removed,
            List.map_cons, List.map_nil, WorkerEvent.toRunEvent, List.append_assoc,
            List.singleton_append]
          by_cases hf : bq.relayF = true
          · simp only [hf, if_true, List.map_cons, List.map_nil, WorkerEvent.toRunEvent]
          · simp only [hf, if_false, List.map_nil]
            rfl
        | some err =>
          refine ⟨6, ?_⟩
          rw [run_work_step B 5 bq _ _ _ _ _ _ _ (step_peek_some B bq m hp)
            (run_work_step B 4 bq _ _ _ _ _ _ _ (step_compare_pos B bq m hle)
              (run_work_step B 3 bq _ _ _ _ _ _ _ (step_get B bq m)
                (run_work_step B 2 _ _ _ _ _ _ _ _ (step_test_pos B _ m heq)
                  (run_work_step B 1 _ _ _ _ _ _ _ _ (step_add_some B _ m _ err hr)
                    (run_work_step B 0 _ _ _ _ _ _ _ _ (step_failed B _ m err)
                      (run_nil B _ _))))))]
          simp only [List.nil_append, List.append_nil, List.map_append, toRunEvent_removed,
            List.map_cons, List.map_nil, WorkerEvent.toRunEvent, List.append_assoc,
            List.singleton_append]
          by_cases hf : B.GetBlockFails (B.AddBlock bq.chain m).1 m = true
          · simp only [hf, if_true, List.map_cons, List.map_nil, WorkerEvent.toRunEvent]
          · simp only [hf, if_false, List.map_nil]
            rfl
      · rw [if_neg heq]
        refine ⟨fun h => absurd h (by simp), ?_⟩
        intro bq1 evs h
        simp only [Option.some.injEq, Prod.mk.injEq] at h
        obtain ⟨h1, h2⟩ := h
        subst h1; subst h2
        refine ⟨4, ?_⟩
        rw [run_work_step B 3 bq _ _ _ _ _ _ _ (step_peek_some B bq m hp)
          (run_work_step B 2 bq _ _ _ _ _ _ _ (step_compare_pos B bq m hle)
            (run_work_step B 1 bq _ _ _ _ _ _ _ (step_get B bq m)
              (run_work_step B 0 _ _ _ _ _ _ _ _ (step_test_neg B _ m heq)
                (run_nil B _ _))))]
        simp only [List.nil_append, List.append_nil, toRunEvent_removed]
    · rw [if_neg hle]
      refine ⟨fun _ => ⟨2, ?_⟩, fun _ _ h => absurd h (by simp)⟩
      exact run_work_step B 1 bq _ _ _ _ _ _ _ (step_peek_some B bq m hp)
        (run_work_step B 0 bq _ _ _ _ _ _ _ (step_compare_neg B bq m hle) (run_nil B _ _))

theorem run_work_add (B : Blockchainer χ) (n1 n2 : Nat) (bq bq1 bq2 : blockQueue χ)
    (w w1 w2 : Worker χ) (e1 e2 : List (RunEvent χ))
    (h1 : bq.run B (List.replicate n1 .work) w = (bq1, w1, e1))
    (h2 : bq1.run B (List.replicate n2 .work) w1 = (bq2, w2, e2)) :
    bq.run B (List.replicate (n1 + n2) .work) w = (bq2, w2, e1 ++ e2) := by
  induction n1 generalizing bq w e1 with
  | zero =>
    rw [run_nil] at h1
    simp only [Prod.mk.injEq] at h1
    obtain ⟨ha, hb, hc⟩ := h1
    subst ha; subst hb; subst hc
    rw [Nat.zero_add, h2]
    rfl
  | succ n ih =>
    rw [List.replicate_succ, blockQueue.run] at h1
    simp only [Prod.mk.injEq] at h1
    obtain ⟨ha, hb, hc⟩ := h1
    have hrest : (bq.step B w).1.run B (List.replicate n .work) (bq.step B w).2.1 =
        (bq1, w1, ((bq.step B w).1.run B (List.replicate n .work) (bq.step B w).2.1).2.2) := by
      rw [← ha, ← hb]
    have := ih _ _ _ hrest
    rw [Nat.succ_add]
    rw [run_work_step B (n + n2) bq _ _ w _ _ _ _ rfl this, ← hc, List.append_assoc]
    rfl

/-- A pass over the queue is the worker on its own: when no other goroutine
acts in between, steps of the worker lead from the call of `Peek` to the
receive of the outer loop with the block queue and the events of the pass. -/
theorem drain_run (B : Blockchainer χ) (fuel : Nat) (bq bq1 : blockQueue χ)
    (trace : List (WorkerEvent χ)) (h : bq.drain B fuel = some (bq1, trace)) :
    ∃ n, bq.run B (List.replicate n .work) .peek =
      (bq1, .receive, trace.map WorkerEvent.toRunEvent) := by
  induction fuel generalizing bq trace with
  | zero => simp [blockQueue.drain] at h
  | succ fuel ih =>
    rw [blockQueue.drain] at h
    cases hs : bq.drainStep B with
    | none =>
      rw [hs] at h
      simp only [Option.some.injEq, Prod.mk.injEq] at h
      obtain ⟨h1, h2⟩ := h
      subst h1; subst h2
      exact (drainStep_run B bq).1 hs
    | some s =>
      obtain ⟨bqs, evs⟩ := s
      rw [hs] at h
      simp only [Option.map_eq_some'] at h
      obtain ⟨⟨bq2, t2⟩, hd, heq⟩ := h
      simp only [Prod.mk.injEq] at heq
      obtain ⟨h1, h2⟩ := heq
      subst h1; subst h2
      obtain ⟨n1, hn1⟩ := (drainStep_run B bq).2 bqs evs hs
      obtain ⟨n2, hn2⟩ := ih bqs t2 hd
      refine ⟨n1 + n2, ?_⟩
      rw [run_work_add B n1 n2 bq _ _ _ _ _ _ _ hn1 hn2, List.map_append]

/-- What the worker does in a run that starts with every index of the queue at
least 1: every block handed to `AddBlock` has an index of at least 1 that is
the height plus one (as a `uint32`) of the chain that the test before the call
has read. -/
theorem run_spec (B : Blockchainer χ) (as : List (Action χ)) (bq : blockQueue χ)
    (w : Worker χ) (hinv : bq.Inv) (hw : w.Inv B) :
    ∀ seen c b, RunEvent.addBlock seen c b ∈ (bq.run B as w).2.2 →
      1 ≤ b.block.Index ∧ b.block.Index = (B.BlockHeight seen + 1) % 2 ^ 32 := by
  induction as generalizing bq w with
  | nil => intro seen c b hb; simp [blockQueue.run] at hb
  | cons a as ih =>
    cases a with
    | putBlock block =>
      rw [blockQueue.run]
      cases hp : bq.putBlock B block with
      | none => intro seen c b hb; simp at hb
      | some r =>
        obtain ⟨bq1, e⟩ := r
        exact ih bq1 w (putBlock_Inv B bq bq1 block e hinv hp) hw
    | setChain c =>
      rw [blockQueue.run]
      exact ih _ w hinv hw
    | discard =>
      rw [blockQueue.run]
      cases hd : bq.discard with
      | none => intro seen c b hb; simp at hb
      | some bq1 => exact ih bq1 w (discard_Inv bq bq1 hd) hw
    | work =>
      rw [blockQueue.run]
      obtain ⟨h1, h2, h3⟩ := step_spec B bq w hinv hw
      intro seen c b hb
      simp only [List.mem_append] at hb
      rcases hb with hb | hb
      · exact ⟨(h3 seen c b hb).1, (h3 seen c b hb).2.1⟩
      · exact ih _ _ h1 h2 seen c b hb

/-- C18: for every block whose index is at most the current height of the
chain, `putBlock` returns nil and leaves the block queue as it was; for every
block whose index is greater than the current height, on a block queue that
has not been discarded, it returns nil and the block is in the queue: added at
the end when the queue did not hold it, and nothing else of the queue or of
the chain changes. -/
theorem blockQueue_putBlock_height (B : Blockchainer χ) (bq : blockQueue χ) (block : BlockPtr) :
    (block.block.Index ≤ B.BlockHeight bq.chain → bq.putBlock B block = some (bq, none)) ∧
    (B.BlockHeight bq.chain < block.block.Index →
      ∀ items, bq.queue = .live items → bq.checkBlocks.closed = false →
        ∃ bq1, bq.putBlock B block = some (bq1, none) ∧ block ∈ bq1.queue.items ∧
          bq1.queue = .live (if block ∈ items then items else items ++ [block]) ∧
          bq1.chain = bq.chain) := by
  refine ⟨putBlock_old B bq block, ?_⟩
  intro h items hq hc
  refine ⟨_, putBlock_new B bq block items h hq hc, ?_, rfl, rfl⟩
  by_cases hin : block ∈ items
  · simp [PriorityQueue.items, hin]
  · simp [PriorityQueue.items, hin]

/-- Witness for C18: at height 5 the block of index 3 is dropped and the block
of index 7 is put into the queue that holds the block of index 9. -/
theorem blockQueue_putBlock_height_witness :
    (exampleQueue 5 [exampleBlockAt 9]).putBlock exampleChain (exampleBlockAt 3) =
      some (exampleQueue 5 [exampleBlockAt 9], none) ∧
    ∃ bq1, (exampleQueue 5 [exampleBlockAt 9]).putBlock exampleChain (exampleBlockAt 7) =
        some (bq1, none) ∧ exampleBlockAt 7 ∈ bq1.queue.items ∧
      bq1.queue = .live (if exampleBlockAt 7 ∈ [exampleBlockAt 9] then [exampleBlockAt 9]
        else [exampleBlockAt 9] ++ [exampleBlockAt 7]) ∧
      bq1.chain = (exampleQueue 5 [exampleBlockAt 9]).chain :=
  ⟨(blockQueue_putBlock_height exampleChain (exampleQueue 5 [exampleBlockAt 9])
      (exampleBlockAt 3)).1 (by decide),
    (blockQueue_putBlock_height exampleChain (exampleQueue 5 [exampleBlockAt 9])
      (exampleBlockAt 7)).2 (by decide) [exampleBlockAt 9] rfl rfl⟩

theorem newBlockQueue_Inv (bc : χ) (relayer : Bool) : (newBlockQueue bc relayer).Inv := by
  intro x hx
  simp [newBlockQueue, PriorityQueue.items] at hx

theorem exampleChain_BlockHeight (c : Nat) : exampleChain.BlockHeight c < 2 ^ 32 :=
  Nat.mod_lt _ (by norm_num)

/-- C19 (amended): in every run of the worker on a block queue made by
`newBlockQueue`, whatever other goroutines put into the queue and however the
chain changes between any two steps of the worker, each block handed to
`AddBlock` has an index equal to the height plus one of the chain as the test
`minblock.Index == bq.chain.BlockHeight()+1` before the call has read it: a
block with any other index at that test is never handed over.  When the chain
has the same height at the call, the index is the height at the call plus
one. -/
theorem blockQueue_run_AddBlock_index (B : Blockchainer χ)
    (hB : ∀ c, B.BlockHeight c < 2 ^ 32) (bc : χ) (relayer : Bool) (as : List (Action χ)) :
    ∀ seen c b,
      RunEvent.addBlock seen c b ∈ ((newBlockQueue bc relayer).run B as .receive).2.2 →
        b.block.Index = B.BlockHeight seen + 1 ∧
        (B.BlockHeight c = B.BlockHeight seen → b.block.Index = B.BlockHeight c + 1) := by
  intro seen c b hm
  obtain ⟨h1, h2⟩ := run_spec B as _ .receive (newBlockQueue_Inv bc relayer) trivial seen c b hm
  have h3 := hB seen
  have h4 : b.block.Index = B.BlockHeight seen + 1 := by
    norm_num at h2 h3
    omega
  exact ⟨h4, fun h => by rw [h]; exact h4⟩

/-- Witness for C19: at height 5 the blocks of index 7, 6 and 9 are put, and
the worker takes 14 steps. -/
theorem blockQueue_run_AddBlock_index_witness :
    (∀ c, exampleChain.BlockHeight c < 2 ^ 32) ∧
    ∀ seen c b,
      RunEvent.addBlock seen c b ∈ ((newBlockQueue 5 true).run exampleChain
        ([.putBlock (exampleBlockAt 7), .putBlock (exampleBlockAt 6),
          .putBlock (exampleBlockAt 9)] ++ List.replicate 14 .work) .receive).2.2 →
        b.block.Index = exampleChain.BlockHeight seen + 1 ∧
        (exampleChain.BlockHeight c = exampleChain.BlockHeight seen →
          b.block.Index = exampleChain.BlockHeight c + 1) :=
  ⟨exampleChain_BlockHeight,
    blockQueue_run_AddBlock_index exampleChain exampleChain_BlockHeight 5 true _⟩

/-- The run of the witness for C19: the worker takes the blocks of index 6 and 7
out of the queue, hands each to `AddBlock` at the heights 5 and 6 and relays
it; the block of index 9 waits, and the worker waits at the channel. -/
theorem blockQueue_run_example :
    (fun r : blockQueue Nat × Worker Nat × List (RunEvent Nat) =>
        (r.1.queue.items, r.1.chain, r.2.2))
      ((newBlockQueue 5 true).run exampleChain
        ([.putBlock (exampleBlockAt 7), .putBlock (exampleBlockAt 6),
          .putBlock (exampleBlockAt 9)] ++ List.replicate 14 .work) .receive) =
    ([exampleBlockAt 9], 7,
      [.removed 5 (exampleBlockAt 6), .addBlock 5 5 (exampleBlockAt 6),
        .relayed (exampleBlockAt 6), .removed 6 (exampleBlockAt 7),
        .addBlock 6 6 (exampleBlockAt 7), .relayed (exampleBlockAt 7)]) := rfl

/-- Counterexample for C19: at height 5 the block of index 6 is put; the worker
takes it out of the queue and its test reads the height 5; before the call of
`AddBlock` the chain grows to the height 6 (the block has come from the
consensus).  `AddBlock` is called with the block of index 6 on the chain of
height 6, where the height plus one is 7; it returns an error, `GetBlock` finds
the block, and nothing is logged. -/
theorem blockQueue_run_AddBlock_late :
    (fun r : blockQueue Nat × Worker Nat × List (RunEvent Nat) =>
        (r.1.queue.items, r.1.chain, r.2.2))
      ((newBlockQueue 5 true).run exampleChain
        [.putBlock (exampleBlockAt 6), .work, .work, .work, .work, .work, .setChain 6,
          .work, .work] .receive) =
      ([], 6, [.removed 5 (exampleBlockAt 6), .addBlock 5 6 (exampleBlockAt 6)]) ∧
    (exampleBlockAt 6).block.Index ≠ exampleChain.BlockHeight 6 + 1 ∧
    (exampleChain.AddBlock 6 (exampleBlockAt 6)).2 = some .invalidFormat :=
  ⟨rfl, by decide, rfl⟩

/-- C20 (amended): every pass of the worker over the queue ends; a block that
it takes out of the queue has an index of at most the height of the chain plus
one, and every block that leaves the queue is taken out by it; when the pass
ends the queue is empty or every index in it is greater than the height plus
one taken as a `uint32`, which is the height plus one unless the height is
2^32 - 1. -/
theorem blockQueue_drain_pass (B : Blockchainer χ) (bq : blockQueue χ) :
    ∃ bq1 trace, bq.drain B (bq.length + 1) = some (bq1, trace) ∧
      (∀ c b, WorkerEvent.removed c b ∈ trace → b.block.Index ≤ B.BlockHeight c + 1) ∧
      (∀ x ∈ bq.queue.items, x ∉ bq1.queue.items → ∃ c, WorkerEvent.removed c x ∈ trace) ∧
      (bq1.queue.items = [] ∨
        ∀ x ∈ bq1.queue.items, (B.BlockHeight bq1.chain + 1) % 2 ^ 32 < x.block.Index) ∧
      (B.BlockHeight bq1.chain + 1 < 2 ^ 32 →
        bq1.queue.items = [] ∨
          ∀ x ∈ bq1.queue.items, B.BlockHeight bq1.chain + 1 < x.block.Index) := by
  obtain ⟨bq1, trace, hd, -, hr, hend, hleft, -, -, -⟩ :=
    drain_spec B (bq.length + 1) bq (Nat.lt_succ_self _)
  refine ⟨bq1, trace, hd, ?_, hleft, hend, ?_⟩
  · intro c b hm
    exact le_trans (hr c b hm) (Nat.mod_le _ _)
  · intro hlt
    rw [Nat.mod_eq_of_lt hlt] at hend
    exact hend

/-- Counterexample for C20: at the height 2^32 - 1 a pass over the queue that
holds the block of index 5 ends at once and leaves the block in the queue,
though 5 is not greater than the height plus one. -/
theorem blockQueue_drain_pass_wraps :
    ((exampleQueue 4294967295 [exampleBlockAt 5]).drain exampleChain 2).map
        (fun r => (r.1.queue.items, exampleChain.BlockHeight r.1.chain, r.2)) =
      some ([exampleBlockAt 5], 4294967295, []) ∧
    ¬ (4294967295 + 1 < (exampleBlockAt 5).block.Index) :=
  ⟨rfl, by decide⟩

/-- The state of the counterexample for C20 is reached in a run: the block of
index 5 is put at height 0 and waits; the chain grows without the queue to
the height 2^32 - 2, the block of index 2^32 - 1 is put, the chain grows by one
more block, and the worker goes through the queue again. -/
theorem blockQueue_run_reaches_wrap :
    (fun r : blockQueue Nat × Worker Nat × List (RunEvent Nat) =>
        (r.1.queue.items, exampleChain.BlockHeight r.1.chain, r.2.2))
      ((newBlockQueue 0 true).run exampleChain
        [.putBlock (exampleBlockAt 5), .work, .work, .work, .setChain 4294967294,
          .putBlock (exampleBlockAt 4294967295), .setChain 4294967295, .work, .work, .work]
        .receive) =
    ([exampleBlockAt 5, exampleBlockAt 4294967295], 4294967295, []) := rfl

/-! ## Interop handlers -/

theorem assetRenew_spec (I : Interops δ χ) (ic : interopContext δ χ) (as asset : Asset)
    (y : Element) (st : List Element) (y64 : Int)
    (ht : ic.trigger = I.Application) (hy : I.Int64 y = some y64)
    (hg : I.GetAssetState ic.dao as.ID = .ok asset)
    (he : asset.Expiration < 2 ^ 32) (hh : I.BlockHeight ic.bc < 2 ^ 32 - 1)
    (hp : (I.PutAssetState ic.dao (Asset.mk asset.ID
      (renewedExpiration asset.Expiration (I.BlockHeight ic.bc) (y64 % 256).toNat)
      asset.rest)).2 = none) :
    assetRenew I ic (.Interop (.Asset as) :: y :: st) =
      some (interopContext.mk ic.bc ic.trigger (I.PutAssetState ic.dao (Asset.mk asset.ID
          (renewedExpiration asset.Expiration (I.BlockHeight ic.bc) (y64 % 256).toNat)
          asset.rest)).1,
        .Integer (renewedExpiration asset.Expiration (I.BlockHeight ic.bc) (y64 % 256).toNat) :: st,
        none) := by
  have hyr : (y64 % 256).toNat < 256 := by
    have h1 := Int.emod_lt_of_pos y64 (show (0 : Int) < 256 by norm_num)
    have h0 := Int.emod_nonneg y64 (show (256 : Int) ≠ 0 by norm_num)
    omega
  obtain ⟨years, hyears⟩ : ∃ n, (y64 % 256).toNat = n := ⟨_, rfl⟩
  obtain ⟨h, hH⟩ : ∃ n, I.BlockHeight ic.bc = n := ⟨_, rfl⟩
  rw [hyears] at hyr hp ⊢
  rw [hH] at hh hp ⊢
  obtain ⟨id, e, rest⟩ := asset
  simp only at he hp ⊢
  have h32 : (2 : Nat) ^ 32 = 4294967296 := by norm_num
  have h64 : (2 : Nat) ^ 64 = 18446744073709551616 := by norm_num
  rw [h32] at he hh
  have hh1 : (h + 1) % 2 ^ 32 = h + 1 := Nat.mod_eq_of_lt (by rw [h32]; omega)
  have hmax : max e (h + 1) < 4294967296 := by
    rcases Nat.le_total e (h + 1) with hl | hl
    · rw [Nat.max_eq_right hl]; omega
    · rw [Nat.max_eq_left hl]; omega
  have hsum : (max e (h + 1) + years * BlocksPerYear) % 2 ^ 64 =
      max e (h + 1) + years * BlocksPerYear := by
    apply Nat.mod_eq_of_lt
    rw [h64]
    unfold BlocksPerYear
    omega
  have hR : (if (max e (h + 1) + years * BlocksPerYear) % 2 ^ 64 > MaxUint32 then MaxUint32
        else (max e (h + 1) + years * BlocksPerYear) % 2 ^ 64) = renewedExpiration e h years := by
    rw [hsum]
    unfold renewedExpiration MaxUint32 BlocksPerYear
    rw [h32]
    by_cases hc : max e (h + 1) + years * 2000000 > 4294967295
    · rw [if_pos hc, Nat.min_eq_right (by omega)]
    · rw [if_neg hc, Nat.min_eq_left (by omega)]
  have hRlt : renewedExpiration e h years % 2 ^ 32 = renewedExpiration e h years := by
    apply Nat.mod_eq_of_lt
    unfold renewedExpiration
    rw [h32]
    exact lt_of_le_of_lt (Nat.min_le_right _ _) (by omega)
  unfold assetRenew
  rw [if_neg (by simpa using ht)]
  simp only [hy, hg, hH, hh1, hyears]
  by_cases hlt : e < h + 1
  · have hm : max e (h + 1) = h + 1 := Nat.max_eq_right (by omega)
    rw [hm] at hR
    simp only [if_pos hlt, hR, hRlt, hp]
  · have hm : max e (h + 1) = e := Nat.max_eq_left (by omega)
    rw [hm] at hR
    simp only [if_neg hlt, hR, hRlt, hp]

theorem renewedExpiration_bounds (e h years : Nat) :
    renewedExpiration e h years ≤ 2 ^ 32 - 1 ∧
      (e + years * 2000000 ≤ 2 ^ 32 - 1 → e ≤ renewedExpiration e h years) := by
  unfold renewedExpiration
  refine ⟨Nat.min_le_right _ _, ?_⟩
  intro hle
  apply Nat.le_min.2
  constructor
  · exact le_trans (Nat.le_max_left e (h + 1)) (Nat.le_add_right _ _)
  · omega

/-- C21: for every stored asset with expiration `e`, chain height `h < 2^32 - 1`
and renewal argument taken as a byte `years`, when the trigger is `Application`
and the DAO takes the asset, `assetRenew` hands to `PutAssetState` the asset
with the expiration `min(max(e, h + 1) + years * 2000000, 2^32 - 1)` and pushes
this number; it is at most 2^32 - 1. -/
theorem assetRenew_saturates (I : Interops δ χ) (ic : interopContext δ χ) (as asset : Asset)
    (y : Element) (st : List Element) (y64 : Int)
    (ht : ic.trigger = I.Application) (hy : I.Int64 y = some y64)
    (hg : I.GetAssetState ic.dao as.ID = .ok asset)
    (he : asset.Expiration < 2 ^ 32) (hh : I.BlockHeight ic.bc < 2 ^ 32 - 1)
    (hp : (I.PutAssetState ic.dao (Asset.mk asset.ID
      (renewedExpiration asset.Expiration (I.BlockHeight ic.bc) (y64 % 256).toNat)
      asset.rest)).2 = none) :
    (y64 % 256).toNat < 256 ∧
    renewedExpiration asset.Expiration (I.BlockHeight ic.bc) (y64 % 256).toNat ≤ 2 ^ 32 - 1 ∧
    assetRenew I ic (.Interop (.Asset as) :: y :: st) =
      some (interopContext.mk ic.bc ic.trigger (I.PutAssetState ic.dao (Asset.mk asset.ID
          (renewedExpiration asset.Expiration (I.BlockHeight ic.bc) (y64 % 256).toNat)
          asset.rest)).1,
        .Integer (renewedExpiration asset.Expiration (I.BlockHeight ic.bc) (y64 % 256).toNat) :: st,
        none) := by
  refine ⟨?_, (renewedExpiration_bounds _ _ _).1, assetRenew_spec I ic as asset y st y64 ht hy hg he hh hp⟩
  have h1 := Int.emod_lt_of_pos y64 (show (0 : Int) < 256 by norm_num)
  have h0 := Int.emod_nonneg y64 (show (256 : Int) ≠ 0 by norm_num)
  omega

/-- Witness for C21: at the height 5000000 the asset with expiration 4000000 is
renewed by 3 years. -/
theorem assetRenew_saturates_witness :
    exampleContext.trigger = exampleInterops.Application ∧
    exampleInterops.Int64 (.Integer 3) = some 3 ∧
    exampleInterops.GetAssetState exampleContext.dao exampleAsset.ID = .ok exampleAsset ∧
    exampleAsset.Expiration < 2 ^ 32 ∧ exampleInterops.BlockHeight exampleContext.bc < 2 ^ 32 - 1 ∧
    ((3 : Int) % 256).toNat < 256 ∧
    renewedExpiration exampleAsset.Expiration (exampleInterops.BlockHeight exampleContext.bc)
      ((3 : Int) % 256).toNat ≤ 2 ^ 32 - 1 ∧
    assetRenew exampleInterops exampleContext [.Interop (.Asset exampleAsset), .Integer 3] =
      some (interopContext.mk exampleContext.bc exampleContext.trigger
        (exampleInterops.PutAssetState exampleContext.dao (Asset.mk exampleAsset.ID
          (renewedExpiration exampleAsset.Expiration
            (exampleInterops.BlockHeight exampleContext.bc) ((3 : Int) % 256).toNat)
          exampleAsset.rest)).1,
        .Integer (renewedExpiration exampleAsset.Expiration
          (exampleInterops.BlockHeight exampleContext.bc) ((3 : Int) % 256).toNat) :: [],
        none) :=
  ⟨rfl, rfl, rfl, by decide, by decide,
    assetRenew_saturates exampleInterops exampleContext exampleAsset exampleAsset (.Integer 3) []
      3 rfl rfl rfl (by decide) (by decide) rfl⟩

/-- The run of the witness for C21: the expiration stored and pushed is
5000001 + 3 * 2000000; with 255 years at the height 4290000000 it is 2^32 - 1. -/
theorem assetRenew_example :
    (assetRenew exampleInterops exampleContext [.Interop (.Asset exampleAsset), .Integer 3]).map
        (fun r => (r.1.dao.assets.map Asset.Expiration, r.2.2)) =
      some ([11000001, 4000000], none) ∧
    renewedExpiration 4000000 5000000 3 = 11000001 ∧
    renewedExpiration 4000000 4290000000 255 = 4294967295 := by
  decide

theorem createContractStateFromVM_dao (I : Interops δ χ) (ic : interopContext δ χ) (d : δ)
    (estack : List Element) :
    createContractStateFromVM I { ic with dao := d } estack =
      createContractStateFromVM I ic estack := rfl

theorem contractCreate_stored_of (I : Interops δ χ) (ic : interopContext δ χ)
    (estack st : List Element) (newcontract stored : Contract)
    (hs : createContractStateFromVM I ic estack = some (st, .ok newcontract))
    (hg : I.GetContractState ic.dao (newcontract.ScriptHash I) = .ok stored) :
    contractCreate I ic estack = some (ic, .Interop (.Contract stored) :: st, none) := by
  unfold contractCreate
  rw [hs]
  simp only [hg]

/-- C22: when the DAO holds a contract under the script hash of the contract
that the elements on the stack describe, `contractCreate` returns nil, leaves
the context, and so the DAO, as it was (`PutContractState` is not called), and
pushes the stored contract: after a first run that stored the contract, a
second run with the same elements changes nothing. -/
theorem contractCreate_already_stored (I : Interops δ χ) (ic : interopContext δ χ)
    (estack st : List Element) (newcontract stored : Contract)
    (hs : createContractStateFromVM I ic estack = some (st, .ok newcontract))
    (hg : I.GetContractState ic.dao (newcontract.ScriptHash I) = .ok stored) :
    contractCreate I ic estack = some (ic, .Interop (.Contract stored) :: st, none) :=
  contractCreate_stored_of I ic estack st newcontract stored hs hg

/-- Two runs of `contractCreate` on the same elements, on a DAO that returns
what it has taken: when the first run returns nil, the second run returns nil,
leaves the context of the first run as it is and pushes the same contract. -/
theorem contractCreate_twice (I : Interops δ χ) (hI : I.PutGetContract)
    (ic ic1 : interopContext δ χ) (estack st1 : List Element)
    (h1 : contractCreate I ic estack = some (ic1, st1, none)) :
    contractCreate I ic1 estack = some (ic1, st1, none) := by
  unfold contractCreate at h1
  cases hs : createContractStateFromVM I ic estack with
  | none => rw [hs] at h1; simp at h1
  | some r =>
    obtain ⟨st, res⟩ := r
    rw [hs] at h1
    cases res with
    | error e => simp at h1
    | ok nc =>
      simp only at h1
      cases hg : I.GetContractState ic.dao (nc.ScriptHash I) with
      | ok stored =>
        rw [hg] at h1
        simp only [Option.some.injEq, Prod.mk.injEq] at h1
        obtain ⟨h2, h3, -⟩ := h1
        subst h2
        rw [← h3]
        exact contractCreate_stored_of I ic estack st nc stored hs hg
      | error e =>
        rw [hg] at h1
        simp only at h1
        cases hp : I.PutContractState ic.dao nc with
        | mk d1 pe =>
          rw [hp] at h1
          cases pe with
          | some e1 => simp at h1
          | none =>
            simp only [Option.some.injEq, Prod.mk.injEq] at h1
            obtain ⟨h2, h3, -⟩ := h1
            rw [← h2, ← h3]
            exact contractCreate_stored_of I _ estack st nc nc
              (by rw [createContractStateFromVM_dao]; exact hs) (hI _ _ _ hp)

/-- Witness for C22: the context after a first run that stored
`exampleContract`, and the same elements on the stack. -/
theorem contractCreate_already_stored_witness :
    createContractStateFromVM exampleInterops exampleContextStored exampleContractArgs =
      some ([], .ok exampleContract) ∧
    exampleInterops.GetContractState exampleContextStored.dao
      (exampleContract.ScriptHash exampleInterops) = .ok exampleContract ∧
    contractCreate exampleInterops exampleContextStored exampleContractArgs =
      some (exampleContextStored, .Interop (.Contract exampleContract) :: [], none) :=
  ⟨rfl, rfl,
    contractCreate_already_stored exampleInterops exampleContextStored exampleContractArgs []
      exampleContract exampleContract rfl rfl⟩

/-- The first run of the witness for C22: on the DAO without contracts
`contractCreate` stores the contract and reaches `exampleContextStored`. -/
theorem contractCreate_example :
    (contractCreate exampleInterops exampleContext exampleContractArgs).map
        (fun r => (r.1.dao, r.2.2)) =
      some (exampleContextStored.dao, none) := by
  decide

theorem txGetAttributes_bounded (ic : interopContext δ χ) (estack : List Element) :
    PushesBoundedArray estack (txGetAttributes ic estack) := by
  unfold txGetAttributes
  split
  · trivial
  · split
    · exact Or.inr rfl
    · exact ⟨_, _, rfl, by simp only [List.length_map]; omega⟩
  · exact Or.inr rfl

theorem txGetInputs_bounded (ic : interopContext δ χ) (estack : List Element) :
    PushesBoundedArray estack (txGetInputs ic estack) := by
  unfold txGetInputs
  split
  · trivial
  · split
    · exact Or.inr rfl
    · exact ⟨_, _, rfl, by simp only [List.length_map]; omega⟩
  · exact Or.inr rfl

theorem txGetOutputs_bounded (ic : interopContext δ χ) (estack : List Element) :
    PushesBoundedArray estack (txGetOutputs ic estack) := by
  unfold txGetOutputs
  split
  · trivial
  · split
    · exact Or.inr rfl
    · exact ⟨_, _, rfl, by simp only [List.length_map]; omega⟩
  · exact Or.inr rfl

theorem txGetWitnesses_bounded (ic : interopContext δ χ) (estack : List Element) :
    PushesBoundedArray estack (txGetWitnesses ic estack) := by
  unfold txGetWitnesses
  split
  · trivial
  · split
    · exact Or.inr rfl
    · exact ⟨_, _, rfl, by simp only [List.length_map]; omega⟩
  · exact Or.inr rfl

theorem accountGetVotes_bounded (ic : interopContext δ χ) (estack : List Element) :
    PushesBoundedArray estack (accountGetVotes ic estack) := by
  unfold accountGetVotes
  split
  · trivial
  · split
    · exact Or.inr rfl
    · exact ⟨_, _, rfl, by simp only [List.length_map]; omega⟩
  · exact Or.inr rfl

theorem bcGetValidators_bounded (I : Interops δ χ) (ic : interopContext δ χ)
    (estack : List Element) : PushesBoundedArray estack (bcGetValidators I ic estack) := by
  unfold bcGetValidators
  simp only
  split
  · exact Or.inl rfl
  · exact ⟨_, _, rfl, by simp only [List.length_map]; omega⟩

/-- The handler `txGetReferences` keeps the bound when the chain returns at
least as many references as the transaction has inputs. -/
theorem txGetReferences_bounded (I : Interops δ χ) (ic : interopContext δ χ)
    (estack : List Element)
    (hrefs : ∀ tx refs, I.References ic.bc tx = .ok refs → tx.Inputs.length ≤ refs.length) :
    PushesBoundedArray estack (txGetReferences I ic estack) := by
  unfold txGetReferences
  split
  · trivial
  · rename_i tx st
    cases hr : I.References ic.bc tx with
    | error e => exact Or.inr rfl
    | ok refs =>
      simp only
      split
      · exact Or.inr rfl
      · refine ⟨_, _, rfl, ?_⟩
        have h1 := hrefs tx refs hr
        have h2 := List.length_filterMap_le (fun i =>
          (refs.find? fun r => decide (r.In = i)).map fun r => Element.Interop (.InOut r))
          tx.Inputs
        omega
  · exact Or.inr rfl

theorem txGetUnspentCoins_ok (I : Interops δ χ) (ic : interopContext δ χ)
    (tx : FullTransaction) (st : List Element) (ucs : UnspentCoin)
    (hg : I.GetUnspentCoinState ic.dao tx.Hash = .ok ucs) :
    txGetUnspentCoins I ic (.Interop (.Transaction tx) :: st) =
      some (ic, .Array ((ucs.States.filter fun s => s.State &&& I.CoinSpent = 0).map fun s =>
        Element.Interop (.Output s.Output)) :: st, none) := by
  unfold txGetUnspentCoins
  simp only [hg]

/-- Value of `txGetUnspentCoins` for C23: for a transaction with 1025 output
states that are not spent the handler returns nil and pushes an array of 1025
elements, more than `MaxArraySize`. -/
theorem txGetUnspentCoins_1025 :
    ∃ a, txGetUnspentCoins exampleInterops exampleContextUnspent
        [.Interop (.Transaction exampleTransaction)] =
      some (exampleContextUnspent, [.Array a], none) ∧
      a.length = 1025 ∧ ¬ a.length ≤ MaxArraySize := by
  refine ⟨_, txGetUnspentCoins_ok exampleInterops exampleContextUnspent exampleTransaction []
    { Height := 1, States := List.replicate 1025 exampleOutputState } rfl, ?_⟩
  have hlen : ((List.replicate 1025 exampleOutputState).filter
      fun s => s.State &&& exampleInterops.CoinSpent = 0).length = 1025 := by
    rw [List.filter_eq_self.2]
    · exact List.length_replicate _ _
    · intro a ha
      rw [List.eq_of_mem_replicate ha]
      decide
  simp only [List.length_map, hlen]
  exact ⟨trivial, by decide⟩

/-! ## Serializable items are trees -/

theorem SerTree_items (f : StackItem → BinWriter → List StackItem → Option SerState)
    (t : StackItem → Option (ItemValue × List StackItem)) (hf : SerTree f t) (hm : SerMono f)
    (xs : List StackItem) :
    ∀ w seen r, serializeItems f xs w seen = some r → r.1.err = none →
      ∃ vs refs, itemTrees t xs = some (vs, refs) ∧ refs.Nodup ∧ (∀ y ∈ refs, y ∉ seen) ∧
        (∀ y, y ∈ r.2 ↔ y ∈ refs ∨ y ∈ seen) := by
  induction xs with
  | nil =>
    intro w seen r hr _
    simp only [serializeItems, Option.some.injEq] at hr
    subst hr
    exact ⟨[], [], rfl, List.nodup_nil, by simp, by simp⟩
  | cons x xs ih =>
    intro w seen r hr he
    simp only [serializeItems] at hr
    cases hx : f x w seen with
    | none => rw [hx] at hr; simp at hr
    | some s =>
      rw [hx] at hr
      simp only [Option.some_bind] at hr
      have hs : s.1.err = none := by
        by_contra hne
        exact (serializeItems_mono f hm xs s.1 s.2 r hr).2 hne he
      obtain ⟨v, r1, ht1, hn1, hd1, hi1⟩ := hf x w seen s hx hs
      obtain ⟨vs, r2, ht2, hn2, hd2, hi2⟩ := ih s.1 s.2 r hr he
      refine ⟨v :: vs, r1 ++ r2, ?_, ?_, ?_, ?_⟩
      · simp only [itemTrees, ht1, ht2]
      · refine List.nodup_append.2 ⟨hn1, hn2, ?_⟩
        intro a ha1 ha2
        exact hd2 a ha2 ((hi1 a).2 (Or.inl ha1))
      · intro y hy
        rcases List.mem_append.1 hy with hy | hy
        · exact hd1 y hy
        · intro hys
          exact hd2 y hy ((hi1 y).2 (Or.inr hys))
      · intro y
        rw [hi2 y, hi1 y, List.mem_append]
        tauto

theorem entryTrees_of_itemTrees (t : StackItem → Option (ItemValue × List StackItem))
    (es : List MapElement) :
    ∀ vs refs, itemTrees t (es.foldr (fun e acc => e.Key :: e.Value :: acc) []) = some (vs, refs) →
      ∃ m, entryTrees t es = some (m, refs) := by
  induction es with
  | nil =>
    intro vs refs h
    simp only [List.foldr, itemTrees, Option.some.injEq, Prod.mk.injEq] at h
    exact ⟨[], by simp [entryTrees, h.2]⟩
  | cons e es ih =>
    intro vs refs h
    simp only [List.foldr] at h
    obtain ⟨k, r1, vs1, r23, hk, h1, -, hr⟩ := itemTrees_cons t _ _ _ _ h
    obtain ⟨v, r2, vs2, r3, hv, h2, -, hr2⟩ := itemTrees_cons t _ _ _ _ h1
    obtain ⟨m, hm⟩ := ih vs2 r3 h2
    refine ⟨(k, v) :: m, ?_⟩
    simp only [entryTrees, hk, hv, hm, hr, hr2, List.append_assoc]

theorem serializeItemTo_tree (E : Emit) (h : Heap) :
    ∀ fuel, SerTree (serializeItemTo E h fuel) (itemTree h fuel) := by
  intro fuel
  induction fuel with
  | zero =>
    intro x w seen r hr
    simp [serializeItemTo] at hr
  | succ fuel ih =>
    intro x w seen r hr he
    by_cases hs : x ∈ seen
    · rw [serializeItemTo_seen E h fuel x w seen hs] at hr
      simp only [Option.some.injEq] at hr
      rw [← hr] at he
      simp at he
    · by_cases hc : x.isContainer = true
      · rw [serializeItemTo_container E h fuel x w seen hs hc] at hr
        obtain ⟨vs, refs, ht, hn, hd, hi⟩ :=
          SerTree_items _ _ ih (serializeItemTo_mono E h fuel) (h.children x) _ _ r hr he
        have hx : x ∉ refs := fun hxr => hd x hxr (List.mem_cons_self _ _)
        have hnd : (x :: refs).Nodup := List.nodup_cons.2 ⟨hx, hn⟩
        have hdis : ∀ y ∈ x :: refs, y ∉ seen := by
          intro y hy
          rcases List.mem_cons.1 hy with hy | hy
          · rw [hy]; exact hs
          · exact fun hys => hd y hy (List.mem_cons_of_mem _ hys)
        have hiff : ∀ y, y ∈ r.2 ↔ y ∈ x :: refs ∨ y ∈ seen := by
          intro y
          rw [hi y, List.mem_cons, List.mem_cons]
          tauto
        cases x with
        | ArrayItem a =>
          simp only [Heap.children] at ht
          exact ⟨.Array vs, _, by simp only [itemTree, ht], hnd, hdis, hiff⟩
        | StructItem a =>
          simp only [Heap.children] at ht
          exact ⟨.Struct vs, _, by simp only [itemTree, ht], hnd, hdis, hiff⟩
        | MapItem a =>
          simp only [Heap.children] at ht
          obtain ⟨m, hm⟩ := entryTrees_of_itemTrees _ _ _ _ ht
          exact ⟨.Map m, _, by simp only [itemTree, hm], hnd, hdis, hiff⟩
        | ByteArrayItem v => simp [StackItem.isContainer] at hc
        | BoolItem v => simp [StackItem.isContainer] at hc
        | BigIntegerItem v => simp [StackItem.isContainer] at hc
        | InteropItem => simp [StackItem.isContainer] at hc
      · cases x with
        | ByteArrayItem v =>
          simp only [serializeItemTo, hs, if_false, Option.some.injEq] at hr
          rw [← hr]
          exact ⟨.ByteArray v, [], rfl, List.nodup_nil, by simp, by simp⟩
        | BoolItem v =>
          simp only [serializeItemTo, hs, if_false, Option.some.injEq] at hr
          rw [← hr]
          exact ⟨.Boolean v, [], rfl, List.nodup_nil, by simp, by simp⟩
        | BigIntegerItem v =>
          simp only [serializeItemTo, hs, if_false, Option.some.injEq] at hr
          rw [← hr]
          exact ⟨.BigInteger v, [], rfl, List.nodup_nil, by simp, by simp⟩
        | InteropItem =>
          simp only [serializeItemTo, hs, if_false, Option.some.injEq] at hr
          rw [← hr] at he
          simp at he
        | ArrayItem a => simp [StackItem.isContainer] at hc
        | StructItem a => simp [StackItem.isContainer] at hc
        | MapItem a => simp [StackItem.isContainer] at hc

/-! ## NotificationEvent -/

theorem NotificationEvent_roundtrip_of (E : Emit) (h : Heap) (ne : NotificationEvent StackItem)
    (w : BinWriter) (henc : ne.EncodeBinary E h NewBufBinWriter = some w)
    (herr : w.err = none) :
    ∃ v refs, itemTree h (h.size + 1) ne.Item = some (v, refs) ∧ refs.Nodup ∧
      (v.WellFormed E → ∀ ne0 : NotificationEvent ItemValue,
        ne0.ScriptHash.length = ne.ScriptHash.length →
        ne0.DecodeBinary E (NewBinReaderFromBuf w.Bytes) =
          .done ({ ScriptHash := ne.ScriptHash, Item := v }, ⟨[], none⟩)) := by
  unfold NotificationEvent.EncodeBinary EncodeBinaryStackItem at henc
  cases hs : serializeItemTo E h (h.size + 1) ne.Item
      (NewBufBinWriter.WriteBytes ne.ScriptHash) [] with
  | none => rw [hs] at henc; exact absurd henc (by simp)
  | some r =>
    rw [hs] at henc
    have hw : r.1 = w := Option.some.inj henc
    obtain ⟨v, refs, ht, hnd, hns, -⟩ :=
      serializeItemTo_tree E h (h.size + 1) ne.Item _ [] r hs (by rw [hw]; exact herr)
    refine ⟨v, refs, ht, hnd, ?_⟩
    intro hwf ne0 hlen
    obtain ⟨bytes, he, hd⟩ := RoundTrip_all E h (h.size + 1) ne.Item v refs ht hwf
    have hw0 : NewBufBinWriter.WriteBytes ne.ScriptHash = ⟨ne.ScriptHash, none⟩ := by
      simp [NewBufBinWriter, BinWriter.WriteBytes]
    rw [hw0] at hs
    obtain ⟨s1, e1, -, -⟩ := he ⟨ne.ScriptHash, none⟩ [] rfl hnd (by simp) (by simp)
    rw [hs] at e1
    have hr : r = (⟨ne.ScriptHash ++ bytes, none⟩, s1) := Option.some.inj e1
    have hwb : w.Bytes = ne.ScriptHash ++ bytes := by
      rw [← hw, hr]; rfl
    rw [hwb]
    unfold NotificationEvent.DecodeBinary NewBinReaderFromBuf
    simp only []
    rw [BinReader_ReadBytes_ok ne.ScriptHash bytes ne0.ScriptHash hlen.symm]
    have hdec := hd [] ((ne.ScriptHash ++ bytes).length + 1) (by simp; omega)
    rw [List.append_nil] at hdec
    simp only [hdec]
    rfl

/-- C24: for every notification event whose item the serializer accepts
(`EncodeBinary` on a fresh writer ends without error), the item is a tree `v`
of the heap, and `DecodeBinary`, applied to the bytes written, with a receiver
whose script hash has the same length (20 bytes in the program), gives the event
with the same script hash and the item `v` and leaves nothing unread; the fields
of `v` are in the ranges of their Go types. -/
theorem NotificationEvent_EncodeBinary_DecodeBinary (E : Emit) (h : Heap)
    (ne : NotificationEvent StackItem) (w : BinWriter)
    (hsh : ne.ScriptHash.length = 20)
    (henc : ne.EncodeBinary E h NewBufBinWriter = some w) (herr : w.err = none) :
    ∃ v refs, itemTree h (h.size + 1) ne.Item = some (v, refs) ∧ refs.Nodup ∧
      (v.WellFormed E → ∀ ne0 : NotificationEvent ItemValue, ne0.ScriptHash.length = 20 →
        ne0.DecodeBinary E (NewBinReaderFromBuf w.Bytes) =
          .done ({ ScriptHash := ne.ScriptHash, Item := v }, ⟨[], none⟩)) := by
  obtain ⟨v, refs, ht, hnd, hdec⟩ := NotificationEvent_roundtrip_of E h ne w henc herr
  exact ⟨v, refs, ht, hnd, fun hwf ne0 h0 => hdec hwf ne0 (h0.trans hsh.symm)⟩

/-- Witness for C24: the event of `exampleEvent`, over the heap whose array
holds a byte array, a map and a struct. -/
theorem NotificationEvent_EncodeBinary_DecodeBinary_witness :
    exampleEvent.ScriptHash.length = 20 ∧
    exampleEvent.EncodeBinary emitLE exampleTreeHeap NewBufBinWriter = some exampleEventWriter ∧
    exampleEventWriter.err = none ∧
    ∃ v refs, itemTree exampleTreeHeap (exampleTreeHeap.size + 1) exampleEvent.Item =
        some (v, refs) ∧ refs.Nodup ∧
      (v.WellFormed emitLE → ∀ ne0 : NotificationEvent ItemValue,
        ne0.ScriptHash.length = 20 →
        ne0.DecodeBinary emitLE (NewBinReaderFromBuf exampleEventWriter.Bytes) =
          .done ({ ScriptHash := exampleEvent.ScriptHash, Item := v }, ⟨[], none⟩)) :=
  ⟨rfl, rfl, rfl,
    NotificationEvent_EncodeBinary_DecodeBinary emitLE exampleTreeHeap exampleEvent
      exampleEventWriter rfl rfl rfl⟩

/-- The example of C24 evaluated: the bytes of `exampleEventWriter` are read
back, by a receiver with a zero script hash and no item, as the event with the
script hash of `exampleEvent` and the tree `exampleTreeValue`. -/
theorem NotificationEvent_example :
    NotificationEvent.DecodeBinary emitLE { ScriptHash := List.replicate 20 0, Item := .null }
        (NewBinReaderFromBuf exampleEventWriter.Bytes) =
      .done ({ ScriptHash := exampleEvent.ScriptHash, Item := exampleTreeValue }, ⟨[], none⟩) :=
  rfl

/-! ## The transfer wrappers of the RPC client -/

theorem suppliedLeading_iff (start stop : Option Nat) (limit page : Option Int) :
    suppliedLeading start stop limit page = true ↔
      (stop.isSome → start.isSome) ∧ (limit.isSome → stop.isSome) ∧
        (page.isSome → limit.isSome) := by
  cases start <;> cases stop <;> cases limit <;> cases page <;>
    simp [suppliedLeading, List.range, List.range.loop, List.replicate]

/-- C25: `GetNEP5Transfers` and `GetUTXOTransfers` return the error "bad
parameters" and send no request when the optional arguments supplied are not
the first ones of (start, stop, limit, page); when they are, one request is
sent, with the method of the wrapper and with the address followed by the
supplied values in that order as parameters, and its outcome is returned. -/
theorem GetTransfers_params (c : Client ρ) (address : String) (start stop : Option Nat)
    (limit page : Option Int) :
    c.GetNEP5Transfers address start stop limit page =
      (if suppliedLeading start stop limit page then
        ([("getnep5transfers", ⟨.string address :: suppliedValues start stop limit page⟩)],
          c.performRequest "getnep5transfers"
            ⟨.string address :: suppliedValues start stop limit page⟩)
      else ([], .error .badParameters)) ∧
    c.GetUTXOTransfers address start stop limit page =
      (if suppliedLeading start stop limit page then
        ([("getutxotransfers", ⟨.string address :: suppliedValues start stop limit page⟩)],
          c.performRequest "getutxotransfers"
            ⟨.string address :: suppliedValues start stop limit page⟩)
      else ([], .error .badParameters)) := by
  cases start <;> cases stop <;> cases limit <;> cases page <;> exact ⟨rfl, rfl⟩

/-- Two calls of C25 evaluated: start and limit without stop are refused and
nothing is sent; start and stop are sent after the address. -/
theorem GetTransfers_example :
    exampleClient.GetNEP5Transfers "A" (some 1) none (some 5) none =
      ([], .error .badParameters) ∧
    exampleClient.GetUTXOTransfers "A" (some 1) (some 2) none none =
      ([("getutxotransfers", ⟨[.string "A", .uint32 1, .uint32 2]⟩)], .ok 3) :=
  ⟨rfl, rfl⟩

/-! ## The wallet -/

theorem wallet_copy_tail (pre : List α) (x : α) (post : List α) :
    ((pre ++ x :: post).take pre.length ++
        wallet.copy ((pre ++ x :: post).drop pre.length)
          ((pre ++ x :: post).drop (pre.length + 1))).take
      ((pre ++ x :: post).length - 1) = pre ++ post := by
  have h1 : (pre ++ x :: post).drop pre.length = x :: post := by simp
  have h2 : (pre ++ x :: post).drop (pre.length + 1) = post := by
    rw [← List.drop_drop, h1]; rfl
  have h3 : (pre ++ x :: post).take pre.length = pre := by simp
  rw [h1, h2, h3]
  unfold wallet.copy
  have h4 : post.take (x :: post).length = post := by
    apply List.take_of_length_le; simp
  rw [h4]
  rw [← List.append_assoc]
  rw [List.take_append_of_le_length (by simp)]
  apply List.take_of_length_le
  simp

theorem wallet_RemoveAccount_loop_none (w : wallet.Wallet) (addr : String) :
    ∀ (rest : List wallet.Account) (i : Nat), (∀ a ∈ rest, a.Address ≠ addr) →
      wallet.Wallet.RemoveAccount.loop w addr i rest = (w, some .accountNotFound) := by
  intro rest
  induction rest with
  | nil => intro i _; rfl
  | cons a rest ih =>
    intro i h
    unfold wallet.Wallet.RemoveAccount.loop
    rw [if_neg (h a (by simp))]
    exact ih (i + 1) (fun b hb => h b (by simp [hb]))

theorem wallet_RemoveAccount_loop_found (w : wallet.Wallet) (addr : String)
    (acc : wallet.Account) (post : List wallet.Account) (hacc : acc.Address = addr) :
    ∀ (mid : List wallet.Account) (i : Nat), (∀ a ∈ mid, a.Address ≠ addr) →
      wallet.Wallet.RemoveAccount.loop w addr i (mid ++ acc :: post) =
        ({ w with Accounts :=
            (w.Accounts.take (i + mid.length) ++
              wallet.copy (w.Accounts.drop (i + mid.length))
                (w.Accounts.drop (i + mid.length + 1))).take (w.Accounts.length - 1) },
          none) := by
  intro mid
  induction mid with
  | nil =>
    intro i _
    simp only [List.nil_append, List.length_nil, Nat.add_zero]
    unfold wallet.Wallet.RemoveAccount.loop
    rw [if_pos hacc]
  | cons a mid ih =>
    intro i h
    simp only [List.cons_append]
    unfold wallet.Wallet.RemoveAccount.loop
    rw [if_neg (h a (by simp))]
    rw [ih (i + 1) (fun b hb => h b (by simp [hb]))]
    have : i + 1 + mid.length = i + (a :: mid).length := by simp; omega
    rw [this]

theorem wallet_split_first (addr : String) :
    ∀ accs : List wallet.Account, (∀ a ∈ accs, a.Address ≠ addr) ∨
      ∃ pre acc post, accs = pre ++ acc :: post ∧ (∀ a ∈ pre, a.Address ≠ addr) ∧
        acc.Address = addr := by
  intro accs
  induction accs with
  | nil => left; simp
  | cons a accs ih =>
    by_cases ha : a.Address = addr
    · right; exact ⟨[], a, accs, rfl, by simp, ha⟩
    · rcases ih with h | ⟨pre, acc, post, h1, h2, h3⟩
      · left
        intro b hb
        rcases List.mem_cons.mp hb with rfl | hb
        · exact ha
        · exact h b hb
      · right
        refine ⟨a :: pre, acc, post, by rw [h1]; rfl, ?_, h3⟩
        intro b hb
        rcases List.mem_cons.mp hb with rfl | hb
        · exact ha
        · exact h2 b hb

/-- C26: for every wallet and address, either no account has the address, and
`RemoveAccount` returns the error "account wasn't found" and leaves the wallet
as it was; or the accounts are `pre`, then an account `acc` with the address,
then `post`, where no account of `pre` has the address, and `RemoveAccount`
returns nil and leaves the accounts `pre` followed by `post`. -/
theorem Wallet_RemoveAccount_first (w : wallet.Wallet) (addr : String) :
    ((∀ a ∈ w.Accounts, a.Address ≠ addr) ∧
        w.RemoveAccount addr = (w, some .accountNotFound)) ∨
      ∃ pre acc post, w.Accounts = pre ++ acc :: post ∧ (∀ a ∈ pre, a.Address ≠ addr) ∧
        acc.Address = addr ∧ w.RemoveAccount addr = (⟨w.Version, pre ++ post⟩, none) := by
  rcases wallet_split_first addr w.Accounts with h | ⟨pre, acc, post, h1, h2, h3⟩
  · left
    exact ⟨h, wallet_RemoveAccount_loop_none w addr w.Accounts 0 h⟩
  · right
    refine ⟨pre, acc, post, h1, h2, h3, ?_⟩
    unfold wallet.Wallet.RemoveAccount
    have hl := wallet_RemoveAccount_loop_found w addr acc post h3 pre 0 h2
    rw [← h1] at hl
    rw [hl]
    simp only [Nat.zero_add]
    rw [h1, wallet_copy_tail]

/-- The example of C26 evaluated: removing "b" takes out the second account and
keeps the fourth, which has the same address; removing "z" fails and changes
nothing. -/
theorem Wallet_RemoveAccount_example :
    wallet.exampleWallet.RemoveAccount "b" =
      (⟨"1.0", [⟨"a", "first", some ⟨[33, 1]⟩, false⟩, ⟨"c", "third", some ⟨[33, 3]⟩, true⟩,
        ⟨"b", "fourth", some ⟨[33, 4]⟩, true⟩]⟩, none) ∧
    wallet.exampleWallet.RemoveAccount "z" = (wallet.exampleWallet, some .accountNotFound) := by
  decide

theorem wallet_GetChangeAddress_loop_some (V : wallet.ContractOps) (b : wallet.Account) :
    ∀ accs : List wallet.Account,
      wallet.Wallet.GetChangeAddress.loop V (some b) accs =
        match accs.find? (fun a => a.Default && wallet.hasSignatureContract V a) with
        | some a => some a
        | none => some b := by
  intro accs
  induction accs with
  | nil => rfl
  | cons a accs ih =>
    unfold wallet.Wallet.GetChangeAddress.loop
    rw [List.find?_cons]
    cases hd : a.Default <;> cases hs : wallet.hasSignatureContract V a <;>
      simp [ih]

theorem wallet_GetChangeAddress_loop_none (V : wallet.ContractOps) :
    ∀ accs : List wallet.Account,
      wallet.Wallet.GetChangeAddress.loop V none accs =
        match accs.find? (fun a => a.Default && wallet.hasSignatureContract V a) with
        | some a => some a
        | none => accs.find? (wallet.hasSignatureContract V) := by
  intro accs
  induction accs with
  | nil => rfl
  | cons a accs ih =>
    unfold wallet.Wallet.GetChangeAddress.loop
    rw [List.find?_cons, List.find?_cons]
    cases hd : a.Default <;> cases hs : wallet.hasSignatureContract V a <;>
      simp [ih, wallet_GetChangeAddress_loop_some]

theorem wallet_hasSignatureContract_hash (V : wallet.ContractOps) (a : wallet.Account)
    (h : wallet.hasSignatureContract V a = true) :
    ∃ c, a.Contract = some c ∧ wallet.accountScriptHash V a = V.ScriptHash c := by
  unfold wallet.hasSignatureContract at h
  unfold wallet.accountScriptHash
  cases hc : a.Contract with
  | none => rw [hc] at h; exact absurd h (by simp)
  | some c => exact ⟨c, rfl, rfl⟩

/-- C27: `GetChangeAddress` returns, without a panic, the script hash of the
first account that is marked Default and has a signature contract when there is
one, otherwise the script hash of the first account that has a signature
contract, otherwise the zero `Uint160`. -/
theorem Wallet_GetChangeAddress_spec (V : wallet.ContractOps) (w : wallet.Wallet) :
    w.GetChangeAddress V =
      some (match w.Accounts.find? (fun a => a.Default && wallet.hasSignatureContract V a) with
        | some a => wallet.accountScriptHash V a
        | none =>
          match w.Accounts.find? (wallet.hasSignatureContract V) with
          | some a => wallet.accountScriptHash V a
          | none => List.replicate 20 0) := by
  unfold wallet.Wallet.GetChangeAddress
  rw [wallet_GetChangeAddress_loop_none]
  cases h1 : w.Accounts.find? (fun a => a.Default && wallet.hasSignatureContract V a) with
  | some a =>
    have hs : wallet.hasSignatureContract V a = true := by
      have := List.find?_some h1
      simp only [Bool.and_eq_true] at this
      exact this.2
    obtain ⟨c, hc, hh⟩ := wallet_hasSignatureContract_hash V a hs
    simp only [hc, hh]
  | none =>
    simp only []
    cases h2 : w.Accounts.find? (wallet.hasSignatureContract V) with
    | some a =>
      obtain ⟨c, hc, hh⟩ := wallet_hasSignatureContract_hash V a (List.find?_some h2)
      simp only [hc, hh]
    | none => rfl

/-- The example of C27 evaluated: the second account is Default and has no
contract, so the third, Default with a signature contract, gives the address;
without the Default accounts the first account gives it; a wallet without
accounts gives the zero value. -/
theorem Wallet_GetChangeAddress_example :
    wallet.exampleWallet.GetChangeAddress wallet.exampleContractOps =
      some ([33, 3] ++ List.replicate 18 0) ∧
    wallet.Wallet.GetChangeAddress wallet.exampleContractOps
        ⟨"1.0", [⟨"n", "none", none, false⟩, ⟨"a", "first", some ⟨[33, 1]⟩, false⟩,
          ⟨"d", "other", some ⟨[33, 2]⟩, false⟩]⟩ =
      some ([33, 1] ++ List.replicate 18 0) ∧
    wallet.Wallet.GetChangeAddress wallet.exampleContractOps ⟨"1.0", []⟩ =
      some (List.replicate 20 0) := by
  decide

/-! ## The message types -/

theorem message_DecodeBinary_invalid (c : PayloadCodec β) (m : message β) (r : BinReader)
    (h : r.ReadB.1 ∉ [0x00, 0x20, 0x21, 0x30, 0x40, 0x41]) :
    m.DecodeBinary c r =
      ({ m with msgType := r.ReadB.1, ViewNumber := r.ReadB.2.ReadB.1 },
        { r.ReadB.2.ReadB.2 with err := some (.invalidType r.ReadB.1) }) := by
  simp only [List.mem_cons, List.mem_singleton, List.not_mem_nil, or_false, not_or] at h
  obtain ⟨h0, h1, h2, h3, h4, h5⟩ := h
  unfold message.DecodeBinary
  simp -iota -proj only []
  rw [if_neg (by simpa [changeViewType] using h0), if_neg (by simpa [prepareRequestType] using h1),
    if_neg (by simpa [prepareResponseType] using h2), if_neg (by simpa [commitType] using h3),
    if_neg (by simpa [recoveryRequestType] using h4),
    if_neg (by simpa [recoveryMessageType] using h5)]

theorem message_DecodeBinary_valid (c : PayloadCodec β) (m : message β) (r : BinReader) :
    (r.ReadB.1 = 0x00 → ∃ b, (m.DecodeBinary c r).1.payload =
        some (.changeView ((r.ReadB.2.ReadB.1 + 1) % 256) b)) ∧
    (r.ReadB.1 = 0x20 → ∃ b, (m.DecodeBinary c r).1.payload =
        some (.prepareRequest m.stateRootEnabled b)) ∧
    (r.ReadB.1 = 0x21 → ∃ b, (m.DecodeBinary c r).1.payload =
        some (.prepareResponse m.stateRootEnabled b)) ∧
    (r.ReadB.1 = 0x30 → ∃ b, (m.DecodeBinary c r).1.payload = some (.commit b)) ∧
    (r.ReadB.1 = 0x40 → ∃ b, (m.DecodeBinary c r).1.payload = some (.recoveryRequest b)) ∧
    (r.ReadB.1 = 0x41 → ∃ b, (m.DecodeBinary c r).1.payload =
        some (.recoveryMessage m.stateRootEnabled b)) := by
  refine ⟨?_, ?_, ?_, ?_, ?_, ?_⟩ <;> intro h <;> unfold message.DecodeBinary <;>
    simp -iota -proj only [] <;>
    simp only [h, changeViewType, prepareRequestType, prepareResponseType, commitType,
      recoveryRequestType, recoveryMessageType] <;>
    norm_num <;> exact ⟨_, rfl⟩

theorem message_DecodeBinary_msgType (c : PayloadCodec β) (m : message β) (r : BinReader) :
    (m.DecodeBinary c r).1.msgType = r.ReadB.1 := by
  unfold message.DecodeBinary
  simp -iota -proj only []
  split_ifs <;> rfl

theorem Payload_decodeData_invalid (c : PayloadCodec β) (p : Payload β) (s : Bool)
    (h : (NewBinReaderFromBuf p.data).ReadB.1 ∉ [0x00, 0x20, 0x21, 0x30, 0x40, 0x41]) :
    p.decodeData c s = (p, some (.invalidType (NewBinReaderFromBuf p.data).ReadB.1)) := by
  unfold Payload.decodeData
  simp -iota -proj only []
  rw [message_DecodeBinary_invalid c _ _ h]
  rw [if_pos (by simp)]

theorem Payload_decodeData_message (c : PayloadCodec β) (p : Payload β) (s : Bool)
    (h : (p.decodeData c s).2 = none) :
    (p.decodeData c s).1.message =
      some ((message.mk 0 0 s none).DecodeBinary c (NewBinReaderFromBuf p.data)).1 := by
  unfold Payload.decodeData at h ⊢
  simp -iota -proj only [] at h ⊢
  split_ifs at h ⊢ with hd
  · exact absurd h hd
  · rfl

/-- C28: `message.DecodeBinary`, on a reader whose first byte read is `t`:
when `t` is none of 0x00, 0x20, 0x21, 0x30, 0x40 and 0x41 the reader ends with
the error "invalid type: t" and the payload of the message is not touched; for
0x00 the payload built is a ChangeView, for 0x20 a PrepareRequest, for 0x21 a
PrepareResponse, for 0x30 a Commit, for 0x40 a RecoveryRequest and for 0x41 a
RecoveryMessage.  `Payload.decodeData` returns the same error for a type byte
outside the six and leaves the payload as it was; when it returns nil, the
message it stores is the one that `message.DecodeBinary` built from the data. -/
theorem message_DecodeBinary_types (c : PayloadCodec β) (m : message β) (r : BinReader)
    (p : Payload β) (s : Bool) :
    (r.ReadB.1 ∉ [0x00, 0x20, 0x21, 0x30, 0x40, 0x41] →
      (m.DecodeBinary c r).2.err = some (.invalidType r.ReadB.1) ∧
        (m.DecodeBinary c r).1.payload = m.payload) ∧
    (r.ReadB.1 = 0x00 → ∃ b, (m.DecodeBinary c r).1.payload =
        some (.changeView ((r.ReadB.2.ReadB.1 + 1) % 256) b)) ∧
    (r.ReadB.1 = 0x20 → ∃ b, (m.DecodeBinary c r).1.payload =
        some (.prepareRequest m.stateRootEnabled b)) ∧
    (r.ReadB.1 = 0x21 → ∃ b, (m.DecodeBinary c r).1.payload =
        some (.prepareResponse m.stateRootEnabled b)) ∧
    (r.ReadB.1 = 0x30 → ∃ b, (m.DecodeBinary c r).1.payload = some (.commit b)) ∧
    (r.ReadB.1 = 0x40 → ∃ b, (m.DecodeBinary c r).1.payload = some (.recoveryRequest b)) ∧
    (r.ReadB.1 = 0x41 → ∃ b, (m.DecodeBinary c r).1.payload =
        some (.recoveryMessage m.stateRootEnabled b)) ∧
    ((NewBinReaderFromBuf p.data).ReadB.1 ∉ [0x00, 0x20, 0x21, 0x30, 0x40, 0x41] →
      p.decodeData c s = (p, some (.invalidType (NewBinReaderFromBuf p.data).ReadB.1))) ∧
    ((p.decodeData c s).2 = none → (p.decodeData c s).1.message =
      some ((message.mk 0 0 s none).DecodeBinary c (NewBinReaderFromBuf p.data)).1) := by
  obtain ⟨h0, h1, h2, h3, h4, h5⟩ := message_DecodeBinary_valid c m r
  refine ⟨?_, h0, h1, h2, h3, h4, h5, Payload_decodeData_invalid c p s,
    Payload_decodeData_message c p s⟩
  intro h
  rw [message_DecodeBinary_invalid c m r h]
  exact ⟨rfl, rfl⟩

/-- Witness for C28: the type byte 0x22 is refused by `message.DecodeBinary` and
by `Payload.decodeData`, and the type byte 0x30 gives a Commit. -/
theorem message_DecodeBinary_types_witness :
    ((exampleMessage.DecodeBinary exampleCodec ⟨[0x22, 5, 0], none⟩).2.err =
        some (.invalidType 0x22) ∧
      (exampleMessage.DecodeBinary exampleCodec ⟨[0x22, 5, 0], none⟩).1.payload = none) ∧
    (∃ b, (exampleMessage.DecodeBinary exampleCodec ⟨[0x30, 5, 0], none⟩).1.payload =
      some (.commit b)) ∧
    Payload.decodeData exampleCodec { examplePayload with data := [0x22, 5, 0] } false =
      ({ examplePayload with data := [0x22, 5, 0] }, some (.invalidType 0x22)) :=
  ⟨(message_DecodeBinary_types exampleCodec exampleMessage ⟨[0x22, 5, 0], none⟩
      examplePayload false).1 (by decide),
    (message_DecodeBinary_types exampleCodec exampleMessage ⟨[0x30, 5, 0], none⟩
      examplePayload false).2.2.2.2.1 rfl,
    (message_DecodeBinary_types exampleCodec exampleMessage ⟨[], none⟩
      { examplePayload with data := [0x22, 5, 0] } false).2.2.2.2.2.2.2.1 (by decide)⟩

/-- The six message types of C28 evaluated: the payload that
`message.DecodeBinary` builds from the type byte, the view number 5 and an
empty body. -/
theorem message_DecodeBinary_six :
    (exampleMessage.DecodeBinary exampleCodec ⟨[0x00, 5, 0], none⟩).1.payload =
      some (.changeView 6 []) ∧
    (exampleMessage.DecodeBinary exampleCodec ⟨[0x20, 5, 0], none⟩).1.payload =
      some (.prepareRequest false []) ∧
    (exampleMessage.DecodeBinary exampleCodec ⟨[0x21, 5, 0], none⟩).1.payload =
      some (.prepareResponse false []) ∧
    (exampleMessage.DecodeBinary exampleCodec ⟨[0x30, 5, 0], none⟩).1.payload =
      some (.commit []) ∧
    (exampleMessage.DecodeBinary exampleCodec ⟨[0x40, 5, 0], none⟩).1.payload =
      some (.recoveryRequest []) ∧
    (exampleMessage.DecodeBinary exampleCodec ⟨[0x41, 5, 0], none⟩).1.payload =
      some (.recoveryMessage false []) ∧
    (exampleMessage.DecodeBinary exampleCodec ⟨[0x41, 5, 0], none⟩).2.err = none := by
  decide

/-! ## Shared containers -/

theorem exampleSharedHeap_Holds (a b : StackItem) (h : exampleSharedHeap.Holds a b) :
    a = .ArrayItem 0 ∧ b = .ArrayItem 1 := by
  unfold Heap.Holds Heap.children exampleSharedHeap at h
  cases a with
  | ArrayItem n =>
    rcases n with _ | _ | n
    · simp at h
      exact ⟨rfl, h⟩
    · simp at h
    · simp at h
  | StructItem n => simp at h
  | MapItem n => simp at h
  | ByteArrayItem v => simp at h
  | BoolItem v => simp at h
  | BigIntegerItem v => simp at h
  | InteropItem => simp at h

theorem exampleSharedHeap_Contains (a b : StackItem) (h : exampleSharedHeap.Contains a b) :
    a = .ArrayItem 0 ∧ b = .ArrayItem 1 := by
  induction h with
  | single h => exact exampleSharedHeap_Holds _ _ h
  | tail _ h ih =>
    have := exampleSharedHeap_Holds _ _ h
    rw [ih.2] at this
    exact absurd this.1 (by decide)

/-- C29, failing input: the array at address 0 holds the empty array at
address 1 twice.  No item contains itself, no interop item is reached, the two
positions hold the same object, and `SerializeItem` returns the error
"recursive structures cannot be serialized". -/
theorem SerializeItem_shared_fails :
    (∀ c, ¬ exampleSharedHeap.Contains c c) ∧
    (∀ c, exampleSharedHeap.Contains (.ArrayItem 0) c → c ≠ .InteropItem) ∧
    exampleSharedHeap.children (.ArrayItem 0) = [.ArrayItem 1, .ArrayItem 1] ∧
    SerializeItem emitLE exampleSharedHeap (.ArrayItem 0) = some (.error .recursive) := by
  refine ⟨?_, ?_, rfl, rfl⟩
  · intro c hc
    have := exampleSharedHeap_Contains c c hc
    rw [this.1] at this
    exact absurd this.2 (by decide)
  · intro c hc
    rw [(exampleSharedHeap_Contains _ c hc).2]
    decide

/-! ## Fixed8.String -/

/-- C30, failing input: the value -1 (-0.00000001) is written as
"-0.00000001"; `Fixed8FromString` reads the integer part "-0" as 0, which is not
negative, adds the fraction and returns the value 1 without error.  The least
`int64` is written as "--92233720368", which `Fixed8FromString` refuses. -/
theorem Fixed8FromString_String_negative :
    Fixed8.String ⟨-1⟩ = "-0.00000001".toList ∧
    Fixed8FromString (Fixed8.String ⟨-1⟩) = .ok ⟨1⟩ ∧
    Fixed8.InRange ⟨-2 ^ 63⟩ ∧
    Fixed8.String ⟨-2 ^ 63⟩ = "--92233720368".toList ∧
    Fixed8FromString (Fixed8.String ⟨-2 ^ 63⟩) = .error .errInvalidString := by
  refine ⟨by decide, rfl, by unfold Fixed8.InRange; norm_num, by decide, rfl⟩

/-! ## Fixed8.Div -/

theorem Fixed8FromInt64_val (i : Int) (h1 : -2 ^ 63 ≤ decimals * i)
    (h2 : decimals * i < 2 ^ 63) : (Fixed8FromInt64 i).val = decimals * i := by
  unfold Fixed8FromInt64
  exact toInt64_of_InRange _ h1 h2

theorem Int_tdiv_InRange (a b : Int) (h1 : -2 ^ 63 ≤ a) (h2 : a < 2 ^ 63) (hb : 2 ≤ b.natAbs) :
    -2 ^ 63 ≤ a.tdiv b ∧ a.tdiv b < 2 ^ 63 := by
  have hn : (a.tdiv b).natAbs = a.natAbs / b.natAbs := Int.natAbs_tdiv a b
  have hle : a.natAbs / b.natAbs ≤ a.natAbs / 2 := Nat.div_le_div_left hb (by norm_num)
  have ha : a.natAbs ≤ 2 ^ 63 := by
    norm_num at h1 h2 ⊢
    omega
  have hq : (a.tdiv b).natAbs ≤ 2 ^ 62 := by
    rw [hn]
    refine le_trans hle ?_
    norm_num at ha ⊢
    omega
  norm_num at hq ⊢
  omega

theorem Fixed8_Div_of (f : Fixed8) (i : Int) (hf : f.InRange) (hi : i ≠ 0)
    (h1 : -2 ^ 63 ≤ decimals * i) (h2 : decimals * i < 2 ^ 63) :
    f.Div i = some ⟨Int.tdiv f.val (decimals * i)⟩ := by
  unfold Fixed8.Div
  rw [Fixed8FromInt64_val i h1 h2]
  have hne : decimals * i ≠ 0 := by
    unfold decimals
    omega
  rw [if_neg hne]
  have hb : 2 ≤ (decimals * i).natAbs := by
    unfold decimals
    omega
  obtain ⟨r1, r2⟩ := Int_tdiv_InRange f.val (decimals * i) hf.1 hf.2 hb
  rw [toInt64_of_InRange _ r1 r2]

/-- What `Div` computes: for every Fixed8 `f` and every `i` other than 0 for
which `i * 10^8` fits `int64`, `f.Div(i)` does not panic and its raw value is
the raw value of `f` divided by `i * 10^8`, not by `i`, truncated towards zero;
so `Fixed8FromInt64(a * i).Div(i)` is the Fixed8 with the raw value `a`, not
`Fixed8FromInt64(a)`, whenever `a * i * 10^8` fits `int64`. -/
theorem Fixed8_Div_raw (f : Fixed8) (a i : Int) (hf : f.InRange) (hi : i ≠ 0)
    (h1 : -2 ^ 63 ≤ decimals * i) (h2 : decimals * i < 2 ^ 63) :
    f.Div i = some ⟨Int.tdiv f.val (i * 10 ^ 8)⟩ ∧
      (-2 ^ 63 ≤ a * i * 10 ^ 8 ∧ a * i * 10 ^ 8 < 2 ^ 63 →
        (Fixed8FromInt64 (a * i)).Div i = some ⟨a⟩) := by
  have hd : decimals * i = i * 10 ^ 8 := by unfold decimals; ring
  refine ⟨by rw [Fixed8_Div_of f i hf hi h1 h2, hd], ?_⟩
  intro ⟨ha1, ha2⟩
  have hai : decimals * (a * i) = a * i * 10 ^ 8 := by unfold decimals; ring
  have hv : (Fixed8FromInt64 (a * i)).val = a * (i * 10 ^ 8) := by
    rw [Fixed8FromInt64_val (a * i) (by rw [hai]; exact ha1) (by rw [hai]; exact ha2), hai]
    ring
  have hr : (Fixed8FromInt64 (a * i)).InRange := by
    unfold Fixed8.InRange
    rw [hv, ← mul_assoc]
    exact ⟨ha1, ha2⟩
  rw [Fixed8_Div_of _ i hr hi h1 h2, hv, hd]
  have hne : i * 10 ^ 8 ≠ 0 := by omega
  rw [Int.mul_tdiv_cancel _ hne]

/-- The theorem above at 7.5 divided by 2, and at 6 divided by 2. -/
theorem Fixed8_Div_raw_example :
    Fixed8.InRange ⟨750000000⟩ ∧ (2 : Int) ≠ 0 ∧ -2 ^ 63 ≤ decimals * 2 ∧
    decimals * 2 < 2 ^ 63 ∧
    (Fixed8.Div ⟨750000000⟩ 2 = some ⟨Int.tdiv 750000000 (2 * 10 ^ 8)⟩ ∧
      (-2 ^ 63 ≤ (3 : Int) * 2 * 10 ^ 8 ∧ (3 : Int) * 2 * 10 ^ 8 < 2 ^ 63 →
        (Fixed8FromInt64 (3 * 2)).Div 2 = some ⟨3⟩)) :=
  ⟨by unfold Fixed8.InRange; norm_num, by decide, by decide, by decide,
    Fixed8_Div_raw ⟨750000000⟩ 3 2 (by unfold Fixed8.InRange; norm_num) (by decide)
      (by decide) (by decide)⟩

/-- C31, failing input: `Fixed8FromInt64(6).Div(2)`.  The divisor 2 is not 0;
the result is the Fixed8 with the raw value 3 (0.00000003), where the raw value
of 6 divided by 2 is 300000000, that of `Fixed8FromInt64(3)`: `Div` divides by
`Fixed8FromInt64(2)`, the divisor scaled by 10^8. -/
theorem Fixed8_Div_six_by_two :
    (2 : Int) ≠ 0 ∧ (Fixed8FromInt64 (3 * 2)).Div 2 = some ⟨3⟩ ∧
    Int.tdiv (Fixed8FromInt64 (3 * 2)).val 2 = 300000000 ∧
    Fixed8FromInt64 3 = ⟨300000000⟩ ∧
    (Fixed8FromInt64 (3 * 2)).Div 2 ≠ some (Fixed8FromInt64 3) := by
  decide

/-- The divisor 2^56 is not 0 and fits `int64`, its product with 10^8 is 0 in
`int64`, and `Div` panics. -/
theorem Fixed8_Div_panics :
    (2 : Int) ^ 56 ≠ 0 ∧ (2 : Int) ^ 56 < 2 ^ 63 ∧ Fixed8.Div ⟨1⟩ (2 ^ 56) = none := by
  decide

/-! ## assetCreate -/

theorem assetCreate_precision_of (I : Interops δ χ) (A : AssetOps δ χ κ)
    (ic : interopContext δ χ) (et en ea ep : Element) (st : List Element)
    (t am pr : Int) (name : List Nat)
    (ht : I.Int64 et = some t) (hn : I.Bytes en = some name) (ha : I.Int64 ea = some am)
    (hp : I.Int64 ep = some pr)
    (h : 8 < (pr % 256).toNat ∨ (A.toAssetType t = A.Share ∧ (pr % 256).toNat ≠ 0)) :
    ∃ st1 e, assetCreate I A ic (et :: en :: ea :: ep :: st) = some (ic, st1, some e) := by
  unfold assetCreate
  by_cases h1 : ic.trigger ≠ I.Application
  · rw [if_pos h1]
    exact ⟨_, _, rfl⟩
  rw [if_neg h1]
  have e1 : popInt64 I (et :: en :: ea :: ep :: st) = some (t, en :: ea :: ep :: st) := by
    simp [popInt64, ht]
  rw [e1, Option.some_bind]
  try simp -iota -proj only []
  by_cases h2 : ¬ (A.toAssetType t = A.Currency ∨ A.toAssetType t = A.Share ∨
      A.toAssetType t = A.Invoice ∨ A.toAssetType t = A.Token)
  · rw [if_pos h2]
    exact ⟨_, _, rfl⟩
  rw [if_neg h2]
  have e2 : popBytes I (en :: ea :: ep :: st) = some (name, ea :: ep :: st) := by
    simp [popBytes, hn]
  rw [e2, Option.some_bind]
  try simp -iota -proj only []
  by_cases h3 : name.length > MaxAssetNameLen
  · rw [if_pos h3]
    exact ⟨_, _, rfl⟩
  rw [if_neg h3]
  have e3 : popInt64 I (ea :: ep :: st) = some (am, ep :: st) := by
    simp [popInt64, ha]
  rw [e3, Option.some_bind]
  try simp -iota -proj only []
  by_cases h4 : am = 0
  · rw [if_pos h4]
    exact ⟨_, _, rfl⟩
  rw [if_neg h4]
  by_cases h5 : am < -1
  · rw [if_pos h5]
    exact ⟨_, _, rfl⟩
  rw [if_neg h5]
  by_cases h6 : A.toAssetType t = A.Invoice ∧ am ≠ -1
  · rw [if_pos h6]
    exact ⟨_, _, rfl⟩
  rw [if_neg h6]
  have e4 : popInt64 I (ep :: st) = some (pr, st) := by
    simp [popInt64, hp]
  rw [e4, Option.some_bind]
  try simp -iota -proj only []
  by_cases h7 : (pr % 256).toNat > MaxAssetPrecision
  · rw [if_pos h7]
    exact ⟨_, _, rfl⟩
  rw [if_neg h7]
  by_cases h8 : A.toAssetType t = A.Share ∧ (pr % 256).toNat ≠ 0
  · rw [if_pos h8]
    exact ⟨_, _, rfl⟩
  exfalso
  rcases h with h | h
  · exact h7 h
  · exact h8 h

/-- C32 (amended): when the four arguments up to the precision can be popped,
`assetCreate` returns an error and leaves the context, and with it the DAO, as
it was for every precision argument whose value as a `byte` (the argument
modulo 256) is greater than 8, and for a Share asset for every precision
argument whose value as a `byte` is not 0. -/
theorem assetCreate_precision_byte (I : Interops δ χ) (A : AssetOps δ χ κ)
    (ic : interopContext δ χ) (et en ea ep : Element) (st : List Element)
    (t am pr : Int) (name : List Nat)
    (ht : I.Int64 et = some t) (hn : I.Bytes en = some name) (ha : I.Int64 ea = some am)
    (hp : I.Int64 ep = some pr)
    (h : 8 < (pr % 256).toNat ∨ (A.toAssetType t = A.Share ∧ (pr % 256).toNat ≠ 0)) :
    ∃ st1 e, assetCreate I A ic (et :: en :: ea :: ep :: st) = some (ic, st1, some e) :=
  assetCreate_precision_of I A ic et en ea ep st t am pr name ht hn ha hp h

/-- Witness for C32: a Share asset with the precision argument 9. -/
theorem assetCreate_precision_byte_witness :
    exampleInterops.Int64 (.Integer 0x90) = some 0x90 ∧
    exampleInterops.Bytes (.Bytes [115]) = some [115] ∧
    exampleInterops.Int64 (.Integer 100000000) = some 100000000 ∧
    exampleInterops.Int64 (.Integer 9) = some 9 ∧
    (8 < ((9 : Int) % 256).toNat ∨
      (exampleAssetOps.toAssetType 0x90 = exampleAssetOps.Share ∧ ((9 : Int) % 256).toNat ≠ 0)) ∧
    ∃ st1 e, assetCreate exampleInterops exampleAssetOps exampleContextEmpty
      (.Integer 0x90 :: .Bytes [115] :: .Integer 100000000 :: .Integer 9 ::
        [.Bytes [2, 1], .Bytes (List.replicate 20 1), .Bytes (List.replicate 20 2)]) =
      some (exampleContextEmpty, st1, some e) :=
  ⟨rfl, rfl, rfl, rfl, Or.inl (by decide),
    assetCreate_precision_byte exampleInterops exampleAssetOps exampleContextEmpty
      (.Integer 0x90) (.Bytes [115]) (.Integer 100000000) (.Integer 9) _ 0x90 100000000 9 [115]
      rfl rfl rfl rfl (Or.inl (by decide))⟩

/-- Counterexample for C32: with the precision argument 256, greater than 8 and
not 0, `assetCreate` for a Share asset returns nil, stores an asset in the DAO
and pushes it; the precision kept is 0, the argument as a `byte`. -/
theorem assetCreate_precision_256 :
    (8 : Int) < 256 ∧ exampleAssetOps.toAssetType 0x90 = exampleAssetOps.Share ∧
    assetCreate exampleInterops exampleAssetOps exampleContextEmpty (exampleAssetArgs 256) =
      some ({ exampleContextEmpty with
              dao := { assets := [⟨List.replicate 32 9, 7000001, [0x90, 0, 100000000]⟩],
                       contracts := [], unspent := [], validators := [] } },
        [.Interop (.Asset ⟨List.replicate 32 9, 7000001, [0x90, 0, 100000000]⟩)], none) :=
  ⟨by decide, rfl, rfl⟩

/-! ## The Merkle root level by level -/

theorem merkleParent_shift (a b : MerkleTreeNode) (rest : List MerkleTreeNode) (i : Nat) :
    merkleParent (a :: b :: rest) (i + 1) = merkleParent rest i := by
  unfold merkleParent
  have h1 : (i + 1) * 2 = i * 2 + 1 + 1 := by ring
  have h2 : (i + 1) * 2 + 1 = i * 2 + 1 + 1 + 1 := by ring
  simp only [h1, h2, List.getD_cons_succ, List.length_cons, Nat.add_right_cancel_iff]

theorem merkleParents_cons_cons (a b : MerkleTreeNode) (rest : List MerkleTreeNode) :
    merkleParents (a :: b :: rest) =
      .node (DoubleSha256 (a.hash.BytesBE ++ b.hash.BytesBE)) a b :: merkleParents rest := by
  unfold merkleParents
  have hl : ((a :: b :: rest).length + 1) / 2 = (rest.length + 1) / 2 + 1 := by
    simp only [List.length_cons]
    omega
  rw [hl, List.range_succ_eq_map, List.map_cons, List.map_map]
  congr 1
  apply List.map_congr_left
  intro i _
  exact merkleParent_shift a b rest i

theorem merkleParents_single (a : MerkleTreeNode) :
    merkleParents [a] = [.node (DoubleSha256 (a.hash.BytesBE ++ a.hash.BytesBE)) a a] := by
  simp [merkleParents, merkleParent, List.range_succ]

theorem merkleParents_hash : ∀ (n : Nat) (leaves : List MerkleTreeNode), leaves.length = n →
    (merkleParents leaves).map MerkleTreeNode.hash = merkleLevel (leaves.map MerkleTreeNode.hash) := by
  intro n
  induction n using Nat.strong_induction_on with
  | _ n ih =>
    intro leaves hlen
    match leaves, hlen with
    | [], _ => rfl
    | [a], _ =>
      rw [merkleParents_single]
      rfl
    | a :: b :: rest, hlen =>
      rw [merkleParents_cons_cons]
      simp only [List.map_cons, merkleLevel, MerkleTreeNode.hash]
      congr 1
      exact ih rest.length (by simp at hlen; omega) rest rfl

theorem buildMerkleTree_step (leaves : List MerkleTreeNode) (h : 2 ≤ leaves.length) :
    buildMerkleTree leaves = buildMerkleTree (merkleParents leaves) := by
  rw [buildMerkleTree]
  rw [if_neg (by omega), if_neg (by omega)]

theorem buildMerkleTree_levels : ∀ (n : Nat) (leaves : List MerkleTreeNode) (fuel : Nat)
    (root : MerkleTreeNode), leaves.length = n → n ≤ fuel → buildMerkleTree leaves = some root →
    merkleLevels fuel (leaves.map MerkleTreeNode.hash) = some root.hash := by
  intro n
  induction n using Nat.strong_induction_on with
  | _ n ih =>
    intro leaves fuel root hlen hfuel hb
    match leaves, hlen with
    | [], _ =>
      rw [buildMerkleTree] at hb
      simp at hb
    | [a], _ =>
      rw [buildMerkleTree_single] at hb
      have : a = root := Option.some.inj hb
      subst this
      cases fuel <;> rfl
    | a :: b :: rest, hlen =>
      rw [buildMerkleTree_step _ (by simp)] at hb
      have hl := merkleParents_length (a :: b :: rest)
      simp only [List.length_cons] at hl hlen
      cases fuel with
      | zero => omega
      | succ f =>
        have hh := merkleParents_hash _ (a :: b :: rest) rfl
        simp only [List.map_cons] at hh ⊢
        simp only [merkleLevels]
        rw [← hh]
        exact ih (merkleParents (a :: b :: rest)).length (by omega) _ f root rfl (by omega) hb

/-- C33: for every non-empty hash list, `NewMerkleTree` succeeds and `Root()` of
the tree is the hash computed level by level (`merkleLevels`): adjacent hashes
are paired left to right, each parent is `DoubleSha256` of the big-endian bytes
of the left hash followed by those of the right hash, an unpaired last hash is
paired with itself, until a single hash remains. -/
theorem NewMerkleTree_Root_levels (hashes : List Uint256) (hne : hashes ≠ []) :
    ∃ t, NewMerkleTree hashes = .ok t ∧ merkleLevels hashes.length hashes = some t.Root := by
  have hlen : hashes.length ≠ 0 := fun h => hne (List.length_eq_zero.mp h)
  obtain ⟨root, hroot⟩ := buildMerkleTree_some _ (hashes.map MerkleTreeNode.leaf) rfl
    (by simpa using hne)
  refine ⟨{ root := root, depth := 1 }, by simp [NewMerkleTree, hlen, hroot], ?_⟩
  have := buildMerkleTree_levels _ (hashes.map MerkleTreeNode.leaf) hashes.length root rfl
    (by simp) hroot
  rw [List.map_map] at this
  have hid : (MerkleTreeNode.hash ∘ MerkleTreeNode.leaf) = id := rfl
  rw [hid, List.map_id] at this
  exact this

/-- Witness for C33: three hashes. -/
theorem NewMerkleTree_Root_levels_witness :
    [List.replicate 32 1, List.replicate 32 2, List.replicate 32 3] ≠ ([] : List Uint256) ∧
    ∃ t, NewMerkleTree [List.replicate 32 1, List.replicate 32 2, List.replicate 32 3] = .ok t ∧
      merkleLevels [List.replicate 32 1, List.replicate 32 2, List.replicate 32 3].length
        [List.replicate 32 1, List.replicate 32 2, List.replicate 32 3] = some t.Root :=
  ⟨by simp, NewMerkleTree_Root_levels _ (by simp)⟩

/-- The value of C33 for three, four and five hashes. -/
theorem merkleLevels_small (a b c d e : Uint256) :
    merkleLevels 3 [a, b, c] =
      some (DoubleSha256 (DoubleSha256 (a ++ b) ++ DoubleSha256 (c ++ c))) ∧
    merkleLevels 4 [a, b, c, d] =
      some (DoubleSha256 (DoubleSha256 (a ++ b) ++ DoubleSha256 (c ++ d))) ∧
    merkleLevels 5 [a, b, c, d, e] =
      some (DoubleSha256 (DoubleSha256 (DoubleSha256 (a ++ b) ++ DoubleSha256 (c ++ d)) ++
        DoubleSha256 (DoubleSha256 (e ++ e) ++ DoubleSha256 (e ++ e)))) := by
  simp [merkleLevels, merkleLevel, Uint256.BytesBE]

/-! ## A repeated last hash -/

theorem merkleParents_append_last (x : MerkleTreeNode) : ∀ (n : Nat) (leaves : List MerkleTreeNode),
    leaves.length = n → n % 2 = 1 → leaves.getLast? = some x →
    merkleParents (leaves ++ [x]) = merkleParents leaves := by
  intro n
  induction n using Nat.strong_induction_on with
  | _ n ih =>
    intro leaves hlen hodd hlast
    match leaves, hlen with
    | [], hlen =>
      simp at hlen
      omega
    | [a], _ =>
      have : a = x := by simpa using hlast
      subst this
      rw [List.singleton_append, merkleParents_cons_cons, merkleParents_single]
      rfl
    | a :: b :: rest, hlen =>
      simp only [List.length_cons] at hlen
      have hrest : rest ≠ [] := by
        intro h
        rw [h] at hlen
        simp at hlen
        omega
      have hl2 : rest.getLast? = some x := by
        cases rest with
        | nil => exact absurd rfl hrest
        | cons c cs =>
          rw [List.getLast?_cons_cons, List.getLast?_cons_cons] at hlast
          exact hlast
      rw [List.cons_append, List.cons_append, merkleParents_cons_cons, merkleParents_cons_cons]
      congr 1
      exact ih rest.length (by omega) rest rfl (by omega) hl2

theorem NewMerkleTree_append_last (hashes : List Uint256) (l : Uint256)
    (hodd : hashes.length % 2 = 1) (h3 : 3 ≤ hashes.length) (hl : hashes.getLast? = some l) :
    NewMerkleTree (hashes ++ [l]) = NewMerkleTree hashes := by
  have h1 : hashes.length ≠ 0 := by omega
  have h2 : (hashes ++ [l]).length ≠ 0 := by simp
  unfold NewMerkleTree
  rw [if_neg h1, if_neg h2]
  simp only [List.map_append, List.map_cons, List.map_nil]
  rw [buildMerkleTree_step (hashes.map MerkleTreeNode.leaf) (by simp; omega),
    buildMerkleTree_step (hashes.map MerkleTreeNode.leaf ++ [MerkleTreeNode.leaf l])
      (by simp; omega)]
  rw [merkleParents_append_last (MerkleTreeNode.leaf l) _ (hashes.map MerkleTreeNode.leaf) rfl
    (by simpa using hodd) (by simp [List.getLast?_map, hl])]

/-- C34: for every hash list of odd length at least 3 whose last hash is `l`,
`NewMerkleTree` succeeds on the list and on the list with `l` appended, with
the same `Root()`; and a block of such a list of transactions that
`Block.Verify` accepts is accepted as well, with the same `MerkleRoot`, when its
last transaction is appended once more. -/
theorem NewMerkleTree_duplicate_last (hashes : List Uint256) (l : Uint256)
    (hodd : hashes.length % 2 = 1) (h3 : 3 ≤ hashes.length) (hl : hashes.getLast? = some l) :
    (∃ t t1, NewMerkleTree hashes = .ok t ∧ NewMerkleTree (hashes ++ [l]) = .ok t1 ∧
      t1.Root = t.Root) ∧
    ∀ (b : Block) (tx : Transaction), b.Transactions.map Transaction.Hash = hashes →
      b.Transactions.getLast? = some tx → b.Verify = .ok () →
      Block.Verify { b with Transactions := b.Transactions ++ [tx] } = .ok () := by
  have hne : hashes ≠ [] := by
    intro h
    rw [h] at h3
    simp at h3
  obtain ⟨t, ht⟩ := NewMerkleTree_ok hashes hne
  have happ := NewMerkleTree_append_last hashes l hodd h3 hl
  refine ⟨⟨t, t, ht, by rw [happ, ht], rfl⟩, ?_⟩
  intro b tx hmap hlast hv
  obtain ⟨tx0, rest, htx, hm, hall, t2, ht2, hroot⟩ := (Block_Verify_spec b).1.mp hv
  have hlen : b.Transactions.length = hashes.length := by rw [← hmap, List.length_map]
  have hrest : rest ≠ [] := by
    intro h
    rw [htx, h] at hlen
    simp at hlen
    omega
  have htxl : tx.Hash = l := by
    have : (b.Transactions.map Transaction.Hash).getLast? = some tx.Hash := by
      rw [List.getLast?_map, hlast]
      rfl
    rw [hmap, hl] at this
    exact (Option.some.inj this).symm
  have hmem : tx ∈ rest := by
    rw [htx] at hlast
    cases rest with
    | nil => exact absurd rfl hrest
    | cons c cs =>
      rw [List.getLast?_cons_cons] at hlast
      exact List.mem_of_getLast?_eq_some hlast
  apply (Block_Verify_spec _).1.mpr
  refine ⟨tx0, rest ++ [tx], by simp [htx], hm, ?_, t2, ?_, hroot⟩
  · intro y hy
    rcases List.mem_append.mp hy with hy | hy
    · exact hall y hy
    · simp only [List.mem_singleton] at hy
      rw [hy]
      exact hall tx hmem
  · simp only [List.map_append, List.map_cons, List.map_nil]
    rw [hmap, htxl, happ, ← hmap]
    exact ht2

/-- Witness for C34: three hashes, the last one repeated. -/
theorem NewMerkleTree_duplicate_last_witness :
    [List.replicate 32 1, List.replicate 32 2, List.replicate 32 3].length % 2 = 1 ∧
    3 ≤ [List.replicate 32 1, List.replicate 32 2, List.replicate 32 3].length ∧
    [List.replicate 32 1, List.replicate 32 2, List.replicate 32 3].getLast? =
      some (List.replicate 32 3) ∧
    ∃ t t1, NewMerkleTree [List.replicate 32 1, List.replicate 32 2, List.replicate 32 3] = .ok t ∧
      NewMerkleTree ([List.replicate 32 1, List.replicate 32 2, List.replicate 32 3] ++
        [List.replicate 32 3]) = .ok t1 ∧ t1.Root = t.Root :=
  ⟨rfl, by decide, rfl,
    (NewMerkleTree_duplicate_last [List.replicate 32 1, List.replicate 32 2, List.replicate 32 3]
      (List.replicate 32 3) rfl (by decide) rfl).1⟩

/-! ## Termination of buildMerkleTree -/

/-- C40: for every non-empty hash list `NewMerkleTree` returns a tree (it is a
total function and does not reach the panic of `buildMerkleTree`); the list
`parents` that a call of `buildMerkleTree` hands to the recursive call is not
empty when `leaves` is not empty, and is strictly shorter than `leaves` when
`leaves` has two or more elements. -/
theorem NewMerkleTree_terminates (hashes : List Uint256) (hne : hashes ≠ []) :
    (∃ t, NewMerkleTree hashes = .ok t) ∧
    (∀ leaves : List MerkleTreeNode, leaves ≠ [] → merkleParents leaves ≠ [] ∧
      ∃ root, buildMerkleTree leaves = some root) ∧
    (∀ leaves : List MerkleTreeNode, 2 ≤ leaves.length →
      (merkleParents leaves).length < leaves.length ∧
        buildMerkleTree leaves = buildMerkleTree (merkleParents leaves)) := by
  refine ⟨NewMerkleTree_ok hashes hne, ?_, ?_⟩
  · intro leaves hl
    refine ⟨?_, buildMerkleTree_some _ leaves rfl hl⟩
    intro h
    have := merkleParents_length leaves
    rw [h] at this
    have hpos : 0 < leaves.length := List.length_pos.mpr hl
    simp at this
    omega
  · intro leaves h2
    refine ⟨?_, buildMerkleTree_step leaves h2⟩
    rw [merkleParents_length]
    omega

/-- Witness for C40: three hashes. -/
theorem NewMerkleTree_terminates_witness :
    [List.replicate 32 1, List.replicate 32 2, List.replicate 32 3] ≠ ([] : List Uint256) ∧
    ∃ t, NewMerkleTree [List.replicate 32 1, List.replicate 32 2, List.replicate 32 3] = .ok t :=
  ⟨by simp,
    (NewMerkleTree_terminates [List.replicate 32 1, List.replicate 32 2, List.replicate 32 3]
      (by simp)).1⟩

/-! ## The decoded item has the variant and the order of the encoded one -/

theorem itemTrees_Forall2 (f : StackItem → Option (ItemValue × List StackItem)) :
    ∀ (xs : List StackItem) (vs : List ItemValue) (refs : List StackItem),
      itemTrees f xs = some (vs, refs) →
      List.Forall₂ (fun y w => ∃ r, f y = some (w, r)) xs vs := by
  intro xs
  induction xs with
  | nil =>
    intro vs refs h
    simp only [itemTrees, Option.some.injEq, Prod.mk.injEq] at h
    rw [← h.1]
    exact List.Forall₂.nil
  | cons x xs ih =>
    intro vs refs h
    obtain ⟨v, r1, vs1, r2, h1, h2, hv, -⟩ := itemTrees_cons f x xs vs refs h
    rw [hv]
    exact List.Forall₂.cons ⟨r1, h1⟩ (ih vs1 r2 h2)

theorem entryTrees_Forall2 (f : StackItem → Option (ItemValue × List StackItem)) :
    ∀ (es : List MapElement) (m : List (ItemValue × ItemValue)) (refs : List StackItem),
      entryTrees f es = some (m, refs) →
      List.Forall₂ (fun e kv => ∃ r1 r2, f e.Key = some (kv.1, r1) ∧ f e.Value = some (kv.2, r2))
        es m := by
  intro es
  induction es with
  | nil =>
    intro m refs h
    simp only [entryTrees, Option.some.injEq, Prod.mk.injEq] at h
    rw [← h.1]
    exact List.Forall₂.nil
  | cons e es ih =>
    intro m refs h
    obtain ⟨k, r1, v, r2, m1, r3, h1, h2, h3, hm, -⟩ := entryTrees_cons f e es m refs h
    rw [hm]
    exact List.Forall₂.cons ⟨r1, r2, h1, h2⟩ (ih m1 r3 h3)

theorem itemTree_variant (h : Heap) (n : Nat) (x : StackItem) (v : ItemValue)
    (refs : List StackItem) (ht : itemTree h n x = some (v, refs)) :
    (∀ b, x = .ByteArrayItem b → v = .ByteArray b) ∧
    (∀ b, x = .BoolItem b → v = .Boolean b) ∧
    (∀ i, x = .BigIntegerItem i → v = .BigInteger i) ∧
    (∀ a, x = .ArrayItem a → ∃ vs, v = .Array vs ∧
      List.Forall₂ (fun y w => ∃ k r, itemTree h k y = some (w, r)) (h.arrays.getD a []) vs) ∧
    (∀ a, x = .StructItem a → ∃ vs, v = .Struct vs ∧
      List.Forall₂ (fun y w => ∃ k r, itemTree h k y = some (w, r)) (h.structs.getD a []) vs) ∧
    (∀ a, x = .MapItem a → ∃ m, v = .Map m ∧
      List.Forall₂ (fun e kv => ∃ k r1 r2, itemTree h k e.Key = some (kv.1, r1) ∧
        itemTree h k e.Value = some (kv.2, r2)) (h.maps.getD a []) m) := by
  cases n with
  | zero => simp [itemTree] at ht
  | succ n =>
    refine ⟨?_, ?_, ?_, ?_, ?_, ?_⟩
    · intro b hx
      subst hx
      simp only [itemTree, Option.some.injEq, Prod.mk.injEq] at ht
      exact ht.1.symm
    · intro b hx
      subst hx
      simp only [itemTree, Option.some.injEq, Prod.mk.injEq] at ht
      exact ht.1.symm
    · intro b hx
      subst hx
      simp only [itemTree, Option.some.injEq, Prod.mk.injEq] at ht
      exact ht.1.symm
    · intro a hx
      subst hx
      rw [itemTree] at ht
      cases hc : itemTrees (itemTree h n) (h.arrays.getD a []) with
      | none =>
        rw [hc] at ht
        exact absurd ht (by simp)
      | some p =>
        obtain ⟨vs, r⟩ := p
        rw [hc] at ht
        simp only [Option.some.injEq, Prod.mk.injEq] at ht
        refine ⟨vs, ht.1.symm, ?_⟩
        exact List.Forall₂.imp (fun _ _ hyw => ⟨n, hyw⟩) (itemTrees_Forall2 _ _ _ _ hc)
    · intro a hx
      subst hx
      rw [itemTree] at ht
      cases hc : itemTrees (itemTree h n) (h.structs.getD a []) with
      | none =>
        rw [hc] at ht
        exact absurd ht (by simp)
      | some p =>
        obtain ⟨vs, r⟩ := p
        rw [hc] at ht
        simp only [Option.some.injEq, Prod.mk.injEq] at ht
        refine ⟨vs, ht.1.symm, ?_⟩
        exact List.Forall₂.imp (fun _ _ hyw => ⟨n, hyw⟩) (itemTrees_Forall2 _ _ _ _ hc)
    · intro a hx
      subst hx
      rw [itemTree] at ht
      cases hc : entryTrees (itemTree h n) (h.maps.getD a []) with
      | none =>
        rw [hc] at ht
        exact absurd ht (by simp)
      | some p =>
        obtain ⟨m, r⟩ := p
        rw [hc] at ht
        simp only [Option.some.injEq, Prod.mk.injEq] at ht
        refine ⟨m, ht.1.symm, ?_⟩
        exact List.Forall₂.imp (fun _ _ hyw => ⟨n, hyw⟩) (entryTrees_Forall2 _ _ _ _ hc)

/-- C36: for every stack item built only from byte arrays, booleans, integers,
arrays, structs and maps in which no container object is met at more than one
position, with fields in the ranges of their Go types, `SerializeItem` succeeds
and `DeserializeItem` returns the value `v` of the item; `v` has the variant of
the item: an Array gives an Array, a Struct a Struct, a Map a Map, and the
elements and the entries of `v` are, position by position, the values of the
elements and of the keys and values of the item. -/
theorem SerializeItem_DeserializeItem_variant (E : Emit) (h : Heap) (x : StackItem) (n : Nat)
    (v : ItemValue) (refs : List StackItem) (ht : itemTree h n x = some (v, refs))
    (hnd : refs.Nodup) (hwf : v.WellFormed E) :
    (∃ bytes, SerializeItem E h x = some (.ok bytes) ∧
      DeserializeItem E bytes = .done (.ok v)) ∧
    (∀ a, x = .ArrayItem a → ∃ vs, v = .Array vs ∧
      List.Forall₂ (fun y w => ∃ k r, itemTree h k y = some (w, r)) (h.arrays.getD a []) vs) ∧
    (∀ a, x = .StructItem a → ∃ vs, v = .Struct vs ∧
      List.Forall₂ (fun y w => ∃ k r, itemTree h k y = some (w, r)) (h.structs.getD a []) vs) ∧
    (∀ a, x = .MapItem a → ∃ m, v = .Map m ∧
      List.Forall₂ (fun e kv => ∃ k r1 r2, itemTree h k e.Key = some (kv.1, r1) ∧
        itemTree h k e.Value = some (kv.2, r2)) (h.maps.getD a []) m) := by
  obtain ⟨-, -, -, h4, h5, h6⟩ := itemTree_variant h n x v refs ht
  exact ⟨SerializeItem_DeserializeItem_tree E h x n v refs ht hnd hwf, h4, h5, h6⟩

/-- Witness for C36: the struct of `exampleTreeHeap`, a boolean and an
integer. -/
theorem SerializeItem_DeserializeItem_variant_witness :
    itemTree exampleTreeHeap 2 (.StructItem 0) =
      some (.Struct [.Boolean true, .BigInteger (-5)], [.StructItem 0]) ∧
    [StackItem.StructItem 0].Nodup ∧
    (ItemValue.Struct [.Boolean true, .BigInteger (-5)]).WellFormed emitLE ∧
    ∃ bytes, SerializeItem emitLE exampleTreeHeap (.StructItem 0) = some (.ok bytes) ∧
      DeserializeItem emitLE bytes = .done (.ok (.Struct [.Boolean true, .BigInteger (-5)])) :=
  have hwf : (ItemValue.Struct [.Boolean true, .BigInteger (-5)]).WellFormed emitLE := by
    simp only [ItemValue.WellFormed, WellFormedList]
    decide
  ⟨rfl, by decide, hwf,
    (SerializeItem_DeserializeItem_variant emitLE exampleTreeHeap (.StructItem 0) 2
      (.Struct [.Boolean true, .BigInteger (-5)]) [.StructItem 0] rfl (by decide) hwf).1⟩

/-- The example of C36 evaluated: the bytes of the struct begin with the tag of
a struct, 0x81, and are read back as a struct; the same elements in an array
are written with the tag 0x80 and read back as an array. -/
theorem SerializeItem_struct_example :
    SerializeItem emitLE exampleTreeHeap (.StructItem 0) = some (.ok [0x81, 2, 1, 1, 2, 1, 251]) ∧
    DeserializeItem emitLE [0x81, 2, 1, 1, 2, 1, 251] =
      .done (.ok (.Struct [.Boolean true, .BigInteger (-5)])) ∧
    DeserializeItem emitLE [0x80, 2, 1, 1, 2, 1, 251] =
      .done (.ok (.Array [.Boolean true, .BigInteger (-5)])) :=
  ⟨rfl, rfl, rfl⟩

/-! ## The hash node of the MPT -/

theorem HashNode_EncodeBinary_bytes (h : HashNode) (hlen : h.hash.length = 32) :
    (h.EncodeBinary NewBufBinWriter).Bytes = if h.IsEmpty then [0] else 32 :: h.hash := by
  unfold HashNode.EncodeBinary HashNode.IsEmpty NewBufBinWriter
  cases hv : h.hashValid
  · rfl
  · simp only [Bool.not_true, Bool.false_eq_true, if_false]
    rw [BinWriter_WriteVarBytes_ok, hlen]
    rfl

theorem HashNode_DecodeBinary_empty (h0 : HashNode) (rest : List Nat) :
    h0.DecodeBinary ⟨0 :: rest, none⟩ = ({ h0 with hashValid := false }, ⟨rest, none⟩) := by
  unfold HashNode.DecodeBinary
  have hr : (BinReader.mk (0 :: rest) none).ReadVarUint = (0, ⟨rest, none⟩) :=
    BinReader_ReadVarUint_ok 0 rest (by norm_num)
  simp only [hr, if_true]

theorem HashNode_DecodeBinary_hash (h0 : HashNode) (hash rest : List Nat)
    (h0len : h0.hash.length = 32) (hlen : hash.length = 32) :
    h0.DecodeBinary ⟨32 :: (hash ++ rest), none⟩ =
      ({ hash := hash, hashValid := true }, ⟨rest, none⟩) := by
  unfold HashNode.DecodeBinary
  have hr : (BinReader.mk (32 :: (hash ++ rest)) none).ReadVarUint =
      (32, ⟨hash ++ rest, none⟩) := BinReader_ReadVarUint_ok 32 (hash ++ rest) (by norm_num)
  simp only [hr, Uint256Size, if_true]
  rw [if_neg (by decide)]
  rw [BinReader_ReadBytes_ok hash rest h0.hash (by rw [hlen, h0len])]

theorem HashNode_DecodeBinary_invalid (h0 : HashNode) (r : BinReader)
    (hz : r.ReadVarUint.1 ≠ 0) (h32 : r.ReadVarUint.1 ≠ 32) :
    h0.DecodeBinary r =
      (h0, { r.ReadVarUint.2 with err := some (.invalidHashNodeSize r.ReadVarUint.1) }) := by
  unfold HashNode.DecodeBinary
  simp -iota -proj only []
  rw [if_neg hz, if_neg (by simpa [Uint256Size] using h32)]

/-- C38: for every hash node `h` (its hash is an array of 32 bytes),
`EncodeBinary` writes the single byte 0 when `h` is empty and the byte 32
followed by the hash when it is not; `DecodeBinary`, called on any receiver with
these bytes, leaves nothing unread and no error and yields a node with the
emptiness of `h` and, when `h` is not empty, with the hash of `h`; and
`DecodeBinary` ends with the error "invalid hash node size" for every length
read that is neither 0 nor 32. -/
theorem HashNode_EncodeBinary_DecodeBinary (h h0 : HashNode) (r : BinReader)
    (hlen : h.hash.length = 32) (h0len : h0.hash.length = 32) :
    (h.EncodeBinary NewBufBinWriter).Bytes = (if h.IsEmpty then [0] else 32 :: h.hash) ∧
    (h0.DecodeBinary (NewBinReaderFromBuf (h.EncodeBinary NewBufBinWriter).Bytes)).2 =
      ⟨[], none⟩ ∧
    (h0.DecodeBinary (NewBinReaderFromBuf (h.EncodeBinary NewBufBinWriter).Bytes)).1.IsEmpty =
      h.IsEmpty ∧
    (h.IsEmpty = false →
      (h0.DecodeBinary (NewBinReaderFromBuf (h.EncodeBinary NewBufBinWriter).Bytes)).1.Hash =
        some h.hash ∧ h.Hash = some h.hash) ∧
    (r.ReadVarUint.1 ≠ 0 → r.ReadVarUint.1 ≠ 32 →
      (h0.DecodeBinary r).2.err = some (.invalidHashNodeSize r.ReadVarUint.1)) := by
  refine ⟨HashNode_EncodeBinary_bytes h hlen, ?_, ?_, ?_, ?_⟩
  · rw [HashNode_EncodeBinary_bytes h hlen]
    unfold HashNode.IsEmpty NewBinReaderFromBuf
    cases hv : h.hashValid
    · rw [show (if (!false) = true then [0] else 32 :: h.hash) = [0] from rfl,
        HashNode_DecodeBinary_empty]
    · have := HashNode_DecodeBinary_hash h0 h.hash [] h0len hlen
      rw [List.append_nil] at this
      rw [show (if (!true) = true then [0] else 32 :: h.hash) = 32 :: h.hash from rfl, this]
  · rw [HashNode_EncodeBinary_bytes h hlen]
    unfold HashNode.IsEmpty NewBinReaderFromBuf
    cases hv : h.hashValid
    · rw [show (if (!false) = true then [0] else 32 :: h.hash) = [0] from rfl,
        HashNode_DecodeBinary_empty]
    · have := HashNode_DecodeBinary_hash h0 h.hash [] h0len hlen
      rw [List.append_nil] at this
      rw [show (if (!true) = true then [0] else 32 :: h.hash) = 32 :: h.hash from rfl, this]
  · intro he
    have hv : h.hashValid = true := by
      unfold HashNode.IsEmpty at he
      simpa using he
    rw [HashNode_EncodeBinary_bytes h hlen]
    unfold HashNode.IsEmpty NewBinReaderFromBuf HashNode.Hash
    have := HashNode_DecodeBinary_hash h0 h.hash [] h0len hlen
    rw [List.append_nil] at this
    rw [hv, show (if (!true) = true then [0] else 32 :: h.hash) = 32 :: h.hash from rfl, this]
    exact ⟨rfl, rfl⟩
  · intro hz h32
    rw [HashNode_DecodeBinary_invalid h0 r hz h32]

/-- Witness for C38: a node with a hash, decoded into an empty node. -/
theorem HashNode_EncodeBinary_DecodeBinary_witness :
    (NewHashNode (List.replicate 32 7)).hash.length = 32 ∧
    (HashNode.mk (List.replicate 32 0) false).hash.length = 32 ∧
    (HashNode.mk (List.replicate 32 0) false).DecodeBinary (NewBinReaderFromBuf
      ((NewHashNode (List.replicate 32 7)).EncodeBinary NewBufBinWriter).Bytes) =
      (NewHashNode (List.replicate 32 7), ⟨[], none⟩) ∧
    ((HashNode.mk (List.replicate 32 0) false).DecodeBinary
      (NewBinReaderFromBuf [33, 1, 2])).2.err = some (.invalidHashNodeSize 33) :=
  ⟨rfl, rfl, by decide,
    (HashNode_EncodeBinary_DecodeBinary (NewHashNode (List.replicate 32 7))
      (HashNode.mk (List.replicate 32 0) false) (NewBinReaderFromBuf [33, 1, 2]) rfl rfl).2.2.2.2
      (by decide) (by decide)⟩

/-! ## Addresses -/

theorem StringToUint160_wrong_prefix (B : Base58) (Prefix : Nat) (s : GoString)
    (b : ByteSlice) (b0 : Nat) (rest : List Nat) (hd : B.CheckDecode s = .ok b)
    (hb : b.elems = b0 :: rest) (hp : b0 ≠ Prefix) :
    StringToUint160 B Prefix s = .error .wrongAddressPrefix := by
  unfold StringToUint160
  simp only [hd, hb]
  rw [if_pos hp]

theorem StringToUint160_long (B : Base58) (Prefix : Nat) (s : GoString)
    (b : ByteSlice) (rest : List Nat) (hd : B.CheckDecode s = .ok b)
    (hb : b.elems = Prefix :: rest) (hlen : 20 ≤ rest.length) :
    StringToUint160 B Prefix s = .ok (rest.take 20) := by
  unfold StringToUint160
  simp only [hd, hb]
  rw [if_neg (by simp), if_neg (by simp; omega)]
  have h1 : ((Prefix :: rest ++ b.spare).take 21).drop 1 = rest.take 20 := by
    simp only [List.cons_append, List.take_succ_cons, List.drop_succ_cons, List.drop_zero]
    rw [List.take_append_of_le_length hlen]
  rw [h1]
  unfold Uint160DecodeBytesBE
  rw [if_neg (by simp; omega)]

theorem StringToUint160_never_error (B : Base58) (Prefix : Nat) (s : GoString)
    (b : ByteSlice) (rest : List Nat) (hd : B.CheckDecode s = .ok b)
    (hb : b.elems = Prefix :: rest) :
    StringToUint160 B Prefix s = .panic ∨ ∃ u, StringToUint160 B Prefix s = .ok u := by
  unfold StringToUint160
  simp only [hd, hb]
  rw [if_neg (by simp)]
  by_cases hc : (Prefix :: rest).length + b.spare.length < 21
  · left
    rw [if_pos hc]
  · right
    rw [if_neg hc]
    have hl : ((((Prefix :: rest) ++ b.spare).take 21).drop 1).length = 20 := by
      simp only [List.length_drop, List.length_take, List.length_append]
      omega
    unfold Uint160DecodeBytesBE
    rw [if_neg (by rw [hl]; simp)]
    exact ⟨_, rfl⟩

/-- C37, failing input: a string whose decoded payload has 22 bytes, the first
of them the prefix.  `StringToUint160` returns the 20 bytes after the prefix
and no error.  For a payload of 4 bytes with the prefix, in a slice without
spare capacity, it panics. -/
theorem StringToUint160_wrong_length :
    exampleBase58.CheckDecode (exampleBase58.CheckEncode examplePayload22) =
      .ok ⟨examplePayload22, []⟩ ∧
    examplePayload22.length = 22 ∧ examplePayload22.head? = some 0x17 ∧
    StringToUint160 exampleBase58 0x17 (exampleBase58.CheckEncode examplePayload22) =
      .ok [1, 2, 3, 4, 5, 6, 7, 8, 9, 10, 11, 12, 13, 14, 15, 16, 17, 18, 19, 20] ∧
    exampleBase58.CheckDecode (exampleBase58.CheckEncode [0x17, 1, 2, 3]) =
      .ok ⟨[0x17, 1, 2, 3], []⟩ ∧
    StringToUint160 exampleBase58 0x17 (exampleBase58.CheckEncode [0x17, 1, 2, 3]) = .panic :=
  ⟨rfl, rfl, rfl, rfl, rfl, rfl⟩

theorem StringToUint160_roundtrip_of (B : Base58) (Prefix : Nat) (u : Uint160)
    (spare : List Nat) (hu : u.length = 20)
    (hrt : B.CheckDecode (B.CheckEncode ([Prefix] ++ u)) = .ok ⟨[Prefix] ++ u, spare⟩) :
    StringToUint160 B Prefix (Uint160ToString B Prefix u) = .ok u := by
  unfold Uint160ToString
  simp -iota -proj only []
  rw [StringToUint160_long B Prefix _ ⟨[Prefix] ++ u, spare⟩ u hrt rfl (by omega)]
  rw [List.take_of_length_le (by omega)]

/-- What `Output.UnmarshalJSON` makes of what `Output.MarshalJSON` writes, when
`base58.CheckDecode` gives back the payload of the address, the asset is read
back as `asset`, and `Fixed8FromString` reads the text of the amount as
`amount` without error: no error, and the output has the script hash and the
position of the output written. -/
theorem Output_UnmarshalJSON_MarshalJSON_of (B : Base58) (Prefix : Nat) (J : Uint256JSON)
    (out out0 : Output) (spare : List Nat) (ja : JSONValue) (asset : Uint256) (amount : Fixed8)
    (hu : out.ScriptHash.length = 20)
    (hrt : B.CheckDecode (B.CheckEncode ([Prefix] ++ out.ScriptHash)) =
      .ok ⟨[Prefix] ++ out.ScriptHash, spare⟩)
    (hm : J.MarshalJSON out.AssetID = .ok ja) (hum : J.UnmarshalJSON ja = .ok asset)
    (ha : Fixed8FromString out.Amount.String = .ok amount) :
    ∃ data, out.MarshalJSON B Prefix J = .ok data ∧
      Output.UnmarshalJSONS B Prefix J out0 data =
        some ({ AssetID := asset, Amount := amount, ScriptHash := out.ScriptHash,
                Position := out.Position }, none) := by
  have h := StringToUint160_roundtrip_of B Prefix out.ScriptHash spare hu hrt
  refine ⟨_, by unfold Output.MarshalJSON; rw [hm], ?_⟩
  unfold Output.UnmarshalJSONS outputAux.Unmarshal Fixed8.UnmarshalJSON Fixed8.unmarshalHelper
    Fixed8.MarshalJSON
  simp only [hum, ha, h]

/-- What `Output.UnmarshalJSON` makes of what `Output.MarshalJSON` writes when
`Fixed8FromString` fails on the text of the amount: it returns this error and
leaves the output as it was; the script hash is not read. -/
theorem Output_UnmarshalJSON_amount_error (B : Base58) (Prefix : Nat) (J : Uint256JSON)
    (out out0 : Output) (ja : JSONValue) (asset : Uint256) (err : Err)
    (hm : J.MarshalJSON out.AssetID = .ok ja) (hum : J.UnmarshalJSON ja = .ok asset)
    (ha : Fixed8FromString out.Amount.String = .error err) :
    ∃ data, out.MarshalJSON B Prefix J = .ok data ∧
      Output.UnmarshalJSONS B Prefix J out0 data = some (out0, some err) := by
  refine ⟨_, by unfold Output.MarshalJSON; rw [hm], ?_⟩
  unfold Output.UnmarshalJSONS outputAux.Unmarshal Fixed8.UnmarshalJSON Fixed8.unmarshalHelper
    Fixed8.MarshalJSON
  simp only [hum, ha]

/-- C39, failing input: the output with the amount `math.MinInt64` and the
script hash of the bytes 1..20.  `StringToUint160(Uint160ToString(u))` returns
this script hash; `Output.MarshalJSON` writes the amount as the string
`--92233720368`, and `Output.UnmarshalJSON` of what was written returns the
error `errInvalidString` of `Fixed8FromString` and leaves every output as it
was: the script hash is not restored. -/
theorem Output_UnmarshalJSON_MinInt64 :
    exampleOutputMin.Amount.InRange ∧ exampleOutputMin.ScriptHash.length = 20 ∧
    StringToUint160 exampleBase58 0x17
        (Uint160ToString exampleBase58 0x17 exampleOutputMin.ScriptHash) =
      .ok exampleOutputMin.ScriptHash ∧
    ∃ data, exampleOutputMin.MarshalJSON exampleBase58 0x17 exampleUint256JSON = .ok data ∧
      data.value = .string "--92233720368".toList ∧
      ∀ out0 : Output,
        Output.UnmarshalJSONS exampleBase58 0x17 exampleUint256JSON out0 data =
          some (out0, some .errInvalidString) :=
  ⟨by unfold Fixed8.InRange exampleOutputMin; norm_num, rfl, rfl, _, rfl, rfl, fun _ => rfl⟩

/-- The same output with the amount 1 is read back with its script hash. -/
theorem Output_UnmarshalJSON_example :
    ∃ data,
      Output.MarshalJSON exampleBase58 0x17 exampleUint256JSON
        { exampleOutputMin with Amount := ⟨1⟩ } = .ok data ∧
      ∀ out0 : Output,
        Output.UnmarshalJSONS exampleBase58 0x17 exampleUint256JSON out0 data =
          some ({ exampleOutputMin with Amount := ⟨1⟩ }, none) :=
  ⟨_, rfl, fun _ => rfl⟩

/-! ## Signatures of a multisig contract -/

theorem context_mapGet_cons (k1 k : String) (v : Option (List Nat))
    (m : List (String × Option (List Nat))) :
    context.mapGet ((k1, v) :: m) k = if k1 = k then v else context.mapGet m k := by
  unfold context.mapGet
  rw [List.find?_cons]
  by_cases h : k1 = k
  · simp [h]
  · simp [h]

theorem context_mapGet_sigsOf (V : context.SigOps κ) (hinj : Function.Injective V.EncodeToString)
    (k : List Nat) : ∀ acc : List (List Nat × Option (List Nat)), (∀ e ∈ acc, e.2 ≠ none) →
    (context.mapGet (context.sigsOf V acc) (V.EncodeToString k) ≠ none ↔ k ∈ acc.map Prod.fst) := by
  intro acc
  induction acc with
  | nil => intro _; simp [context.sigsOf, context.mapGet]
  | cons e acc ih =>
    intro hs
    have ih1 := ih (fun x hx => hs x (by simp [hx]))
    unfold context.sigsOf at ih1 ⊢
    rw [List.map_cons, context_mapGet_cons]
    by_cases h : e.1 = k
    · rw [if_pos (by rw [h])]
      simp [h, hs e (by simp)]
    · rw [if_neg (fun hh => h (hinj hh))]
      rw [ih1]
      simp [Ne.symm h]

theorem context_mapSet_sigsOf (V : context.SigOps κ) (hinj : Function.Injective V.EncodeToString)
    (k : List Nat) (v : Option (List Nat)) (acc : List (List Nat × Option (List Nat)))
    (hk : k ∉ acc.map Prod.fst) :
    context.mapSet (context.sigsOf V acc) (V.EncodeToString k) v =
      context.sigsOf V (acc ++ [(k, v)]) := by
  unfold context.mapSet
  have hany : (context.sigsOf V acc).any (fun e => decide (e.1 = V.EncodeToString k)) = false := by
    rw [List.any_eq_false]
    intro x hx
    unfold context.sigsOf at hx
    obtain ⟨e, he, rfl⟩ := List.mem_map.mp hx
    simp only [decide_eq_true_eq]
    intro hh
    exact hk (List.mem_map.mpr ⟨e, he, hinj hh⟩)
  rw [hany]
  simp [context.sigsOf]

theorem context_indexMapFrom_absent (V : context.SigOps κ) (k : String) :
    ∀ (ps : List (List Nat)) (i : Nat) (m : String → Nat),
      k ∉ ps.map V.EncodeToString → context.indexMapFrom V i ps m k = m k := by
  intro ps
  induction ps with
  | nil => intro i m _; rfl
  | cons p ps ih =>
    intro i m hk
    simp only [List.map_cons, List.mem_cons, not_or] at hk
    unfold context.indexMapFrom
    rw [ih (i + 1) _ hk.2]
    simp [hk.1]

theorem context_indexMapFrom_position (V : context.SigOps κ)
    (hinj : Function.Injective V.EncodeToString) (p : List Nat) :
    ∀ (ps : List (List Nat)) (i : Nat) (m : String → Nat), ps.Nodup → p ∈ ps →
      context.indexMapFrom V i ps m (V.EncodeToString p) = i + context.position ps p := by
  intro ps
  induction ps with
  | nil => intro i m _ hp; simp at hp
  | cons q qs ih =>
    intro i m hnd hp
    obtain ⟨hq, hnd1⟩ := List.nodup_cons.mp hnd
    unfold context.indexMapFrom context.position
    by_cases h : p = q
    · subst h
      rw [context_indexMapFrom_absent V _ qs (i + 1) _ (by
        intro hh
        obtain ⟨x, hx, hxe⟩ := List.mem_map.mp hh
        exact hq (hinj hxe ▸ hx))]
      simp
    · have hp1 : p ∈ qs := by
        rcases List.mem_cons.mp hp with hh | hh
        · exact absurd hh h
        · exact hh
      rw [ih (i + 1) _ hnd1 hp1, if_neg h]
      omega

theorem context_position_inj : ∀ (ps : List (List Nat)) (x y : List Nat), x ∈ ps → y ∈ ps →
    context.position ps x = context.position ps y → x = y := by
  intro ps
  induction ps with
  | nil => intro x y hx; simp at hx
  | cons p ps ih =>
    intro x y hx hy hxy
    unfold context.position at hxy
    by_cases h1 : x = p
    · by_cases h2 : y = p
      · rw [h1, h2]
      · rw [if_pos h1, if_neg h2] at hxy
        omega
    · by_cases h2 : y = p
      · rw [if_neg h1, if_pos h2] at hxy
        omega
      · rw [if_neg h1, if_neg h2] at hxy
        have hx1 : x ∈ ps := by
          rcases List.mem_cons.mp hx with hh | hh
          · exact absurd hh h1
          · exact hh
        have hy1 : y ∈ ps := by
          rcases List.mem_cons.mp hy with hh | hh
          · exact absurd hh h2
          · exact hh
        exact ih x y hx1 hy1 (by omega)

theorem context_paramsOf_nil (V : context.SigOps κ) (ctr : context.Contract)
    (pubs : List (List Nat)) :
    context.paramsOf V ctr pubs [] =
      ctr.Parameters.map fun p => { Typ := p.Typ, Value := none } := by
  unfold context.paramsOf
  by_cases h : ([] : List (List Nat × Option (List Nat))).length < ctr.Parameters.length
  · rw [if_pos h]
  · rw [if_neg h]
    have h0 : ctr.Parameters = [] := by
      simp only [List.length_nil, not_lt, Nat.le_zero] at h
      exact List.length_eq_zero.mp h
    rw [h0]
    rfl

theorem context_paramsOf_length (V : context.SigOps κ) (ctr : context.Contract)
    (pubs : List (List Nat)) (acc : List (List Nat × Option (List Nat))) :
    (context.paramsOf V ctr pubs acc).length = ctr.Parameters.length := by
  unfold context.paramsOf context.sortSigs
  by_cases h : acc.length < ctr.Parameters.length
  · rw [if_pos h, List.length_map]
  · rw [if_neg h, List.length_map, List.length_insertionSort, List.length_map, List.length_take]
    omega

theorem context_getItemForContract_state (V : context.SigOps κ) (ctr : context.Contract)
    (pubs : List (List Nat)) (c : context.ParameterContext)
    (acc : List (List Nat × Option (List Nat)))
    (hst : c.Items (V.ScriptHash ctr) = some (context.itemOf V ctr pubs acc) ∨
      (c.Items (V.ScriptHash ctr) = none ∧ acc = [])) :
    (c.getItemForContract V ctr).2 = context.itemOf V ctr pubs acc ∧
      (c.getItemForContract V ctr).1.Items (V.ScriptHash ctr) =
        some (context.itemOf V ctr pubs acc) := by
  unfold context.ParameterContext.getItemForContract
  rcases hst with h | ⟨h, hacc⟩
  · simp [h]
  · simp only [h]
    subst hacc
    unfold context.itemOf
    rw [context_paramsOf_nil]
    refine ⟨rfl, ?_⟩
    simp [context.ParameterContext.setItem, context.sigsOf]

theorem context_setItem_Items (c : context.ParameterContext) (h : Uint160) (item : context.Item) :
    (c.setItem h item).Items h = some item := by
  simp [context.ParameterContext.setItem]

theorem context_paramsOf_append (V : context.SigOps κ) (ctr : context.Contract)
    (pubs : List (List Nat)) (acc : List (List Nat × Option (List Nat)))
    (x : List Nat × Option (List Nat)) (h : acc.length + 1 ≠ ctr.Parameters.length) :
    context.paramsOf V ctr pubs (acc ++ [x]) = context.paramsOf V ctr pubs acc := by
  unfold context.paramsOf
  by_cases h1 : acc.length + 1 < ctr.Parameters.length
  · rw [if_pos (by simp; omega), if_pos (by omega)]
  · rw [if_neg (by simp; omega), if_neg (by omega)]
    rw [List.take_append_of_le_length (by omega)]

theorem context_paramsOf_full (V : context.SigOps κ) (ctr : context.Contract)
    (pubs : List (List Nat)) (acc : List (List Nat × Option (List Nat)))
    (h : acc.length = ctr.Parameters.length) :
    context.paramsOf V ctr pubs acc =
      (context.sortSigs (acc.map fun e =>
        { index := context.indexOfEntry V pubs e, sig := e.2 })).map
        fun s => { Typ := V.SignatureType, Value := some s.sig } := by
  unfold context.paramsOf
  rw [if_neg (by omega), ← h, List.take_length]

theorem context_AddSignature_already (V : context.SigOps κ) (ctr : context.Contract)
    (pubs : List (List Nat)) (hP : V.ParseMultiSigContract ctr.Script = some pubs)
    (hinj : Function.Injective V.EncodeToString) (c : context.ParameterContext)
    (acc : List (List Nat × Option (List Nat))) (pub : κ) (sig : Option (List Nat))
    (hst : c.Items (V.ScriptHash ctr) = some (context.itemOf V ctr pubs acc) ∨
      (c.Items (V.ScriptHash ctr) = none ∧ acc = []))
    (hs : ∀ e ∈ acc, e.2 ≠ none) (hk : V.Bytes pub ∈ acc.map Prod.fst) :
    c.AddSignature V ctr pub sig =
      some ((c.getItemForContract V ctr).1, some .signatureAlreadyAdded) := by
  obtain ⟨hg2, -⟩ := context_getItemForContract_state V ctr pubs c acc hst
  unfold context.ParameterContext.AddSignature
  simp -iota -proj only []
  rw [hP, hg2]
  try simp only []
  have hget : (context.itemOf V ctr pubs acc).GetSignature V pub ≠ none := by
    unfold context.Item.GetSignature context.itemOf
    exact (context_mapGet_sigsOf V hinj _ acc hs).mpr hk
  rw [if_pos hget]

theorem context_AddSignature_unlisted (V : context.SigOps κ) (ctr : context.Contract)
    (pubs : List (List Nat)) (hP : V.ParseMultiSigContract ctr.Script = some pubs)
    (hinj : Function.Injective V.EncodeToString) (c : context.ParameterContext)
    (acc : List (List Nat × Option (List Nat))) (pub : κ) (sig : Option (List Nat))
    (hst : c.Items (V.ScriptHash ctr) = some (context.itemOf V ctr pubs acc) ∨
      (c.Items (V.ScriptHash ctr) = none ∧ acc = []))
    (hs : ∀ e ∈ acc, e.2 ≠ none) (hk : V.Bytes pub ∉ acc.map Prod.fst)
    (hp : V.Bytes pub ∉ pubs) :
    c.AddSignature V ctr pub sig =
      some ((c.getItemForContract V ctr).1, some .keyNotInScript) := by
  obtain ⟨hg2, -⟩ := context_getItemForContract_state V ctr pubs c acc hst
  unfold context.ParameterContext.AddSignature
  simp -iota -proj only []
  rw [hP, hg2]
  try simp only []
  have hget : ¬ (context.itemOf V ctr pubs acc).GetSignature V pub ≠ none := by
    unfold context.Item.GetSignature context.itemOf
    exact fun hh => hk ((context_mapGet_sigsOf V hinj _ acc hs).mp hh)
  rw [if_neg hget]
  have hc : (pubs.any fun p => decide (V.Bytes pub = p)) = false := by
    rw [List.any_eq_false]
    intro x hx
    simp only [decide_eq_true_eq]
    intro hh
    exact hp (hh ▸ hx)
  rw [hc]
  rfl

theorem context_AddSignature_accepted (V : context.SigOps κ) (ctr : context.Contract)
    (pubs : List (List Nat)) (hP : V.ParseMultiSigContract ctr.Script = some pubs)
    (hinj : Function.Injective V.EncodeToString) (c : context.ParameterContext)
    (acc : List (List Nat × Option (List Nat))) (pub : κ) (sig : Option (List Nat))
    (hst : c.Items (V.ScriptHash ctr) = some (context.itemOf V ctr pubs acc) ∨
      (c.Items (V.ScriptHash ctr) = none ∧ acc = []))
    (hs : ∀ e ∈ acc, e.2 ≠ none) (hk : V.Bytes pub ∉ acc.map Prod.fst)
    (hp : V.Bytes pub ∈ pubs) :
    c.AddSignature V ctr pub sig =
      some ((c.getItemForContract V ctr).1.setItem (V.ScriptHash ctr)
        (context.itemOf V ctr pubs (acc ++ [(V.Bytes pub, sig)])), none) := by
  obtain ⟨hg2, -⟩ := context_getItemForContract_state V ctr pubs c acc hst
  unfold context.ParameterContext.AddSignature
  simp -iota -proj only []
  rw [hP, hg2]
  try simp only []
  have hget : ¬ (context.itemOf V ctr pubs acc).GetSignature V pub ≠ none := by
    unfold context.Item.GetSignature context.itemOf
    exact fun hh => hk ((context_mapGet_sigsOf V hinj _ acc hs).mp hh)
  rw [if_neg hget]
  have hc : (pubs.any fun p => decide (V.Bytes pub = p)) = true := by
    rw [List.any_eq_true]
    exact ⟨V.Bytes pub, hp, by simp⟩
  rw [hc]
  simp only [Bool.not_true, Bool.false_eq_true, if_false]
  have hadd : (context.itemOf V ctr pubs acc).AddSignature V pub sig =
      { Script := V.ScriptHash ctr, Parameters := context.paramsOf V ctr pubs acc,
        Signatures := context.sigsOf V (acc ++ [(V.Bytes pub, sig)]) } := by
    unfold context.Item.AddSignature context.itemOf
    simp only []
    rw [context_mapSet_sigsOf V hinj _ _ acc hk]
  rw [hadd]
  simp only []
  have hlen : (context.sigsOf V (acc ++ [(V.Bytes pub, sig)])).length = acc.length + 1 := by
    simp [context.sigsOf]
  rw [hlen]
  by_cases hm : acc.length + 1 = ctr.Parameters.length
  · rw [if_pos hm]
    have hfull := context_paramsOf_full V ctr pubs (acc ++ [(V.Bytes pub, sig)])
      (by simp; exact hm)
    have hsig : (context.sigsOf V (acc ++ [(V.Bytes pub, sig)])).map
        (fun e => ({ index := context.indexMapFrom V 0 pubs (fun _ => 0) e.1, sig := e.2 } :
          context.sigWithIndex)) =
        (acc ++ [(V.Bytes pub, sig)]).map fun e =>
          { index := context.indexOfEntry V pubs e, sig := e.2 } := by
      unfold context.sigsOf context.indexOfEntry
      rw [List.map_map]
      rfl
    rw [hsig, ← hfull]
    unfold context.setParameters
    rw [if_pos (by rw [context_paramsOf_length, context_paramsOf_length])]
    have hdrop : (context.paramsOf V ctr pubs acc).drop
        (context.paramsOf V ctr pubs (acc ++ [(V.Bytes pub, sig)])).length = [] := by
      apply List.drop_of_length_le
      rw [context_paramsOf_length, context_paramsOf_length]
    rw [hdrop, List.append_nil]
    rfl
  · rw [if_neg hm]
    unfold context.itemOf
    rw [context_paramsOf_append V ctr pubs acc _ hm]

theorem context_AddSignatures_run (V : context.SigOps κ) (ctr : context.Contract)
    (pubs : List (List Nat)) (hP : V.ParseMultiSigContract ctr.Script = some pubs)
    (hinj : Function.Injective V.EncodeToString) :
    ∀ (adds : List (κ × Option (List Nat))) (c : context.ParameterContext)
      (acc : List (List Nat × Option (List Nat))) (earlier : List (List Nat)),
      (c.Items (V.ScriptHash ctr) = some (context.itemOf V ctr pubs acc) ∨
        (c.Items (V.ScriptHash ctr) = none ∧ acc = [])) →
      (∀ e ∈ acc, e.2 ≠ none) →
      (∀ k, k ∈ acc.map Prod.fst ↔ (k ∈ earlier ∧ k ∈ pubs)) →
      (∀ a ∈ adds, a.2 ≠ none) →
      ∃ c1, context.AddSignatures V ctr c adds =
          some (c1, context.rejections V pubs earlier adds) ∧
        (c1.Items (V.ScriptHash ctr) =
            some (context.itemOf V ctr pubs (acc ++ context.accepted V pubs earlier adds)) ∨
          (c1.Items (V.ScriptHash ctr) = none ∧
            acc ++ context.accepted V pubs earlier adds = [])) := by
  intro adds
  induction adds with
  | nil =>
    intro c acc earlier hst _ _ _
    refine ⟨c, rfl, ?_⟩
    simp only [context.accepted, List.append_nil]
    exact hst
  | cons a as ih =>
    intro c acc earlier hst hs hrel hsig
    have hsa : a.2 ≠ none := hsig a (by simp)
    have hsas : ∀ b ∈ as, b.2 ≠ none := fun b hb => hsig b (by simp [hb])
    obtain ⟨-, hg⟩ := context_getItemForContract_state V ctr pubs c acc hst
    unfold context.AddSignatures context.rejections context.accepted
    by_cases hp : V.Bytes a.1 ∈ pubs
    · by_cases he : V.Bytes a.1 ∈ earlier
      · have hk : V.Bytes a.1 ∈ acc.map Prod.fst := (hrel _).mpr ⟨he, hp⟩
        rw [context_AddSignature_already V ctr pubs hP hinj c acc a.1 a.2 hst hs hk]
        have hrel1 : ∀ k, k ∈ acc.map Prod.fst ↔ (k ∈ V.Bytes a.1 :: earlier ∧ k ∈ pubs) := by
          intro k
          rw [hrel k]
          constructor
          · exact fun h => ⟨List.mem_cons_of_mem _ h.1, h.2⟩
          · rintro ⟨h1, h2⟩
            rcases List.mem_cons.mp h1 with h | h
            · rw [h]; exact ⟨he, hp⟩
            · exact ⟨h, h2⟩
        obtain ⟨c1, h1, h2⟩ := ih _ acc (V.Bytes a.1 :: earlier) (Or.inl hg) hs hrel1 hsas
        refine ⟨c1, ?_, ?_⟩
        · simp only [h1, if_pos hp, if_pos he]
        · rw [if_neg (fun h => h.2 he)]
          exact h2
      · have hk : V.Bytes a.1 ∉ acc.map Prod.fst := fun h => he ((hrel _).mp h).1
        rw [context_AddSignature_accepted V ctr pubs hP hinj c acc a.1 a.2 hst hs hk hp]
        have hs1 : ∀ e ∈ acc ++ [(V.Bytes a.1, a.2)], e.2 ≠ none := by
          intro e hmem
          rcases List.mem_append.mp hmem with h | h
          · exact hs e h
          · simp only [List.mem_singleton] at h
            rw [h]
            exact hsa
        have hrel1 : ∀ k, k ∈ (acc ++ [(V.Bytes a.1, a.2)]).map Prod.fst ↔
            (k ∈ V.Bytes a.1 :: earlier ∧ k ∈ pubs) := by
          intro k
          rw [List.map_append, List.mem_append, hrel k]
          simp only [List.map_cons, List.map_nil, List.mem_cons, List.not_mem_nil, or_false]
          constructor
          · rintro (h | h)
            · exact ⟨Or.inr h.1, h.2⟩
            · rw [h]; exact ⟨Or.inl rfl, hp⟩
          · rintro ⟨h1 | h1, h2⟩
            · exact Or.inr h1
            · exact Or.inl ⟨h1, h2⟩
        obtain ⟨c1, h1, h2⟩ := ih
          ((c.getItemForContract V ctr).1.setItem (V.ScriptHash ctr)
            (context.itemOf V ctr pubs (acc ++ [(V.Bytes a.1, a.2)])))
          (acc ++ [(V.Bytes a.1, a.2)]) (V.Bytes a.1 :: earlier)
          (Or.inl (context_setItem_Items _ _ _)) hs1 hrel1 hsas
        refine ⟨c1, ?_, ?_⟩
        · simp only [h1, if_pos hp, if_neg he]
        · rw [if_pos ⟨hp, he⟩]
          rw [List.append_assoc] at h2
          exact h2
    · have hk : V.Bytes a.1 ∉ acc.map Prod.fst := fun h => hp ((hrel _).mp h).2
      rw [context_AddSignature_unlisted V ctr pubs hP hinj c acc a.1 a.2 hst hs hk hp]
      have hrel1 : ∀ k, k ∈ acc.map Prod.fst ↔ (k ∈ V.Bytes a.1 :: earlier ∧ k ∈ pubs) := by
        intro k
        rw [hrel k]
        constructor
        · exact fun h => ⟨List.mem_cons_of_mem _ h.1, h.2⟩
        · rintro ⟨h1, h2⟩
          rcases List.mem_cons.mp h1 with h | h
          · rw [h] at h2; exact absurd h2 hp
          · exact ⟨h, h2⟩
      obtain ⟨c1, h1, h2⟩ := ih _ acc (V.Bytes a.1 :: earlier) (Or.inl hg) hs hrel1 hsas
      refine ⟨c1, ?_, ?_⟩
      · simp only [h1, if_neg hp]
      · rw [if_neg (fun h => hp h.1)]
        exact h2

theorem context_accepted_mem (V : context.SigOps κ) (pubs : List (List Nat)) :
    ∀ (adds : List (κ × Option (List Nat))) (earlier : List (List Nat)),
      ∀ e ∈ context.accepted V pubs earlier adds, e.1 ∈ pubs ∧ e.1 ∉ earlier := by
  intro adds
  induction adds with
  | nil => intro earlier e he; simp [context.accepted] at he
  | cons a as ih =>
    intro earlier e he
    unfold context.accepted at he
    by_cases hc : V.Bytes a.1 ∈ pubs ∧ V.Bytes a.1 ∉ earlier
    · rw [if_pos hc] at he
      rcases List.mem_cons.mp he with h | h
      · rw [h]; exact hc
      · have := ih (V.Bytes a.1 :: earlier) e h
        exact ⟨this.1, fun hh => this.2 (List.mem_cons_of_mem _ hh)⟩
    · rw [if_neg hc] at he
      have := ih (V.Bytes a.1 :: earlier) e he
      exact ⟨this.1, fun hh => this.2 (List.mem_cons_of_mem _ hh)⟩

theorem context_accepted_nodup (V : context.SigOps κ) (pubs : List (List Nat)) :
    ∀ (adds : List (κ × Option (List Nat))) (earlier : List (List Nat)),
      ((context.accepted V pubs earlier adds).map Prod.fst).Nodup := by
  intro adds
  induction adds with
  | nil => intro earlier; simp [context.accepted]
  | cons a as ih =>
    intro earlier
    unfold context.accepted
    by_cases hc : V.Bytes a.1 ∈ pubs ∧ V.Bytes a.1 ∉ earlier
    · rw [if_pos hc, List.map_cons, List.nodup_cons]
      refine ⟨?_, ih _⟩
      intro hmem
      obtain ⟨e, he, hek⟩ := List.mem_map.mp hmem
      have := (context_accepted_mem V pubs as (V.Bytes a.1 :: earlier) e he).2
      exact this (by rw [hek]; exact List.mem_cons_self _ _)
    · rw [if_neg hc]
      exact ih _

theorem context_sorted_entries (V : context.SigOps κ) (pubs : List (List Nat))
    (hinj : Function.Injective V.EncodeToString) (hnd : pubs.Nodup)
    (l : List (List Nat × Option (List Nat))) (hmem : ∀ e ∈ l, e.1 ∈ pubs)
    (hl : (l.map Prod.fst).Nodup) :
    ∃ es : List (List Nat × Option (List Nat)), es.Perm l ∧
      es.Pairwise (fun a b => context.position pubs a.1 < context.position pubs b.1) ∧
      (context.sortSigs (l.map fun e =>
          { index := context.indexOfEntry V pubs e, sig := e.2 })).map
          (fun s => ({ Typ := V.SignatureType, Value := some s.sig } : context.Parameter)) =
        es.map fun e => { Typ := V.SignatureType, Value := some e.2 } := by
  haveI : IsTotal (List Nat × Option (List Nat))
      (fun a b => context.indexOfEntry V pubs a ≤ context.indexOfEntry V pubs b) :=
    ⟨fun a b => Nat.le_total _ _⟩
  haveI : IsTrans (List Nat × Option (List Nat))
      (fun a b => context.indexOfEntry V pubs a ≤ context.indexOfEntry V pubs b) :=
    ⟨fun a b c h1 h2 => Nat.le_trans h1 h2⟩
  refine ⟨l.insertionSort
    (fun a b => context.indexOfEntry V pubs a ≤ context.indexOfEntry V pubs b), ?_, ?_, ?_⟩
  · exact List.perm_insertionSort _ l
  · have hperm := List.perm_insertionSort
      (fun a b => context.indexOfEntry V pubs a ≤ context.indexOfEntry V pubs b) l
    have hsorted := List.sorted_insertionSort
      (fun a b => context.indexOfEntry V pubs a ≤ context.indexOfEntry V pubs b) l
    have hnd2 : ((l.insertionSort
        (fun a b => context.indexOfEntry V pubs a ≤ context.indexOfEntry V pubs b)).map
        Prod.fst).Nodup := (List.Perm.nodup_iff (hperm.map Prod.fst)).mpr hl
    have hne := List.pairwise_map.mp hnd2
    have hboth := List.Pairwise.and hsorted hne
    refine List.Pairwise.imp_of_mem ?_ hboth
    intro a b ha hb hab
    have ha1 : a.1 ∈ pubs := hmem a (hperm.subset ha)
    have hb1 : b.1 ∈ pubs := hmem b (hperm.subset hb)
    have ia : context.indexOfEntry V pubs a = context.position pubs a.1 := by
      unfold context.indexOfEntry
      rw [context_indexMapFrom_position V hinj a.1 pubs 0 _ hnd ha1, Nat.zero_add]
    have ib : context.indexOfEntry V pubs b = context.position pubs b.1 := by
      unfold context.indexOfEntry
      rw [context_indexMapFrom_position V hinj b.1 pubs 0 _ hnd hb1, Nat.zero_add]
    have hle : context.position pubs a.1 ≤ context.position pubs b.1 := by
      rw [← ia, ← ib]; exact hab.1
    have hneq : context.position pubs a.1 ≠ context.position pubs b.1 :=
      fun h => hab.2 (context_position_inj pubs a.1 b.1 ha1 hb1 h)
    omega
  · unfold context.sortSigs
    rw [← List.map_insertionSort
      (fun a b => context.indexOfEntry V pubs a ≤ context.indexOfEntry V pubs b)
      (fun a b : context.sigWithIndex => a.index ≤ b.index)
      (fun e => { index := context.indexOfEntry V pubs e, sig := e.2 }) l
      (fun a _ b _ => Iff.rfl)]
    rw [List.map_map]
    rfl

theorem context_AddSignatures_final (V : context.SigOps κ) (ctr : context.Contract)
    (pubs : List (List Nat)) (typ : String) (adds : List (κ × Option (List Nat)))
    (hP : V.ParseMultiSigContract ctr.Script = some pubs)
    (hinj : Function.Injective V.EncodeToString) (hnd : pubs.Nodup)
    (hsig : ∀ a ∈ adds, a.2 ≠ none) :
    ∃ c, context.AddSignatures V ctr (context.NewParameterContext typ) adds =
        some (c, context.rejections V pubs [] adds) ∧
      (0 < ctr.Parameters.length →
        ctr.Parameters.length ≤ (context.accepted V pubs [] adds).length →
        ∃ (item : context.Item) (es : List (List Nat × Option (List Nat))),
          c.Items (V.ScriptHash ctr) = some item ∧
          es.Perm ((context.accepted V pubs [] adds).take ctr.Parameters.length) ∧
          es.Pairwise (fun a b => context.position pubs a.1 < context.position pubs b.1) ∧
          item.Parameters = es.map fun e => { Typ := V.SignatureType, Value := some e.2 }) := by
  obtain ⟨c, hrun, hst⟩ := context_AddSignatures_run V ctr pubs hP hinj adds
    (context.NewParameterContext typ) [] [] (Or.inr ⟨rfl, rfl⟩) (by simp) (by simp) hsig
  refine ⟨c, hrun, ?_⟩
  intro hm hlen
  rw [List.nil_append] at hst
  have hne : context.accepted V pubs [] adds ≠ [] := by
    intro h
    rw [h] at hlen
    simp only [List.length_nil, Nat.le_zero] at hlen
    omega
  have hitem : c.Items (V.ScriptHash ctr) =
      some (context.itemOf V ctr pubs (context.accepted V pubs [] adds)) := by
    rcases hst with h | ⟨-, h⟩
    · exact h
    · exact absurd h hne
  have hmem : ∀ e ∈ (context.accepted V pubs [] adds).take ctr.Parameters.length, e.1 ∈ pubs :=
    fun e he => (context_accepted_mem V pubs adds [] e (List.mem_of_mem_take he)).1
  have hnd1 : (((context.accepted V pubs [] adds).take ctr.Parameters.length).map
      Prod.fst).Nodup := by
    rw [List.map_take]
    exact (context_accepted_nodup V pubs adds []).sublist (List.take_sublist _ _)
  obtain ⟨es, hperm, hpw, hpar⟩ := context_sorted_entries V pubs hinj hnd _ hmem hnd1
  refine ⟨_, es, hitem, hperm, hpw, ?_⟩
  unfold context.itemOf context.paramsOf
  simp only []
  rw [if_neg (by omega)]
  exact hpar

theorem context_unaryString_head (n m : Nat) (x y : List Char) :
    List.replicate n 'a' ++ 'b' :: x = List.replicate m 'a' ++ 'b' :: y → n = m ∧ x = y := by
  induction n generalizing m with
  | zero =>
    cases m with
    | zero => intro h; simpa using h
    | succ k => intro h; simp [List.replicate_succ] at h
  | succ n ih =>
    cases m with
    | zero => intro h; simp [List.replicate_succ] at h
    | succ k =>
      intro h
      simp only [List.replicate_succ, List.cons_append, List.cons.injEq, true_and] at h
      obtain ⟨h1, h2⟩ := ih k h
      exact ⟨by rw [h1], h2⟩

theorem context_unaryString_injective : Function.Injective context.unaryString := by
  intro b1
  induction b1 with
  | nil =>
    intro b2 h
    cases b2 with
    | nil => rfl
    | cons m ms =>
      have := congrArg List.length h
      simp [context.unaryString] at this
      omega
  | cons n ns ih =>
    intro b2 h
    cases b2 with
    | nil =>
      have := congrArg List.length h
      simp [context.unaryString] at this
    | cons m ms =>
      unfold context.unaryString at h
      obtain ⟨h1, h2⟩ := context_unaryString_head n m _ _ h
      rw [h1, ih h2]

theorem context_exampleSigOps_injective :
    Function.Injective context.exampleSigOps.EncodeToString := by
  intro x y h
  have : context.unaryString x = context.unaryString y := congrArg String.data h
  exact context_unaryString_injective this

/-- C35: for a multisig contract whose script lists the different public keys
`pubs` and which has `m` parameters, in a fresh context, and for calls of
`AddSignature` that all give a signature (not the nil slice): no call panics;
a call is rejected when its key is not listed and when its key is listed and was
given in an earlier call, and returns nil otherwise (`rejections`); and once
`m` calls have been accepted, `Parameters` holds the signatures of the first `m`
accepted calls, each with the type `SignatureType`, in the order of the
positions of their keys in the script.  Any other sequence of calls whose first
`m` accepted calls are the same up to their order leaves the same
`Parameters`. -/
theorem ParameterContext_AddSignature_multisig (V : context.SigOps κ) (ctr : context.Contract)
    (pubs : List (List Nat)) (typ : String) (adds : List (κ × Option (List Nat)))
    (hP : V.ParseMultiSigContract ctr.Script = some pubs)
    (hinj : Function.Injective V.EncodeToString) (hnd : pubs.Nodup)
    (hsig : ∀ a ∈ adds, a.2 ≠ none) :
    ∃ c, context.AddSignatures V ctr (context.NewParameterContext typ) adds =
        some (c, context.rejections V pubs [] adds) ∧
      (0 < ctr.Parameters.length →
        ctr.Parameters.length ≤ (context.accepted V pubs [] adds).length →
        ∃ (item : context.Item) (es : List (List Nat × Option (List Nat))),
          c.Items (V.ScriptHash ctr) = some item ∧
          es.Perm ((context.accepted V pubs [] adds).take ctr.Parameters.length) ∧
          es.Pairwise (fun a b => context.position pubs a.1 < context.position pubs b.1) ∧
          item.Parameters = (es.map fun e => { Typ := V.SignatureType, Value := some e.2 }) ∧
          ∀ (typ2 : String) (adds2 : List (κ × Option (List Nat))),
            (∀ a ∈ adds2, a.2 ≠ none) →
            ((context.accepted V pubs [] adds2).take ctr.Parameters.length).Perm
              ((context.accepted V pubs [] adds).take ctr.Parameters.length) →
            ∃ c2 item2, context.AddSignatures V ctr (context.NewParameterContext typ2) adds2 =
                some (c2, context.rejections V pubs [] adds2) ∧
              c2.Items (V.ScriptHash ctr) = some item2 ∧
              item2.Parameters = item.Parameters) := by
  obtain ⟨c, hrun, hfin⟩ := context_AddSignatures_final V ctr pubs typ adds hP hinj hnd hsig
  refine ⟨c, hrun, ?_⟩
  intro hm hlen
  obtain ⟨item, es, hitem, hperm, hpw, hpar⟩ := hfin hm hlen
  refine ⟨item, es, hitem, hperm, hpw, hpar, ?_⟩
  intro typ2 adds2 hsig2 hp2
  obtain ⟨c2, hrun2, hfin2⟩ := context_AddSignatures_final V ctr pubs typ2 adds2 hP hinj hnd hsig2
  have hlen2 : ctr.Parameters.length ≤ (context.accepted V pubs [] adds2).length := by
    have := hp2.length_eq
    simp only [List.length_take] at this
    omega
  obtain ⟨item2, es2, hitem2, hperm2, hpw2, hpar2⟩ := hfin2 hm hlen2
  refine ⟨c2, item2, hrun2, hitem2, ?_⟩
  have hes : es2 = es := by
    apply List.Perm.eq_of_sorted _ hpw2 hpw ((hperm2.trans hp2).trans hperm.symm)
    intro a b _ _ h1 h2
    omega
  rw [hpar2, hpar, hes]

/-- Witness for C35: two signature parameters and the keys 1, 2, 3, 4; the
calls give the key 3, a key that is not listed, the key 3 again, and the
key 1. -/
theorem ParameterContext_AddSignature_multisig_witness :
    context.exampleSigOps.ParseMultiSigContract context.exampleMultisig.Script =
      some [[1], [2], [3], [4]] ∧
    Function.Injective context.exampleSigOps.EncodeToString ∧
    [[1], [2], [3], [4]].Nodup ∧
    (∀ a ∈ [([3], some [33]), ([9], some [99]), ([3], some [34]), ([1], some [11])],
      a.2 ≠ (none : Option (List Nat))) ∧
    ∃ c, context.AddSignatures context.exampleSigOps context.exampleMultisig
        (context.NewParameterContext "tx")
        [([3], some [33]), ([9], some [99]), ([3], some [34]), ([1], some [11])] =
      some (c, context.rejections context.exampleSigOps [[1], [2], [3], [4]] []
        [([3], some [33]), ([9], some [99]), ([3], some [34]), ([1], some [11])]) :=
  ⟨rfl, context_exampleSigOps_injective, by decide, by decide,
    (ParameterContext_AddSignature_multisig context.exampleSigOps context.exampleMultisig
      [[1], [2], [3], [4]] "tx"
      [([3], some [33]), ([9], some [99]), ([3], some [34]), ([1], some [11])]
      rfl context_exampleSigOps_injective (by decide) (by decide)).imp fun _ h => h.1⟩

/-- The example of C35 evaluated: the errors returned and the item after the
calls.  The key 9 is not listed and the second call with the key 3 is
rejected; the signatures of the keys 1 and 3 stand in the order of the script,
whichever was given first. -/
theorem ParameterContext_AddSignature_example :
    (context.AddSignatures context.exampleSigOps context.exampleMultisig
        (context.NewParameterContext "tx")
        [([3], some [33]), ([9], some [99]), ([3], some [34]), ([1], some [11])]).map
      (fun r => (r.2, (r.1.Items (context.exampleSigOps.ScriptHash context.exampleMultisig)).map
        fun it => it.Parameters)) =
      some ([none, some .keyNotInScript, some .signatureAlreadyAdded, none],
        some [⟨0, some (some [11])⟩, ⟨0, some (some [33])⟩]) ∧
    (context.AddSignatures context.exampleSigOps context.exampleMultisig
        (context.NewParameterContext "tx") [([1], some [11]), ([3], some [33])]).map
      (fun r => (r.2, (r.1.Items (context.exampleSigOps.ScriptHash context.exampleMultisig)).map
        fun it => it.Parameters)) =
      some ([none, none], some [⟨0, some (some [11])⟩, ⟨0, some (some [33])⟩]) := by
  decide

/-- The nil slice is no signature for `GetSignature`: after a call with the nil
slice, which returns nil, a second call for the same key is accepted. -/
theorem ParameterContext_AddSignature_nil :
    (context.AddSignatures context.exampleSigOps context.exampleMultisig
        (context.NewParameterContext "tx") [([3], none), ([3], some [34])]).map
      (fun r => r.2) = some [none, none] := by
  decide

end Neo
